import Mathlib

/-!
# HTTP response parser (status line and headers)

A shallow embedding of `HttpResponseParser.hpp` / `HttpResponseParser.cpp`:
the compile-time builder of the transition table (`buildStateMachine`) and the
streaming engine (`feed`, `count`, `reset`, `isFragmentFound`, `getFragment`,
`getFragmentStr`), followed by theorems about them.

Conventions of the embedding:
* an input byte (`char`, used as `unsigned char` index) is a `Fin 256`;
* `state_t` (`uint32_t`) values are `Nat`; the position counter `m_CurrentPos`
  is a `state_t`, so its increment is taken modulo `2 ^ 32`;
* `std::array` is a `List` of the same length, read with `List.getD` and
  written with `List.set`;
* `size_t` is 64 bits wide (`e - b` in `getFragmentStr` is taken modulo `2 ^ 64`).
-/

namespace HttpResponseParser

/-! ## Types and constants of the header file -/

/-- An input byte. -/
abbrev Byte := Fin 256

-- enum special_t
def MAJOR_VERSION : Nat := 0
def MINOR_VERSION : Nat := 1
def STATUS_CODE : Nat := 2
def REASON_PHRASE : Nat := 3
def SPECIAL_MAX : Nat := 4

-- enum header_t
def CONTENT_TYPE : Nat := 4
def CONTENT_LENGTH : Nat := 5
def TRANSFER_ENCODING : Nat := 6
def LOCATION : Nat := 7
def HEADER_MAX : Nat := 8

-- enum status_value_t
def IN_PROGRESS : Nat := 0
def SUCCESS : Nat := 1
def ERROR_NOT_HTTP : Nat := 2
def ERROR_NOT_A_DIGIT_MAJOR_VERSION : Nat := 3
def ERROR_NOT_A_DIGIT_MINOR_VERSION : Nat := 4
def ERROR_NOT_A_DIGIT_STATUS_CODE : Nat := 5
def ERROR_WRONG_LENGTH_OF_STATUS_CODE : Nat := 6
def STATUS_END : Nat := 7

/-- Total number of tags. -/
def NUM_TAGS : Nat := HEADER_MAX * 2 + 1

/-- Storage offset for the beginning of the fragment. -/
def tagBegin (frag : Nat) : Nat := (frag * 2) + 1

/-- Storage offset for the end of the fragment. -/
def tagEnd (frag : Nat) : Nat := (frag + 1) * 2

/-- Slot that absorbs the writes of transitions that mark no fragment boundary. -/
def DUMMY_TAG : Nat := 0

/-- Transition from one state to another: next state, tag that receives the
current position, status (zero if more bytes are needed). -/
structure Transition where
  m_State : Nat := 0
  m_Tag : Nat := DUMMY_TAG
  m_Status : Nat := 0
deriving DecidableEq, Repr

/-- Number of transitions of one state: `1 << CHAR_BIT`. -/
def NUM_TRANSITIONS : Nat := 256

/-- A set of transitions by each input byte. -/
structure Conditions where
  m_Transitions : List Transition := List.replicate NUM_TRANSITIONS {}
deriving DecidableEq, Repr

/-- Capacity of the state machine. -/
def MAX_NUM_CONDITIONS : Nat := 128

/-- Conditions of each state. The start is in state 0. -/
structure StateMachine where
  m_NumConditions : Nat := 0
  m_Conditions : List Conditions := List.replicate MAX_NUM_CONDITIONS {}
deriving DecidableEq, Repr

/-- The source's `Conditions::operator[]`. -/
def Conditions.at (cs : Conditions) (c : Nat) : Transition :=
  cs.m_Transitions.getD c {}

/-- The source's `StateMachine::operator[]`. -/
def StateMachine.at (sm : StateMachine) (s : Nat) : Conditions :=
  sm.m_Conditions.getD s {}

/-! ## The table builder of the implementation file -/

/-- Header names. Case insensitive, visible characters only. -/
def m_HeaderNames : List String :=
  ["Content-Type", "Content-Length", "Transfer-Encoding", "Location"]

/-- Descriptions of the statuses. -/
def m_StatusErrors : List String :=
  ["", "Success", "Wrong character, not an HTTP", "Not a digit in major version",
   "Not a digit in minor version", "Not a digit in status code",
   "Wrong length of status code"]

/-- Byte values of the characters of an ASCII string. -/
def codes (s : String) : List Nat := s.toList.map Char.toNat

/-- A final transition: back to state 0, dummy tag, the given status. -/
def final (aStatus : Nat) : Transition :=
  { m_State := 0, m_Tag := DUMMY_TAG, m_Status := aStatus }

/-- A non-final transition to `aNextState` that saves the position in `aTag`. -/
def normal (aNextState : Nat) (aTag : Nat := DUMMY_TAG) : Transition :=
  { m_State := aNextState, m_Tag := aTag }

/-- All 256 transitions set to `aDefault`. -/
def buildConditions (aDefault : Transition) : Conditions :=
  { m_Transitions := List.replicate NUM_TRANSITIONS aDefault }

/-- All transitions `aDefault` except the one by `c`. -/
def buildConditions1 (aDefault : Transition) (c : Nat) (t : Transition) : Conditions :=
  { m_Transitions := (List.replicate NUM_TRANSITIONS aDefault).set c t }

/-- All transitions `aDefault` except the ones by `c1` and `c2`. -/
def buildConditions2 (aDefault : Transition) (c1 : Nat) (t1 : Transition)
    (c2 : Nat) (t2 : Transition) : Conditions :=
  { m_Transitions := ((List.replicate NUM_TRANSITIONS aDefault).set c1 t1).set c2 t2 }

/-- Primitive tolower: works only for 26 english letters. -/
def simple_tolower (c : Nat) : Nat := if c < 65 ∨ c > 90 then c else c + 97 - 65

/-- Primitive toupper: works only for 26 english letters. -/
def simple_toupper (c : Nat) : Nat := if c < 97 ∨ c > 122 then c else c + 65 - 97

/-- Assignment `sRes.m_Conditions[s] = cs`. -/
def setConditions (sRes : StateMachine) (s : Nat) (cs : Conditions) : StateMachine :=
  { sRes with m_Conditions := sRes.m_Conditions.set s cs }

/-- Assignment `sRes.m_Conditions[s].m_Transitions[c] = t`. -/
def setTransition (sRes : StateMachine) (s c : Nat) (t : Transition) : StateMachine :=
  setConditions sRes s { m_Transitions := (sRes.at s).m_Transitions.set c t }

/-- Assignment `sRes.m_Conditions[s].m_Transitions[c].m_State = n`. -/
def setNextState (sRes : StateMachine) (s c : Nat) (n : Nat) : StateMachine :=
  setTransition sRes s c { (sRes.at s).at c with m_State := n }

/-- The loop `for (unsigned char c = '0'; c <= '9'; c++) ... m_Transitions[c] = t`. -/
def setDigits (sRes : StateMachine) (s : Nat) (t : Transition) : StateMachine :=
  (List.range' 48 10).foldl (fun sm c => setTransition sm s c t) sRes

/-- Read prefix: one state per byte of `HTTP/`. -/
def buildPrefix (st : StateMachine × Nat) : StateMachine × Nat :=
  (codes "HTTP/").foldl
    (fun (acc : StateMachine × Nat) c =>
      let sRes := acc.1
      let sState := acc.2
      let sFin := final ERROR_NOT_HTTP
      (setConditions sRes sState (buildConditions1 sFin c (normal (sState + 1))), sState + 1))
    st

/-- Read major (`i = 0`) or minor (`i = 1`) version. -/
def buildVersion (st : StateMachine × Nat) (i : Nat) : StateMachine × Nat :=
  let sRes := st.1
  let sState := st.2
  let sSaveFragment := if i = 0 then MAJOR_VERSION else MINOR_VERSION
  let sError :=
    if i = 0 then ERROR_NOT_A_DIGIT_MAJOR_VERSION else ERROR_NOT_A_DIGIT_MINOR_VERSION
  let sExitChar := if i = 0 then 46 else 32
  let sTagBegin := tagBegin sSaveFragment
  let sTagEnd := tagEnd sSaveFragment
  -- First, required digit.
  let sRes := setConditions sRes sState (buildConditions (final sError))
  let sRes := setDigits sRes sState (normal (sState + 1) sTagBegin)
  let sState := sState + 1
  -- More digits.
  let sRes := setConditions sRes sState (buildConditions (final sError))
  let sRes := setDigits sRes sState (normal sState)
  let sRes := setTransition sRes sState sExitChar (normal (sState + 1) sTagEnd)
  (sRes, sState + 1)

/-- One of the three digit states of the status code (`i = 0, 1, 2`). -/
def buildStatusDigit (st : StateMachine × Nat) (i : Nat) : StateMachine × Nat :=
  let sRes := st.1
  let sState := st.2
  let sTagBegin := tagBegin STATUS_CODE
  let sTag := if 0 = i then sTagBegin else DUMMY_TAG
  let sFin := final ERROR_NOT_A_DIGIT_STATUS_CODE
  let sFin2 := final ERROR_WRONG_LENGTH_OF_STATUS_CODE
  let sRes := setConditions sRes sState (buildConditions sFin)
  let sRes := setDigits sRes sState (normal (sState + 1) sTag)
  let sRes := setTransition sRes sState 32 sFin2
  (sRes, sState + 1)

/-- Read status code: exactly 3 digits, then a space. -/
def buildStatusCode (st : StateMachine × Nat) : StateMachine × Nat :=
  let sTagEnd := tagEnd STATUS_CODE
  let st := (List.range 3).foldl buildStatusDigit st
  let sRes := st.1
  let sState := st.2
  -- Must be a space.
  let sFin := final ERROR_WRONG_LENGTH_OF_STATUS_CODE
  let sRes := setConditions sRes sState
    (buildConditions1 sFin 32 (normal (sState + 1) sTagEnd))
  (sRes, sState + 1)

/-- Read reason phrase, ignoring leading and trailing whitespaces. -/
def buildReasonPhrase (st : StateMachine × Nat) : StateMachine × Nat :=
  let sRes := st.1
  let sState := st.2
  let sTagBegin := tagBegin REASON_PHRASE
  let sTagEnd := tagEnd REASON_PHRASE
  let sWaitNS := sState
  let sWaitNSLF := sState + 1
  let sFoundNS := sState + 2
  let sTralingWS := sState + 3
  let sTralingCR := sState + 4
  let sState := sState + 5
  let sNextLine := sState
  -- Skip all whitespaces, wait for first non-space char.
  let sRes := setConditions sRes sWaitNS (buildConditions (normal sFoundNS sTagBegin))
  let sRes := setTransition sRes sWaitNS 32 (normal sWaitNS)
  let sRes := setTransition sRes sWaitNS 9 (normal sWaitNS)
  let sRes := setTransition sRes sWaitNS 13 (normal sWaitNSLF)
  let sRes := setTransition sRes sWaitNS 10 (normal sWaitNS)
  -- Same as above, but previous char is CR, so LF means empty string.
  let sRes := setConditions sRes sWaitNSLF (buildConditions (normal sFoundNS sTagBegin))
  let sRes := setTransition sRes sWaitNSLF 32 (normal sWaitNS)
  let sRes := setTransition sRes sWaitNSLF 9 (normal sWaitNS)
  let sRes := setTransition sRes sWaitNSLF 13 (normal sWaitNSLF)
  let sRes := setTransition sRes sWaitNSLF 10 (normal sNextLine)
  -- Non-whitespace have been found, now looking for whitespace.
  let sRes := setConditions sRes sFoundNS (buildConditions (normal sFoundNS))
  let sRes := setTransition sRes sFoundNS 32 (normal sTralingWS sTagEnd)
  let sRes := setTransition sRes sFoundNS 9 (normal sTralingWS sTagEnd)
  let sRes := setTransition sRes sFoundNS 13 (normal sTralingCR sTagEnd)
  let sRes := setTransition sRes sFoundNS 10 (normal sTralingWS sTagEnd)
  -- Previous char is whitespace, look for non-space again or CR.
  let sRes := setConditions sRes sTralingWS (buildConditions (normal sFoundNS))
  let sRes := setTransition sRes sTralingWS 32 (normal sTralingWS)
  let sRes := setTransition sRes sTralingWS 9 (normal sTralingWS)
  let sRes := setTransition sRes sTralingWS 13 (normal sTralingCR)
  let sRes := setTransition sRes sTralingWS 10 (normal sTralingWS)
  -- Previous char is CR, same as above except exit on LF.
  let sRes := setConditions sRes sTralingCR (buildConditions (normal sFoundNS))
  let sRes := setTransition sRes sTralingCR 32 (normal sTralingWS)
  let sRes := setTransition sRes sTralingCR 9 (normal sTralingWS)
  let sRes := setTransition sRes sTralingCR 13 (normal sTralingCR)
  let sRes := setTransition sRes sTralingCR 10 (normal sNextLine)
  (sRes, sState)

/-- State of the header-name loop: the machine, the next free state and the
state `s` reached by the characters of the name read so far. -/
structure NameLoop where
  sRes : StateMachine
  sState : Nat
  s : Nat

/-- One iteration of `for (unsigned char c : sName)`: create a new path when the
transition by `c` still leads to `sSkipLine`, then follow the transition. -/
def buildNameChar (sSkipLine sSearchLF : Nat) (l : NameLoop) (c : Nat) : NameLoop :=
  let l :=
    if ((l.sRes.at l.s).at c).m_State = sSkipLine then
      -- Create new path.
      let sNext := l.sState
      let sRes := setNextState l.sRes l.s (simple_tolower c) sNext
      let sRes := setNextState sRes l.s (simple_toupper c) sNext
      let sRes := setConditions sRes sNext
        (buildConditions1 (normal sSkipLine) 13 (normal sSearchLF))
      { sRes := sRes, sState := l.sState + 1, s := l.s }
    else l
  { l with s := ((l.sRes.at l.s).at c).m_State }

/-- One iteration of the loop over the header fragments: the path of the name,
then the states that read and store the value until the end of line. -/
def buildHeader (sNewLine sSkipLine sSearchLF : Nat) (st : StateMachine × Nat)
    (sFrag : Nat) : StateMachine × Nat :=
  let sName := codes (m_HeaderNames.getD (sFrag - SPECIAL_MAX) "")
  let l := sName.foldl (buildNameChar sSkipLine sSearchLF)
    { sRes := st.1, sState := st.2, s := sNewLine }
  let sState := l.sState
  let sRes := setNextState l.sRes l.s 58 sState
  let sTagBegin := tagBegin sFrag
  let sTagEnd := tagEnd sFrag
  let sWaitNS := sState
  let sWaitNSLF := sState + 1
  let sFoundNS := sState + 2
  let sTralingWS := sState + 3
  let sTralingCR := sState + 4
  let sState := sState + 5
  -- Skip all whitespaces, wait for first non-space char.
  let sRes := setConditions sRes sWaitNS (buildConditions (normal sFoundNS sTagBegin))
  let sRes := setTransition sRes sWaitNS 32 (normal sWaitNS)
  let sRes := setTransition sRes sWaitNS 9 (normal sWaitNS)
  let sRes := setTransition sRes sWaitNS 13 (normal sWaitNSLF)
  let sRes := setTransition sRes sWaitNS 10 (normal sWaitNS)
  -- Same as above, but previous char is CR, so LF means empty string.
  let sRes := setConditions sRes sWaitNSLF (buildConditions (normal sFoundNS sTagBegin))
  let sRes := setTransition sRes sWaitNSLF 32 (normal sWaitNS)
  let sRes := setTransition sRes sWaitNSLF 9 (normal sWaitNS)
  let sRes := setTransition sRes sWaitNSLF 13 (normal sWaitNSLF)
  let sRes := setTransition sRes sWaitNSLF 10 (normal sNewLine)
  -- Non-whitespace have been found, now looking for whitespace.
  let sRes := setConditions sRes sFoundNS (buildConditions (normal sFoundNS))
  let sRes := setTransition sRes sFoundNS 32 (normal sTralingWS sTagEnd)
  let sRes := setTransition sRes sFoundNS 9 (normal sTralingWS sTagEnd)
  let sRes := setTransition sRes sFoundNS 13 (normal sTralingCR sTagEnd)
  let sRes := setTransition sRes sFoundNS 10 (normal sTralingWS sTagEnd)
  -- Previous char is whitespace, look for non-space again or CR.
  let sRes := setConditions sRes sTralingWS (buildConditions (normal sFoundNS))
  let sRes := setTransition sRes sTralingWS 32 (normal sTralingWS)
  let sRes := setTransition sRes sTralingWS 9 (normal sTralingWS)
  let sRes := setTransition sRes sTralingWS 13 (normal sTralingCR)
  let sRes := setTransition sRes sTralingWS 10 (normal sTralingWS)
  -- Previous char is CR, same as above except exit on LF.
  let sRes := setConditions sRes sTralingCR (buildConditions (normal sFoundNS))
  let sRes := setTransition sRes sTralingCR 32 (normal sTralingWS)
  let sRes := setTransition sRes sTralingCR 9 (normal sTralingWS)
  let sRes := setTransition sRes sTralingCR 13 (normal sTralingCR)
  let sRes := setTransition sRes sTralingCR 10 (normal sNewLine)
  (sRes, sState)

/-- Read header values: the four line states, then one path per header name. -/
def buildHeaders (st : StateMachine × Nat) : StateMachine × Nat :=
  let sRes := st.1
  let sState := st.2
  let sNewLine := sState
  let sSkipLine := sState + 1
  let sSearchLF := sState + 2
  let sSearchFinalLF := sState + 3
  let sState := sState + 4
  let sRes := setConditions sRes sNewLine
    (buildConditions1 (normal sSkipLine) 13 (normal sSearchFinalLF))
  let sRes := setConditions sRes sSkipLine
    (buildConditions1 (normal sSkipLine) 13 (normal sSearchLF))
  let sRes := setConditions sRes sSearchLF
    (buildConditions2 (normal sSkipLine) 13 (normal sSearchLF) 10 (normal sNewLine))
  let sRes := setConditions sRes sSearchFinalLF
    (buildConditions2 (normal sSkipLine) 13 (normal sSearchLF) 10 (final SUCCESS))
  (List.range' SPECIAL_MAX (HEADER_MAX - SPECIAL_MAX)).foldl
    (buildHeader sNewLine sSkipLine sSearchLF) (sRes, sState)

/-- The whole table: prefix, versions, status code, reason phrase, headers. -/
def buildStateMachine : StateMachine :=
  let st : StateMachine × Nat := ({}, 0)
  let st := buildPrefix st
  let st := (List.range 2).foldl buildVersion st
  let st := buildStatusCode st
  let st := buildReasonPhrase st
  let st := buildHeaders st
  { st.1 with m_NumConditions := st.2 }

/-- The instance of the state machine. -/
@[irreducible] def theStateMachine : StateMachine := buildStateMachine

/-- Description of a status. -/
def getErrorStr (s : Nat) : String := m_StatusErrors.getD s ""

/-! ## The streaming engine -/

/-- Variables of the parsing state. -/
structure Parser where
  m_CurrentState : Nat := 0
  m_CurrentPos : Nat := 0
  m_SavedTagOffsets : List Nat := List.replicate NUM_TAGS 0
deriving DecidableEq, Repr

/-- Feed the parser another character: one table lookup, the position is saved
in the tag of the transition and then incremented (a `uint32_t`). -/
def feed (p : Parser) (c : Byte) : Parser × Nat :=
  let t := (theStateMachine.at p.m_CurrentState).at c.val
  ({ m_CurrentState := t.m_State
     m_CurrentPos := (p.m_CurrentPos + 1) % 2 ^ 32
     m_SavedTagOffsets := p.m_SavedTagOffsets.set t.m_Tag p.m_CurrentPos },
   t.m_Status)

/-- Number of eaten characters. -/
def count (p : Parser) : Nat := p.m_CurrentPos

/-- Reset parsing state to the initial. -/
def reset (_p : Parser) : Parser :=
  { m_CurrentState := 0, m_CurrentPos := 0, m_SavedTagOffsets := List.replicate NUM_TAGS 0 }

/-- A fragment was found: its end tag is nonzero. -/
def isFragmentFound (p : Parser) (aFragment : Nat) : Bool :=
  p.m_SavedTagOffsets.getD (tagEnd aFragment) 0 != 0

/-- Begin and end offsets of a fragment. -/
def getFragment (p : Parser) (aFragment : Nat) : Nat × Nat :=
  (p.m_SavedTagOffsets.getD (tagBegin aFragment) 0,
   p.m_SavedTagOffsets.getD (tagEnd aFragment) 0)

/-- The fragment as a slice of the whole stream, `sInput.substr(b, e - b)`:
`none` when `substr` throws (`b` beyond the size of the input); the length
`e - b` is a `size_t` and is clipped by `substr` to what is left of the input. -/
def getFragmentStr (p : Parser) (sInput : List Byte) (aFragment : Nat) : Option (List Byte) :=
  let b := p.m_SavedTagOffsets.getD (tagBegin aFragment) 0
  let e := p.m_SavedTagOffsets.getD (tagEnd aFragment) 0
  if b > sInput.length then none
  else some ((sInput.drop b).take ((e + 2 ^ 64 - b) % 2 ^ 64))

/-! ## Feeding a sequence of bytes -/

/-- The transition taken from state `s` by byte `c`: `TheStateMachine[s][c]`. -/
def tbl (s c : Nat) : Transition := (theStateMachine.at s).at c

/-- Feed every byte of `input` in order (whatever the statuses returned). -/
def run (p : Parser) (input : List Byte) : Parser :=
  input.foldl (fun q c => (feed q c).1) p

/-- The statuses returned by `feed` for the bytes of `input`, fed in order. -/
def statuses (p : Parser) : List Byte → List Nat
  | [] => []
  | c :: cs => (feed p c).2 :: statuses (feed p c).1 cs

/-- The loop of the tests, `for (; itr != end && res == 0; ++itr) res = p.feed(*itr)`:
feeds until the input is exhausted or a status is nonzero; gives the parser and
the last status (zero for an empty input). -/
def feedLoop (p : Parser) : List Byte → Parser × Nat
  | [] => (p, 0)
  | c :: cs => if (feed p c).2 = 0 then feedLoop (feed p c).1 cs else feed p c

/-- The value stored in tag slot `i`. -/
def tagAt (p : Parser) (i : Nat) : Nat := p.m_SavedTagOffsets.getD i 0

/-- The bytes of an ASCII string. -/
def bytes (s : String) : List Byte := (codes s).map (fun n => (Fin.ofNat n : Byte))

/-- The two bytes CR LF. -/
def CRLF : List Byte := [13, 10]

/-! ## Vocabulary of the statements -/

/-- A decimal digit. -/
def isDigit (c : Nat) : Bool := decide (48 ≤ c) && decide (c ≤ 57)

/-- A byte that the trimmers skip: SP, HTAB, CR or LF. -/
def isWS (c : Nat) : Bool := c == 32 || c == 9 || c == 13 || c == 10

/-- Equality of bytes up to the case of the 26 english letters. -/
def sameLetter (a b : Byte) : Bool := simple_tolower a.val == simple_tolower b.val

/-- No CR LF pair in the bytes, `prev` telling whether the byte before them is a CR. -/
def noCRLFfrom : Bool → List Byte → Bool
  | _, [] => true
  | prev, c :: cs => !(prev && c.val == 10) && noCRLFfrom (c.val == 13) cs

/-- The last byte is a CR (`prev` for no byte at all). -/
def endsCR : Bool → List Byte → Bool
  | prev, [] => prev
  | _, c :: cs => endsCR (c.val == 13) cs

/-- The bytes contain no CR LF pair. -/
def NoCRLF (l : List Byte) : Prop := noCRLFfrom false l = true

instance (l : List Byte) : Decidable (NoCRLF l) := by
  unfold NoCRLF
  infer_instance

/-- Leading and trailing SP, HTAB, CR and LF removed. -/
def trim (v : List Byte) : List Byte :=
  (v.dropWhile (fun c => isWS c.val)).rdropWhile (fun c => isWS c.val)

/-- The accepted start of a status line: `HTTP/` D1 `.` D2 SP C SP. -/
def statusPrefix (d1 d2 code : List Byte) : List Byte :=
  bytes "HTTP/" ++ d1 ++ [46] ++ d2 ++ [32] ++ code ++ [32]

/-- The lines of a header block, each followed by CR LF. -/
def joinLines (ls : List (List Byte)) : List Byte := (ls.map (· ++ CRLF)).flatten

/-- A whole message: status line with reason `r`, the header lines, the empty line. -/
def message (d1 d2 code r : List Byte) (ls : List (List Byte)) : List Byte :=
  statusPrefix d1 d2 code ++ r ++ CRLF ++ joinLines ls ++ CRLF

/-! ## A closed form of the built table -/

/-- The transition `(state, tag, status)`. -/
def T (state tag status : Nat) : Transition :=
  { m_State := state, m_Tag := tag, m_Status := status }

/-- Every state of the built table as a function of the byte value. It is proved
equal to the table built by `buildStateMachine` in `tbl_eq_lit`. -/
def litRows : List (Nat → Transition) := [
  fun c => if c = 72 then T 1 0 0 else T 0 0 2,
  fun c => if c = 84 then T 2 0 0 else T 0 0 2,
  fun c => if c = 84 then T 3 0 0 else T 0 0 2,
  fun c => if c = 80 then T 4 0 0 else T 0 0 2,
  fun c => if c = 47 then T 5 0 0 else T 0 0 2,
  fun c => if 48 ≤ c ∧ c ≤ 57 then T 6 1 0 else T 0 0 3,
  fun c => if c = 46 then T 7 2 0 else if 48 ≤ c ∧ c ≤ 57 then T 6 0 0 else T 0 0 3,
  fun c => if 48 ≤ c ∧ c ≤ 57 then T 8 3 0 else T 0 0 4,
  fun c => if c = 32 then T 9 4 0 else if 48 ≤ c ∧ c ≤ 57 then T 8 0 0 else T 0 0 4,
  fun c => if c = 32 then T 0 0 6 else if 48 ≤ c ∧ c ≤ 57 then T 10 5 0 else T 0 0 5,
  fun c => if c = 32 then T 0 0 6 else if 48 ≤ c ∧ c ≤ 57 then T 11 0 0 else T 0 0 5,
  fun c => if c = 32 then T 0 0 6 else if 48 ≤ c ∧ c ≤ 57 then T 12 0 0 else T 0 0 5,
  fun c => if c = 32 then T 13 6 0 else T 0 0 6,
  fun c => if 9 ≤ c ∧ c ≤ 10 then T 13 0 0 else if c = 13 then T 14 0 0 else
    if c = 32 then T 13 0 0 else T 15 7 0,
  fun c => if c = 9 then T 13 0 0 else if c = 10 then T 18 0 0 else if c = 13 then T 14 0 0 else
    if c = 32 then T 13 0 0 else T 15 7 0,
  fun c => if 9 ≤ c ∧ c ≤ 10 then T 16 8 0 else if c = 13 then T 17 8 0 else
    if c = 32 then T 16 8 0 else T 15 0 0,
  fun c => if 9 ≤ c ∧ c ≤ 10 then T 16 0 0 else if c = 13 then T 17 0 0 else
    if c = 32 then T 16 0 0 else T 15 0 0,
  fun c => if c = 9 then T 16 0 0 else if c = 10 then T 18 0 0 else if c = 13 then T 17 0 0 else
    if c = 32 then T 16 0 0 else T 15 0 0,
  fun c => if c = 13 then T 21 0 0 else if c = 67 then T 22 0 0 else if c = 76 then T 72 0 0 else
    if c = 84 then T 50 0 0 else if c = 99 then T 22 0 0 else if c = 108 then T 72 0 0 else
    if c = 116 then T 50 0 0 else T 19 0 0,
  fun c => if c = 13 then T 20 0 0 else T 19 0 0,
  fun c => if c = 10 then T 18 0 0 else if c = 13 then T 20 0 0 else T 19 0 0,
  fun c => if c = 10 then T 0 0 1 else if c = 13 then T 20 0 0 else T 19 0 0,
  fun c => if c = 13 then T 20 0 0 else if c = 79 then T 23 0 0 else
    if c = 111 then T 23 0 0 else T 19 0 0,
  fun c => if c = 13 then T 20 0 0 else if c = 78 then T 24 0 0 else
    if c = 110 then T 24 0 0 else T 19 0 0,
  fun c => if c = 13 then T 20 0 0 else if c = 84 then T 25 0 0 else
    if c = 116 then T 25 0 0 else T 19 0 0,
  fun c => if c = 13 then T 20 0 0 else if c = 69 then T 26 0 0 else
    if c = 101 then T 26 0 0 else T 19 0 0,
  fun c => if c = 13 then T 20 0 0 else if c = 78 then T 27 0 0 else
    if c = 110 then T 27 0 0 else T 19 0 0,
  fun c => if c = 13 then T 20 0 0 else if c = 84 then T 28 0 0 else
    if c = 116 then T 28 0 0 else T 19 0 0,
  fun c => if c = 13 then T 20 0 0 else if c = 45 then T 29 0 0 else T 19 0 0,
  fun c => if c = 13 then T 20 0 0 else if c = 76 then T 39 0 0 else if c = 84 then T 30 0 0 else
    if c = 108 then T 39 0 0 else if c = 116 then T 30 0 0 else T 19 0 0,
  fun c => if c = 13 then T 20 0 0 else if c = 89 then T 31 0 0 else
    if c = 121 then T 31 0 0 else T 19 0 0,
  fun c => if c = 13 then T 20 0 0 else if c = 80 then T 32 0 0 else
    if c = 112 then T 32 0 0 else T 19 0 0,
  fun c => if c = 13 then T 20 0 0 else if c = 69 then T 33 0 0 else
    if c = 101 then T 33 0 0 else T 19 0 0,
  fun c => if c = 13 then T 20 0 0 else if c = 58 then T 34 0 0 else T 19 0 0,
  fun c => if 9 ≤ c ∧ c ≤ 10 then T 34 0 0 else if c = 13 then T 35 0 0 else
    if c = 32 then T 34 0 0 else T 36 9 0,
  fun c => if c = 9 then T 34 0 0 else if c = 10 then T 18 0 0 else if c = 13 then T 35 0 0 else
    if c = 32 then T 34 0 0 else T 36 9 0,
  fun c => if 9 ≤ c ∧ c ≤ 10 then T 37 10 0 else if c = 13 then T 38 10 0 else
    if c = 32 then T 37 10 0 else T 36 0 0,
  fun c => if 9 ≤ c ∧ c ≤ 10 then T 37 0 0 else if c = 13 then T 38 0 0 else
    if c = 32 then T 37 0 0 else T 36 0 0,
  fun c => if c = 9 then T 37 0 0 else if c = 10 then T 18 0 0 else if c = 13 then T 38 0 0 else
    if c = 32 then T 37 0 0 else T 36 0 0,
  fun c => if c = 13 then T 20 0 0 else if c = 69 then T 40 0 0 else
    if c = 101 then T 40 0 0 else T 19 0 0,
  fun c => if c = 13 then T 20 0 0 else if c = 78 then T 41 0 0 else
    if c = 110 then T 41 0 0 else T 19 0 0,
  fun c => if c = 13 then T 20 0 0 else if c = 71 then T 42 0 0 else
    if c = 103 then T 42 0 0 else T 19 0 0,
  fun c => if c = 13 then T 20 0 0 else if c = 84 then T 43 0 0 else
    if c = 116 then T 43 0 0 else T 19 0 0,
  fun c => if c = 13 then T 20 0 0 else if c = 72 then T 44 0 0 else
    if c = 104 then T 44 0 0 else T 19 0 0,
  fun c => if c = 13 then T 20 0 0 else if c = 58 then T 45 0 0 else T 19 0 0,
  fun c => if 9 ≤ c ∧ c ≤ 10 then T 45 0 0 else if c = 13 then T 46 0 0 else
    if c = 32 then T 45 0 0 else T 47 11 0,
  fun c => if c = 9 then T 45 0 0 else if c = 10 then T 18 0 0 else if c = 13 then T 46 0 0 else
    if c = 32 then T 45 0 0 else T 47 11 0,
  fun c => if 9 ≤ c ∧ c ≤ 10 then T 48 12 0 else if c = 13 then T 49 12 0 else
    if c = 32 then T 48 12 0 else T 47 0 0,
  fun c => if 9 ≤ c ∧ c ≤ 10 then T 48 0 0 else if c = 13 then T 49 0 0 else
    if c = 32 then T 48 0 0 else T 47 0 0,
  fun c => if c = 9 then T 48 0 0 else if c = 10 then T 18 0 0 else if c = 13 then T 49 0 0 else
    if c = 32 then T 48 0 0 else T 47 0 0,
  fun c => if c = 13 then T 20 0 0 else if c = 82 then T 51 0 0 else
    if c = 114 then T 51 0 0 else T 19 0 0,
  fun c => if c = 13 then T 20 0 0 else if c = 65 then T 52 0 0 else if c = 97 then T 52 0 0 else
    T 19 0 0,
  fun c => if c = 13 then T 20 0 0 else if c = 78 then T 53 0 0 else
    if c = 110 then T 53 0 0 else T 19 0 0,
  fun c => if c = 13 then T 20 0 0 else if c = 83 then T 54 0 0 else
    if c = 115 then T 54 0 0 else T 19 0 0,
  fun c => if c = 13 then T 20 0 0 else if c = 70 then T 55 0 0 else
    if c = 102 then T 55 0 0 else T 19 0 0,
  fun c => if c = 13 then T 20 0 0 else if c = 69 then T 56 0 0 else
    if c = 101 then T 56 0 0 else T 19 0 0,
  fun c => if c = 13 then T 20 0 0 else if c = 82 then T 57 0 0 else
    if c = 114 then T 57 0 0 else T 19 0 0,
  fun c => if c = 13 then T 20 0 0 else if c = 45 then T 58 0 0 else T 19 0 0,
  fun c => if c = 13 then T 20 0 0 else if c = 69 then T 59 0 0 else
    if c = 101 then T 59 0 0 else T 19 0 0,
  fun c => if c = 13 then T 20 0 0 else if c = 78 then T 60 0 0 else
    if c = 110 then T 60 0 0 else T 19 0 0,
  fun c => if c = 13 then T 20 0 0 else if c = 67 then T 61 0 0 else if c = 99 then T 61 0 0 else
    T 19 0 0,
  fun c => if c = 13 then T 20 0 0 else if c = 79 then T 62 0 0 else
    if c = 111 then T 62 0 0 else T 19 0 0,
  fun c => if c = 13 then T 20 0 0 else if c = 68 then T 63 0 0 else
    if c = 100 then T 63 0 0 else T 19 0 0,
  fun c => if c = 13 then T 20 0 0 else if c = 73 then T 64 0 0 else
    if c = 105 then T 64 0 0 else T 19 0 0,
  fun c => if c = 13 then T 20 0 0 else if c = 78 then T 65 0 0 else
    if c = 110 then T 65 0 0 else T 19 0 0,
  fun c => if c = 13 then T 20 0 0 else if c = 71 then T 66 0 0 else
    if c = 103 then T 66 0 0 else T 19 0 0,
  fun c => if c = 13 then T 20 0 0 else if c = 58 then T 67 0 0 else T 19 0 0,
  fun c => if 9 ≤ c ∧ c ≤ 10 then T 67 0 0 else if c = 13 then T 68 0 0 else
    if c = 32 then T 67 0 0 else T 69 13 0,
  fun c => if c = 9 then T 67 0 0 else if c = 10 then T 18 0 0 else if c = 13 then T 68 0 0 else
    if c = 32 then T 67 0 0 else T 69 13 0,
  fun c => if 9 ≤ c ∧ c ≤ 10 then T 70 14 0 else if c = 13 then T 71 14 0 else
    if c = 32 then T 70 14 0 else T 69 0 0,
  fun c => if 9 ≤ c ∧ c ≤ 10 then T 70 0 0 else if c = 13 then T 71 0 0 else
    if c = 32 then T 70 0 0 else T 69 0 0,
  fun c => if c = 9 then T 70 0 0 else if c = 10 then T 18 0 0 else if c = 13 then T 71 0 0 else
    if c = 32 then T 70 0 0 else T 69 0 0,
  fun c => if c = 13 then T 20 0 0 else if c = 79 then T 73 0 0 else
    if c = 111 then T 73 0 0 else T 19 0 0,
  fun c => if c = 13 then T 20 0 0 else if c = 67 then T 74 0 0 else if c = 99 then T 74 0 0 else
    T 19 0 0,
  fun c => if c = 13 then T 20 0 0 else if c = 65 then T 75 0 0 else if c = 97 then T 75 0 0 else
    T 19 0 0,
  fun c => if c = 13 then T 20 0 0 else if c = 84 then T 76 0 0 else
    if c = 116 then T 76 0 0 else T 19 0 0,
  fun c => if c = 13 then T 20 0 0 else if c = 73 then T 77 0 0 else
    if c = 105 then T 77 0 0 else T 19 0 0,
  fun c => if c = 13 then T 20 0 0 else if c = 79 then T 78 0 0 else
    if c = 111 then T 78 0 0 else T 19 0 0,
  fun c => if c = 13 then T 20 0 0 else if c = 78 then T 79 0 0 else
    if c = 110 then T 79 0 0 else T 19 0 0,
  fun c => if c = 13 then T 20 0 0 else if c = 58 then T 80 0 0 else T 19 0 0,
  fun c => if 9 ≤ c ∧ c ≤ 10 then T 80 0 0 else if c = 13 then T 81 0 0 else
    if c = 32 then T 80 0 0 else T 82 15 0,
  fun c => if c = 9 then T 80 0 0 else if c = 10 then T 18 0 0 else if c = 13 then T 81 0 0 else
    if c = 32 then T 80 0 0 else T 82 15 0,
  fun c => if 9 ≤ c ∧ c ≤ 10 then T 83 16 0 else if c = 13 then T 84 16 0 else
    if c = 32 then T 83 16 0 else T 82 0 0,
  fun c => if 9 ≤ c ∧ c ≤ 10 then T 83 0 0 else if c = 13 then T 84 0 0 else
    if c = 32 then T 83 0 0 else T 82 0 0,
  fun c => if c = 9 then T 83 0 0 else if c = 10 then T 18 0 0 else if c = 13 then T 84 0 0 else
    if c = 32 then T 83 0 0 else T 82 0 0
]

/-- The transition of `litRows` for state `s` and byte `c`; the default-constructed
transition outside the rows or the 256 byte values. -/
def lit (s c : Nat) : Transition :=
  if c < 256 then litRows.getD s (fun _ => {}) c else {}

/-- A row of the table agrees with `f` from byte `c` on. -/
def rowAgrees (f : Nat → Transition) : Nat → List Transition → Bool
  | _, [] => true
  | c, t :: ts => decide (t = f c) && rowAgrees f (c + 1) ts

/-- The rows of the table have 256 entries and agree with the functions `fs`,
and with the default-constructed transition once `fs` is exhausted. -/
def tableAgrees : List (Nat → Transition) → List Conditions → Bool
  | _, [] => true
  | [], r :: rs =>
    decide (r.m_Transitions.length = 256) && rowAgrees (fun _ => {}) 0 r.m_Transitions
      && tableAgrees [] rs
  | f :: fs, r :: rs =>
    decide (r.m_Transitions.length = 256) && rowAgrees f 0 r.m_Transitions
      && tableAgrees fs rs

/-- The predicate `p` holds for every number below `n`. -/
def allBelow : Nat → (Nat → Bool) → Bool
  | 0, _ => true
  | n + 1, p => p n && allBelow n p

/-- The check `P s c state tag status` holds for every state `s` selected by `G`,
counted from `s`, every byte value `c` and the fields of the transition of the row. -/
def checkRows (G : Nat → Bool) (P : Nat → Nat → Nat → Nat → Nat → Bool) :
    Nat → List (Nat → Transition) → Bool
  | _, [] => true
  | s, r :: rs =>
    (!G s || allBelow 256 (fun c => match r c with | ⟨a, b, st⟩ => P s c a b st))
      && checkRows G P (s + 1) rs

/-- The states entered by a CR (after the status code). -/
def isCR (s : Nat) : Bool :=
  s == 14 || s == 17 || s == 20 || s == 21 || s == 35 || s == 38 || s == 46 || s == 49
    || s == 68 || s == 71 || s == 81 || s == 84

/-- A set of states `S` (below 85) that bytes satisfying `B` do not leave, unless a
LF follows a CR; `A` are the tags written on the way and `T c s` relates a byte to
the states it leads to. -/
structure Region where
  S : Nat → Bool
  B : Nat → Bool
  A : Nat → Bool
  T : Nat → Nat → Bool

/-- The state `s` belongs to the region. -/
def Region.mem (R : Region) (s : Nat) : Bool := R.S s && decide (s < 85)

/-- What the table must do on a transition inside a region: `a`, `b` and `st` are
the next state, the tag and the status. -/
def Region.good (R : Region) (s c a b st : Nat) : Bool :=
  !R.B c || (isCR s && c == 10) ||
    (R.mem a && st == 0 && R.A b && (isCR a == (c == 13)) && R.T c a)

/-- The table facts that make `R` a region, as a check of the closed form. -/
def Region.check (R : Region) : Bool := checkRows R.S R.good 0 litRows

/-- The parser keeps its 17 tag slots and a position below `2 ^ 32`. -/
def WF (p : Parser) : Prop := p.m_SavedTagOffsets.length = NUM_TAGS ∧ p.m_CurrentPos < 2 ^ 32

/-- Every status of the list is IN_PROGRESS. -/
def AllZero (l : List Nat) : Prop := ∀ x ∈ l, x = 0

instance (l : List Nat) : Decidable (AllZero l) := by
  unfold AllZero
  infer_instance

/-! ## Checks used by the proofs -/

/-- From state `s`, every byte value satisfying `B` takes the transition `t`. -/
def stepsTo (s : Nat) (B : Nat → Bool) (t : Transition) : Bool :=
  allBelow 256 (fun c => !B c || decide (lit s c = t))

/-- The bytes `cs` match the expected values `es` one by one, as `M` tells. -/
def matchesBy (M : Nat → Nat → Bool) : List Nat → List Byte → Bool
  | [], [] => true
  | e :: es, c :: cs => M e c.val && matchesBy M es cs
  | _, _ => false

/-- The byte value `c` is exactly `e`. -/
def exactly (e c : Nat) : Bool := c == e

/-- The byte value `c` is `e` up to the case of an english letter. -/
def upToCase (e c : Nat) : Bool := simple_tolower c == simple_tolower e

/-- From state `s`, the bytes matching `es` are read one state after the other,
with no tag and no final status. -/
def pathOK (M : Nat → Nat → Bool) : Nat → List Nat → Bool
  | _, [] => true
  | s, e :: es => stepsTo s (M e) (T (lit s e).m_State 0 0) && pathOK M (lit s e).m_State es

/-- The state reached from `s` by the byte values `es`. -/
def pathEnd (s : Nat) (es : List Nat) : Nat := es.foldl (fun s e => (lit s e).m_State) s

/-- The name of header fragment `h` (4 to 7) as byte values. -/
def nameCodes (h : Nat) : List Nat := codes (m_HeaderNames.getD (h - SPECIAL_MAX) "")

/-- The bytes `n` are the name of header `h` up to letter case. -/
def sameName (h : Nat) (n : List Byte) : Bool := matchesBy upToCase (nameCodes h) n

/-- The state that begins the value of header `h`: the one entered by the colon. -/
def valueState (h : Nat) : Nat := (lit (pathEnd 18 (nameCodes h)) 58).m_State

/-- The states of the digits of a version: the state does not change. -/
def digitsRegion (s : Nat) : Region :=
  { S := fun x => x == s, B := isDigit, A := fun i => i == 0, T := fun _ _ => true }

/-- The value of a line recognised for header `h`: what follows the name (up to
letter case) and the colon; `none` when the line does not start that way. -/
def lineValue (h : Nat) (l : List Byte) : Option (List Byte) :=
  let n := (nameCodes h).length + 1
  if matchesBy upToCase (nameCodes h ++ [58]) (l.take n) then some (l.drop n) else none

/-- One line of the reference computation: a recognised line whose value has a byte
other than SP, HTAB, CR, LF replaces the value by its trimmed value. -/
def refStep (h : Nat) (acc l : List Byte) : List Byte :=
  match lineValue h l with
  | some v => if trim v = [] then acc else trim v
  | none => acc

/-- Reference value of header `h` after the given lines, as the randomised test
computes it: the trimmed value of the last recognised line whose value has a byte
other than SP, HTAB, CR, LF; empty when there is none. -/
def refValue (h : Nat) (ls : List (List Byte)) : List Byte :=
  ls.foldl (refStep h) []

/-- The offset recorded for tag `i` in a list of `(tag, offset)` writes, latest first. -/
def wlook : List (Nat × Nat) → Nat → Option Nat
  | [], _ => none
  | e :: w, i => if e.1 = i then some e.2 else wlook w i

/-- The writes `w`, `n` bytes later. -/
def shift (n : Nat) (w : List (Nat × Nat)) : List (Nat × Nat) :=
  w.map (fun e => (e.1, n + e.2))

/-- Feeding `X` to `p` returns IN_PROGRESS throughout, ends in state `s`, and leaves
in every tag other than the dummy the offset that `w` gives, counted from the
position of `p` (modulo `2 ^ 32`), or what the tag held before. -/
def Seg (p : Parser) (X : List Byte) (s : Nat) (w : List (Nat × Nat)) : Prop :=
  (run p X).m_CurrentState = s ∧ AllZero (statuses p X) ∧
    ∀ i, i ≠ 0 → tagAt (run p X) i =
      (wlook w i).elim (tagAt p i) (fun o => (p.m_CurrentPos + o) % 2 ^ 32)

/-- The check of every transition with status zero: the next state and the tag are in
range, and the next state is one entered by a CR exactly when the byte is a CR. -/
def quietCheck : Bool :=
  checkRows (fun _ => true)
    (fun _ c a b st => st != 0 ||
      (decide (a < 85) && (isCR a == (c == 13)) && decide (b < 17)))
    0 litRows

/-- The states that skip leading whitespace in the trimmer that begins at state `v`. -/
def leadRegion (v : Nat) : Region :=
  { S := fun s => s == v || s == v + 1, B := isWS, A := fun i => i == 0
    T := fun c s => s == (if c == 13 then v + 1 else v) }

/-- The states of the trimmer at `v` once a byte of the value has been found. -/
def trailRegion (v te : Nat) : Region :=
  { S := fun s => s == v + 2 || s == v + 3 || s == v + 4, B := fun _ => true
    A := fun i => i == 0 || i == te
    T := fun c s => s == (if isWS c then (if c == 13 then v + 4 else v + 3) else v + 2) }

/-- The states of the trimmer at `v` that skip whitespace after the value. -/
def tailRegion (v : Nat) : Region :=
  { S := fun s => s == v + 3 || s == v + 4, B := isWS, A := fun i => i == 0
    T := fun c s => s == (if c == 13 then v + 4 else v + 3) }

/-- The table facts of a trimmer: the five states from `v` on, the tags `tb` and
`te` of the fragment, the exit to the line start 18 by CR LF. -/
def trimmerOK (v tb te : Nat) : Bool :=
  (leadRegion v).check && (trailRegion v te).check && (tailRegion v).check
    && stepsTo v (fun c => !isWS c) (T (v + 2) tb 0)
    && stepsTo (v + 1) (fun c => !isWS c) (T (v + 2) tb 0)
    && stepsTo (v + 2) (fun c => isWS c && c != 13) (T (v + 3) te 0)
    && decide (lit (v + 2) 13 = T (v + 4) te 0)
    && decide (lit (v + 1) 10 = T 18 0 0) && decide (lit (v + 4) 10 = T 18 0 0)
    && !isCR v && isCR (v + 1) && !isCR (v + 2) && !isCR (v + 3) && isCR (v + 4)
    && decide (v + 4 < 85)

/-- The first state of the trimmer of fragment `f`: the reason phrase (3) or a header. -/
def trimState (f : Nat) : Nat := if f = REASON_PHRASE then 13 else valueState f

/-- The facts checked by `trimmerOK`, one by one. -/
structure TrimmerFacts (v tb te : Nat) : Prop where
  lead : (leadRegion v).check = true
  trail : (trailRegion v te).check = true
  tail : (tailRegion v).check = true
  first0 : stepsTo v (fun c => !isWS c) (T (v + 2) tb 0) = true
  first1 : stepsTo (v + 1) (fun c => !isWS c) (T (v + 2) tb 0) = true
  endWS : stepsTo (v + 2) (fun c => isWS c && c != 13) (T (v + 3) te 0) = true
  endCR : lit (v + 2) 13 = T (v + 4) te 0
  exit1 : lit (v + 1) 10 = T 18 0 0
  exit4 : lit (v + 4) 10 = T 18 0 0
  cr0 : isCR v = false
  cr1 : isCR (v + 1) = true
  cr2 : isCR (v + 2) = false
  cr3 : isCR (v + 3) = false
  cr4 : isCR (v + 4) = true
  bound : v + 4 < 85

/-- The first byte of a line, read at the line start 18: a state from 19 on, no tag
but the dummy, status zero. -/
def lineFirstOK : Bool :=
  checkRows (fun s => s == 18)
    (fun _ c a b st => decide (19 ≤ a) && decide (a < 85) && st == 0 && b == 0
      && (isCR a == (c == 13)))
    0 litRows

/-- The states of a header line after its first byte; the tags of the status line
are not written there, and state 21 is not entered again. -/
def lineRegion : Region :=
  { S := fun s => decide (19 ≤ s), B := fun _ => true
    A := fun i => i == 0 || decide (9 ≤ i)
    T := fun _ s => s != 21 }

/-- A LF after a CR ends the line, except in state 21: back to the line start 18. -/
def lineExitOK : Bool :=
  checkRows (fun s => decide (13 ≤ s) && isCR s && s != 21)
    (fun _ c a b st => c != 10 || (a == 18 && b == 0 && st == 0))
    0 litRows

/-- The path of every header name from the line start, and the colon after it. -/
def namesOK : Bool :=
  [4, 5, 6, 7].all (fun h =>
    pathOK upToCase 18 (nameCodes h)
      && decide (lit (pathEnd 18 (nameCodes h)) 58 = T (valueState h) 0 0))

/-- Where the trimmed value lies in `V`: the index of its first byte and the index
after its last byte; `none` for an empty or all-whitespace value. -/
def trimSpan (V : List Byte) : Option (Nat × Nat) :=
  if trim V = [] then none
  else some ((V.takeWhile (fun c => isWS c.val)).length,
    (V.takeWhile (fun c => isWS c.val)).length + (trim V).length)

/-- The tag writes of a fragment whose span is known: the end tag, the begin tag. -/
def spanWrites (tb te : Nat) : Option (Nat × Nat) → List (Nat × Nat)
  | none => []
  | some be => [(te, be.2), (tb, be.1)]

/-- Where the trimmed value of header `h` lies in the line `l`, if the line is
recognised for `h` and its value has a byte that is not whitespace. -/
def lineSpan (h : Nat) (l : List Byte) : Option (Nat × Nat) :=
  match lineValue h l with
  | some v =>
    (trimSpan v).map
      (fun be => ((nameCodes h).length + 1 + be.1, (nameCodes h).length + 1 + be.2))
  | none => none

/-- The five states of `HTTP/`: the expected byte goes on, any other byte is the
final ERROR_NOT_HTTP. -/
def prefixOK : Bool :=
  allBelow 5 (fun i =>
    pathOK exactly 0 ((codes "HTTP/").take i)
      && decide (pathEnd 0 ((codes "HTTP/").take i) = i)
      && matchesBy exactly ((codes "HTTP/").take i) ((bytes "HTTP/").take i)
      && stepsTo i (fun c => c != (codes "HTTP/").getD i 0) (T 0 0 2)
      && decide ((bytes "HTTP/").get? i = some (Fin.ofNat ((codes "HTTP/").getD i 0)))
      && decide ((codes "HTTP/").getD i 0 < 256))

/-- After the status code: the tags of the versions and of the status code are not
written any more, and a transition with status zero stays after the status code. -/
def lateOK : Bool :=
  checkRows (fun s => decide (13 ≤ s))
    (fun _ _ a b st => (b == 0 || decide (7 ≤ b)) && (st != 0 || decide (13 ≤ a)))
    0 litRows

/-- A length that makes the 32-bit position wrap to zero after `HTTP/`. -/
def wrapLength : Nat := 2 ^ 32 - 5

/-- One `feed` computed with the closed form of the table. -/
def simFeed (p : Parser) (c : Byte) : Parser × Nat :=
  ({ m_CurrentState := (lit p.m_CurrentState c.val).m_State
     m_CurrentPos := (p.m_CurrentPos + 1) % 2 ^ 32
     m_SavedTagOffsets :=
       p.m_SavedTagOffsets.set (lit p.m_CurrentState c.val).m_Tag p.m_CurrentPos },
   (lit p.m_CurrentState c.val).m_Status)

/-- The parser after the bytes, computed with the closed form of the table. -/
def simRun (p : Parser) (input : List Byte) : Parser :=
  input.foldl (fun q c => (simFeed q c).1) p

/-- The statuses of the bytes, computed with the closed form of the table. -/
def simStatuses (p : Parser) : List Byte → List Nat
  | [] => []
  | c :: cs => (simFeed p c).2 :: simStatuses (simFeed p c).1 cs

/-- The bytes leave the path of the expected values `es` at some byte. -/
def diverges : List Nat → List Byte → Bool
  | [], _ => false
  | _ :: _, [] => false
  | e :: es, c :: cs => if upToCase e c.val then diverges es cs else true

/-- The states on the way to the value of header `h`: those of its name after the
first byte, and the five states of its value. -/
def alive (h s : Nat) : Bool :=
  match h with
  | 4 => decide (22 ≤ s) && decide (s ≤ 38)
  | 5 => (decide (22 ≤ s) && decide (s ≤ 29)) || (decide (39 ≤ s) && decide (s ≤ 49))
  | 6 => decide (50 ≤ s) && decide (s ≤ 71)
  | 7 => decide (72 ≤ s) && decide (s ≤ 84)
  | _ => false

/-- The states of a line from which the value of header `h` is out of reach. -/
def dead (h s : Nat) : Bool := decide (19 ≤ s) && !alive h s

/-- The tags that a line may write when it is not a line of header `h`. -/
def otherTags (h i : Nat) : Bool :=
  i == 0 || (decide (9 ≤ i) && i != tagBegin h && i != tagEnd h)

/-- The rest of a line that has left the way to the value of header `h`. -/
def deadRegion (h : Nat) : Region :=
  { S := dead h, B := fun _ => true, A := otherTags h, T := fun _ _ => true }

/-- From the states on the path `es` of the name of `h` (and its colon), a byte that
is not the expected one leads to a state from which the value is out of reach. -/
def offPathOK (h : Nat) : Nat → List Nat → Bool
  | _, [] => true
  | s, e :: es =>
    !upToCase e 13
      && allBelow 256 (fun c => upToCase e c ||
        (match lit s c with
          | ⟨a, b, st⟩ => dead h a && decide (a < 85) && st == 0 && b == 0
              && (isCR a == (c == 13))))
      && offPathOK h (lit s e).m_State es

/-- The facts of the lines that are not lines of header `h`. -/
def frameOK (h : Nat) : Bool :=
  (deadRegion h).check
    && checkRows (dead h) (fun _ _ _ b _ => otherTags h b) 0 litRows
    && pathOK upToCase 18 (nameCodes h ++ [58])
    && offPathOK h 18 (nameCodes h ++ [58])

/-- Where the value of header `h` lies in the header block made of the lines `ls`
(offsets from the start of the block): the span of the last line that has one. -/
def finalSpan (h : Nat) : List (List Byte) → Option (Nat × Nat)
  | [] => none
  | l :: ls =>
    match finalSpan h ls with
    | some be => some (l.length + 2 + be.1, l.length + 2 + be.2)
    | none => lineSpan h l

/-- The check of the header section (states 18 and above): a byte and its lower-case
form have the same transition, and a transition that is not final stays in the
header section. -/
def caseOK : Bool :=
  checkRows (fun s => decide (18 ≤ s))
    (fun s c a b st =>
      (match lit s (simple_tolower c) with
        | ⟨a1, b1, st1⟩ => a == a1 && b == b1 && st == st1)
        && (st != 0 || (decide (18 ≤ a) && decide (a < 85))))
    0 litRows

/-- A status line of `2^32 + 11` bytes: `HTTP/`, `2^32 - 5` digits `1`, `.0 200 OK`
and CR LF. -/
def wrapStatusLine : List Byte :=
  statusPrefix (List.replicate wrapLength 49) [48] [50, 48, 48] ++ (bytes "OK" ++ CRLF)

/-- The two byte strings have the same length and are equal byte by byte up to the
case of letters. -/
def sameLetters : List Byte → List Byte → Bool
  | [], [] => true
  | a :: as, b :: bs => sameLetter a b && sameLetters as bs
  | _, _ => false

/-! ## Vocabulary and checks of the error and engine properties -/

/-- From state `s`, every byte value satisfying `B` gets the status `e`. -/
def errsTo (s : Nat) (B : Nat → Bool) (e : Nat) : Bool :=
  allBelow 256 (fun c => !B c || (lit s c).m_Status == e)

/-- The start of a status line up to the status code: `HTTP/` D1 `.` D2 SP. -/
def versionPrefix (d1 d2 : List Byte) : List Byte :=
  bytes "HTTP/" ++ d1 ++ [46] ++ d2 ++ [32]

/-- The facts of the version fields and of the status code: what a byte that does
not continue the field returns. -/
def fieldErrorsOK : Bool :=
  errsTo 5 (fun c => !isDigit c) ERROR_NOT_A_DIGIT_MAJOR_VERSION
    && errsTo 6 (fun c => !isDigit c && c != 46) ERROR_NOT_A_DIGIT_MAJOR_VERSION
    && errsTo 7 (fun c => !isDigit c) ERROR_NOT_A_DIGIT_MINOR_VERSION
    && errsTo 8 (fun c => !isDigit c && c != 32) ERROR_NOT_A_DIGIT_MINOR_VERSION
    && [9, 10, 11].all (fun s =>
      errsTo s (fun c => c == 32) ERROR_WRONG_LENGTH_OF_STATUS_CODE
        && errsTo s (fun c => !isDigit c && c != 32) ERROR_NOT_A_DIGIT_STATUS_CODE)
    && errsTo 12 (fun c => c != 32) ERROR_WRONG_LENGTH_OF_STATUS_CODE

/-- The check of the states from the reason phrase on (13 and above): a transition
is either not final and stays among these states, or returns SUCCESS. -/
def lenientOK : Bool :=
  checkRows (fun s => decide (13 ≤ s))
    (fun _ _ a _ st => (st == 0 && decide (13 ≤ a)) || st == 1) 0 litRows

/-- The check of where each error status is returned: ERROR_NOT_HTTP in the states 0
to 4 of `HTTP/`, the version errors in the states 5, 6 and 7, 8 of the versions, the
errors of the status code in its states 9 to 12. -/
def errorsOK : Bool :=
  checkRows (fun _ => true)
    (fun s _ _ _ st => st == 0 || st == 1
      || (st == 2 && decide (s < 5))
      || (st == 3 && (s == 5 || s == 6))
      || (st == 4 && (s == 7 || s == 8))
      || ((st == 5 || st == 6) && decide (9 ≤ s) && decide (s ≤ 12)))
    0 litRows

/-- The check of the order of the states: a transition that is not final goes from a
state of `HTTP/` to the next one, and from any other state to a state from 5 on. -/
def orderOK : Bool :=
  checkRows (fun _ => true)
    (fun s _ a _ st => st != 0 || (if s < 5 then a == s + 1 else decide (5 ≤ a)))
    0 litRows

/-- The five states of the reason phrase. -/
def reasonRegion : Region :=
  { S := fun s => decide (13 ≤ s) && decide (s ≤ 17), B := fun _ => true
    A := fun i => i == 0 || i == 7 || i == 8, T := fun _ _ => true }

/-- The loop of the tests, `for (; itr != end && res == 0; ++itr) res = p.feed(*itr)`,
with the statuses it gets: the parser after the loop and the statuses in order. -/
def feedTrace (p : Parser) : List Byte → Parser × List Nat
  | [] => (p, [])
  | c :: cs =>
    if (feed p c).2 = 0 then
      ((feedTrace (feed p c).1 cs).1, (feed p c).2 :: (feedTrace (feed p c).1 cs).2)
    else ((feed p c).1, [(feed p c).2])

/-- The loop of the tests after a restart,
`for (; itr != end && res == 0; ++itr) res = p.feed(resp[p.count()])`, with `n`
iterations left: the parser after the loop and the statuses in order; `none` when
`count()` is not an index of the input. -/
def resumeTrace (resp : List Byte) : Nat → Parser → Option (Parser × List Nat)
  | 0, p => some (p, [])
  | n + 1, p =>
    match resp.get? (count p) with
    | none => none
    | some c =>
      if (feed p c).2 = 0 then
        (resumeTrace resp n (feed p c).1).map (fun r => (r.1, (feed p c).2 :: r.2))
      else some ((feed p c).1, [(feed p c).2])

/-- The first state of the trimmer of fragment `f` (3 to 7), as a number. -/
def fragBase (f : Nat) : Nat :=
  if f = 3 then 13 else if f = 4 then 34 else if f = 5 then 45 else if f = 6 then 67 else 80

/-- What state `s` tells about the tags of fragment `f`: 2 when the begin tag is
written and the end tag is still to be written, 1 when both are written, 0 when
both are written or none is. -/
def fragKind (f s : Nat) : Nat :=
  if f = 0 then (if s ≤ 5 then 0 else if s = 6 then 2 else 1)
  else if f = 1 then (if s ≤ 7 then 0 else if s = 8 then 2 else 1)
  else if f = 2 then (if s ≤ 9 then 0 else if s ≤ 12 then 2 else 1)
  else if s = fragBase f + 2 then 2
  else if s = fragBase f + 3 ∨ s = fragBase f + 4 then 1
  else 0

/-- The tags `b` and `e` of a fragment at position `pos`, for the kind `k` of the
state: the begin tag is at least 5, and the end tag, when written, lies after it
and before the position. -/
def fragInv (k b e pos : Nat) : Prop :=
  if k = 2 then 5 ≤ b ∧ b < pos
  else if k = 1 then 5 ≤ b ∧ b < e ∧ e < pos
  else (b = 0 ∧ e = 0) ∨ (5 ≤ b ∧ b < e ∧ e < pos)

/-- The check of the tags of fragment `f` in every transition: the begin tag is
written on entering a state of kind 2, from a state from 5 on; the end tag is
written on leaving a state of kind 2; any other transition that is not final keeps
what the state tells; SUCCESS is not returned in a state of kind 2 and writes the
dummy tag. -/
def fragOK (f : Nat) : Bool :=
  checkRows (fun _ => true)
    (fun s _ a b st =>
      if st == 0 then
        (if b == tagBegin f then fragKind f a == 2 && decide (5 ≤ s)
         else if b == tagEnd f then fragKind f s == 2 && fragKind f a != 2
         else fragKind f s == 1 || fragKind f a == fragKind f s)
      else st != 1 || (fragKind f s != 2 && b == 0))
    0 litRows

/-! ## Vocabulary and checks of the table properties -/

/-- The writes of `feed` to the tag slots, `m_SavedTagOffsets[t.m_Tag] = m_CurrentPos++`:
for each byte fed, the slot and the value stored in it. -/
def writes (p : Parser) : List Byte → List (Nat × Nat)
  | [] => []
  | c :: cs => ((tbl p.m_CurrentState c.val).m_Tag, p.m_CurrentPos) :: writes (feed p c).1 cs

/-- The check of the shape of the transitions: a final one goes to state 0 with the
dummy tag and a status below STATUS_END; one that is not final goes to a state from
1 on. -/
def shapeOK : Bool :=
  checkRows (fun _ => true)
    (fun _ _ a b st =>
      if st == 0 then decide (1 ≤ a)
      else a == 0 && b == DUMMY_TAG && decide (st < STATUS_END))
    0 litRows

/-- The check of the bounds: the next state is below 85, the tag below NUM_TAGS, and a
tag other than the dummy is written only from a state from 5 on. -/
def boundsOK : Bool :=
  checkRows (fun _ => true)
    (fun s _ a b _ => decide (a < 85) && decide (b < NUM_TAGS)
      && (b == DUMMY_TAG || decide (5 ≤ s)))
    0 litRows

/-- The last four bytes are CR LF CR LF. -/
def endsBlankLine (Y : List Byte) : Bool := Y.reverse.take 4 == [10, 13, 10, 13]

/-- The check of the ends of lines, in the states from the reason phrase on: SUCCESS
is returned by a LF in state 21 only; the line start 18 is entered by a LF after a
CR only, and state 21 by a CR at the line start only. -/
def lineEndOK : Bool :=
  checkRows (fun s => decide (13 ≤ s))
    (fun s c a _ st =>
      ((st == 1) == (s == 21 && c == 10)) && decide (st ≤ 1)
        && (st != 0 ||
          (((a == 18) == (isCR s && c == 10)) && ((a == 21) == (s == 18 && c == 13))
            && decide (13 ≤ a))))
    0 litRows

/-- The state `a` of the reason-phrase trimmer as a state of the trimmer that begins
at `v`; the line start 18 and every other state are kept. -/
def renameState (v a : Nat) : Nat := if 13 ≤ a ∧ a ≤ 17 then v + (a - 13) else a

/-- The tag `b` of the reason phrase as a tag of fragment `h`. -/
def renameTag (h b : Nat) : Nat :=
  if b = tagBegin REASON_PHRASE then tagBegin h
  else if b = tagEnd REASON_PHRASE then tagEnd h else b

/-- The transition `t` of the reason-phrase trimmer renamed for the header `h` whose
value is read from state `v` on. -/
def renameTransition (h v : Nat) (t : Transition) : Transition :=
  { m_State := renameState v t.m_State, m_Tag := renameTag h t.m_Tag, m_Status := t.m_Status }

/-- The check that the five states from the value state of header `h` on are the
five states of the reason phrase, renamed. -/
def sameTrimmer (h : Nat) : Bool :=
  allBelow 5 (fun k => allBelow 256 (fun c =>
    decide (lit (valueState h + k) c = renameTransition h (valueState h) (lit (13 + k) c))))

/-- The table builder stopped after the first `n` header names. -/
def buildHeadersUpTo (n : Nat) (st : StateMachine × Nat) : StateMachine × Nat :=
  let sRes := st.1
  let sState := st.2
  let sNewLine := sState
  let sSkipLine := sState + 1
  let sSearchLF := sState + 2
  let sSearchFinalLF := sState + 3
  let sState := sState + 4
  let sRes := setConditions sRes sNewLine
    (buildConditions1 (normal sSkipLine) 13 (normal sSearchFinalLF))
  let sRes := setConditions sRes sSkipLine
    (buildConditions1 (normal sSkipLine) 13 (normal sSearchLF))
  let sRes := setConditions sRes sSearchLF
    (buildConditions2 (normal sSkipLine) 13 (normal sSearchLF) 10 (normal sNewLine))
  let sRes := setConditions sRes sSearchFinalLF
    (buildConditions2 (normal sSkipLine) 13 (normal sSearchLF) 10 (final SUCCESS))
  (List.range' SPECIAL_MAX n).foldl (buildHeader sNewLine sSkipLine sSearchLF) (sRes, sState)

/-- The state machine with the first `n` header names only. -/
def machineUpTo (n : Nat) : StateMachine :=
  let st : StateMachine × Nat := ({}, 0)
  let st := buildPrefix st
  let st := (List.range 2).foldl buildVersion st
  let st := buildStatusCode st
  let st := buildReasonPhrase st
  let st := buildHeadersUpTo n st
  { st.1 with m_NumConditions := st.2 }

/-- Every transition of the row either is the one of `f` or leads to the state 19 that
skips the line. -/
def rowStable (f : Nat → Transition) : Nat → List Transition → Bool
  | _, [] => true
  | c, t :: ts => (decide (t = f c) || t.m_State == 19) && rowStable f (c + 1) ts

/-- The first `n` rows of a table have 256 entries and are, against the functions
`fs`, as `rowStable` tells. -/
def tableStable : Nat → List (Nat → Transition) → List Conditions → Bool
  | 0, _, _ => true
  | _ + 1, [], _ => false
  | _ + 1, _, [] => false
  | n + 1, f :: fs, r :: rs =>
    decide (r.m_Transitions.length = 256) && rowStable f 0 r.m_Transitions
      && tableStable n fs rs

/-- Adding the header names after the first `n` ones changes no transition of the
machine with `n` names, except transitions to the state that skips the line. -/
def stableOK (n : Nat) : Bool :=
  tableStable (machineUpTo n).m_NumConditions litRows (machineUpTo n).m_Conditions

/-- The states visited in the machine `sm` from state `s` by the byte values `es`. -/
def pathStatesIn (sm : StateMachine) : Nat → List Nat → List Nat
  | _, [] => []
  | s, e :: es => ((sm.at s).at e).m_State :: pathStatesIn sm ((sm.at s).at e).m_State es

/-- The paths of the first `n` header names and of the colon after them, in lower
case and in upper case, are in the machine with `n` names what they are in the
whole machine. -/
def pathsKept (n : Nat) : Bool :=
  allBelow n (fun j =>
    decide (pathStatesIn (machineUpTo n) 18
        ((nameCodes (SPECIAL_MAX + j)).map simple_tolower ++ [58])
      = pathStatesIn theStateMachine 18
        ((nameCodes (SPECIAL_MAX + j)).map simple_tolower ++ [58]))
    && decide (pathStatesIn (machineUpTo n) 18
        ((nameCodes (SPECIAL_MAX + j)).map simple_toupper ++ [58])
      = pathStatesIn theStateMachine 18
        ((nameCodes (SPECIAL_MAX + j)).map simple_toupper ++ [58])))

/-! ## The inside of a value -/

/-- The state of the trimmer at `v` inside a value: a byte that is not SP, HTAB, CR or
LF keeps the state and writes no tag. -/
def bodyRegion (v : Nat) : Region :=
  { S := fun s => s == v + 2, B := fun c => !isWS c, A := fun i => i == 0
    T := fun _ _ => true }

/-- The check of `bodyRegion` for the reason phrase and the four headers. -/
def bodiesOK : Bool := [3, 4, 5, 6, 7].all (fun f => (bodyRegion (trimState f)).check)

/-! ## The vectors of `IOVec.hpp` -/

/-- The difference `a - b` of two `size_t` values (64 bits). -/
def sizeSub (a b : Nat) : Nat := (a + 2 ^ 64 - b % 2 ^ 64) % 2 ^ 64

/-- The sum `a + b` of two `size_t` values (64 bits). -/
def sizeAdd (a b : Nat) : Nat := (a + b) % 2 ^ 64

/-- The wrapper of `struct iovec`: the address of the first byte, `iov_base`, and the
number of bytes, `iov_len`, a `size_t`. Addresses are natural numbers: arithmetic on
a pointer has no wrap-around in C++. -/
structure IOVec where
  iov_base : Nat
  iov_len : Nat
deriving DecidableEq, Repr

/-- The address of the vector. -/
def IOVec.data (v : IOVec) : Nat := v.iov_base

/-- The length of the vector. -/
def IOVec.size (v : IOVec) : Nat := v.iov_len

/-- The vector has no byte left. -/
def IOVec.empty (v : IOVec) : Bool := 0 == v.iov_len

/-- The method `skip(size_t& aSize)`: the result, the vector and `aSize` afterwards.
It returns whether the vector was depleted. -/
def IOVec.skip (v : IOVec) (aSize : Nat) : Bool × IOVec × Nat :=
  if v.iov_len ≤ aSize then
    (true, { iov_base := v.iov_base + v.iov_len, iov_len := 0 }, sizeSub aSize v.iov_len)
  else
    (false, { iov_base := v.iov_base + aSize, iov_len := sizeSub v.iov_len aSize }, 0)

/-- The bytes of the address space. -/
abbrev Memory := Nat → Byte

/-- The call `memcpy(dest, src, n)` on areas that do not overlap. -/
def memcpy (m : Memory) (dest src n : Nat) : Memory :=
  fun a => if dest ≤ a ∧ a < dest + n then m (src + (a - dest)) else m a

/-- The method `take(char* aData, size_t& aFrom, size_t aTo)`: the number of bytes
taken, the vector and `aFrom` afterwards, and the memory after the copy. -/
def IOVec.take (v : IOVec) (m : Memory) (aData aFrom aTo : Nat) : Nat × IOVec × Nat × Memory :=
  let sTaken := min (sizeSub aTo aFrom) v.iov_len
  (sTaken,
   { iov_base := v.iov_base + sTaken, iov_len := sizeSub v.iov_len sTaken },
   sizeAdd aFrom sTaken,
   memcpy m v.iov_base (aData + aFrom) sTaken)

/-! ## The grouping of `MakeArray.hpp` -/

/-- The trait `std::is_constructible_v<T, Args...>` for a type `T` whose constructors
are `ctor`: the call `T(args...)` is well formed. -/
def is_constructible {α τ : Type} (ctor : List α → Option τ) (args : List α) : Bool :=
  (ctor args).isSome

/-- The template `details::IndexGrouper<T, ArgsTuple, Indexes, Grouped>`: the arguments
left, their indexes, the groups made so far; `none` where only the primary template,
which has no definition, matches. -/
def IndexGrouper {α τ : Type} (ctor : List α → Option τ) :
    List α → List Nat → List (List Nat) → Option (List (List Nat))
  | [], [], done => some done
  | [_], [i], done => some (done ++ [[i]])
  | [a1, a2], [i1, i2], done =>
    if is_constructible ctor [a1, a2] then IndexGrouper ctor [] [] (done ++ [[i1, i2]])
    else IndexGrouper ctor [a2] [i2] (done ++ [[i1]])
  | a1 :: a2 :: a3 :: an, i1 :: i2 :: i3 :: ins, done =>
    if is_constructible ctor [a1, a2, a3] then
      IndexGrouper ctor an ins (done ++ [[i1, i2, i3]])
    else if is_constructible ctor [a1, a2] then
      IndexGrouper ctor (a3 :: an) (i3 :: ins) (done ++ [[i1, i2]])
    else IndexGrouper ctor (a2 :: a3 :: an) (i2 :: i3 :: ins) (done ++ [[i1]])
  | _, _, _ => none

/-- The function `details::constructByIndexes<T>`: `T` constructed from the arguments
at the indexes of a group. -/
def constructByIndexes {α τ : Type} (ctor : List α → Option τ) (group : List Nat)
    (t : List α) : Option τ :=
  (group.mapM (fun i => t.get? i)).bind ctor

/-- The function `makeArray<T>(aArgs...)`: the indexes `0 .. n-1` are grouped and one
element is constructed for each group; `none` when the call is ill formed. -/
def makeArray {α τ : Type} (ctor : List α → Option τ) (aArgs : List α) : Option (List τ) :=
  (IndexGrouper ctor aArgs (List.range aArgs.length) []).bind
    (fun groups => groups.mapM (fun g => constructByIndexes ctor g aArgs))

/-- The length of the group taken at a position where the arguments `rest` remain:
three if at least three remain and `T` is constructible from the next three,
otherwise two if at least two remain and `T` is constructible from the next two,
otherwise one. -/
def groupLength {α τ : Type} (ctor : List α → Option τ) (rest : List α) : Nat :=
  if 3 ≤ rest.length ∧ is_constructible ctor (rest.take 3) = true then 3
  else if 2 ≤ rest.length ∧ is_constructible ctor (rest.take 2) = true then 2
  else 1

/-- The groups of consecutive indexes taken from left to right, from the index `pos`
on, while arguments remain (at most `n` groups). -/
def greedyGroups {α τ : Type} (ctor : List α → Option τ) : Nat → Nat → List α → List (List Nat)
  | 0, _, _ => []
  | _ + 1, _, [] => []
  | n + 1, pos, a :: rest =>
    List.range' pos (groupLength ctor (a :: rest))
      :: greedyGroups ctor n (pos + groupLength ctor (a :: rest))
          ((a :: rest).drop (groupLength ctor (a :: rest)))

/-- The classes `A`, `B` and `C` of the unit test. -/
inductive TestClass where
  | A
  | B
  | C
deriving DecidableEq, Repr

/-- An argument of the unit test: its class, its field `i`, and whether it is passed
as a temporary (an rvalue). -/
structure TestArg where
  cls : TestClass
  i : Int
  rvalue : Bool := true
deriving DecidableEq, Repr

/-- The class `D` of the unit test. -/
structure D where
  a : Int := -1
  b : Int := -1
  c : Int := -1
deriving DecidableEq, Repr

/-- The constructors `D(A)`, `D(A, const B&)` and `D(A, const B&, C&&)` of the unit
test, on arguments of the classes `A`, `B` and `C`. -/
def D.ctor : List TestArg → Option D
  | [⟨.A, a, _⟩] => some { a := a }
  | [⟨.A, a, _⟩, ⟨.B, b, _⟩] => some { a := a, b := b }
  | [⟨.A, a, _⟩, ⟨.B, b, _⟩, ⟨.C, c, true⟩] => some { a := a, b := b, c := c }
  | _ => none

/-! ## The built table and its closed form -/

theorem rowAgrees_getD (f : Nat → Transition) :
    ∀ (ts : List Transition) (c : Nat), rowAgrees f c ts = true →
      ∀ i, i < ts.length → ts.getD i {} = f (c + i) := by
  intro ts
  induction ts with
  | nil => intro c _ i hi; simp at hi
  | cons t ts ih =>
    intro c h i hi
    simp only [rowAgrees, Bool.and_eq_true, decide_eq_true_eq] at h
    cases i with
    | zero => simpa using h.1
    | succ j =>
      have := ih (c + 1) h.2 j (by simpa using hi)
      simpa [Nat.add_assoc, Nat.add_comm 1 j] using this

theorem tableAgrees_getD :
    ∀ (rs : List Conditions) (fs : List (Nat → Transition)), tableAgrees fs rs = true →
      ∀ i, i < rs.length → ∀ c, c < 256 →
        (rs.getD i {}).at c = fs.getD i (fun _ => {}) c := by
  intro rs
  induction rs with
  | nil => intro fs _ i hi; simp at hi
  | cons r rs ih =>
    intro fs h i hi c hc
    cases fs with
    | nil =>
      simp only [tableAgrees, Bool.and_eq_true, decide_eq_true_eq] at h
      cases i with
      | zero =>
        have := rowAgrees_getD _ r.m_Transitions 0 h.1.2 c (by omega)
        simpa [Conditions.at] using this
      | succ j =>
        have := ih [] h.2 j (by simpa using hi) c hc
        simpa using this
    | cons f fs =>
      simp only [tableAgrees, Bool.and_eq_true, decide_eq_true_eq] at h
      cases i with
      | zero =>
        have := rowAgrees_getD f r.m_Transitions 0 h.1.2 c (by omega)
        simpa [Conditions.at] using this
      | succ j =>
        have := ih fs h.2 j (by simpa using hi) c hc
        simpa using this

theorem tableAgrees_length :
    ∀ (rs : List Conditions) (fs : List (Nat → Transition)), tableAgrees fs rs = true →
      ∀ i, i < rs.length → (rs.getD i {}).m_Transitions.length = 256 := by
  intro rs
  induction rs with
  | nil => intro fs _ i hi; simp at hi
  | cons r rs ih =>
    intro fs h i hi
    cases fs with
    | nil =>
      simp only [tableAgrees, Bool.and_eq_true, decide_eq_true_eq] at h
      cases i with
      | zero => simpa using h.1.1
      | succ j => simpa using ih [] h.2 j (by simpa using hi)
    | cons f fs =>
      simp only [tableAgrees, Bool.and_eq_true, decide_eq_true_eq] at h
      cases i with
      | zero => simpa using h.1.1
      | succ j => simpa using ih fs h.2 j (by simpa using hi)

theorem getD_replicate_self {α : Type} (a : α) :
    ∀ (n i : Nat), (List.replicate n a).getD i a = a := by
  intro n
  induction n with
  | zero => intro i; rfl
  | succ n ih =>
    intro i
    cases i with
    | zero => rfl
    | succ j => simp [List.replicate_succ]

theorem table_agrees : tableAgrees litRows theStateMachine.m_Conditions = true := by
  decide!

theorem table_length : theStateMachine.m_Conditions.length = 128 := by
  decide!

/-- The built table is the closed form `lit`, for every state and byte value. -/
theorem tbl_eq_lit (s c : Nat) : tbl s c = lit s c := by
  unfold tbl StateMachine.at lit
  by_cases hs : s < 128
  · have hs' : s < theStateMachine.m_Conditions.length := by rw [table_length]; exact hs
    by_cases hc : c < 256
    · rw [if_pos hc]
      exact tableAgrees_getD _ litRows table_agrees s hs' c hc
    · rw [if_neg hc]
      have := tableAgrees_length _ litRows table_agrees s hs'
      unfold Conditions.at
      apply List.getD_eq_default
      omega
  · have h1 : theStateMachine.m_Conditions.getD s {} = {} := by
      apply List.getD_eq_default
      rw [table_length]; omega
    have h2 : litRows.getD s (fun _ => {}) = fun _ => {} := by
      apply List.getD_eq_default
      have : litRows.length = 85 := by decide
      omega
    rw [h1, h2]
    by_cases hc : c < 256
    · rw [if_pos hc]
      unfold Conditions.at
      exact getD_replicate_self _ _ _
    · rw [if_neg hc]
      unfold Conditions.at
      apply List.getD_eq_default
      show (List.replicate NUM_TRANSITIONS ({} : Transition)).length ≤ c
      rw [List.length_replicate]
      show 256 ≤ c
      omega

/-! ## One byte, many bytes -/

theorem getD_set (v d : Nat) :
    ∀ (l : List Nat) (i j : Nat),
      (l.set i v).getD j d = if i = j ∧ j < l.length then v else l.getD j d := by
  intro l
  induction l with
  | nil => intro i j; simp
  | cons a l ih =>
    intro i j
    cases i with
    | zero =>
      cases j with
      | zero => simp
      | succ j => simp
    | succ i =>
      cases j with
      | zero => simp
      | succ j =>
        have := ih i j
        simpa using this

theorem feed_fst (p : Parser) (c : Byte) :
    (feed p c).1 =
      { m_CurrentState := (lit p.m_CurrentState c.val).m_State
        m_CurrentPos := (p.m_CurrentPos + 1) % 2 ^ 32
        m_SavedTagOffsets :=
          p.m_SavedTagOffsets.set (lit p.m_CurrentState c.val).m_Tag p.m_CurrentPos } := by
  simp only [feed, ← tbl_eq_lit, tbl]

theorem feed_snd (p : Parser) (c : Byte) :
    (feed p c).2 = (lit p.m_CurrentState c.val).m_Status := by
  simp only [feed, ← tbl_eq_lit, tbl]

theorem feed_state (p : Parser) (c : Byte) :
    (feed p c).1.m_CurrentState = (lit p.m_CurrentState c.val).m_State := by
  rw [feed_fst]

theorem feed_pos (p : Parser) (c : Byte) :
    (feed p c).1.m_CurrentPos = (p.m_CurrentPos + 1) % 2 ^ 32 := by
  rw [feed_fst]

theorem feed_tagAt (p : Parser) (c : Byte) (i : Nat) :
    tagAt (feed p c).1 i =
      if (lit p.m_CurrentState c.val).m_Tag = i ∧ i < p.m_SavedTagOffsets.length
      then p.m_CurrentPos else tagAt p i := by
  rw [feed_fst]
  exact getD_set _ _ _ _ _

theorem feed_tagAt_ne (p : Parser) (c : Byte) (i : Nat)
    (h : (lit p.m_CurrentState c.val).m_Tag ≠ i) : tagAt (feed p c).1 i = tagAt p i := by
  rw [feed_tagAt, if_neg]
  exact fun h' => h h'.1

theorem feed_WF (p : Parser) (c : Byte) (h : WF p) : WF (feed p c).1 := by
  rw [feed_fst]
  refine ⟨?_, Nat.mod_lt _ (by norm_num)⟩
  show (p.m_SavedTagOffsets.set _ _).length = NUM_TAGS
  rw [List.length_set]
  exact h.1

theorem run_nil (p : Parser) : run p [] = p := rfl

theorem run_cons (p : Parser) (c : Byte) (cs : List Byte) :
    run p (c :: cs) = run (feed p c).1 cs := rfl

theorem run_append (p : Parser) (a b : List Byte) : run p (a ++ b) = run (run p a) b := by
  unfold run
  rw [List.foldl_append]

theorem statuses_append (a b : List Byte) :
    ∀ p : Parser, statuses p (a ++ b) = statuses p a ++ statuses (run p a) b := by
  induction a with
  | nil => intro p; rfl
  | cons c cs ih =>
    intro p
    show (feed p c).2 :: statuses (feed p c).1 (cs ++ b) =
      (feed p c).2 :: statuses (feed p c).1 cs ++ statuses (run (feed p c).1 cs) b
    rw [ih]
    rfl

theorem statuses_length (a : List Byte) : ∀ p : Parser, (statuses p a).length = a.length := by
  induction a with
  | nil => intro p; rfl
  | cons c cs ih => intro p; simp [statuses, ih]

theorem run_WF (a : List Byte) : ∀ p : Parser, WF p → WF (run p a) := by
  induction a with
  | nil => intro p h; exact h
  | cons c cs ih => intro p h; exact ih _ (feed_WF p c h)

theorem run_pos (a : List Byte) :
    ∀ p : Parser, WF p → (run p a).m_CurrentPos = (p.m_CurrentPos + a.length) % 2 ^ 32 := by
  induction a with
  | nil =>
    intro p h
    simp only [run_nil, List.length_nil, Nat.add_zero]
    exact (Nat.mod_eq_of_lt h.2).symm
  | cons c cs ih =>
    intro p h
    rw [run_cons, ih _ (feed_WF p c h), feed_pos, List.length_cons]
    rw [Nat.mod_add_mod]
    congr 1
    omega

theorem AllZero_nil : AllZero [] := by
  intro x hx
  cases hx

theorem AllZero_cons (a : Nat) (l : List Nat) : AllZero (a :: l) ↔ a = 0 ∧ AllZero l := by
  unfold AllZero
  simp

theorem AllZero_append (a b : List Nat) : AllZero (a ++ b) ↔ AllZero a ∧ AllZero b := by
  unfold AllZero
  simp only [List.mem_append]
  constructor
  · intro h
    exact ⟨fun x hx => h x (Or.inl hx), fun x hx => h x (Or.inr hx)⟩
  · rintro ⟨h1, h2⟩ x (hx | hx)
    · exact h1 x hx
    · exact h2 x hx

theorem AllZero_eq_replicate (l : List Nat) (h : AllZero l) : l = List.replicate l.length 0 := by
  apply List.eq_replicate_iff.mpr
  exact ⟨rfl, h⟩

/-! ## Checks of the closed form -/

theorem allBelow_sound (p : Nat → Bool) :
    ∀ n, allBelow n p = true → ∀ i, i < n → p i = true := by
  intro n
  induction n with
  | zero => intro _ i hi; omega
  | succ n ih =>
    intro h i hi
    simp only [allBelow, Bool.and_eq_true] at h
    rcases Nat.lt_succ_iff_lt_or_eq.mp hi with h1 | h1
    · exact ih h.2 i h1
    · rw [h1]; exact h.1

theorem checkRows_sound (G : Nat → Bool) (P : Nat → Nat → Nat → Nat → Nat → Bool) :
    ∀ (rows : List (Nat → Transition)) (s0 : Nat), checkRows G P s0 rows = true →
      ∀ i, i < rows.length → G (s0 + i) = true → ∀ c, c < 256 →
        P (s0 + i) c (rows.getD i (fun _ => {}) c).m_State
          (rows.getD i (fun _ => {}) c).m_Tag (rows.getD i (fun _ => {}) c).m_Status = true := by
  intro rows
  induction rows with
  | nil => intro s0 _ i hi; simp at hi
  | cons r rows ih =>
    intro s0 h i hi hG c hc
    simp only [checkRows, Bool.and_eq_true, Bool.or_eq_true, Bool.not_eq_true'] at h
    cases i with
    | zero =>
      rcases h.1 with h1 | h1
      · simp only [Nat.add_zero] at hG
        rw [hG] at h1
        cases h1
      · exact allBelow_sound _ 256 h1 c hc
    | succ j =>
      have := ih (s0 + 1) h.2 j (by simpa using hi)
        (by simpa [Nat.add_assoc, Nat.add_comm 1 j] using hG) c hc
      simpa [Nat.add_assoc, Nat.add_comm 1 j] using this

theorem litRows_length : litRows.length = 85 := by decide

theorem check_lit (G : Nat → Bool) (P : Nat → Nat → Nat → Nat → Nat → Bool)
    (h : checkRows G P 0 litRows = true) (s : Nat) (hs : s < 85) (hG : G s = true)
    (c : Nat) (hc : c < 256) :
    P s c (lit s c).m_State (lit s c).m_Tag (lit s c).m_Status = true := by
  have := checkRows_sound G P litRows 0 h s (by rw [litRows_length]; exact hs)
    (by simpa using hG) c hc
  unfold lit
  rw [if_pos hc]
  simpa using this

theorem Region.good_of_check (R : Region) (h : R.check = true) (s : Nat)
    (hs : R.mem s = true) (c : Nat) (hc : c < 256) :
    R.good s c (lit s c).m_State (lit s c).m_Tag (lit s c).m_Status = true := by
  unfold Region.mem at hs
  simp only [Bool.and_eq_true, decide_eq_true_eq] at hs
  exact check_lit _ _ h s hs.2 hs.1 c hc

/-- Inside a region: the bytes keep the parser in the region, every status is
IN_PROGRESS, only the tags of the region are written, and the state tells whether
the last byte was a CR. -/
theorem Region.run_spec (R : Region) (hR : R.check = true) :
    ∀ (X : List Byte) (p : Parser), R.mem p.m_CurrentState = true →
      (∀ c ∈ X, R.B c.val = true) → noCRLFfrom (isCR p.m_CurrentState) X = true →
      R.mem (run p X).m_CurrentState = true ∧ AllZero (statuses p X)
        ∧ (∀ i, R.A i = false → tagAt (run p X) i = tagAt p i)
        ∧ isCR (run p X).m_CurrentState = endsCR (isCR p.m_CurrentState) X
        ∧ (∀ c, X.getLast? = some c → R.T c.val (run p X).m_CurrentState = true) := by
  intro X
  induction X with
  | nil =>
    intro p hs _ _
    refine ⟨hs, AllZero_nil, fun _ _ => rfl, rfl, ?_⟩
    intro c hc
    simp at hc
  | cons c X ih =>
    intro p hs hB hN
    simp only [noCRLFfrom, Bool.and_eq_true, Bool.not_eq_true', Bool.and_eq_false_imp,
      beq_iff_eq] at hN
    have hg := R.good_of_check hR _ hs c.val c.isLt
    have hBc : R.B c.val = true := hB c (List.mem_cons_self _ _)
    have hne : ¬(isCR p.m_CurrentState = true ∧ c.val = 10) := by
      rintro ⟨h1, h2⟩
      have := hN.1 h1
      simp [h2] at this
    unfold Region.good at hg
    rw [hBc] at hg
    have hne' : (isCR p.m_CurrentState && c.val == 10) = false := by
      cases hcr : isCR p.m_CurrentState
      · rfl
      · have : ¬ c.val = 10 := fun h2 => hne ⟨hcr, h2⟩
        simp [this]
    rw [hne'] at hg
    simp only [Bool.not_true, Bool.false_or, Bool.and_eq_true, beq_iff_eq] at hg
    obtain ⟨⟨⟨⟨h1, h2⟩, h3⟩, h4⟩, h5⟩ := hg
    have hst : (feed p c).1.m_CurrentState = (lit p.m_CurrentState c.val).m_State :=
      feed_state p c
    have ih' := ih (feed p c).1 (by rw [hst]; exact h1)
      (fun z hz => hB z (List.mem_cons_of_mem _ hz))
      (by rw [hst, h4]; exact hN.2)
    obtain ⟨i1, i2, i3, i4, i5⟩ := ih'
    refine ⟨by rw [run_cons]; exact i1, ?_, ?_, ?_, ?_⟩
    · show AllZero ((feed p c).2 :: statuses (feed p c).1 X)
      rw [AllZero_cons, feed_snd]
      exact ⟨h2, i2⟩
    · intro i hi
      rw [run_cons, i3 i hi]
      apply feed_tagAt_ne
      intro h
      rw [h, hi] at h3
      cases h3
    · rw [run_cons, i4, hst, h4]
      rfl
    · intro z hz
      rw [run_cons]
      cases X with
      | nil =>
        simp only [List.getLast?_singleton, Option.some.injEq] at hz
        subst hz
        rw [run_nil, hst]
        exact h5
      | cons y Y =>
        apply i5
        simpa [List.getLast?_cons_cons] using hz

/-! ## Single steps and paths -/

@[simp] theorem T_state (a b c : Nat) : (T a b c).m_State = a := rfl
@[simp] theorem T_tag (a b c : Nat) : (T a b c).m_Tag = b := rfl
@[simp] theorem T_status (a b c : Nat) : (T a b c).m_Status = c := rfl

theorem stepsTo_sound (s : Nat) (B : Nat → Bool) (t : Transition) (h : stepsTo s B t = true)
    (c : Byte) (hB : B c.val = true) : lit s c.val = t := by
  have := allBelow_sound _ 256 h c.val c.isLt
  simp only [hB, Bool.not_true, Bool.false_or, decide_eq_true_eq] at this
  exact this

/-- The effect of one byte whose transition is known. -/
theorem feed_known (p : Parser) (c : Byte) (s tg : Nat)
    (h : lit p.m_CurrentState c.val = T s tg 0) :
    (feed p c).1.m_CurrentState = s ∧ (feed p c).2 = 0
      ∧ (∀ i, i ≠ tg → tagAt (feed p c).1 i = tagAt p i)
      ∧ (WF p → tg < 17 → tagAt (feed p c).1 tg = p.m_CurrentPos) := by
  refine ⟨by rw [feed_state, h]; rfl, by rw [feed_snd, h]; rfl, ?_, ?_⟩
  · intro i hi
    apply feed_tagAt_ne
    rw [h]
    exact fun h' => hi h'.symm
  · intro hWF htg
    rw [feed_tagAt, h, if_pos]
    refine ⟨rfl, ?_⟩
    rw [hWF.1]
    exact htg

theorem path_run (M : Nat → Nat → Bool) :
    ∀ (es : List Nat) (s : Nat), pathOK M s es = true →
      ∀ (X : List Byte) (p : Parser), p.m_CurrentState = s → matchesBy M es X = true →
        (run p X).m_CurrentState = pathEnd s es ∧ AllZero (statuses p X)
          ∧ ∀ i, i ≠ 0 → tagAt (run p X) i = tagAt p i := by
  intro es
  induction es with
  | nil =>
    intro s _ X p hs hm
    cases X with
    | nil => exact ⟨hs, AllZero_nil, fun _ _ => rfl⟩
    | cons c cs => simp [matchesBy] at hm
  | cons e es ih =>
    intro s hok X p hs hm
    cases X with
    | nil => simp [matchesBy] at hm
    | cons c cs =>
      simp only [matchesBy, Bool.and_eq_true] at hm
      simp only [pathOK, Bool.and_eq_true] at hok
      have hstep := stepsTo_sound _ _ _ hok.1 c hm.1
      rw [← hs] at hstep
      obtain ⟨k1, k2, k3, _⟩ := feed_known p c _ 0 hstep
      rw [hs] at k1
      obtain ⟨j1, j2, j3⟩ := ih _ hok.2 cs (feed p c).1 k1 hm.2
      refine ⟨by rw [run_cons, j1]; rfl, ?_, ?_⟩
      · show AllZero ((feed p c).2 :: statuses (feed p c).1 cs)
        rw [AllZero_cons]
        exact ⟨k2, j2⟩
      · intro i hi
        rw [run_cons, j3 i hi, k3 i hi]

theorem matchesBy_length (M : Nat → Nat → Bool) :
    ∀ (es : List Nat) (X : List Byte), matchesBy M es X = true → X.length = es.length := by
  intro es
  induction es with
  | nil =>
    intro X h
    cases X with
    | nil => rfl
    | cons c cs => simp [matchesBy] at h
  | cons e es ih =>
    intro X h
    cases X with
    | nil => simp [matchesBy] at h
    | cons c cs =>
      simp only [matchesBy, Bool.and_eq_true] at h
      simp [ih cs h.2]

/-! ## The status line up to the reason phrase -/

theorem prefix_path : pathOK exactly 0 (codes "HTTP/") = true := by decide!

theorem major_first : stepsTo 5 isDigit (T 6 1 0) = true := by decide!
theorem major_more : (digitsRegion 6).check = true := by decide!
theorem major_exit : lit 6 46 = T 7 2 0 := by decide!
theorem minor_first : stepsTo 7 isDigit (T 8 3 0) = true := by decide!
theorem minor_more : (digitsRegion 8).check = true := by decide!
theorem minor_exit : lit 8 32 = T 9 4 0 := by decide!
theorem code_first : stepsTo 9 isDigit (T 10 5 0) = true := by decide!
theorem code_second : stepsTo 10 isDigit (T 11 0 0) = true := by decide!
theorem code_third : stepsTo 11 isDigit (T 12 0 0) = true := by decide!
theorem code_exit : lit 12 32 = T 13 6 0 := by decide!

/-! ## Segments of the input and their composition -/

theorem wlook_append (w2 w1 : List (Nat × Nat)) (i : Nat) :
    wlook (w2 ++ w1) i = (wlook w2 i).orElse (fun _ => wlook w1 i) := by
  induction w2 with
  | nil => rfl
  | cons e w ih =>
    simp only [List.cons_append, wlook]
    split
    · rfl
    · exact ih

theorem wlook_shift (n : Nat) (w : List (Nat × Nat)) (i : Nat) :
    wlook (shift n w) i = (wlook w i).map (fun o => n + o) := by
  induction w with
  | nil => rfl
  | cons e w ih =>
    simp only [shift, List.map_cons, wlook]
    split
    · rfl
    · exact ih

theorem Seg.nil (p : Parser) : Seg p [] p.m_CurrentState [] :=
  ⟨rfl, AllZero_nil, fun _ _ => rfl⟩

theorem Seg.append {p : Parser} {X Y : List Byte} {s1 s2 : Nat} {w1 w2 : List (Nat × Nat)}
    (hWF : WF p) (h1 : Seg p X s1 w1) (h2 : Seg (run p X) Y s2 w2) :
    Seg p (X ++ Y) s2 (shift X.length w2 ++ w1) := by
  obtain ⟨a1, a2, a3⟩ := h1
  obtain ⟨b1, b2, b3⟩ := h2
  refine ⟨by rw [run_append]; exact b1, ?_, ?_⟩
  · rw [statuses_append, AllZero_append]
    exact ⟨a2, b2⟩
  · intro i hi
    rw [run_append, b3 i hi, wlook_append, wlook_shift]
    cases h : wlook w2 i with
    | none => simpa using a3 i hi
    | some o =>
      simp only [Option.elim, Option.map_some', Option.orElse]
      rw [run_pos X p hWF, Nat.mod_add_mod, Nat.add_assoc]

theorem Seg.known {p : Parser} {c : Byte} {s tg : Nat} (hWF : WF p) (htg : tg < 17)
    (h : lit p.m_CurrentState c.val = T s tg 0) : Seg p [c] s [(tg, 0)] := by
  obtain ⟨k1, k2, k3, k4⟩ := feed_known p c s tg h
  refine ⟨k1, ?_, ?_⟩
  · show AllZero ((feed p c).2 :: [])
    rw [AllZero_cons]
    exact ⟨k2, AllZero_nil⟩
  · intro i hi
    show tagAt (feed p c).1 i = _
    simp only [wlook]
    by_cases hti : tg = i
    · subst hti
      rw [if_pos rfl, k4 hWF htg]
      have := hWF.2
      simp only [Option.elim, Nat.add_zero]
      exact (Nat.mod_eq_of_lt this).symm
    · rw [if_neg hti, k3 i (fun h' => hti h'.symm)]
      rfl

theorem Seg.path {M : Nat → Nat → Bool} {es : List Nat} {s : Nat} (hok : pathOK M s es = true)
    {X : List Byte} {p : Parser} (hs : p.m_CurrentState = s) (hm : matchesBy M es X = true) :
    Seg p X (pathEnd s es) [] := by
  obtain ⟨j1, j2, j3⟩ := path_run M es s hok X p hs hm
  exact ⟨j1, j2, fun i hi => by simpa [wlook] using j3 i hi⟩

/-- A segment that only writes the dummy tag, from the facts of a region. -/
theorem Seg.region (R : Region) (hR : R.check = true) (hA : R.A = fun i => i == 0)
    {X : List Byte} {p : Parser} (hs : R.mem p.m_CurrentState = true)
    (hB : ∀ c ∈ X, R.B c.val = true)
    (hN : noCRLFfrom (isCR p.m_CurrentState) X = true) :
    Seg p X (run p X).m_CurrentState [] := by
  obtain ⟨_, r2, r3, _, _⟩ := R.run_spec hR X p hs hB hN
  refine ⟨rfl, r2, ?_⟩
  intro i hi
  simp only [wlook, Option.elim]
  apply r3
  rw [hA]
  simpa using hi

theorem Seg.state {p : Parser} {X : List Byte} {s : Nat} {w : List (Nat × Nat)}
    (h : Seg p X s w) : (run p X).m_CurrentState = s := h.1

theorem noCRLFfrom_of_no_LF (X : List Byte) :
    ∀ b : Bool, (∀ c ∈ X, c.val ≠ 10) → noCRLFfrom b X = true := by
  induction X with
  | nil => intro _ _; rfl
  | cons c cs ih =>
    intro b h
    have hc : c.val ≠ 10 := h c (List.mem_cons_self _ _)
    simp only [noCRLFfrom, Bool.and_eq_true, Bool.not_eq_true', Bool.and_eq_false_imp]
    refine ⟨fun _ => by simpa using hc, ih _ (fun z hz => h z (List.mem_cons_of_mem _ hz))⟩

theorem isDigit_ne_LF (c : Byte) (h : isDigit c.val = true) : c.val ≠ 10 := by
  unfold isDigit at h
  simp only [Bool.and_eq_true, decide_eq_true_eq] at h
  omega

/-- A digit and then more digits: `s0` is the state of the first, required digit,
which goes to the state `s1` of the others and writes the tag `tg`. -/
theorem Seg.digits {s0 s1 tg : Nat} (h0 : stepsTo s0 isDigit (T s1 tg 0) = true)
    (h1 : (digitsRegion s1).check = true) (hs1 : s1 < 85) (htg : tg < 17) {p : Parser}
    (hWF : WF p) (hs : p.m_CurrentState = s0) {ds : List Byte} (hne : ds ≠ [])
    (hd : ∀ c ∈ ds, isDigit c.val = true) : Seg p ds s1 [(tg, 0)] := by
  cases ds with
  | nil => exact absurd rfl hne
  | cons a as =>
    have ha := stepsTo_sound _ _ _ h0 a (hd a (List.mem_cons_self _ _))
    rw [← hs] at ha
    have k := Seg.known hWF htg ha
    have hst : (run p [a]).m_CurrentState = s1 := k.1
    have has : ∀ c ∈ as, isDigit c.val = true := fun z hz => hd z (List.mem_cons_of_mem _ hz)
    have hmem0 : (digitsRegion s1).mem (run p [a]).m_CurrentState = true := by
      rw [hst]
      simp [Region.mem, digitsRegion, hs1]
    have hN := noCRLFfrom_of_no_LF as (isCR (run p [a]).m_CurrentState)
      (fun c hc => isDigit_ne_LF c (has c hc))
    have r := Seg.region (digitsRegion s1) h1 rfl hmem0 has hN
    have hmem := ((digitsRegion s1).run_spec h1 as (run p [a]) hmem0 has hN).1
    have hst2 : (run (run p [a]) as).m_CurrentState = s1 := by
      simp only [Region.mem, digitsRegion, Bool.and_eq_true, beq_iff_eq] at hmem
      exact hmem.1
    rw [hst2] at r
    have := Seg.append hWF k r
    simpa [shift] using this

theorem Seg.congr {p : Parser} {X : List Byte} {s : Nat} {w w' : List (Nat × Nat)}
    (h : Seg p X s w) (hw : w = w') : Seg p X s w' := hw ▸ h

theorem bytes_HTTP_length : (bytes "HTTP/").length = 5 := by decide

/-- The accepted start of a status line: state 13 is reached with the tags of the
two versions and of the status code set. -/
theorem statusPrefix_seg {p : Parser} (hWF : WF p) (hs : p.m_CurrentState = 0)
    {d1 d2 code : List Byte} (h1 : d1 ≠ []) (hd1 : ∀ c ∈ d1, isDigit c.val = true)
    (h2 : d2 ≠ []) (hd2 : ∀ c ∈ d2, isDigit c.val = true)
    (h3 : code.length = 3) (hd3 : ∀ c ∈ code, isDigit c.val = true) :
    Seg p (statusPrefix d1 d2 code) 13
      [(6, 10 + d1.length + d2.length), (5, 7 + d1.length + d2.length),
       (4, 6 + d1.length + d2.length), (3, 6 + d1.length), (2, 5 + d1.length), (1, 5)] := by
  match code, h3, hd3 with
  | [x, y, z], _, hd3 =>
    have hx : isDigit x.val = true := hd3 x (by simp)
    have hy : isDigit y.val = true := hd3 y (by simp)
    have hz : isDigit z.val = true := hd3 z (by simp)
    -- HTTP/
    have k0 : Seg p (bytes "HTTP/") 5 [] :=
      Seg.path (M := exactly) prefix_path hs (by decide)
    -- major version
    have k1 := Seg.append hWF k0
      (Seg.digits major_first major_more (by norm_num) (by norm_num) (run_WF _ _ hWF) k0.1 h1 hd1)
    have k2 := Seg.append hWF k1
      (Seg.known (c := 46) (run_WF _ _ hWF) (by norm_num : 2 < 17) (by rw [k1.1]; exact major_exit))
    -- minor version
    have k3 := Seg.append hWF k2
      (Seg.digits minor_first minor_more (by norm_num) (by norm_num) (run_WF _ _ hWF) k2.1 h2 hd2)
    have k4 := Seg.append hWF k3
      (Seg.known (c := 32) (run_WF _ _ hWF) (by norm_num : 4 < 17) (by rw [k3.1]; exact minor_exit))
    -- status code
    have k5 := Seg.append hWF k4
      (Seg.known (c := x) (run_WF _ _ hWF) (by norm_num : 5 < 17)
        (by rw [k4.1]; exact stepsTo_sound _ _ _ code_first x hx))
    have k6 := Seg.append hWF k5
      (Seg.known (c := y) (run_WF _ _ hWF) (by norm_num : 0 < 17)
        (by rw [k5.1]; exact stepsTo_sound _ _ _ code_second y hy))
    have k7 := Seg.append hWF k6
      (Seg.known (c := z) (run_WF _ _ hWF) (by norm_num : 0 < 17)
        (by rw [k6.1]; exact stepsTo_sound _ _ _ code_third z hz))
    have k8 := Seg.append hWF k7
      (Seg.known (c := 32) (run_WF _ _ hWF) (by norm_num : 6 < 17) (by rw [k7.1]; exact code_exit))
    have hX : statusPrefix d1 d2 [x, y, z] =
        bytes "HTTP/" ++ d1 ++ [46] ++ d2 ++ [32] ++ [x] ++ [y] ++ [z] ++ [32] := by
      simp [statusPrefix]
    rw [hX]
    refine ⟨k8.1, k8.2.1, ?_⟩
    intro i hi
    rw [k8.2.2 i hi]
    simp only [shift, List.map_cons, List.map_nil, List.length_append, bytes_HTTP_length,
      List.length_singleton, List.cons_append, List.nil_append, wlook, List.append_nil]
    simp only [if_neg (Ne.symm hi)]
    split_ifs <;> simp only [Option.elim] <;> congr 1 <;> omega

/-! ## CR LF pairs -/

theorem noCRLFfrom_append (X Y : List Byte) :
    ∀ b : Bool, noCRLFfrom b (X ++ Y) = (noCRLFfrom b X && noCRLFfrom (endsCR b X) Y) := by
  induction X with
  | nil => intro b; simp [noCRLFfrom, endsCR]
  | cons c cs ih =>
    intro b
    show (!(b && c.val == 10) && noCRLFfrom (c.val == 13) (cs ++ Y)) =
      ((!(b && c.val == 10) && noCRLFfrom (c.val == 13) cs)
        && noCRLFfrom (endsCR (c.val == 13) cs) Y)
    rw [ih, Bool.and_assoc]

theorem endsCR_append (X Y : List Byte) :
    ∀ b : Bool, endsCR b (X ++ Y) = endsCR (endsCR b X) Y := by
  induction X with
  | nil => intro b; rfl
  | cons c cs ih =>
    intro b
    show endsCR (c.val == 13) (cs ++ Y) = endsCR (endsCR (c.val == 13) cs) Y
    exact ih _

theorem endsCR_concat (X : List Byte) (c : Byte) (b : Bool) :
    endsCR b (X ++ [c]) = (c.val == 13) := by
  rw [endsCR_append]
  rfl

theorem quiet_check : quietCheck = true := by decide!

theorem quiet_step (s c : Nat) (hs : s < 85) (hc : c < 256) (h : (lit s c).m_Status = 0) :
    (lit s c).m_State < 85 ∧ isCR (lit s c).m_State = (c == 13) ∧ (lit s c).m_Tag < 17 := by
  have := check_lit _ _ quiet_check s hs rfl c hc
  simp only [h, bne_self_eq_false, Bool.false_or, Bool.and_eq_true, decide_eq_true_eq,
    beq_iff_eq] at this
  exact ⟨this.1.1, this.1.2, this.2⟩

/-- While the statuses are IN_PROGRESS the state stays below 85 and tells whether the
last byte was a CR. -/
theorem quiet_run (X : List Byte) :
    ∀ p : Parser, p.m_CurrentState < 85 → AllZero (statuses p X) →
      (run p X).m_CurrentState < 85
        ∧ isCR (run p X).m_CurrentState = endsCR (isCR p.m_CurrentState) X := by
  induction X with
  | nil => intro p hs _; exact ⟨hs, rfl⟩
  | cons c cs ih =>
    intro p hs hz
    have hz' : AllZero ((feed p c).2 :: statuses (feed p c).1 cs) := hz
    rw [AllZero_cons, feed_snd] at hz'
    obtain ⟨q1, q2, _⟩ := quiet_step _ _ hs c.isLt hz'.1
    have := ih (feed p c).1 (by rw [feed_state]; exact q1) hz'.2
    rw [feed_state, q2] at this
    exact ⟨by rw [run_cons]; exact this.1, by rw [run_cons]; exact this.2⟩

/-! ## The trimmers: reason phrase and header values -/

theorem Seg.congr' {p : Parser} {X : List Byte} {s : Nat} {w w' : List (Nat × Nat)}
    (h : Seg p X s w) (hw : ∀ i, i ≠ 0 → wlook w i = wlook w' i) : Seg p X s w' :=
  ⟨h.1, h.2.1, fun i hi => by rw [h.2.2 i hi, hw i hi]⟩

theorem Seg.known0 {p : Parser} {c : Byte} {s : Nat} (hWF : WF p)
    (h : lit p.m_CurrentState c.val = T s 0 0) : Seg p [c] s [] := by
  apply Seg.congr' (Seg.known hWF (by norm_num : 0 < 17) h)
  intro i hi
  simp [wlook, Ne.symm hi]

/-- A stretch that may write the tag `te` at unknown places, followed by a segment
that writes `te`. -/
theorem Seg.append_over {p : Parser} {X Y : List Byte} {s2 : Nat} {w2 : List (Nat × Nat)}
    (te : Nat) (hWF : WF p) (hz : AllZero (statuses p X))
    (hframe : ∀ i, i ≠ 0 → i ≠ te → tagAt (run p X) i = tagAt p i)
    (h2 : Seg (run p X) Y s2 w2) (hte : (wlook w2 te).isSome = true) :
    Seg p (X ++ Y) s2 (shift X.length w2) := by
  obtain ⟨b1, b2, b3⟩ := h2
  refine ⟨by rw [run_append]; exact b1, ?_, ?_⟩
  · rw [statuses_append, AllZero_append]
    exact ⟨hz, b2⟩
  · intro i hi
    rw [run_append, b3 i hi, wlook_shift]
    cases h : wlook w2 i with
    | none =>
      have : i ≠ te := by
        intro hie
        rw [← hie, h] at hte
        cases hte
      simpa using hframe i hi this
    | some o =>
      simp only [Option.elim, Option.map_some']
      rw [run_pos X p hWF, Nat.mod_add_mod, Nat.add_assoc]

theorem isWS_false (c : Nat) (h : isWS c = false) : c ≠ 32 ∧ c ≠ 9 ∧ c ≠ 13 ∧ c ≠ 10 := by
  unfold isWS at h
  simp only [Bool.or_eq_false_iff, beq_eq_false_iff_ne] at h
  exact ⟨h.1.1.1, h.1.1.2, h.1.2, h.2⟩

theorem noCRLFfrom_CR (b : Bool) : noCRLFfrom b [13] = true := by
  cases b <;> rfl

theorem trimmers_ok :
    ∀ f ∈ [3, 4, 5, 6, 7], trimmerOK (trimState f) (tagBegin f) (tagEnd f) = true := by
  decide!

theorem trimmerOK_facts {v tb te : Nat} (h : trimmerOK v tb te = true) :
    TrimmerFacts v tb te := by
  simp only [trimmerOK, Bool.and_eq_true, decide_eq_true_eq, Bool.not_eq_true'] at h
  obtain ⟨⟨⟨⟨⟨⟨⟨⟨⟨⟨⟨⟨⟨⟨a1, a2⟩, a3⟩, a4⟩, a5⟩, a6⟩, a7⟩, a8⟩, a9⟩, a10⟩, a11⟩, a12⟩, a13⟩,
    a14⟩, a15⟩ := h
  exact ⟨a1, a2, a3, a4, a5, a6, a7, a8, a9, a10, a11, a12, a13, a14, a15⟩

theorem leadRegion_mem (v s : Nat) :
    (leadRegion v).mem s = true ↔ (s = v ∨ s = v + 1) ∧ s < 85 := by
  simp [Region.mem, leadRegion]

theorem trailRegion_mem (v te s : Nat) :
    (trailRegion v te).mem s = true ↔ (s = v + 2 ∨ s = v + 3 ∨ s = v + 4) ∧ s < 85 := by
  simp [Region.mem, trailRegion, or_assoc]

theorem tailRegion_mem (v s : Nat) :
    (tailRegion v).mem s = true ↔ (s = v + 3 ∨ s = v + 4) ∧ s < 85 := by
  simp [Region.mem, tailRegion]

/-- An empty or all-whitespace value: the trimmer leaves by CR LF and writes no tag. -/
theorem trimmer_blank {v tb te : Nat} (hok : trimmerOK v tb te = true) {p : Parser}
    (hWF : WF p) (hs : p.m_CurrentState = v) {ws : List Byte}
    (hws : ∀ c ∈ ws, isWS c.val = true) (hN : NoCRLF ws) :
    Seg p (ws ++ CRLF) 18 [] := by
  have F := trimmerOK_facts hok
  have hmem : (leadRegion v).mem p.m_CurrentState = true := by
    rw [leadRegion_mem, hs]
    have := F.bound
    omega
  have hB : ∀ c ∈ ws ++ [13], (leadRegion v).B c.val = true := by
    intro c hc
    rcases List.mem_append.mp hc with h | h
    · exact hws c h
    · rw [List.mem_singleton.mp h]; rfl
  have hN' : noCRLFfrom (isCR p.m_CurrentState) (ws ++ [13]) = true := by
    rw [hs, F.cr0, noCRLFfrom_append, hN, noCRLFfrom_CR]
    rfl
  obtain ⟨r1, _, _, _, r5⟩ := (leadRegion v).run_spec F.lead _ p hmem hB hN'
  have k1 := Seg.region (leadRegion v) F.lead rfl hmem hB hN'
  have hst : (run p (ws ++ [13])).m_CurrentState = v + 1 := by
    have := r5 13 (List.getLast?_concat _)
    simpa [leadRegion] using this
  rw [hst] at k1
  have k2 : Seg (run p (ws ++ [13])) [10] 18 [] :=
    Seg.known0 (run_WF _ _ hWF) (by rw [hst]; exact F.exit1)
  have := Seg.append hWF k1 k2
  have hX : ws ++ CRLF = ws ++ [13] ++ [10] := by simp [CRLF]
  rw [hX]
  exact Seg.congr this (by simp [shift])

theorem snoc_CR_cases (ws2 : List Byte) (hws2 : ∀ c ∈ ws2, isWS c.val = true) :
    ∃ w ws', ws2 ++ [13] = w :: ws' ∧ isWS w.val = true ∧ (∀ c ∈ ws', isWS c.val = true)
      ∧ (ws' = [] → w = 13) ∧ (∀ z, ws'.getLast? = some z → z = 13) := by
  cases ws2 with
  | nil =>
    refine ⟨13, [], rfl, rfl, ?_, fun _ => rfl, ?_⟩
    · intro c hc; cases hc
    · intro z hz; simp at hz
  | cons w ws =>
    refine ⟨w, ws ++ [13], List.cons_append _ _ _, hws2 w (List.mem_cons_self _ _), ?_, ?_, ?_⟩
    · intro c hc
      rcases List.mem_append.mp hc with h | h
      · exact hws2 c (List.mem_cons_of_mem _ h)
      · rw [List.mem_singleton.mp h]; rfl
    · intro h; simp at h
    · intro z hz
      rw [List.getLast?_concat] at hz
      exact (Option.some.inj hz).symm

/-- A value with a byte other than SP, HTAB, CR, LF, written as leading whitespace
`ws1`, the bytes `a :: rest` from the first to the last such byte, and trailing
whitespace `ws2`: the begin tag is the offset of `a`, the end tag is the offset after
the last byte of `rest`, and the trimmer leaves by CR LF. -/
theorem trimmer_value {v tb te : Nat} (hok : trimmerOK v tb te = true) (htb : tb < 17)
    (hte : te < 17) {p : Parser} (hWF : WF p) (hs : p.m_CurrentState = v)
    {ws1 rest ws2 : List Byte} {a : Byte}
    (hws1 : ∀ c ∈ ws1, isWS c.val = true) (hws2 : ∀ c ∈ ws2, isWS c.val = true)
    (ha : isWS a.val = false) (hlast : ∀ z, (a :: rest).getLast? = some z → isWS z.val = false)
    (hN : NoCRLF (ws1 ++ a :: rest ++ ws2)) :
    Seg p (ws1 ++ a :: rest ++ ws2 ++ CRLF) 18
      [(te, ws1.length + (a :: rest).length), (tb, ws1.length)] := by
  have F := trimmerOK_facts hok
  have hb := F.bound
  -- the three parts have no CR LF pair
  have hN0 : noCRLFfrom false (ws1 ++ a :: rest ++ ws2) = true := hN
  rw [noCRLFfrom_append, noCRLFfrom_append, Bool.and_eq_true, Bool.and_eq_true] at hN0
  obtain ⟨⟨n1, n2⟩, n3⟩ := hN0
  have ha13 : (a.val == 13) = false := by
    have := (isWS_false _ ha).2.2.1
    simpa using this
  have hcoreCR : endsCR false (ws1 ++ a :: rest) = false := by
    cases hr : (a :: rest).getLast? with
    | none => simp at hr
    | some z =>
      have hz := (isWS_false _ (hlast z hr)).2.2.1
      obtain ⟨l, hl⟩ : ∃ l, a :: rest = l ++ [z] := by
        have := List.getLast?_eq_some_iff.mp hr
        obtain ⟨l, hl⟩ := this
        exact ⟨l, hl⟩
      rw [hl, ← List.append_assoc, endsCR_concat]
      simpa using hz
  -- leading whitespace
  have hmem1 : (leadRegion v).mem p.m_CurrentState = true := by
    rw [leadRegion_mem, hs]; omega
  have hN1 : noCRLFfrom (isCR p.m_CurrentState) ws1 = true := by
    rw [hs, F.cr0]; exact n1
  obtain ⟨r1, _, _, _, _⟩ := (leadRegion v).run_spec F.lead ws1 p hmem1 hws1 hN1
  have k1 := Seg.region (leadRegion v) F.lead rfl hmem1 hws1 hN1
  -- the first byte of the value
  have hA : lit (run p ws1).m_CurrentState a.val = T (v + 2) tb 0 := by
    rw [leadRegion_mem] at r1
    rcases r1.1 with h | h
    · rw [h]; exact stepsTo_sound _ _ _ F.first0 a (by simp [ha])
    · rw [h]; exact stepsTo_sound _ _ _ F.first1 a (by simp [ha])
  have k2 := Seg.known (run_WF ws1 p hWF) htb hA
  have kA := Seg.append hWF k1 k2
  have hWFA : WF (run p (ws1 ++ [a])) := run_WF _ _ hWF
  have hsA : (run p (ws1 ++ [a])).m_CurrentState = v + 2 := kA.1
  -- the other bytes of the value
  have hmem3 : (trailRegion v te).mem (run p (ws1 ++ [a])).m_CurrentState = true := by
    rw [trailRegion_mem, hsA]; omega
  have hN3 : noCRLFfrom (isCR (run p (ws1 ++ [a])).m_CurrentState) rest = true := by
    rw [hsA, F.cr2]
    simp only [noCRLFfrom, Bool.and_eq_true] at n2
    rw [ha13] at n2
    exact n2.2
  obtain ⟨_, t2, t3, _, t5⟩ :=
    (trailRegion v te).run_spec F.trail rest _ hmem3 (fun _ _ => rfl) hN3
  have hsB : (run (run p (ws1 ++ [a])) rest).m_CurrentState = v + 2 := by
    cases hr : rest.getLast? with
    | none =>
      rw [List.getLast?_eq_none_iff.mp hr, run_nil]
      exact hsA
    | some z =>
      have hz : isWS z.val = false := by
        apply hlast z
        cases rest with
        | nil => simp at hr
        | cons y ys => simpa [List.getLast?_cons_cons] using hr
      have := t5 z hr
      simpa [trailRegion, hz] using this
  have hWFB : WF (run (run p (ws1 ++ [a])) rest) := run_WF _ _ hWFA
  -- trailing whitespace and the CR
  obtain ⟨w, ws', hw, hwWS, hwsWS, hw1, hw2⟩ := snoc_CR_cases ws2 hws2
  have hN4 : noCRLFfrom false (w :: ws') = true := by
    rw [← hw, noCRLFfrom_append, noCRLFfrom_CR, Bool.and_true]
    rw [hcoreCR] at n3
    exact n3
  have hstepW : lit (run (run p (ws1 ++ [a])) rest).m_CurrentState w.val =
      T (if w.val == 13 then v + 4 else v + 3) te 0 := by
    rw [hsB]
    by_cases h13 : w.val = 13
    · rw [h13]; simpa using F.endCR
    · have : (w.val == 13) = false := by simpa using h13
      rw [this]
      exact stepsTo_sound _ _ _ F.endWS w (by simp [hwWS, h13])
  have k4 := Seg.known hWFB hte hstepW
  have hs4 : (run (run (run p (ws1 ++ [a])) rest) [w]).m_CurrentState =
      if w.val == 13 then v + 4 else v + 3 := k4.1
  have hcr4 : isCR (run (run (run p (ws1 ++ [a])) rest) [w]).m_CurrentState = (w.val == 13) := by
    rw [hs4]
    cases h : (w.val == 13)
    · simpa using F.cr3
    · simpa using F.cr4
  have hmem5 : (tailRegion v).mem (run (run (run p (ws1 ++ [a])) rest) [w]).m_CurrentState
      = true := by
    rw [tailRegion_mem, hs4]
    split <;> omega
  have hN5 : noCRLFfrom (isCR (run (run (run p (ws1 ++ [a])) rest) [w]).m_CurrentState) ws'
      = true := by
    rw [hcr4]
    simp only [noCRLFfrom, Bool.and_eq_true] at hN4
    exact hN4.2
  obtain ⟨_, _, _, _, u5⟩ := (tailRegion v).run_spec F.tail ws' _ hmem5 hwsWS hN5
  have k5 := Seg.region (tailRegion v) F.tail rfl hmem5 hwsWS hN5
  have hs5 : (run (run (run (run p (ws1 ++ [a])) rest) [w]) ws').m_CurrentState = v + 4 := by
    cases hr : ws'.getLast? with
    | none =>
      have hnil := List.getLast?_eq_none_iff.mp hr
      rw [hnil, run_nil, hs4, hw1 hnil]
      rfl
    | some z =>
      have := u5 z hr
      rw [hw2 z hr] at this
      simpa [tailRegion] using this
  rw [hs5] at k5
  have k6 : Seg (run (run (run (run p (ws1 ++ [a])) rest) [w]) ws') [10] 18 [] :=
    Seg.known0 (run_WF _ _ (run_WF _ _ hWFB)) (by rw [hs5]; exact F.exit4)
  have k45 := Seg.append hWFB k4 k5
  rw [← run_append] at k6
  have kC := Seg.append hWFB k45 k6
  have kBC := Seg.append_over te hWFA t2
    (fun i h0 hte' => t3 i (by simp [trailRegion, h0, hte'])) kC (by simp [shift, wlook])
  have kAll := Seg.append hWF kA kBC
  have hX : ws1 ++ a :: rest ++ ws2 ++ CRLF = ws1 ++ [a] ++ (rest ++ ([w] ++ ws' ++ [10])) := by
    have : ws2 ++ CRLF = [w] ++ ws' ++ [10] := by
      have : ws2 ++ CRLF = (ws2 ++ [13]) ++ [10] := by simp [CRLF]
      rw [this, hw]
      simp
    rw [List.append_assoc (ws1 ++ a :: rest), this]
    simp
  rw [hX]
  apply Seg.congr' kAll
  intro i hi
  simp only [shift, List.map_cons, List.map_nil, List.map_append, List.length_append,
    List.length_singleton, List.cons_append, List.nil_append, wlook, List.append_nil,
    List.length_cons, List.length_nil, Nat.add_zero]
  split_ifs <;> first | rfl | (congr 1; omega)

/-! ## Lines of the header block -/

theorem line_first : lineFirstOK = true := by decide!
theorem line_region : lineRegion.check = true := by decide!
theorem line_exit : lineExitOK = true := by decide!
theorem names_ok : namesOK = true := by decide!

theorem names_facts (h : Nat) (hh : h ∈ [4, 5, 6, 7]) :
    pathOK upToCase 18 (nameCodes h) = true
      ∧ lit (pathEnd 18 (nameCodes h)) 58 = T (valueState h) 0 0 := by
  have := names_ok
  simp only [namesOK, List.all_eq_true, Bool.and_eq_true, decide_eq_true_eq] at this
  exact this h hh

theorem NoCRLF_snoc_CR (L : List Byte) (h : NoCRLF L) : noCRLFfrom false (L ++ [13]) = true := by
  rw [noCRLFfrom_append, h, noCRLFfrom_CR]
  rfl

/-- Any line that is not empty and has no CR LF pair, read from the line start up to
its CR LF: the parser is at the line start again, no status but IN_PROGRESS was
returned, and the tags of the status line are untouched. -/
theorem line_run {p : Parser} (hs : p.m_CurrentState = 18) {L : List Byte} (hne : L ≠ [])
    (hN : NoCRLF L) :
    (run p (L ++ CRLF)).m_CurrentState = 18 ∧ AllZero (statuses p (L ++ CRLF))
      ∧ ∀ i, 1 ≤ i → i ≤ 8 → tagAt (run p (L ++ CRLF)) i = tagAt p i := by
  cases L with
  | nil => exact absurd rfl hne
  | cons c L' =>
    have hX : c :: L' ++ CRLF = [c] ++ ((L' ++ [13]) ++ [10]) := by simp [CRLF]
    rw [hX]
    -- the first byte
    have h1 := check_lit _ _ line_first 18 (by norm_num) rfl c.val c.isLt
    simp only [Bool.and_eq_true, decide_eq_true_eq, beq_iff_eq] at h1
    obtain ⟨⟨⟨⟨a1, a2⟩, a3⟩, a4⟩, a5⟩ := h1
    have e1 : (run p [c]).m_CurrentState = (lit 18 c.val).m_State := by
      rw [run_cons, run_nil, feed_state, hs]
    have e2 : statuses p [c] = [0] := by
      show [(feed p c).2] = [0]
      rw [feed_snd, hs, a3]
    have e3 : ∀ i, i ≠ 0 → tagAt (run p [c]) i = tagAt p i := by
      intro i hi
      rw [run_cons, run_nil]
      apply feed_tagAt_ne
      rw [hs, a4]
      exact fun h => hi h.symm
    -- the other bytes and the CR
    have hN0 : noCRLFfrom false (c :: L' ++ [13]) = true := NoCRLF_snoc_CR _ hN
    have hmem : lineRegion.mem (run p [c]).m_CurrentState = true := by
      rw [e1]
      simp [Region.mem, lineRegion, a1, a2]
    have hN1 : noCRLFfrom (isCR (run p [c]).m_CurrentState) (L' ++ [13]) = true := by
      rw [e1, a5]
      simp only [List.cons_append, noCRLFfrom, Bool.and_eq_true] at hN0
      exact hN0.2
    obtain ⟨r1, r2, r3, r4, r5⟩ :=
      lineRegion.run_spec line_region (L' ++ [13]) _ hmem (fun _ _ => rfl) hN1
    have hcr : isCR (run (run p [c]) (L' ++ [13])).m_CurrentState = true := by
      rw [r4, endsCR_concat]
      rfl
    have h21 : (run (run p [c]) (L' ++ [13])).m_CurrentState ≠ 21 := by
      have := r5 13 (List.getLast?_concat _)
      simpa [lineRegion] using this
    simp only [Region.mem, lineRegion, Bool.and_eq_true, decide_eq_true_eq] at r1
    -- the LF
    have h2 := check_lit _ _ line_exit _ r1.2
      (by simp only [Bool.and_eq_true, decide_eq_true_eq, hcr, bne_iff_ne]
          exact ⟨⟨by omega, trivial⟩, h21⟩) 10 (by norm_num)
    simp only [bne_self_eq_false, Bool.false_or, Bool.and_eq_true, beq_iff_eq] at h2
    obtain ⟨⟨b1, b2⟩, b3⟩ := h2
    refine ⟨?_, ?_, ?_⟩
    · rw [run_append, run_append, run_cons, run_nil, feed_state]
      exact b1
    · rw [statuses_append, statuses_append, e2, AllZero_append, AllZero_append]
      refine ⟨by simp [AllZero], r2, ?_⟩
      show AllZero [(feed _ 10).2]
      rw [feed_snd]
      intro x hx
      rw [List.mem_singleton.mp hx]
      exact b3
    · intro i hi1 hi8
      rw [run_append, run_append, run_cons, run_nil, feed_tagAt_ne, r3, e3]
      · omega
      · simp only [lineRegion, Bool.or_eq_false_iff, beq_eq_false_iff_ne,
          decide_eq_false_iff_not]
        omega
      · show (lit _ (10 : Byte).val).m_Tag ≠ i
        have : ((10 : Byte).val) = 10 := rfl
        rw [this, b2]
        omega

/-- The empty line that ends the header block: SUCCESS on its LF. -/
theorem final_line {p : Parser} (hs : p.m_CurrentState = 18) : statuses p CRLF = [0, 1] := by
  show [(feed p 13).2, (feed (feed p 13).1 10).2] = [0, 1]
  rw [feed_snd, feed_snd, feed_state, hs]
  decide

/-! ## Trimming as a decomposition of the value -/

theorem rdropWhile_split {α : Type} (q : α → Bool) (l : List α) :
    ∃ ws, l = l.rdropWhile q ++ ws ∧ ∀ x ∈ ws, q x = true := by
  induction l using List.reverseRecOn with
  | nil => exact ⟨[], by simp, by simp⟩
  | append_singleton l x ih =>
    by_cases hx : q x = true
    · obtain ⟨ws, h1, h2⟩ := ih
      refine ⟨ws ++ [x], ?_, ?_⟩
      · rw [List.rdropWhile_concat_pos _ _ _ hx, ← List.append_assoc, ← h1]
      · intro y hy
        rcases List.mem_append.mp hy with h | h
        · exact h2 y h
        · rw [List.mem_singleton.mp h]; exact hx
    · refine ⟨[], ?_, by simp⟩
      rw [List.rdropWhile_concat_neg _ _ _ hx]
      simp

/-- A value is all whitespace, or it is whitespace, then the bytes from the first to
the last byte that is not whitespace, then whitespace; `trim` gives the middle. -/
theorem trim_cases (V : List Byte) :
    ((∀ c ∈ V, isWS c.val = true) ∧ trim V = []) ∨
      ∃ ws1 a rest ws2, V = ws1 ++ a :: rest ++ ws2 ∧ (∀ c ∈ ws1, isWS c.val = true)
        ∧ (∀ c ∈ ws2, isWS c.val = true) ∧ isWS a.val = false
        ∧ (∀ z, (a :: rest).getLast? = some z → isWS z.val = false)
        ∧ trim V = a :: rest ∧ V.takeWhile (fun c : Byte => isWS c.val) = ws1 := by
  have hsplit := List.takeWhile_append_dropWhile (fun c : Byte => isWS c.val) V
  cases hD : V.dropWhile (fun c : Byte => isWS c.val) with
  | nil =>
    left
    refine ⟨?_, ?_⟩
    · have := List.dropWhile_eq_nil_iff.mp hD
      intro c hc
      exact this c hc
    · unfold trim
      rw [hD]
      rfl
  | cons a t =>
    right
    have ha : isWS a.val = false := by
      have := List.head?_dropWhile_not (fun c : Byte => isWS c.val) V
      rw [hD] at this
      simpa using this
    obtain ⟨ws2, h1, h2⟩ := rdropWhile_split (fun c : Byte => isWS c.val) (a :: t)
    have hne : (a :: t).rdropWhile (fun c : Byte => isWS c.val) ≠ [] := by
      intro h
      have := List.rdropWhile_eq_nil_iff.mp h a (List.mem_cons_self _ _)
      rw [ha] at this
      cases this
    cases hcore : (a :: t).rdropWhile (fun c : Byte => isWS c.val) with
    | nil => exact absurd hcore hne
    | cons a' rest =>
      rw [hcore] at h1
      have haa : a' = a := by
        simp only [List.cons_append, List.cons.injEq] at h1
        exact h1.1.symm
      subst haa
      refine ⟨V.takeWhile (fun c : Byte => isWS c.val), a', rest, ws2, ?_, ?_, h2, ha, ?_, ?_⟩
      · rw [List.append_assoc, ← h1, ← hD, hsplit]
      · intro c hc
        exact List.mem_takeWhile_imp (p := fun c : Byte => isWS c.val) hc
      · intro z hz
        have := List.rdropWhile_last_not (fun c : Byte => isWS c.val) (a' :: t) hne
        have hz' : z = ((a' :: t).rdropWhile (fun c : Byte => isWS c.val)).getLast hne := by
          have h3 : ((a' :: t).rdropWhile (fun c : Byte => isWS c.val)).getLast? = some z := by
            rw [hcore]; exact hz
          rw [List.getLast?_eq_getLast _ hne] at h3
          exact (Option.some.inj h3).symm
        rw [← hz'] at this
        simpa using this
      · unfold trim
        rw [hD, hcore]
        exact ⟨rfl, rfl⟩

/-- The trimmer on any value without a CR LF pair: it leaves by the CR LF that
follows, and the tags of the fragment get the span of the trimmed value, or are not
written when the value is empty or all whitespace. -/
theorem trimmer_run {v tb te : Nat} (hok : trimmerOK v tb te = true) (htb : tb < 17)
    (hte : te < 17) {p : Parser} (hWF : WF p) (hs : p.m_CurrentState = v)
    {V : List Byte} (hN : NoCRLF V) :
    Seg p (V ++ CRLF) 18 (spanWrites tb te (trimSpan V)) := by
  rcases trim_cases V with ⟨hws, ht⟩ | ⟨ws1, a, rest, ws2, hV, h1, h2, ha, hl, ht, htw⟩
  · have : trimSpan V = none := by
      unfold trimSpan
      rw [if_pos ht]
    rw [this]
    exact trimmer_blank hok hWF hs hws hN
  · have : trimSpan V = some (ws1.length, ws1.length + (a :: rest).length) := by
      unfold trimSpan
      rw [if_neg (by rw [ht]; exact List.cons_ne_nil _ _), htw, ht]
    rw [this]
    have hN' : NoCRLF (ws1 ++ a :: rest ++ ws2) := hV ▸ hN
    have := trimmer_value hok htb hte hWF hs h1 h2 ha hl hN'
    rw [hV]
    exact this

theorem reason_ok : trimmerOK 13 7 8 = true := trimmers_ok 3 (by decide)

/-- The header lines of a message, each not empty and without a CR LF pair: the
parser goes from line start to line start with every status IN_PROGRESS and the
tags of the status line untouched. -/
theorem lines_run (ls : List (List Byte)) :
    ∀ p : Parser, p.m_CurrentState = 18 → (∀ l ∈ ls, l ≠ [] ∧ NoCRLF l) →
      (run p (joinLines ls)).m_CurrentState = 18 ∧ AllZero (statuses p (joinLines ls))
        ∧ ∀ i, 1 ≤ i → i ≤ 8 → tagAt (run p (joinLines ls)) i = tagAt p i := by
  induction ls with
  | nil =>
    intro p hs _
    exact ⟨hs, AllZero_nil, fun _ _ _ => rfl⟩
  | cons l ls ih =>
    intro p hs hl
    have hX : joinLines (l :: ls) = (l ++ CRLF) ++ joinLines ls := by
      simp [joinLines]
    obtain ⟨a1, a2, a3⟩ := line_run hs (hl l (List.mem_cons_self _ _)).1
      (hl l (List.mem_cons_self _ _)).2
    obtain ⟨b1, b2, b3⟩ := ih (run p (l ++ CRLF)) a1
      (fun x hx => hl x (List.mem_cons_of_mem _ hx))
    rw [hX]
    refine ⟨by rw [run_append]; exact b1, ?_, ?_⟩
    · rw [statuses_append, AllZero_append]
      exact ⟨a2, b2⟩
    · intro i h1 h8
      rw [run_append, b3 i h1 h8, a3 i h1 h8]

theorem fresh_WF : WF ({} : Parser) := by
  constructor
  · decide
  · show (0 : Nat) < 2 ^ 32
    norm_num

/-- The statuses of a whole message: IN_PROGRESS for every byte but the last, SUCCESS
for the last. -/
theorem message_statuses (d1 d2 code r : List Byte) (ls : List (List Byte))
    (h1 : d1 ≠ []) (hd1 : ∀ c ∈ d1, isDigit c.val = true)
    (h2 : d2 ≠ []) (hd2 : ∀ c ∈ d2, isDigit c.val = true)
    (h3 : code.length = 3) (hd3 : ∀ c ∈ code, isDigit c.val = true)
    (hr : NoCRLF r) (hls : ∀ l ∈ ls, l ≠ [] ∧ NoCRLF l) :
    statuses {} (message d1 d2 code r ls) =
      List.replicate ((message d1 d2 code r ls).length - 1) IN_PROGRESS ++ [SUCCESS] := by
  have k1 := statusPrefix_seg fresh_WF rfl h1 hd1 h2 hd2 h3 hd3
  have k2 := trimmer_run reason_ok (by norm_num) (by norm_num) (run_WF _ _ fresh_WF) k1.1 hr
  have k12 := Seg.append fresh_WF k1 k2
  obtain ⟨l1, l2, _⟩ := lines_run ls _ k12.1 hls
  have hfin := final_line l1
  have hX : message d1 d2 code r ls =
      (statusPrefix d1 d2 code ++ (r ++ CRLF)) ++ joinLines ls ++ CRLF := by
    simp [message]
  have hZ : AllZero (statuses {} (statusPrefix d1 d2 code ++ (r ++ CRLF) ++ joinLines ls)) := by
    rw [statuses_append, AllZero_append]
    exact ⟨k12.2.1, l2⟩
  have hall : statuses {} (message d1 d2 code r ls) =
      statuses {} (statusPrefix d1 d2 code ++ (r ++ CRLF) ++ joinLines ls) ++ [0, 1] := by
    rw [hX, statuses_append, run_append, hfin]
  have hlen := statuses_length (message d1 d2 code r ls) {}
  rw [hall] at hlen ⊢
  rw [AllZero_eq_replicate _ hZ]
  have : (List.replicate
      (statuses {} (statusPrefix d1 d2 code ++ (r ++ CRLF) ++ joinLines ls)).length 0
        ++ [0, 1] : List Nat) = List.replicate
      ((statuses {} (statusPrefix d1 d2 code ++ (r ++ CRLF) ++ joinLines ls)).length + 1) 0
        ++ [1] := by
    rw [List.replicate_succ']
    simp
  rw [this]
  simp only [List.length_append, List.length_cons, List.length_nil] at hlen
  have h4 : (message d1 d2 code r ls).length - 1 =
      (statuses {} (statusPrefix d1 d2 code ++ (r ++ CRLF) ++ joinLines ls)).length + 1 := by
    omega
  rw [h4]
  rfl

/-! ## Fragments as slices of the input -/

theorem getFragment_eq (p : Parser) (f : Nat) :
    getFragment p f = (tagAt p (tagBegin f), tagAt p (tagEnd f)) := rfl

theorem isFragmentFound_eq (p : Parser) (f : Nat) :
    isFragmentFound p f = (tagAt p (tagEnd f) != 0) := rfl

/-- The fragment string when the tags delimit the part `core` of the input. -/
theorem getFragmentStr_slice (p : Parser) (f : Nat) (A core B : List Byte)
    (hb : tagAt p (tagBegin f) = A.length) (he : tagAt p (tagEnd f) = A.length + core.length)
    (hlt : A.length + core.length < 2 ^ 64) :
    getFragmentStr p (A ++ core ++ B) f = some core := by
  have hb' : p.m_SavedTagOffsets.getD (tagBegin f) 0 = A.length := hb
  have he' : p.m_SavedTagOffsets.getD (tagEnd f) 0 = A.length + core.length := he
  unfold getFragmentStr
  simp only [hb', he']
  rw [if_neg (by simp)]
  have h1 : (A.length + core.length + 2 ^ 64 - A.length) % 2 ^ 64 = core.length := by
    have : A.length + core.length + 2 ^ 64 - A.length = core.length + 2 ^ 64 := by omega
    rw [this, Nat.add_mod_right]
    apply Nat.mod_eq_of_lt
    omega
  rw [h1, List.append_assoc, List.drop_left, List.take_left]

/-- The fragment string of a fragment whose tags are both zero is empty. -/
theorem getFragmentStr_zero (p : Parser) (f : Nat) (input : List Byte)
    (hb : tagAt p (tagBegin f) = 0) (he : tagAt p (tagEnd f) = 0) :
    getFragmentStr p input f = some [] := by
  have hb' : p.m_SavedTagOffsets.getD (tagBegin f) 0 = 0 := hb
  have he' : p.m_SavedTagOffsets.getD (tagEnd f) 0 = 0 := he
  unfold getFragmentStr
  simp only [hb', he']
  simp

/-! ## C10: the prefix -/

theorem prefix_ok : prefixOK = true := by decide!

theorem prefix_facts (i : Nat) (hi : i < 5) :
    pathOK exactly 0 ((codes "HTTP/").take i) = true
      ∧ pathEnd 0 ((codes "HTTP/").take i) = i
      ∧ matchesBy exactly ((codes "HTTP/").take i) ((bytes "HTTP/").take i) = true
      ∧ stepsTo i (fun c => c != (codes "HTTP/").getD i 0) (T 0 0 2) = true
      ∧ (bytes "HTTP/").get? i = some (Fin.ofNat ((codes "HTTP/").getD i 0))
      ∧ (codes "HTTP/").getD i 0 < 256 := by
  have := allBelow_sound _ 5 prefix_ok i hi
  simp only [Bool.and_eq_true, decide_eq_true_eq] at this
  obtain ⟨⟨⟨⟨⟨a1, a2⟩, a3⟩, a4⟩, a5⟩, a6⟩ := this
  exact ⟨a1, a2, a3, a4, a5, a6⟩

theorem take_succ_of_append {α : Type} (A : List α) (b : α) (B : List α) :
    (A ++ b :: B).take (A.length + 1) = A ++ [b] := by
  have : A ++ b :: B = (A ++ [b]) ++ B := by simp
  rw [this]
  have h2 : A.length + 1 = (A ++ [b]).length := by simp
  rw [h2, List.take_left]

/-! ## C2: the fragments of the status line -/

theorem late_ok : lateOK = true := by decide!

/-- After the status code the tags 1 to 6 are not written any more, as long as the
statuses before the last byte are IN_PROGRESS. -/
theorem late_run (X : List Byte) :
    ∀ p : Parser, 13 ≤ p.m_CurrentState → p.m_CurrentState < 85 →
      AllZero (statuses p X).dropLast →
      ∀ i, 1 ≤ i → i ≤ 6 → tagAt (run p X) i = tagAt p i := by
  induction X with
  | nil => intro p _ _ _ i _ _; rfl
  | cons c cs ih =>
    intro p h13 h85 hz i h1 h6
    have hg := check_lit _ _ late_ok _ h85 (by simpa using h13) c.val c.isLt
    simp only [Bool.and_eq_true, Bool.or_eq_true, beq_iff_eq, decide_eq_true_eq,
      bne_iff_ne] at hg
    have htag : tagAt (feed p c).1 i = tagAt p i := by
      apply feed_tagAt_ne
      rcases hg.1 with h | h <;> omega
    rw [run_cons]
    cases cs with
    | nil => rw [run_nil]; exact htag
    | cons d ds =>
      have hz' : AllZero ((feed p c).2 :: (statuses (feed p c).1 (d :: ds)).dropLast) := by
        have : (statuses p (c :: d :: ds)).dropLast =
            (feed p c).2 :: (statuses (feed p c).1 (d :: ds)).dropLast := rfl
        rw [← this]
        exact hz
      rw [AllZero_cons, feed_snd] at hz'
      have hst : 13 ≤ (lit p.m_CurrentState c.val).m_State := by
        rcases hg.2 with h | h
        · exact absurd hz'.1 h
        · exact h
      have hq := quiet_step _ _ h85 c.isLt hz'.1
      rw [ih (feed p c).1 (by rw [feed_state]; exact hst) (by rw [feed_state]; exact hq.1)
        hz'.2 i h1 h6]
      exact htag

theorem tagAt_fresh (i : Nat) : tagAt ({} : Parser) i = 0 := by
  unfold tagAt
  exact getD_replicate_self 0 NUM_TAGS i

/-- The tags of the versions and of the status code once the start of the status
line has been read, whatever follows it up to a final status. -/
theorem status_tags (p : Parser) (hWF : WF p) (hs : p.m_CurrentState = 0)
    (d1 d2 code rest : List Byte)
    (h1 : d1 ≠ []) (hd1 : ∀ c ∈ d1, isDigit c.val = true)
    (h2 : d2 ≠ []) (hd2 : ∀ c ∈ d2, isDigit c.val = true)
    (h3 : code.length = 3) (hd3 : ∀ c ∈ code, isDigit c.val = true)
    (hq : AllZero (statuses p (statusPrefix d1 d2 code ++ rest)).dropLast) :
    tagAt (run p (statusPrefix d1 d2 code ++ rest)) 1 = (p.m_CurrentPos + 5) % 2 ^ 32
    ∧ tagAt (run p (statusPrefix d1 d2 code ++ rest)) 2
        = (p.m_CurrentPos + (5 + d1.length)) % 2 ^ 32
    ∧ tagAt (run p (statusPrefix d1 d2 code ++ rest)) 3
        = (p.m_CurrentPos + (6 + d1.length)) % 2 ^ 32
    ∧ tagAt (run p (statusPrefix d1 d2 code ++ rest)) 4
        = (p.m_CurrentPos + (6 + d1.length + d2.length)) % 2 ^ 32
    ∧ tagAt (run p (statusPrefix d1 d2 code ++ rest)) 5
        = (p.m_CurrentPos + (7 + d1.length + d2.length)) % 2 ^ 32
    ∧ tagAt (run p (statusPrefix d1 d2 code ++ rest)) 6
        = (p.m_CurrentPos + (10 + d1.length + d2.length)) % 2 ^ 32 := by
  have k := statusPrefix_seg hWF hs h1 hd1 h2 hd2 h3 hd3
  have hq' : AllZero (statuses (run p (statusPrefix d1 d2 code)) rest).dropLast := by
    rw [statuses_append] at hq
    cases hr : statuses (run p (statusPrefix d1 d2 code)) rest with
    | nil => exact AllZero_nil
    | cons x xs =>
      rw [hr, List.dropLast_append_of_ne_nil _ (List.cons_ne_nil _ _), AllZero_append] at hq
      exact hq.2
  have hl := late_run rest (run p (statusPrefix d1 d2 code)) (by rw [k.1]) (by rw [k.1]; norm_num)
    hq'
  rw [run_append]
  refine ⟨?_, ?_, ?_, ?_, ?_, ?_⟩
  · rw [hl 1 (by norm_num) (by norm_num), k.2.2 1 (by norm_num)]; rfl
  · rw [hl 2 (by norm_num) (by norm_num), k.2.2 2 (by norm_num)]; rfl
  · rw [hl 3 (by norm_num) (by norm_num), k.2.2 3 (by norm_num)]; rfl
  · rw [hl 4 (by norm_num) (by norm_num), k.2.2 4 (by norm_num)]; rfl
  · rw [hl 5 (by norm_num) (by norm_num), k.2.2 5 (by norm_num)]; rfl
  · rw [hl 6 (by norm_num) (by norm_num), k.2.2 6 (by norm_num)]; rfl

/-! ## Running the code on a given input -/

theorem feed_eq_sim (p : Parser) (c : Byte) : feed p c = simFeed p c := by
  apply Prod.ext
  · exact feed_fst p c
  · exact feed_snd p c

theorem run_eq_sim (X : List Byte) : ∀ p : Parser, run p X = simRun p X := by
  induction X with
  | nil => intro p; rfl
  | cons c cs ih =>
    intro p
    show run (feed p c).1 cs = simRun (simFeed p c).1 cs
    rw [feed_eq_sim, ih]

theorem statuses_eq_sim (X : List Byte) : ∀ p : Parser, statuses p X = simStatuses p X := by
  induction X with
  | nil => intro p; rfl
  | cons c cs ih =>
    intro p
    show (feed p c).2 :: statuses (feed p c).1 cs
      = (simFeed p c).2 :: simStatuses (simFeed p c).1 cs
    rw [feed_eq_sim, ih]

theorem AllZero_dropLast (l : List Nat) (h : AllZero l) : AllZero l.dropLast :=
  fun x hx => h x (List.mem_of_mem_dropLast hx)

theorem wrapLength_eq : wrapLength = 4294967291 := by
  unfold wrapLength
  norm_num

theorem replicate_ne_nil (c : Byte) : List.replicate wrapLength c ≠ [] := by
  intro h
  have := congrArg List.length h
  rw [List.length_replicate, wrapLength_eq] at this
  cases this

theorem replicate_digits (n : Nat) (c : Byte) (hc : isDigit c.val = true) :
    ∀ x ∈ List.replicate n c, isDigit x.val = true := by
  intro x hx
  rw [List.eq_of_mem_replicate hx]
  exact hc

/-! ## Lines that are not lines of a given header -/

theorem frames_ok : ∀ h ∈ [4, 5, 6, 7], frameOK h = true := by decide!

theorem frame_facts (h : Nat) (hh : h ∈ [4, 5, 6, 7]) :
    (deadRegion h).check = true
      ∧ checkRows (dead h) (fun _ _ _ b _ => otherTags h b) 0 litRows = true
      ∧ pathOK upToCase 18 (nameCodes h ++ [58]) = true
      ∧ offPathOK h 18 (nameCodes h ++ [58]) = true := by
  have := frames_ok h hh
  simp only [frameOK, Bool.and_eq_true] at this
  exact ⟨this.1.1.1, this.1.1.2, this.1.2, this.2⟩

theorem diverges_of_not_match :
    ∀ (es : List Nat) (L : List Byte), (∀ e ∈ es, upToCase e 13 = false) →
      matchesBy upToCase es (L.take es.length) = false → diverges es (L ++ [13]) = true := by
  intro es
  induction es with
  | nil =>
    intro L _ h
    simp [matchesBy] at h
  | cons e es ih =>
    intro L h13 h
    cases L with
    | nil =>
      show (if upToCase e (13 : Byte).val then diverges es [] else true) = true
      have : upToCase e (13 : Byte).val = false := h13 e (List.mem_cons_self _ _)
      rw [this]
      rfl
    | cons x L' =>
      show (if upToCase e x.val then diverges es (L' ++ [13]) else true) = true
      by_cases hx : upToCase e x.val = true
      · rw [if_pos hx]
        apply ih L' (fun e' he' => h13 e' (List.mem_cons_of_mem _ he'))
        simp only [List.length_cons, List.take_succ_cons, matchesBy, hx, Bool.true_and] at h
        exact h
      · rw [if_neg hx]

theorem offPath_not_CR (h : Nat) :
    ∀ (es : List Nat) (s : Nat), offPathOK h s es = true → ∀ e ∈ es, upToCase e 13 = false := by
  intro es
  induction es with
  | nil => intro _ _ e he; cases he
  | cons e0 es ih =>
    intro s hok e he
    simp only [offPathOK, Bool.and_eq_true, Bool.not_eq_true'] at hok
    rcases List.mem_cons.mp he with h1 | h1
    · rw [h1]; exact hok.1.1
    · exact ih _ hok.2 e h1

/-- The bytes that leave the path of a name: up to the byte that leaves it, only the
dummy tag is written; after it the value of `h` is out of reach. -/
theorem diverge_run (h : Nat) :
    ∀ (es : List Nat) (s : Nat), pathOK upToCase s es = true → offPathOK h s es = true →
      ∀ (X : List Byte) (p : Parser), p.m_CurrentState = s → diverges es X = true →
        noCRLFfrom false X = true →
        ∃ A c B, X = A ++ c :: B ∧ (∀ i, i ≠ 0 → tagAt (run p (A ++ [c])) i = tagAt p i)
          ∧ (deadRegion h).mem (run p (A ++ [c])).m_CurrentState = true
          ∧ noCRLFfrom (isCR (run p (A ++ [c])).m_CurrentState) B = true := by
  intro es
  induction es with
  | nil => intro s _ _ X p _ hd _; simp [diverges] at hd
  | cons e es ih =>
    intro s hp ho X p hs hd hN
    cases X with
    | nil => simp [diverges] at hd
    | cons x X' =>
      simp only [pathOK, Bool.and_eq_true] at hp
      simp only [offPathOK, Bool.and_eq_true, Bool.not_eq_true'] at ho
      simp only [noCRLFfrom, Bool.false_and, Bool.not_false, Bool.true_and] at hN
      by_cases hx : upToCase e x.val = true
      · -- the byte is the expected one
        have hx13 : (x.val == 13) = false := by
          cases h13 : (x.val == 13)
          · rfl
          · have : x.val = 13 := by simpa using h13
            rw [this, ho.1.1] at hx
            cases hx
        have hstep := stepsTo_sound _ _ _ hp.1 x hx
        rw [← hs] at hstep
        obtain ⟨k1, _, k3, _⟩ := feed_known p x _ 0 hstep
        rw [hs] at k1
        have hd' : diverges es X' = true := by
          simp only [diverges, hx, if_true] at hd
          exact hd
        rw [hx13] at hN
        obtain ⟨A, c, B, e1, e2, e3, e4⟩ := ih _ hp.2 ho.2 X' (feed p x).1 k1 hd' hN
        refine ⟨x :: A, c, B, by rw [e1]; rfl, ?_, e3, e4⟩
        intro i hi
        show tagAt (run (feed p x).1 (A ++ [c])) i = tagAt p i
        rw [e2 i hi, k3 i hi]
      · -- the byte leaves the path
        have hg := allBelow_sound _ 256 ho.1.2 x.val x.isLt
        simp only [Bool.or_eq_true, hx, false_or, Bool.false_eq_true] at hg
        have hg' : (dead h (lit s x.val).m_State && decide ((lit s x.val).m_State < 85)
            && (lit s x.val).m_Status == 0 && (lit s x.val).m_Tag == 0
            && (isCR (lit s x.val).m_State == (x.val == 13))) = true := hg
        simp only [Bool.and_eq_true, decide_eq_true_eq, beq_iff_eq] at hg'
        obtain ⟨⟨⟨⟨g1, g2⟩, _⟩, g4⟩, g5⟩ := hg'
        have hst : (run p ([] ++ [x])).m_CurrentState = (lit s x.val).m_State := by
          show (feed p x).1.m_CurrentState = _
          rw [feed_state, hs]
        refine ⟨[], x, X', rfl, ?_, ?_, ?_⟩
        · intro i hi
          show tagAt (feed p x).1 i = tagAt p i
          apply feed_tagAt_ne
          rw [hs, g4]
          exact fun h' => hi h'.symm
        · rw [hst]
          simp [Region.mem, deadRegion, g1, g2]
        · rw [hst, g5]
          exact hN

theorem otherTags_begin (h : Nat) : otherTags h (tagBegin h) = false := by
  simp [otherTags, tagBegin]

theorem otherTags_end (h : Nat) : otherTags h (tagEnd h) = false := by
  simp [otherTags, tagEnd]

theorem lineValue_none (h : Nat) (L : List Byte) (hn : lineValue h L = none) :
    matchesBy upToCase (nameCodes h ++ [58]) (L.take (nameCodes h ++ [58]).length) = false := by
  unfold lineValue at hn
  simp only [List.length_append, List.length_singleton] at hn ⊢
  cases hm : matchesBy upToCase (nameCodes h ++ [58]) (L.take ((nameCodes h).length + 1)) with
  | false => rfl
  | true =>
    rw [hm] at hn
    simp at hn

/-- A line that does not start with the name of header `h` and a colon leaves the
tags of `h` as they were. -/
theorem line_frame (h : Nat) (hh : h ∈ [4, 5, 6, 7]) {p : Parser}
    (hs : p.m_CurrentState = 18) {L : List Byte} (hN : NoCRLF L)
    (hn : lineValue h L = none) :
    tagAt (run p (L ++ CRLF)) (tagBegin h) = tagAt p (tagBegin h)
      ∧ tagAt (run p (L ++ CRLF)) (tagEnd h) = tagAt p (tagEnd h) := by
  obtain ⟨f1, f2, f3, f4⟩ := frame_facts h hh
  have hdiv := diverges_of_not_match _ L (offPath_not_CR h _ _ f4) (lineValue_none h L hn)
  obtain ⟨A, c, B, e1, e2, e3, e4⟩ :=
    diverge_run h _ 18 f3 f4 (L ++ [13]) p hs hdiv (NoCRLF_snoc_CR L hN)
  obtain ⟨r1, _, r3, _, _⟩ := (deadRegion h).run_spec f1 B _ e3 (fun _ _ => rfl) e4
  have hX : L ++ CRLF = (A ++ [c]) ++ B ++ [10] := by
    have : L ++ CRLF = (L ++ [13]) ++ [10] := by simp [CRLF]
    rw [this, e1]
    simp
  have hmem := r1
  simp only [Region.mem, deadRegion, Bool.and_eq_true, decide_eq_true_eq] at hmem
  have hlast := check_lit _ _ f2 _ hmem.2 hmem.1 10 (by norm_num)
  have hb0 : tagBegin h ≠ 0 := by simp [tagBegin]
  have he0 : tagEnd h ≠ 0 := by simp [tagEnd]
  rw [hX, run_append, run_append]
  constructor
  · show tagAt (feed _ 10).1 (tagBegin h) = _
    rw [feed_tagAt_ne, r3 (tagBegin h) (otherTags_begin h), e2 _ hb0]
    intro h'
    have : ((10 : Byte).val) = 10 := rfl
    rw [this] at h'
    rw [h', otherTags_begin] at hlast
    cases hlast
  · show tagAt (feed _ 10).1 (tagEnd h) = _
    rw [feed_tagAt_ne, r3 (tagEnd h) (otherTags_end h), e2 _ he0]
    intro h'
    have : ((10 : Byte).val) = 10 := rfl
    rw [this] at h'
    rw [h', otherTags_end] at hlast
    cases hlast

/-! ## Lines of a given header -/

theorem trimState_header (h : Nat) (hh : h ∈ [4, 5, 6, 7]) : trimState h = valueState h := by
  unfold trimState REASON_PHRASE
  rw [if_neg]
  simp only [List.mem_cons, List.mem_singleton, List.not_mem_nil, or_false] at hh
  omega

theorem tag_bounds (h : Nat) (hh : h ∈ [4, 5, 6, 7]) :
    tagBegin h < 17 ∧ tagEnd h < 17 ∧ tagBegin h ≠ 0 ∧ tagEnd h ≠ 0
      ∧ tagBegin h ≠ tagEnd h := by
  simp only [List.mem_cons, List.mem_singleton, List.not_mem_nil, or_false] at hh
  unfold tagBegin tagEnd
  omega

/-- A line of header `h`: the name up to letter case, the colon, the value `V`, and
the CR LF. The tags of `h` get the span of the trimmed value. -/
theorem header_line_seg (h : Nat) (hh : h ∈ [4, 5, 6, 7]) {p : Parser} (hWF : WF p)
    (hs : p.m_CurrentState = 18) {N V : List Byte} (hN : sameName h N = true)
    (hV : NoCRLF V) :
    Seg p (N ++ 58 :: V ++ CRLF) 18
      (shift (N.length + 1) (spanWrites (tagBegin h) (tagEnd h) (trimSpan V))) := by
  obtain ⟨n1, n2⟩ := names_facts h hh
  obtain ⟨b1, b2, _⟩ := tag_bounds h hh
  have k1 : Seg p N (pathEnd 18 (nameCodes h)) [] := Seg.path n1 hs hN
  have k2 : Seg (run p N) [58] (valueState h) [] :=
    Seg.known0 (run_WF _ _ hWF) (by rw [k1.1]; exact n2)
  have k12 := Seg.append hWF k1 k2
  have hok := trimmers_ok h (by
    simp only [List.mem_cons, List.mem_singleton, List.not_mem_nil, or_false] at hh ⊢
    omega)
  rw [trimState_header h hh] at hok
  have k3 := trimmer_run hok b1 b2 (run_WF _ _ hWF) k12.1 hV
  have k := Seg.append hWF k12 k3
  have hX : N ++ 58 :: V ++ CRLF = N ++ [58] ++ (V ++ CRLF) := by simp
  rw [hX]
  apply Seg.congr k
  simp [shift]

theorem upToCase_colon (c : Nat) (h : upToCase 58 c = true) : c = 58 := by
  unfold upToCase simple_tolower at h
  simp only [beq_iff_eq] at h
  split_ifs at h <;> omega

theorem matchesBy_snoc (M : Nat → Nat → Bool) (e : Nat) :
    ∀ (es : List Nat) (X : List Byte), matchesBy M (es ++ [e]) X = true →
      ∃ N c, X = N ++ [c] ∧ matchesBy M es N = true ∧ M e c.val = true := by
  intro es
  induction es with
  | nil =>
    intro X h
    match X, h with
    | [c], h =>
      simp only [List.nil_append, matchesBy, Bool.and_true] at h
      exact ⟨[], c, rfl, rfl, h⟩
    | [], h => simp [matchesBy] at h
    | _ :: _ :: _, h => simp [matchesBy] at h
  | cons e0 es ih =>
    intro X h
    cases X with
    | nil => simp [matchesBy] at h
    | cons x X' =>
      simp only [List.cons_append, matchesBy, Bool.and_eq_true] at h
      obtain ⟨N, c, h1, h2, h3⟩ := ih X' h.2
      refine ⟨x :: N, c, by rw [h1]; rfl, ?_, h3⟩
      simp only [matchesBy, Bool.and_eq_true]
      exact ⟨h.1, h2⟩

/-- A recognised line is the name up to letter case, the colon, and the value. -/
theorem lineValue_some (h : Nat) (L V : List Byte) (hv : lineValue h L = some V) :
    ∃ N, L = N ++ 58 :: V ∧ sameName h N = true := by
  unfold lineValue at hv
  simp only at hv
  split at hv
  · rename_i hm
    obtain ⟨N, c, h1, h2, h3⟩ := matchesBy_snoc _ _ _ _ hm
    have hc : c = 58 := by
      apply Fin.ext
      exact upToCase_colon _ h3
    subst hc
    have hV : V = L.drop ((nameCodes h).length + 1) := (Option.some.inj hv).symm
    refine ⟨N, ?_, h2⟩
    have := List.take_append_drop ((nameCodes h).length + 1) L
    rw [h1, ← hV] at this
    rw [← this]
    simp
  · cases hv

theorem NoCRLF_value {N V : List Byte} (h : NoCRLF (N ++ 58 :: V)) : NoCRLF V := by
  unfold NoCRLF at h ⊢
  rw [noCRLFfrom_append, Bool.and_eq_true] at h
  have := h.2
  simp only [noCRLFfrom, Bool.and_eq_true] at this
  exact this.2

/-- The effect of any line on the tags of header `h`: the span of the trimmed value,
counted from the position at the line start, when the line is recognised for `h`
with a value that is not blank; no change otherwise. -/
theorem line_effect (h : Nat) (hh : h ∈ [4, 5, 6, 7]) {p : Parser} (hWF : WF p)
    (hs : p.m_CurrentState = 18) {L : List Byte} (hN : NoCRLF L) :
    tagAt (run p (L ++ CRLF)) (tagBegin h) =
        (lineSpan h L).elim (tagAt p (tagBegin h)) (fun be => (p.m_CurrentPos + be.1) % 2 ^ 32)
      ∧ tagAt (run p (L ++ CRLF)) (tagEnd h) =
        (lineSpan h L).elim (tagAt p (tagEnd h)) (fun be => (p.m_CurrentPos + be.2) % 2 ^ 32) := by
  obtain ⟨_, _, b3, b4, b5⟩ := tag_bounds h hh
  cases hv : lineValue h L with
  | none =>
    have : lineSpan h L = none := by
      unfold lineSpan
      rw [hv]
    rw [this]
    exact line_frame h hh hs hN hv
  | some V =>
    obtain ⟨N, hL, hname⟩ := lineValue_some h L V hv
    have hlenN : N.length = (nameCodes h).length := matchesBy_length _ _ _ hname
    have hsp : lineSpan h L = (trimSpan V).map
        (fun be => ((nameCodes h).length + 1 + be.1, (nameCodes h).length + 1 + be.2)) := by
      unfold lineSpan
      rw [hv]
    have k := header_line_seg h hh hWF hs hname (NoCRLF_value (hL ▸ hN))
    rw [← hL] at k
    rw [hsp, k.2.2 _ b3, k.2.2 _ b4, wlook_shift, wlook_shift, hlenN]
    cases trimSpan V with
    | none => exact ⟨rfl, rfl⟩
    | some be =>
      simp only [spanWrites, wlook, if_neg (Ne.symm b5), if_true, Option.map_some',
        Option.elim]
      exact ⟨trivial, trivial⟩

/-! ## The header block -/

/-- The tags of header `h` after the lines `ls`: the last span of the lines, counted
from the position at the start of the block; no change when no line has one. -/
theorem lines_tags (h : Nat) (hh : h ∈ [4, 5, 6, 7]) (ls : List (List Byte)) :
    ∀ p : Parser, WF p → p.m_CurrentState = 18 → (∀ l ∈ ls, l ≠ [] ∧ NoCRLF l) →
      tagAt (run p (joinLines ls)) (tagBegin h) =
          (finalSpan h ls).elim (tagAt p (tagBegin h))
            (fun be => (p.m_CurrentPos + be.1) % 2 ^ 32)
        ∧ tagAt (run p (joinLines ls)) (tagEnd h) =
          (finalSpan h ls).elim (tagAt p (tagEnd h))
            (fun be => (p.m_CurrentPos + be.2) % 2 ^ 32) := by
  induction ls with
  | nil => intro p _ _ _; exact ⟨rfl, rfl⟩
  | cons l ls ih =>
    intro p hWF hs hl
    have hl0 := hl l (List.mem_cons_self _ _)
    have hX : joinLines (l :: ls) = (l ++ CRLF) ++ joinLines ls := by
      simp [joinLines]
    obtain ⟨a1, _, _⟩ := line_run hs hl0.1 hl0.2
    obtain ⟨e1, e2⟩ := line_effect h hh hWF hs hl0.2
    obtain ⟨i1, i2⟩ := ih (run p (l ++ CRLF)) (run_WF _ _ hWF) a1
      (fun x hx => hl x (List.mem_cons_of_mem _ hx))
    have hpos : (run p (l ++ CRLF)).m_CurrentPos = (p.m_CurrentPos + (l.length + 2)) % 2 ^ 32 := by
      rw [run_pos _ _ hWF]
      simp [CRLF]
    rw [hX, run_append, i1, i2]
    show _ = (match finalSpan h ls with
        | some be => some (l.length + 2 + be.1, l.length + 2 + be.2)
        | none => lineSpan h l).elim _ _ ∧
      _ = (match finalSpan h ls with
        | some be => some (l.length + 2 + be.1, l.length + 2 + be.2)
        | none => lineSpan h l).elim _ _
    cases finalSpan h ls with
    | none => exact ⟨e1, e2⟩
    | some be =>
      simp only [Option.elim]
      rw [hpos, Nat.mod_add_mod, Nat.mod_add_mod]
      constructor <;> (congr 1; omega)

theorem refStep_nil (h : Nat) (acc l : List Byte) :
    refStep h acc l = if refStep h [] l = [] then acc else refStep h [] l := by
  unfold refStep
  cases lineValue h l with
  | none => simp
  | some v =>
    simp only
    by_cases ht : trim v = []
    · simp [ht]
    · simp [ht]

theorem refValue_fold (h : Nat) (ls : List (List Byte)) :
    ∀ acc : List Byte,
      ls.foldl (refStep h) acc = if refValue h ls = [] then acc else refValue h ls := by
  induction ls with
  | nil =>
    intro acc
    simp [refValue]
  | cons l ls ih =>
    intro acc
    have e1 : refValue h (l :: ls) = ls.foldl (refStep h) (refStep h [] l) := rfl
    rw [List.foldl_cons, ih, e1, ih]
    by_cases hr : refValue h ls = []
    · rw [if_pos hr, if_pos hr]
      exact refStep_nil h acc l
    · rw [if_neg hr, if_neg hr, if_neg hr]

/-- The reference value by its last line: the value of the later lines when they
have one, the trimmed value of a recognised first line otherwise. -/
theorem refValue_cons (h : Nat) (l : List Byte) (ls : List (List Byte)) :
    refValue h (l :: ls) =
      if refValue h ls = [] then
        (match lineValue h l with
          | some v => trim v
          | none => [])
      else refValue h ls := by
  have e1 : refValue h (l :: ls) = ls.foldl (refStep h) (refStep h [] l) := rfl
  rw [e1, refValue_fold]
  by_cases hr : refValue h ls = []
  · rw [if_pos hr, if_pos hr]
    unfold refStep
    cases lineValue h l with
    | none => rfl
    | some v =>
      simp only
      by_cases ht : trim v = []
      · rw [if_pos ht, ht]
      · rw [if_neg ht]
  · rw [if_neg hr, if_neg hr]

theorem trim_split (V : List Byte) :
    ∃ ws2, V = V.takeWhile (fun c => isWS c.val) ++ trim V ++ ws2 := by
  obtain ⟨ws2, h1, _⟩ := rdropWhile_split (fun c : Byte => isWS c.val)
    (V.dropWhile (fun c : Byte => isWS c.val))
  refine ⟨ws2, ?_⟩
  unfold trim
  rw [List.append_assoc, ← h1, List.takeWhile_append_dropWhile]

/-- The span of a line is where the trimmed value of the line lies in it. -/
theorem lineSpan_slice (h : Nat) (L : List Byte) :
    (lineSpan h L = none ∧ (match lineValue h L with
        | some v => trim v
        | none => []) = [])
      ∨ ∃ b e A B v, lineSpan h L = some (b, e) ∧ lineValue h L = some v ∧ trim v ≠ []
        ∧ L = A ++ trim v ++ B ∧ A.length = b ∧ b + (trim v).length = e := by
  cases hv : lineValue h L with
  | none =>
    left
    unfold lineSpan
    rw [hv]
    exact ⟨rfl, rfl⟩
  | some v =>
    by_cases ht : trim v = []
    · left
      unfold lineSpan trimSpan
      rw [hv]
      simp [ht]
    · right
      obtain ⟨N, hL, hname⟩ := lineValue_some h L v hv
      obtain ⟨ws2, hsplit⟩ := trim_split v
      have hlenN : N.length = (nameCodes h).length := matchesBy_length _ _ _ hname
      refine ⟨(nameCodes h).length + 1 + (v.takeWhile (fun c => isWS c.val)).length,
        (nameCodes h).length + 1 + ((v.takeWhile (fun c => isWS c.val)).length
          + (trim v).length),
        N ++ [58] ++ v.takeWhile (fun c => isWS c.val), ws2, v, ?_, rfl, ht, ?_, ?_, ?_⟩
      · unfold lineSpan trimSpan
        rw [hv]
        simp [ht]
      · rw [hL]
        conv_lhs => rw [hsplit]
        simp
      · simp only [List.length_append, List.length_singleton, hlenN]
      · omega

/-- The final span of a header block is where the reference value lies in it. -/
theorem finalSpan_slice (h : Nat) (ls : List (List Byte)) :
    (finalSpan h ls = none ∧ refValue h ls = [])
      ∨ ∃ b e A B, finalSpan h ls = some (b, e) ∧ refValue h ls ≠ []
        ∧ joinLines ls = A ++ refValue h ls ++ B ∧ A.length = b
        ∧ b + (refValue h ls).length = e := by
  induction ls with
  | nil =>
    left
    exact ⟨rfl, rfl⟩
  | cons l ls ih =>
    have hX : joinLines (l :: ls) = (l ++ CRLF) ++ joinLines ls := by
      simp [joinLines]
    rcases ih with ⟨f1, f2⟩ | ⟨b, e, A, B, f1, f2, f3, f4, f5⟩
    · have hf : finalSpan h (l :: ls) = lineSpan h l := by
        show (match finalSpan h ls with
          | some be => some (l.length + 2 + be.1, l.length + 2 + be.2)
          | none => lineSpan h l) = _
        rw [f1]
      have hr : refValue h (l :: ls) = (match lineValue h l with
          | some v => trim v
          | none => []) := by
        rw [refValue_cons, if_pos f2]
      rcases lineSpan_slice h l with ⟨g1, g2⟩ | ⟨b, e, A, B, v, g1, g2, g3, g4, g5, g6⟩
      · left
        exact ⟨by rw [hf, g1], by rw [hr, g2]⟩
      · right
        have hr' : refValue h (l :: ls) = trim v := by
          rw [hr, g2]
        refine ⟨b, e, A, B ++ CRLF ++ joinLines ls, by rw [hf, g1], by rw [hr']; exact g3,
          ?_, g5, by rw [hr']; exact g6⟩
        rw [hX, hr']
        conv_lhs => rw [g4]
        simp
    · right
      have hf : finalSpan h (l :: ls) = some (l.length + 2 + b, l.length + 2 + e) := by
        show (match finalSpan h ls with
          | some be => some (l.length + 2 + be.1, l.length + 2 + be.2)
          | none => lineSpan h l) = _
        rw [f1]
      have hr : refValue h (l :: ls) = refValue h ls := by
        rw [refValue_cons, if_neg f2]
      refine ⟨l.length + 2 + b, l.length + 2 + e, l ++ CRLF ++ A, B, hf, by rw [hr]; exact f2,
        ?_, ?_, ?_⟩
      · rw [hX, hr]
        conv_lhs => rw [f3]
        simp
      · simp only [List.length_append, CRLF, List.length_cons, List.length_nil, f4]
      · rw [hr]; omega

/-! ## A whole message -/

theorem final_tags {p : Parser} (hs : p.m_CurrentState = 18) (i : Nat) (hi : i ≠ 0) :
    tagAt (run p CRLF) i = tagAt p i := by
  show tagAt (feed (feed p 13).1 10).1 i = tagAt p i
  have h1 : lit 18 (13 : Byte).val = T 21 0 0 := by decide
  have h2 : lit 21 (10 : Byte).val = T 0 0 1 := by decide
  rw [feed_tagAt_ne, feed_tagAt_ne]
  · rw [hs, h1]; exact fun h => hi h.symm
  · rw [feed_state, hs, h1, T_state, h2]; exact fun h => hi h.symm

/-- The status line of a message: the parser reaches the line start 18, and the tags
from 9 on (those of the headers) are not written. -/
theorem status_line_seg {p : Parser} (hWF : WF p) (hs : p.m_CurrentState = 0)
    {d1 d2 code r : List Byte}
    (h1 : d1 ≠ []) (hd1 : ∀ c ∈ d1, isDigit c.val = true)
    (h2 : d2 ≠ []) (hd2 : ∀ c ∈ d2, isDigit c.val = true)
    (h3 : code.length = 3) (hd3 : ∀ c ∈ code, isDigit c.val = true) (hr : NoCRLF r) :
    (run p (statusPrefix d1 d2 code ++ (r ++ CRLF))).m_CurrentState = 18
      ∧ AllZero (statuses p (statusPrefix d1 d2 code ++ (r ++ CRLF)))
      ∧ ∀ i, 9 ≤ i → tagAt (run p (statusPrefix d1 d2 code ++ (r ++ CRLF))) i = tagAt p i := by
  have k1 := statusPrefix_seg hWF hs h1 hd1 h2 hd2 h3 hd3
  have k2 := trimmer_run reason_ok (by norm_num) (by norm_num) (run_WF _ _ hWF) k1.1 hr
  have k := Seg.append hWF k1 k2
  refine ⟨k.1, k.2.1, ?_⟩
  intro i hi
  rw [k.2.2 i (by omega), wlook_append, wlook_shift]
  have e1 : wlook (spanWrites 7 8 (trimSpan r)) i = none := by
    cases trimSpan r with
    | none => rfl
    | some be =>
      simp only [spanWrites, wlook]
      rw [if_neg (by omega), if_neg (by omega)]
  rw [e1]
  simp only [Option.map_none', Option.orElse, wlook]
  rw [if_neg (by omega), if_neg (by omega), if_neg (by omega), if_neg (by omega),
    if_neg (by omega), if_neg (by omega)]
  rfl

theorem statusPrefix_length (d1 d2 code : List Byte) :
    (statusPrefix d1 d2 code).length = 8 + d1.length + d2.length + code.length := by
  simp only [statusPrefix, List.length_append, bytes_HTTP_length, List.length_singleton]
  omega

/-- The tags of header `h` after a whole message: the last span of the header lines,
counted from the end of the status line (modulo `2^32`); zero when no line has one. -/
theorem message_tags (d1 d2 code r : List Byte) (ls : List (List Byte))
    (h1 : d1 ≠ []) (hd1 : ∀ c ∈ d1, isDigit c.val = true)
    (h2 : d2 ≠ []) (hd2 : ∀ c ∈ d2, isDigit c.val = true)
    (h3 : code.length = 3) (hd3 : ∀ c ∈ code, isDigit c.val = true)
    (hr : NoCRLF r) (hls : ∀ l ∈ ls, l ≠ [] ∧ NoCRLF l)
    (h : Nat) (hh : h ∈ [4, 5, 6, 7]) :
    tagAt (run {} (message d1 d2 code r ls)) (tagBegin h) =
        (finalSpan h ls).elim 0
          (fun be => ((statusPrefix d1 d2 code ++ (r ++ CRLF)).length + be.1) % 2 ^ 32)
      ∧ tagAt (run {} (message d1 d2 code r ls)) (tagEnd h) =
        (finalSpan h ls).elim 0
          (fun be => ((statusPrefix d1 d2 code ++ (r ++ CRLF)).length + be.2) % 2 ^ 32) := by
  obtain ⟨_, _, b3, b4, _⟩ := tag_bounds h hh
  have hb9 : 9 ≤ tagBegin h ∧ 9 ≤ tagEnd h := by
    simp only [List.mem_cons, List.mem_singleton, List.not_mem_nil, or_false] at hh
    unfold tagBegin tagEnd
    omega
  obtain ⟨s1, _, s3⟩ := status_line_seg fresh_WF rfl h1 hd1 h2 hd2 h3 hd3 hr
  have hWF0 : WF (run {} (statusPrefix d1 d2 code ++ (r ++ CRLF))) := run_WF _ _ fresh_WF
  obtain ⟨l1, _, _⟩ := lines_run ls _ s1 hls
  obtain ⟨t1, t2⟩ := lines_tags h hh ls _ hWF0 s1 hls
  have hX : message d1 d2 code r ls =
      (statusPrefix d1 d2 code ++ (r ++ CRLF)) ++ joinLines ls ++ CRLF := by
    simp [message]
  have hpos : (run {} (statusPrefix d1 d2 code ++ (r ++ CRLF))).m_CurrentPos
      = (statusPrefix d1 d2 code ++ (r ++ CRLF)).length % 2 ^ 32 := by
    rw [run_pos _ _ fresh_WF]
    show (0 + _) % 2 ^ 32 = _
    rw [Nat.zero_add]
  constructor
  · rw [hX, run_append, final_tags (by rw [run_append]; exact l1) _ b3, run_append, t1,
      s3 _ hb9.1, tagAt_fresh, hpos]
    cases finalSpan h ls with
    | none => rfl
    | some be =>
      simp only [Option.elim]
      rw [Nat.mod_add_mod]
  · rw [hX, run_append, final_tags (by rw [run_append]; exact l1) _ b4, run_append, t2,
      s3 _ hb9.2, tagAt_fresh, hpos]
    cases finalSpan h ls with
    | none => rfl
    | some be =>
      simp only [Option.elim]
      rw [Nat.mod_add_mod]

theorem message_split (d1 d2 code r : List Byte) (ls : List (List Byte)) :
    message d1 d2 code r ls =
      (statusPrefix d1 d2 code ++ (r ++ CRLF)) ++ joinLines ls ++ CRLF := by
  simp [message]

/-- The fragment of header `h` after a whole message shorter than `2^32` bytes: its
string is the reference value, it is found exactly when that value is not empty,
and its tags are zero when the value is empty. -/
theorem message_header (d1 d2 code r : List Byte) (ls : List (List Byte))
    (h1 : d1 ≠ []) (hd1 : ∀ c ∈ d1, isDigit c.val = true)
    (h2 : d2 ≠ []) (hd2 : ∀ c ∈ d2, isDigit c.val = true)
    (h3 : code.length = 3) (hd3 : ∀ c ∈ code, isDigit c.val = true)
    (hr : NoCRLF r) (hls : ∀ l ∈ ls, l ≠ [] ∧ NoCRLF l)
    (h : Nat) (hh : h ∈ [4, 5, 6, 7])
    (hlen : (message d1 d2 code r ls).length < 2 ^ 32) :
    getFragmentStr (run {} (message d1 d2 code r ls)) (message d1 d2 code r ls) h
        = some (refValue h ls)
      ∧ isFragmentFound (run {} (message d1 d2 code r ls)) h = decide (refValue h ls ≠ [])
      ∧ (refValue h ls = [] → getFragment (run {} (message d1 d2 code r ls)) h = (0, 0)) := by
  obtain ⟨hb, he⟩ := message_tags d1 d2 code r ls h1 hd1 h2 hd2 h3 hd3 hr hls h hh
  have hX := message_split d1 d2 code r ls
  have hlen' : (statusPrefix d1 d2 code ++ (r ++ CRLF)).length + (joinLines ls).length + 2
      < 2 ^ 32 := by
    have hl := hlen
    rw [hX] at hl
    simp only [List.length_append, CRLF, List.length_cons, List.length_nil] at hl ⊢
    omega
  rcases finalSpan_slice h ls with ⟨f1, f2⟩ | ⟨b, e, A, B, f1, f2, f3, f4, f5⟩
  · rw [f1] at hb he
    simp only [Option.elim] at hb he
    refine ⟨?_, ?_, ?_⟩
    · rw [f2]
      exact getFragmentStr_zero _ _ _ hb he
    · rw [isFragmentFound_eq, he, f2]
      rfl
    · intro _
      rw [getFragment_eq, hb, he]
  · rw [f1] at hb he
    simp only [Option.elim] at hb he
    have hjl : (joinLines ls).length = A.length + (refValue h ls).length + B.length := by
      rw [f3]
      simp only [List.length_append]
    have hrpos : 0 < (refValue h ls).length := List.length_pos.mpr f2
    rw [Nat.mod_eq_of_lt (by omega)] at hb he
    refine ⟨?_, ?_, ?_⟩
    · have hM : message d1 d2 code r ls =
          (statusPrefix d1 d2 code ++ (r ++ CRLF) ++ A) ++ refValue h ls ++ (B ++ CRLF) := by
        rw [hX]
        conv_lhs => rw [f3]
        simp
      conv_lhs => arg 2; rw [hM]
      apply getFragmentStr_slice
      · rw [hb]
        simp only [List.length_append]
        omega
      · rw [he]
        simp only [List.length_append]
        omega
      · simp only [List.length_append] at hlen' ⊢
        omega
    · rw [isFragmentFound_eq, he]
      have hne : (statusPrefix d1 d2 code ++ (r ++ CRLF)).length + e ≠ 0 := by omega
      rw [decide_eq_true f2]
      exact bne_iff_ne.mpr hne
    · intro hnil
      exact absurd hnil f2

/-! ## Lemmas for the claims on fragments -/

theorem trim_ne_nil {V : List Byte} (h : ∃ c ∈ V, isWS c.val = false) : trim V ≠ [] := by
  rcases trim_cases V with ⟨hws, _⟩ | ⟨_, a, rest, _, _, _, _, _, _, ht, _⟩
  · obtain ⟨c, hc, hf⟩ := h
    rw [hws c hc] at hf
    cases hf
  · rw [ht]
    exact List.cons_ne_nil _ _

theorem trim_eq_nil {V : List Byte} (h : ∀ c ∈ V, isWS c.val = true) : trim V = [] := by
  rcases trim_cases V with ⟨_, ht⟩ | ⟨ws1, a, rest, ws2, hV, _, _, ha, _, _, _⟩
  · exact ht
  · have := h a (by rw [hV]; simp)
    rw [ha] at this
    cases this

/-- The tags of header `h` after a line of `h` read from the line start: the span of
the trimmed value, counted from the position at the line start (modulo `2^32`);
no change when the value is empty or all whitespace. -/
theorem header_value_tags (h : Nat) (hh : h ∈ [4, 5, 6, 7]) {p : Parser} (hWF : WF p)
    (hs : p.m_CurrentState = 18) {N V : List Byte} (hN : sameName h N = true)
    (hV : NoCRLF V) :
    (run p (N ++ 58 :: V ++ CRLF)).m_CurrentState = 18
      ∧ AllZero (statuses p (N ++ 58 :: V ++ CRLF))
      ∧ (trim V ≠ [] →
          tagAt (run p (N ++ 58 :: V ++ CRLF)) (tagBegin h) =
              (p.m_CurrentPos + (N.length + 1
                + (V.takeWhile (fun c => isWS c.val)).length)) % 2 ^ 32
            ∧ tagAt (run p (N ++ 58 :: V ++ CRLF)) (tagEnd h) =
              (p.m_CurrentPos + (N.length + 1
                + ((V.takeWhile (fun c => isWS c.val)).length + (trim V).length))) % 2 ^ 32)
      ∧ (trim V = [] →
          tagAt (run p (N ++ 58 :: V ++ CRLF)) (tagBegin h) = tagAt p (tagBegin h)
            ∧ tagAt (run p (N ++ 58 :: V ++ CRLF)) (tagEnd h) = tagAt p (tagEnd h)) := by
  obtain ⟨_, _, b3, b4, b5⟩ := tag_bounds h hh
  have k := header_line_seg h hh hWF hs hN hV
  refine ⟨k.1, k.2.1, ?_, ?_⟩
  · intro hne
    have hsp : trimSpan V = some ((V.takeWhile (fun c => isWS c.val)).length,
        (V.takeWhile (fun c => isWS c.val)).length + (trim V).length) := by
      unfold trimSpan
      rw [if_neg hne]
    rw [k.2.2 _ b3, k.2.2 _ b4, wlook_shift, wlook_shift, hsp]
    simp only [spanWrites, wlook, if_neg (Ne.symm b5), if_true, Option.map_some',
      Option.elim]
    exact ⟨trivial, trivial⟩
  · intro hnil
    have hsp : trimSpan V = none := by
      unfold trimSpan
      rw [if_pos hnil]
    rw [k.2.2 _ b3, k.2.2 _ b4, wlook_shift, wlook_shift, hsp]
    exact ⟨rfl, rfl⟩

/-- The tags of the reason phrase after the status line: the span of the trimmed
reason, counted from the position at the start (modulo `2^32`); no change when the
reason is empty or all whitespace. -/
theorem reason_tags {p : Parser} (hWF : WF p) (hs : p.m_CurrentState = 0)
    {d1 d2 code r : List Byte}
    (h1 : d1 ≠ []) (hd1 : ∀ c ∈ d1, isDigit c.val = true)
    (h2 : d2 ≠ []) (hd2 : ∀ c ∈ d2, isDigit c.val = true)
    (h3 : code.length = 3) (hd3 : ∀ c ∈ code, isDigit c.val = true) (hr : NoCRLF r) :
    (trim r ≠ [] →
        tagAt (run p (statusPrefix d1 d2 code ++ (r ++ CRLF))) 7 =
            (p.m_CurrentPos + ((statusPrefix d1 d2 code).length
              + (r.takeWhile (fun c => isWS c.val)).length)) % 2 ^ 32
          ∧ tagAt (run p (statusPrefix d1 d2 code ++ (r ++ CRLF))) 8 =
            (p.m_CurrentPos + ((statusPrefix d1 d2 code).length
              + ((r.takeWhile (fun c => isWS c.val)).length + (trim r).length))) % 2 ^ 32)
      ∧ (trim r = [] →
        tagAt (run p (statusPrefix d1 d2 code ++ (r ++ CRLF))) 7 = tagAt p 7
          ∧ tagAt (run p (statusPrefix d1 d2 code ++ (r ++ CRLF))) 8 = tagAt p 8) := by
  have k1 := statusPrefix_seg hWF hs h1 hd1 h2 hd2 h3 hd3
  have k2 := trimmer_run reason_ok (by norm_num) (by norm_num) (run_WF _ _ hWF) k1.1 hr
  have k := Seg.append hWF k1 k2
  constructor
  · intro hne
    have hsp : trimSpan r = some ((r.takeWhile (fun c => isWS c.val)).length,
        (r.takeWhile (fun c => isWS c.val)).length + (trim r).length) := by
      unfold trimSpan
      rw [if_neg hne]
    rw [k.2.2 7 (by norm_num), k.2.2 8 (by norm_num), wlook_append, wlook_append,
      wlook_shift, wlook_shift, hsp]
    simp only [spanWrites, wlook, if_true, if_pos, Option.map_some', Option.orElse,
      Option.elim]
    norm_num
  · intro hnil
    have hsp : trimSpan r = none := by
      unfold trimSpan
      rw [if_pos hnil]
    rw [k.2.2 7 (by norm_num), k.2.2 8 (by norm_num), wlook_append, wlook_append,
      wlook_shift, wlook_shift, hsp]
    simp only [spanWrites, wlook, Option.map_none', Option.orElse, Option.elim]
    norm_num

/-- The fragment string in an input whose major version is `2^32 - 5` digits `1`,
when the tags delimit one byte of it. -/
theorem wrap_slice (p : Parser) (f b : Nat) (rest : List Byte) (hb5 : 5 ≤ b)
    (hbw : b < 1000)
    (hb : tagAt p (tagBegin f) = b) (he : tagAt p (tagEnd f) = b + 1) :
    getFragmentStr p (bytes "HTTP/" ++ List.replicate wrapLength 49 ++ rest) f
      = some [49] := by
  have hw := wrapLength_eq
  have hsplit : List.replicate wrapLength (49 : Byte) =
      List.replicate (b - 5) 49 ++ [49] ++ List.replicate (wrapLength - (b - 5) - 1) 49 := by
    have e : wrapLength = (b - 5) + (1 + (wrapLength - (b - 5) - 1)) := by omega
    conv_lhs => rw [e]
    rw [List.replicate_add, List.replicate_add]
    simp
  have hX : bytes "HTTP/" ++ List.replicate wrapLength 49 ++ rest =
      (bytes "HTTP/" ++ List.replicate (b - 5) 49) ++ [49]
        ++ (List.replicate (wrapLength - (b - 5) - 1) 49 ++ rest) := by
    rw [hsplit]
    simp
  rw [hX]
  apply getFragmentStr_slice
  · rw [hb, List.length_append, bytes_HTTP_length, List.length_replicate]
    omega
  · rw [he, List.length_append, bytes_HTTP_length, List.length_replicate, List.length_singleton]
    omega
  · rw [List.length_append, bytes_HTTP_length, List.length_replicate, List.length_singleton]
    omega

theorem refValue_append (h : Nat) (ls1 ls2 : List (List Byte)) :
    refValue h (ls1 ++ ls2) = if refValue h ls2 = [] then refValue h ls1 else refValue h ls2 := by
  unfold refValue
  rw [List.foldl_append]
  exact refValue_fold h ls2 _

theorem refValue_blank (h : Nat) (ls : List (List Byte))
    (hb : ∀ l ∈ ls, ∀ v, lineValue h l = some v → trim v = []) : refValue h ls = [] := by
  induction ls with
  | nil => rfl
  | cons l ls ih =>
    rw [refValue_cons, if_pos (ih (fun l1 hl1 => hb l1 (List.mem_cons_of_mem _ hl1)))]
    cases hv : lineValue h l with
    | none => rfl
    | some v => exact hb l (List.mem_cons_self _ _) v hv

/-- The reference value is decided by the last recognised line with a value that is
not blank. -/
theorem refValue_last (h : Nat) (ls1 ls2 : List (List Byte)) (l v : List Byte)
    (hv : lineValue h l = some v) (hne : trim v ≠ [])
    (hb : ∀ l1 ∈ ls2, ∀ v1, lineValue h l1 = some v1 → trim v1 = []) :
    refValue h (ls1 ++ l :: ls2) = trim v := by
  rw [refValue_append, refValue_cons, if_pos (refValue_blank h ls2 hb), hv]
  simp only
  rw [if_neg hne]

theorem finalSpan_none (h : Nat) (ls : List (List Byte)) (hr : refValue h ls = []) :
    finalSpan h ls = none := by
  rcases finalSpan_slice h ls with ⟨f1, _⟩ | ⟨_, _, _, _, _, f2, _⟩
  · exact f1
  · exact absurd hr f2

/-! ## Letter case in the header section -/

theorem case_ok : caseOK = true := by decide!

theorem case_facts (s : Nat) (h18 : 18 ≤ s) (h85 : s < 85) (c : Nat) (hc : c < 256) :
    lit s c = lit s (simple_tolower c)
      ∧ ((lit s c).m_Status = 0 → 18 ≤ (lit s c).m_State ∧ (lit s c).m_State < 85) := by
  have hg := check_lit _ _ case_ok s h85 (by simpa using h18) c hc
  obtain ⟨e, hcl⟩ := (Bool.and_eq_true _ _).mp hg
  constructor
  · revert e
    generalize lit s (simple_tolower c) = t
    generalize lit s c = u
    cases t
    cases u
    simp only [Bool.and_eq_true, beq_iff_eq]
    rintro ⟨⟨e1, e2⟩, e3⟩
    rw [e1, e2, e3]
  · intro h0
    simp only [Bool.and_eq_true, Bool.or_eq_true, decide_eq_true_eq, bne_iff_ne] at hcl
    rcases hcl with h | h
    · exact absurd h0 h
    · exact h

theorem feed_sameLetter (p : Parser) (h18 : 18 ≤ p.m_CurrentState)
    (h85 : p.m_CurrentState < 85) (a b : Byte) (hab : sameLetter a b = true) :
    feed p a = feed p b := by
  have e : lit p.m_CurrentState a.val = lit p.m_CurrentState b.val := by
    rw [(case_facts _ h18 h85 a.val a.isLt).1, (case_facts _ h18 h85 b.val b.isLt).1]
    unfold sameLetter at hab
    rw [beq_iff_eq] at hab
    rw [hab]
  apply Prod.ext
  · rw [feed_fst, feed_fst, e]
  · rw [feed_snd, feed_snd, e]

/-- In the header section two inputs that differ in the case of letters only are
treated alike: the loop of the tests ends in the same parser with the same status,
and as long as no status before the last byte is final the statuses of all bytes
and the parser after them are the same. -/
theorem case_run (A B : List Byte)
    (hAB : List.Forall₂ (fun a b => sameLetter a b = true) A B) :
    ∀ p : Parser, 18 ≤ p.m_CurrentState → p.m_CurrentState < 85 →
      feedLoop p A = feedLoop p B
        ∧ (AllZero (statuses p A).dropLast →
            statuses p A = statuses p B ∧ run p A = run p B) := by
  induction hAB with
  | nil => intro p _ _; exact ⟨rfl, fun _ => ⟨rfl, rfl⟩⟩
  | @cons a b A B hab htl ih =>
    intro p h18 h85
    have hf := feed_sameLetter p h18 h85 a b hab
    have hnext : (feed p b).2 = 0 →
        18 ≤ (feed p b).1.m_CurrentState ∧ (feed p b).1.m_CurrentState < 85 := by
      intro h0
      rw [feed_snd] at h0
      rw [feed_state]
      exact (case_facts _ h18 h85 b.val b.isLt).2 h0
    constructor
    · show (if (feed p a).2 = 0 then feedLoop (feed p a).1 A else feed p a)
        = (if (feed p b).2 = 0 then feedLoop (feed p b).1 B else feed p b)
      rw [hf]
      by_cases h0 : (feed p b).2 = 0
      · rw [if_pos h0, if_pos h0]
        exact (ih _ (hnext h0).1 (hnext h0).2).1
      · rw [if_neg h0, if_neg h0]
    · intro hz
      show (feed p a).2 :: statuses (feed p a).1 A = (feed p b).2 :: statuses (feed p b).1 B
        ∧ run (feed p a).1 A = run (feed p b).1 B
      cases htl with
      | nil => rw [hf]; exact ⟨rfl, rfl⟩
      | @cons a1 b1 A1 B1 hab1 htl1 =>
        have hz' : AllZero ((feed p a).2 :: (statuses (feed p a).1 (a1 :: A1)).dropLast) := hz
        rw [hf] at hz' ⊢
        have h0 : (feed p b).2 = 0 := hz' _ (List.mem_cons_self _ _)
        have hrest := (ih _ (hnext h0).1 (hnext h0).2).2
          (fun x hx => hz' x (List.mem_cons_of_mem _ hx))
        rw [hrest.1, hrest.2]
        exact ⟨rfl, rfl⟩

theorem feedLoop_append (X Y : List Byte) :
    ∀ p : Parser, AllZero (statuses p X) → feedLoop p (X ++ Y) = feedLoop (run p X) Y := by
  induction X with
  | nil => intro p _; rfl
  | cons c cs ih =>
    intro p hz
    have h0 : (feed p c).2 = 0 := hz _ (List.mem_cons_self _ _)
    show (if (feed p c).2 = 0 then feedLoop (feed p c).1 (cs ++ Y) else feed p c)
      = feedLoop (run (feed p c).1 cs) Y
    rw [if_pos h0]
    exact ih _ (fun x hx => hz x (List.mem_cons_of_mem _ hx))

theorem AllZero_dropLast_append (p : Parser) (X Y : List Byte)
    (hq : AllZero (statuses p (X ++ Y)).dropLast) :
    AllZero (statuses (run p X) Y).dropLast := by
  rw [statuses_append] at hq
  cases hr : statuses (run p X) Y with
  | nil => exact AllZero_nil
  | cons x xs =>
    rw [hr, List.dropLast_append_of_ne_nil _ (List.cons_ne_nil _ _), AllZero_append] at hq
    exact hq.2

theorem sameLetters_forall : ∀ A B : List Byte, sameLetters A B = true →
    List.Forall₂ (fun a b => sameLetter a b = true) A B
  | [], [], _ => List.Forall₂.nil
  | a :: as, b :: bs, h => by
    simp only [sameLetters, Bool.and_eq_true] at h
    exact List.Forall₂.cons h.1 (sameLetters_forall as bs h.2)
  | [], _ :: _, h => by simp [sameLetters] at h
  | _ :: _, [], h => by simp [sameLetters] at h

/-! ## The long status line -/

theorem wrapStatusLine_length : wrapStatusLine.length = 2 ^ 32 + 11 := by
  unfold wrapStatusLine
  rw [List.length_append, statusPrefix_length, List.length_replicate, wrapLength_eq]
  rfl

set_option maxRecDepth 4000 in
/-- After the long status line the parser is at the line start, with position 11 and
no header tag written. -/
theorem wrapStatusLine_run :
    (run {} wrapStatusLine).m_CurrentState = 18 ∧ WF (run {} wrapStatusLine)
      ∧ (run {} wrapStatusLine).m_CurrentPos = 11
      ∧ ∀ i, 9 ≤ i → tagAt (run {} wrapStatusLine) i = 0 := by
  have hd : isDigit (49 : Byte).val = true := by decide
  have hd2 : ∀ c ∈ ([48] : List Byte), isDigit c.val = true := by decide
  have hd3 : ∀ c ∈ ([50, 48, 48] : List Byte), isDigit c.val = true := by decide
  have h3 : ([50, 48, 48] : List Byte).length = 3 := rfl
  have hr : NoCRLF (bytes "OK") := by decide
  obtain ⟨s1, _, s3⟩ := status_line_seg fresh_WF rfl (replicate_ne_nil 49)
    (replicate_digits wrapLength 49 hd) (List.cons_ne_nil 48 []) hd2 h3 hd3 hr
  refine ⟨s1, run_WF _ _ fresh_WF, ?_, ?_⟩
  · rw [run_pos _ _ fresh_WF, wrapStatusLine_length]
    rfl
  · intro i hi
    show tagAt (run {} (statusPrefix (List.replicate wrapLength 49) [48] [50, 48, 48]
      ++ (bytes "OK" ++ CRLF))) i = 0
    rw [s3 i hi, tagAt_fresh]


/-! ## The fields of the status line and their errors -/

theorem field_errors : fieldErrorsOK = true := by decide!

theorem errsTo_sound (s : Nat) (B : Nat → Bool) (e : Nat) (h : errsTo s B e = true)
    (c : Byte) (hB : B c.val = true) : (lit s c.val).m_Status = e := by
  have := allBelow_sound _ 256 h c.val c.isLt
  simp only [hB, Bool.not_true, Bool.false_or, beq_iff_eq] at this
  exact this

/-- The statuses of bytes that are all accepted, followed by one more byte. -/
theorem statuses_snoc (p : Parser) (A : List Byte) (c : Byte) (e : Nat)
    (hz : AllZero (statuses p A))
    (he : (lit (run p A).m_CurrentState c.val).m_Status = e) :
    statuses p (A ++ [c]) = List.replicate A.length IN_PROGRESS ++ [e] := by
  rw [statuses_append]
  have h1 : statuses (run p A) [c] = [e] := by
    show [(feed (run p A) c).2] = [e]
    rw [feed_snd, he]
  have h2 := AllZero_eq_replicate _ hz
  rw [statuses_length] at h2
  rw [h1, h2]
  rfl

/-- Digits, possibly none: the state of the first digit is left by the first one. -/
theorem digits_run {s0 s1 tg : Nat} (h0 : stepsTo s0 isDigit (T s1 tg 0) = true)
    (h1 : (digitsRegion s1).check = true) (hs1 : s1 < 85) (htg : tg < 17) {p : Parser}
    (hWF : WF p) (hs : p.m_CurrentState = s0) (ds : List Byte)
    (hd : ∀ c ∈ ds, isDigit c.val = true) :
    (run p ds).m_CurrentState = (if ds = [] then s0 else s1) ∧ AllZero (statuses p ds) := by
  by_cases hne : ds = []
  · rw [if_pos hne, hne]
    exact ⟨hs, AllZero_nil⟩
  · rw [if_neg hne]
    have k := Seg.digits h0 h1 hs1 htg hWF hs hne hd
    exact ⟨k.1, k.2.1⟩

theorem http_run {p : Parser} (hs : p.m_CurrentState = 0) :
    (run p (bytes "HTTP/")).m_CurrentState = 5 ∧ AllZero (statuses p (bytes "HTTP/")) := by
  have k := path_run exactly _ 0 prefix_path (bytes "HTTP/") p hs (by decide)
  exact ⟨k.1, k.2.1⟩

/-- The major version and its dot are accepted. -/
theorem major_run {p : Parser} (hWF : WF p) (hs : p.m_CurrentState = 0) {d1 : List Byte}
    (h1 : d1 ≠ []) (hd1 : ∀ c ∈ d1, isDigit c.val = true) :
    (run p (bytes "HTTP/" ++ d1 ++ [46])).m_CurrentState = 7
      ∧ AllZero (statuses p (bytes "HTTP/" ++ d1 ++ [46])) := by
  have k0 : Seg p (bytes "HTTP/") 5 [] :=
    Seg.path (M := exactly) prefix_path hs (by decide)
  have k1 := Seg.append hWF k0
    (Seg.digits major_first major_more (by norm_num) (by norm_num) (run_WF _ _ hWF) k0.1 h1 hd1)
  have k2 := Seg.append hWF k1
    (Seg.known (c := 46) (run_WF _ _ hWF) (by norm_num : 2 < 17) (by rw [k1.1]; exact major_exit))
  exact ⟨k2.1, k2.2.1⟩

/-- The two versions and the space after them are accepted. -/
theorem versionPrefix_run {p : Parser} (hWF : WF p) (hs : p.m_CurrentState = 0)
    {d1 d2 : List Byte} (h1 : d1 ≠ []) (hd1 : ∀ c ∈ d1, isDigit c.val = true)
    (h2 : d2 ≠ []) (hd2 : ∀ c ∈ d2, isDigit c.val = true) :
    (run p (versionPrefix d1 d2)).m_CurrentState = 9
      ∧ AllZero (statuses p (versionPrefix d1 d2)) := by
  obtain ⟨m1, m2⟩ := major_run hWF hs h1 hd1
  have hWF1 : WF (run p (bytes "HTTP/" ++ d1 ++ [46])) := run_WF _ _ hWF
  have k3 := Seg.digits minor_first minor_more (by norm_num) (by norm_num) hWF1 m1 h2 hd2
  have k4 := Seg.known (c := 32) (run_WF _ _ hWF1) (by norm_num : 4 < 17)
    (by rw [k3.1]; exact minor_exit)
  have hX : versionPrefix d1 d2 = (bytes "HTTP/" ++ d1 ++ [46]) ++ d2 ++ [32] := rfl
  rw [hX]
  constructor
  · rw [run_append _ (bytes "HTTP/" ++ d1 ++ [46] ++ d2) [32],
      run_append _ (bytes "HTTP/" ++ d1 ++ [46]) d2]
    exact k4.1
  · rw [statuses_append (bytes "HTTP/" ++ d1 ++ [46] ++ d2) [32],
      statuses_append (bytes "HTTP/" ++ d1 ++ [46]) d2, AllZero_append, AllZero_append,
      run_append _ (bytes "HTTP/" ++ d1 ++ [46]) d2]
    exact ⟨⟨m2, k3.2.1⟩, k4.2.1⟩

/-- Up to three digits of the status code are accepted, one state each. -/
theorem code_run {p : Parser} (hs : p.m_CurrentState = 9) :
    ∀ ds : List Byte, (∀ c ∈ ds, isDigit c.val = true) → ds.length ≤ 3 →
      (run p ds).m_CurrentState = 9 + ds.length ∧ AllZero (statuses p ds)
  | [], _, _ => ⟨hs, AllZero_nil⟩
  | [x], hd, _ => by
    have hx := stepsTo_sound _ _ _ code_first x (hd x (by simp))
    rw [← hs] at hx
    obtain ⟨a1, a2, _⟩ := feed_known p x _ _ hx
    exact ⟨a1, by show AllZero [(feed p x).2]; rw [a2]; exact fun _ h => by simpa using h⟩
  | [x, y], hd, _ => by
    have hx := stepsTo_sound _ _ _ code_first x (hd x (by simp))
    rw [← hs] at hx
    obtain ⟨a1, a2, _⟩ := feed_known p x _ _ hx
    have hy := stepsTo_sound _ _ _ code_second y (hd y (by simp))
    rw [← a1] at hy
    obtain ⟨b1, b2, _⟩ := feed_known _ y _ _ hy
    refine ⟨b1, ?_⟩
    show AllZero [(feed p x).2, (feed (feed p x).1 y).2]
    rw [a2, b2]
    exact fun _ h => by simpa using h
  | [x, y, z], hd, _ => by
    have hx := stepsTo_sound _ _ _ code_first x (hd x (by simp))
    rw [← hs] at hx
    obtain ⟨a1, a2, _⟩ := feed_known p x _ _ hx
    have hy := stepsTo_sound _ _ _ code_second y (hd y (by simp))
    rw [← a1] at hy
    obtain ⟨b1, b2, _⟩ := feed_known _ y _ _ hy
    have hz := stepsTo_sound _ _ _ code_third z (hd z (by simp))
    rw [← b1] at hz
    obtain ⟨c1, c2, _⟩ := feed_known _ z _ _ hz
    refine ⟨c1, ?_⟩
    show AllZero [(feed p x).2, (feed (feed p x).1 y).2, (feed (feed (feed p x).1 y).1 z).2]
    rw [a2, b2, c2]
    exact fun _ h => by simpa using h
  | _ :: _ :: _ :: _ :: _, _, hl => by simp at hl

theorem field_facts :
    errsTo 5 (fun c => !isDigit c) ERROR_NOT_A_DIGIT_MAJOR_VERSION = true
      ∧ errsTo 6 (fun c => !isDigit c && c != 46) ERROR_NOT_A_DIGIT_MAJOR_VERSION = true
      ∧ errsTo 7 (fun c => !isDigit c) ERROR_NOT_A_DIGIT_MINOR_VERSION = true
      ∧ errsTo 8 (fun c => !isDigit c && c != 32) ERROR_NOT_A_DIGIT_MINOR_VERSION = true
      ∧ (∀ s ∈ [9, 10, 11],
          errsTo s (fun c => c == 32) ERROR_WRONG_LENGTH_OF_STATUS_CODE = true
            ∧ errsTo s (fun c => !isDigit c && c != 32) ERROR_NOT_A_DIGIT_STATUS_CODE = true)
      ∧ errsTo 12 (fun c => c != 32) ERROR_WRONG_LENGTH_OF_STATUS_CODE = true := by
  have h := field_errors
  unfold fieldErrorsOK at h
  simp only [Bool.and_eq_true, List.all_eq_true] at h
  obtain ⟨⟨⟨⟨⟨a1, a2⟩, a3⟩, a4⟩, a5⟩, a6⟩ := h
  exact ⟨a1, a2, a3, a4, a5, a6⟩

/-- The byte that ends a version field badly: the state after the digits `ds` of the
field, and the error of the byte `c`. -/
theorem version_error {s0 s1 tg e x : Nat} (h0 : stepsTo s0 isDigit (T s1 tg 0) = true)
    (h1 : (digitsRegion s1).check = true) (hs1 : s1 < 85) (htg : tg < 17)
    (e0 : errsTo s0 (fun c => !isDigit c) e = true)
    (e1 : errsTo s1 (fun c => !isDigit c && c != x) e = true)
    {p : Parser} (hWF : WF p) (hs : p.m_CurrentState = s0) (ds : List Byte)
    (hd : ∀ c ∈ ds, isDigit c.val = true) (c : Byte) (hc : isDigit c.val = false)
    (hx : ds = [] ∨ c.val ≠ x) :
    AllZero (statuses p ds) ∧ (lit (run p ds).m_CurrentState c.val).m_Status = e := by
  obtain ⟨r1, r2⟩ := digits_run h0 h1 hs1 htg hWF hs ds hd
  refine ⟨r2, ?_⟩
  rw [r1]
  by_cases hne : ds = []
  · rw [if_pos hne]
    exact errsTo_sound _ _ _ e0 c (by simp [hc])
  · rw [if_neg hne]
    have hcx : c.val ≠ x := hx.resolve_left hne
    exact errsTo_sound _ _ _ e1 c (by simp [hc, hcx])

/-! ## After the status code -/

theorem lenient_ok : lenientOK = true := by decide!

theorem errors_ok : errorsOK = true := by decide!

theorem order_ok : orderOK = true := by decide!

theorem lenient_step (s c : Nat) (h13 : 13 ≤ s) (h85 : s < 85) (hc : c < 256) :
    ((lit s c).m_Status = 0 ∧ 13 ≤ (lit s c).m_State ∧ (lit s c).m_State < 85)
      ∨ (lit s c).m_Status = 1 := by
  have h := check_lit _ _ lenient_ok s h85 (by simpa using h13) c hc
  simp only [Bool.or_eq_true, Bool.and_eq_true, beq_iff_eq, decide_eq_true_eq] at h
  rcases h with ⟨h0, ha⟩ | h1
  · exact Or.inl ⟨h0, ha, (quiet_step s c h85 hc h0).1⟩
  · exact Or.inr h1

/-- Where each error status is returned. -/
theorem error_states (s c : Nat) (hs : s < 85) (hc : c < 256) :
    ((lit s c).m_Status = ERROR_NOT_HTTP → s < 5)
      ∧ ((lit s c).m_Status = ERROR_NOT_A_DIGIT_MAJOR_VERSION → s = 5 ∨ s = 6)
      ∧ ((lit s c).m_Status = ERROR_NOT_A_DIGIT_MINOR_VERSION → s = 7 ∨ s = 8)
      ∧ ((lit s c).m_Status = ERROR_NOT_A_DIGIT_STATUS_CODE
          ∨ (lit s c).m_Status = ERROR_WRONG_LENGTH_OF_STATUS_CODE → 9 ≤ s ∧ s ≤ 12)
      ∧ (lit s c).m_Status < STATUS_END := by
  have h := check_lit _ _ errors_ok s hs rfl c hc
  simp only [Bool.or_eq_true, Bool.and_eq_true, beq_iff_eq, decide_eq_true_eq] at h
  unfold ERROR_NOT_HTTP ERROR_NOT_A_DIGIT_MAJOR_VERSION ERROR_NOT_A_DIGIT_MINOR_VERSION
    ERROR_NOT_A_DIGIT_STATUS_CODE ERROR_WRONG_LENGTH_OF_STATUS_CODE STATUS_END
  omega

theorem order_step (s c : Nat) (hs : s < 85) (hc : c < 256) (h0 : (lit s c).m_Status = 0) :
    (s < 5 → (lit s c).m_State = s + 1) ∧ (5 ≤ s → 5 ≤ (lit s c).m_State) := by
  have h := check_lit _ _ order_ok s hs rfl c hc
  simp only [h0, bne_self_eq_false, Bool.false_or] at h
  constructor
  · intro h5
    rw [if_pos h5] at h
    simpa using h
  · intro h5
    rw [if_neg (by omega)] at h
    simpa using h

/-- The statuses of the first `k` bytes. -/
theorem statuses_take (X : List Byte) :
    ∀ (p : Parser) (k : Nat), (statuses p X).take k = statuses p (X.take k) := by
  induction X with
  | nil => intro p k; simp [statuses]
  | cons c cs ih =>
    intro p k
    cases k with
    | zero => rfl
    | succ k =>
      show (feed p c).2 :: (statuses (feed p c).1 cs).take k
        = (feed p c).2 :: statuses (feed p c).1 (cs.take k)
      rw [ih]

/-- The status of the byte at index `k`: that of `feed` after the bytes before it. -/
theorem statuses_get (X : List Byte) :
    ∀ (p : Parser) (k : Nat) (c : Byte), X.get? k = some c →
      (statuses p X).getD k 0 = (feed (run p (X.take k)) c).2 := by
  induction X with
  | nil => intro p k c h; simp at h
  | cons x xs ih =>
    intro p k c h
    cases k with
    | zero =>
      simp only [List.get?_cons_zero, Option.some.injEq] at h
      rw [← h]
      rfl
    | succ k =>
      simp only [List.get?_cons_succ] at h
      show (statuses (feed p x).1 xs).getD k 0 = (feed (run (feed p x).1 (xs.take k)) c).2
      exact ih _ k c h

theorem statuses_getD_beyond (X : List Byte) (p : Parser) (k : Nat) (h : X.get? k = none) :
    (statuses p X).getD k 0 = 0 := by
  have hk : X.length ≤ k := List.get?_eq_none.mp h
  rw [List.getD_eq_default]
  rw [statuses_length]
  exact hk

/-- While the statuses are IN_PROGRESS a parser that started at state 0 is at least
as far as the number of bytes tells, up to the end of `HTTP/`. -/
theorem order_run (X : List Byte) :
    ∀ p : Parser, p.m_CurrentState < 85 → AllZero (statuses p X) →
      5 ≤ p.m_CurrentState + X.length → 5 ≤ (run p X).m_CurrentState := by
  induction X with
  | nil => intro p _ _ h; simpa using h
  | cons c cs ih =>
    intro p hs hz h5
    have hz' : AllZero ((feed p c).2 :: statuses (feed p c).1 cs) := hz
    rw [AllZero_cons, feed_snd] at hz'
    obtain ⟨o1, o2⟩ := order_step _ _ hs c.isLt hz'.1
    have hq := (quiet_step _ _ hs c.isLt hz'.1).1
    rw [run_cons]
    apply ih _ (by rw [feed_state]; exact hq) hz'.2
    rw [feed_state]
    simp only [List.length_cons] at h5
    by_cases hlt : p.m_CurrentState < 5
    · rw [o1 hlt]
      omega
    · have := o2 (by omega)
      omega

/-- From the reason phrase on, every status up to and including the first one that is
not IN_PROGRESS is IN_PROGRESS or SUCCESS. -/
theorem lenient_run (X : List Byte) :
    ∀ p : Parser, 13 ≤ p.m_CurrentState → p.m_CurrentState < 85 →
      ((feedLoop p X).2 = IN_PROGRESS ∨ (feedLoop p X).2 = SUCCESS)
        ∧ ∀ k, AllZero ((statuses p X).take k) →
          (statuses p X).getD k 0 = IN_PROGRESS ∨ (statuses p X).getD k 0 = SUCCESS := by
  induction X with
  | nil =>
    intro p _ _
    exact ⟨Or.inl rfl, fun k _ => Or.inl (by simp [statuses, IN_PROGRESS])⟩
  | cons c cs ih =>
    intro p h13 h85
    have hstep := lenient_step p.m_CurrentState c.val h13 h85 c.isLt
    rw [← feed_snd, ← feed_state] at hstep
    constructor
    · show (if (feed p c).2 = 0 then feedLoop (feed p c).1 cs else feed p c).2 = IN_PROGRESS
        ∨ (if (feed p c).2 = 0 then feedLoop (feed p c).1 cs else feed p c).2 = SUCCESS
      rcases hstep with ⟨h0, ha, hb⟩ | h1
      · rw [if_pos h0]
        exact (ih _ ha hb).1
      · rw [if_neg (by rw [h1]; decide)]
        exact Or.inr h1
    · intro k hk
      cases k with
      | zero =>
        show (feed p c).2 = IN_PROGRESS ∨ (feed p c).2 = SUCCESS
        rcases hstep with ⟨h0, _, _⟩ | h1
        · exact Or.inl h0
        · exact Or.inr h1
      | succ k =>
        have hk' : AllZero ((feed p c).2 :: (statuses (feed p c).1 cs).take k) := hk
        rw [AllZero_cons] at hk'
        rcases hstep with ⟨_, ha, hb⟩ | h1
        · exact (ih _ ha hb).2 k hk'.2
        · rw [h1] at hk'
          exact absurd hk'.1 (by decide)

theorem AllZero_getD (l : List Nat) (h : AllZero l) (k : Nat) : l.getD k 0 = 0 := by
  by_cases hk : k < l.length
  · rw [List.getD_eq_getElem _ _ hk]
    exact h _ (List.getElem_mem hk)
  · exact List.getD_eq_default _ _ (by omega)

/-! ## The counter and the states of the reason phrase -/

theorem count_eq (p : Parser) : count p = p.m_CurrentPos := rfl

theorem fresh_pos_add (n : Nat) : (({} : Parser).m_CurrentPos + n) % 2 ^ 32 = n % 2 ^ 32 := by
  show (0 + n) % 2 ^ 32 = n % 2 ^ 32
  rw [Nat.zero_add]

theorem reason_region : reasonRegion.check = true := by decide!

/-! ## The two loops of the tests -/

/-- The loop that keeps the statuses ends in the parser of the loop that keeps the
last status only. -/
theorem feedTrace_fst (X : List Byte) : ∀ p : Parser, (feedTrace p X).1 = (feedLoop p X).1 := by
  induction X with
  | nil => intro p; rfl
  | cons c cs ih =>
    intro p
    show (if (feed p c).2 = 0 then
        ((feedTrace (feed p c).1 cs).1, (feed p c).2 :: (feedTrace (feed p c).1 cs).2)
      else ((feed p c).1, [(feed p c).2])).1
      = (if (feed p c).2 = 0 then feedLoop (feed p c).1 cs else feed p c).1
    by_cases h0 : (feed p c).2 = 0
    · rw [if_pos h0, if_pos h0]
      exact ih _
    · rw [if_neg h0, if_neg h0]

/-- When no status before the last byte is final the loop feeds every byte. -/
theorem feedTrace_quiet (X : List Byte) :
    ∀ p : Parser, AllZero (statuses p X).dropLast → feedTrace p X = (run p X, statuses p X) := by
  induction X with
  | nil => intro p _; rfl
  | cons c cs ih =>
    intro p hz
    show (if (feed p c).2 = 0 then
        ((feedTrace (feed p c).1 cs).1, (feed p c).2 :: (feedTrace (feed p c).1 cs).2)
      else ((feed p c).1, [(feed p c).2]))
      = (run (feed p c).1 cs, (feed p c).2 :: statuses (feed p c).1 cs)
    cases cs with
    | nil =>
      by_cases h0 : (feed p c).2 = 0
      · rw [if_pos h0]
        rfl
      · rw [if_neg h0]
        rfl
    | cons d ds =>
      have hz' : AllZero ((feed p c).2 :: (statuses (feed p c).1 (d :: ds)).dropLast) := hz
      rw [AllZero_cons] at hz'
      rw [if_pos hz'.1, ih _ hz'.2]

theorem get_after (A : List Byte) (c : Byte) (B : List Byte) :
    (A ++ c :: B).get? A.length = some c := by
  induction A with
  | nil => rfl
  | cons a A ih => exact ih

/-- The loop that reads `resp[count()]` is the loop that reads the bytes in order, as
long as the input has at most `2^32` bytes. -/
theorem resume_eq (resp : List Byte) :
    ∀ (B A : List Byte) (p : Parser), WF p → resp = A ++ B →
      p.m_CurrentPos = A.length % 2 ^ 32 → resp.length ≤ 2 ^ 32 →
      resumeTrace resp B.length p = some (feedTrace p B) := by
  intro B
  induction B with
  | nil => intro A p _ _ _ _; rfl
  | cons c cs ih =>
    intro A p hWF hresp hpos hlen
    have hA : A.length < 2 ^ 32 := by
      have := congrArg List.length hresp
      simp only [List.length_append, List.length_cons] at this
      omega
    rw [Nat.mod_eq_of_lt hA] at hpos
    have hget : resp.get? (count p) = some c := by
      rw [count_eq, hpos, hresp]
      exact get_after A c cs
    have hnext := ih (A ++ [c]) (feed p c).1 (feed_WF p c hWF)
      (by rw [hresp]; simp)
      (by rw [feed_pos, hpos, List.length_append, List.length_singleton]) hlen
    show (match resp.get? (count p) with
      | none => none
      | some c =>
        if (feed p c).2 = 0 then
          (resumeTrace resp cs.length (feed p c).1).map (fun r => (r.1, (feed p c).2 :: r.2))
        else some ((feed p c).1, [(feed p c).2])) = some (feedTrace p (c :: cs))
    rw [hget]
    simp only
    rw [hnext]
    show _ = some (if (feed p c).2 = 0 then
        ((feedTrace (feed p c).1 cs).1, (feed p c).2 :: (feedTrace (feed p c).1 cs).2)
      else ((feed p c).1, [(feed p c).2]))
    by_cases h0 : (feed p c).2 = 0
    · rw [if_pos h0, if_pos h0]
      rfl
    · rw [if_neg h0, if_neg h0]

/-- The loop that reads `resp[count()]`, over bytes `B` of the input that are all
accepted and lie below the offset `2^32`: it goes on from the parser after `B`. -/
theorem resume_quiet (resp : List Byte) (m : Nat) :
    ∀ (B A C : List Byte) (p : Parser), WF p → resp = A ++ B ++ C →
      p.m_CurrentPos = A.length % 2 ^ 32 → A.length + B.length ≤ 2 ^ 32 →
      AllZero (statuses p B) →
      resumeTrace resp (B.length + m) p =
        (resumeTrace resp m (run p B)).map (fun r => (r.1, statuses p B ++ r.2)) := by
  intro B
  induction B with
  | nil =>
    intro A C p _ _ _ _ _
    show resumeTrace resp (0 + m) p = (resumeTrace resp m p).map (fun r => (r.1, [] ++ r.2))
    rw [Nat.zero_add]
    cases resumeTrace resp m p with
    | none => rfl
    | some r => rfl
  | cons c cs ih =>
    intro A C p hWF hresp hpos hlen hz
    simp only [List.length_cons] at hlen
    rw [Nat.mod_eq_of_lt (by omega)] at hpos
    have hz' : AllZero ((feed p c).2 :: statuses (feed p c).1 cs) := hz
    rw [AllZero_cons] at hz'
    have hget : resp.get? (count p) = some c := by
      rw [count_eq, hpos, hresp, List.append_assoc]
      exact get_after A c (cs ++ C)
    have hnext := ih (A ++ [c]) C (feed p c).1 (feed_WF p c hWF)
      (by rw [hresp]; simp)
      (by rw [feed_pos, hpos, List.length_append, List.length_singleton])
      (by rw [List.length_append, List.length_singleton]; omega) hz'.2
    have e : (c :: cs).length + m = (cs.length + m) + 1 := by
      simp only [List.length_cons]
      omega
    rw [e]
    show (match resp.get? (count p) with
      | none => none
      | some c =>
        if (feed p c).2 = 0 then
          (resumeTrace resp (cs.length + m) (feed p c).1).map
            (fun r => (r.1, (feed p c).2 :: r.2))
        else some ((feed p c).1, [(feed p c).2])) =
      (resumeTrace resp m (run p (c :: cs))).map
        (fun r => (r.1, ((feed p c).2 :: statuses (feed p c).1 cs) ++ r.2))
    rw [hget]
    simp only
    rw [if_pos hz'.1, hnext, run_cons]
    cases resumeTrace resp m (run (feed p c).1 cs) with
    | none => rfl
    | some r => rfl

/-- The loop that reads `resp[count()]` when the counter is back at 0 after `2^32`
accepted bytes of a major version: it reads the first byte of the input again and
ends with the error of the major version. -/
theorem resume_wrap (Y : List Byte) (m : Nat) :
    resumeTrace (bytes "HTTP/" ++ List.replicate wrapLength 49 ++ Y)
        ((bytes "HTTP/" ++ List.replicate wrapLength (49 : Byte)).length + (m + 1)) {}
      = some ((feed (run {} (bytes "HTTP/" ++ List.replicate wrapLength 49)) 72).1,
          statuses {} (bytes "HTTP/" ++ List.replicate wrapLength 49)
            ++ [ERROR_NOT_A_DIGIT_MAJOR_VERSION]) := by
  have hd : isDigit (49 : Byte).val = true := by decide
  obtain ⟨p1, p2⟩ := http_run (p := {}) rfl
  obtain ⟨g1, g2⟩ := digits_run major_first major_more (by norm_num) (by norm_num)
    (run_WF _ _ fresh_WF) p1 (List.replicate wrapLength 49) (replicate_digits wrapLength 49 hd)
  rw [if_neg (replicate_ne_nil 49)] at g1
  have hl : (bytes "HTTP/" ++ List.replicate wrapLength (49 : Byte)).length = 2 ^ 32 := by
    rw [List.length_append, bytes_HTTP_length, List.length_replicate, wrapLength_eq]
    norm_num
  have hz : AllZero (statuses {} (bytes "HTTP/" ++ List.replicate wrapLength 49)) := by
    rw [statuses_append, AllZero_append]
    exact ⟨p2, g2⟩
  have hq := resume_quiet (bytes "HTTP/" ++ List.replicate wrapLength 49 ++ Y) (m + 1)
    (bytes "HTTP/" ++ List.replicate wrapLength 49) [] Y {} fresh_WF rfl rfl
    (by rw [hl]; simp) hz
  rw [hq]
  have hpos : (run {} (bytes "HTTP/" ++ List.replicate wrapLength 49)).m_CurrentPos = 0 := by
    rw [run_pos _ _ fresh_WF, hl, fresh_pos_add]
    exact Nat.mod_self _
  have hst : (run {} (bytes "HTTP/" ++ List.replicate wrapLength 49)).m_CurrentState = 6 := by
    rw [run_append]
    exact g1
  have hb : bytes "HTTP/" = [72, 84, 84, 80, 47] := by decide
  have hget : (bytes "HTTP/" ++ List.replicate wrapLength 49 ++ Y).get?
      (count (run {} (bytes "HTTP/" ++ List.replicate wrapLength 49))) = some 72 := by
    rw [count_eq, hpos]
    conv_lhs => arg 1; rw [hb]
    rfl
  have hstatus : (feed (run {} (bytes "HTTP/" ++ List.replicate wrapLength 49)) 72).2
      = ERROR_NOT_A_DIGIT_MAJOR_VERSION := by
    rw [feed_snd, hst]
    decide
  have hres : resumeTrace (bytes "HTTP/" ++ List.replicate wrapLength 49 ++ Y) (m + 1)
      (run {} (bytes "HTTP/" ++ List.replicate wrapLength 49))
      = some ((feed (run {} (bytes "HTTP/" ++ List.replicate wrapLength 49)) 72).1,
          [ERROR_NOT_A_DIGIT_MAJOR_VERSION]) := by
    rw [resumeTrace, hget]
    simp only
    rw [if_neg (by rw [hstatus]; decide), hstatus]
  rw [hres]
  rfl

/-! ## The tags of a fragment along a parse -/

theorem frag_ok : ∀ f ∈ [0, 1, 2, 3, 4, 5, 6, 7], fragOK f = true := by decide!

theorem fragInv_closed {k b e pos : Nat} (hk : k ≠ 2) (h : fragInv k b e pos) :
    (b = 0 ∧ e = 0) ∨ (5 ≤ b ∧ b < e ∧ e < pos) := by
  unfold fragInv at h
  rw [if_neg hk] at h
  split_ifs at h
  · exact Or.inr h
  · exact h

theorem fragInv_of_closed (k : Nat) {b e pos : Nat} (h : 5 ≤ b ∧ b < e ∧ e < pos) :
    fragInv k b e pos := by
  unfold fragInv
  split_ifs
  · exact ⟨h.1, by omega⟩
  · exact h
  · exact Or.inr h

theorem fragInv_mono {k b e pos : Nat} (h : fragInv k b e pos) : fragInv k b e (pos + 1) := by
  unfold fragInv at *
  split_ifs at *
  · exact ⟨h.1, by omega⟩
  · exact ⟨h.1, h.2.1, by omega⟩
  · rcases h with h | h
    · exact Or.inl h
    · exact Or.inr ⟨h.1, h.2.1, by omega⟩

/-- One byte that is not final keeps what the state tells about the tags of the
fragment `f`, as long as the position does not wrap. -/
theorem frag_feed (f : Nat) (hf : f < 8) (p : Parser) (c : Byte) (hWF : WF p)
    (hs : p.m_CurrentState < 85) (hpos : p.m_CurrentPos + 1 < 2 ^ 32)
    (h0 : (feed p c).2 = 0)
    (hI : fragInv (fragKind f p.m_CurrentState) (tagAt p (tagBegin f)) (tagAt p (tagEnd f))
      p.m_CurrentPos)
    (hJ : min p.m_CurrentState 5 ≤ p.m_CurrentPos) :
    fragInv (fragKind f (feed p c).1.m_CurrentState) (tagAt (feed p c).1 (tagBegin f))
        (tagAt (feed p c).1 (tagEnd f)) (feed p c).1.m_CurrentPos
      ∧ min (feed p c).1.m_CurrentState 5 ≤ (feed p c).1.m_CurrentPos := by
  have hfm : f ∈ [0, 1, 2, 3, 4, 5, 6, 7] := by
    simp only [List.mem_cons, List.mem_singleton, List.not_mem_nil, or_false]
    omega
  have hg := check_lit _ _ (frag_ok f hfm) _ hs rfl c.val c.isLt
  rw [feed_snd] at h0
  obtain ⟨o1, o2⟩ := order_step _ _ hs c.isLt h0
  rw [feed_pos, Nat.mod_eq_of_lt hpos, feed_state, feed_tagAt, feed_tagAt]
  simp only [h0, beq_self_eq_true, if_true] at hg
  have hlen : p.m_SavedTagOffsets.length = 17 := hWF.1
  have htb : tagBegin f < 17 := by unfold tagBegin; omega
  have hte : tagEnd f < 17 := by unfold tagEnd; omega
  have hne : tagBegin f ≠ tagEnd f := by unfold tagBegin tagEnd; omega
  constructor
  · by_cases hb : (lit p.m_CurrentState c.val).m_Tag = tagBegin f
    · rw [if_pos ⟨hb, by rw [hlen]; exact htb⟩, if_neg (by rw [hb]; exact fun h => hne h.1)]
      simp only [hb, beq_self_eq_true, if_true, Bool.and_eq_true, beq_iff_eq,
        decide_eq_true_eq] at hg
      rw [hg.1]
      unfold fragInv
      rw [if_pos rfl]
      have : min p.m_CurrentState 5 = 5 := Nat.min_eq_right hg.2
      omega
    · by_cases he : (lit p.m_CurrentState c.val).m_Tag = tagEnd f
      · rw [if_neg (fun h => hb h.1), if_pos ⟨he, by rw [hlen]; exact hte⟩]
        simp only [he, beq_iff_eq, hne.symm, if_false, beq_self_eq_true, if_true,
          Bool.and_eq_true, bne_iff_ne, ne_eq] at hg
        rw [hg.1] at hI
        unfold fragInv at hI
        rw [if_pos rfl] at hI
        exact fragInv_of_closed _ ⟨hI.1, hI.2, by omega⟩
      · rw [if_neg (fun h => hb h.1), if_neg (fun h => he h.1)]
        simp only [beq_iff_eq, hb, he, if_false, Bool.or_eq_true] at hg
        rcases hg with h1 | h1
        · rw [h1] at hI
          unfold fragInv at hI
          rw [if_neg (by norm_num), if_pos rfl] at hI
          exact fragInv_of_closed _ ⟨hI.1, hI.2.1, by omega⟩
        · rw [h1]
          exact fragInv_mono hI
  · by_cases h5 : p.m_CurrentState < 5
    · rw [o1 h5]
      have : min p.m_CurrentState 5 = p.m_CurrentState := Nat.min_eq_left (by omega)
      have := Nat.min_le_left (p.m_CurrentState + 1) 5
      omega
    · have := o2 (by omega)
      have : min p.m_CurrentState 5 = 5 := Nat.min_eq_right (by omega)
      have := Nat.min_le_right (lit p.m_CurrentState c.val).m_State 5
      omega

/-- Bytes that are all accepted keep what the state tells about the tags of the
fragment `f`, as long as the position does not wrap. -/
theorem frag_run (f : Nat) (hf : f < 8) (X : List Byte) :
    ∀ p : Parser, WF p → p.m_CurrentState < 85 → p.m_CurrentPos + X.length < 2 ^ 32 →
      AllZero (statuses p X) →
      fragInv (fragKind f p.m_CurrentState) (tagAt p (tagBegin f)) (tagAt p (tagEnd f))
        p.m_CurrentPos →
      min p.m_CurrentState 5 ≤ p.m_CurrentPos →
      fragInv (fragKind f (run p X).m_CurrentState) (tagAt (run p X) (tagBegin f))
          (tagAt (run p X) (tagEnd f)) (run p X).m_CurrentPos
        ∧ (run p X).m_CurrentPos = p.m_CurrentPos + X.length := by
  induction X with
  | nil => intro p _ _ _ _ hI _; exact ⟨hI, rfl⟩
  | cons c cs ih =>
    intro p hWF hs hpos hz hI hJ
    simp only [List.length_cons] at hpos
    have hz' : AllZero ((feed p c).2 :: statuses (feed p c).1 cs) := hz
    rw [AllZero_cons] at hz'
    obtain ⟨i1, i2⟩ := frag_feed f hf p c hWF hs (by omega) hz'.1 hI hJ
    have hp : (feed p c).1.m_CurrentPos = p.m_CurrentPos + 1 := by
      rw [feed_pos]
      exact Nat.mod_eq_of_lt (by omega)
    have hq : (feed p c).1.m_CurrentState < 85 := by
      rw [feed_state]
      exact (quiet_step _ _ hs c.isLt (by rw [← feed_snd]; exact hz'.1)).1
    obtain ⟨r1, r2⟩ := ih (feed p c).1 (feed_WF p c hWF) hq (by rw [hp]; omega) hz'.2 i1 i2
    rw [run_cons]
    refine ⟨r1, ?_⟩
    rw [r2, hp, List.length_cons]
    omega

/-- After a parse of fewer than `2^32` bytes that ended in SUCCESS the tags of a
fragment are both zero, or the begin tag is at least 5 and the end tag lies after it
and before the count. -/
theorem frag_final (f : Nat) (hf : f < 8) (X : List Byte) (hlen : X.length < 2 ^ 32)
    (hS : statuses {} X = List.replicate (X.length - 1) IN_PROGRESS ++ [SUCCESS]) :
    (run {} X).m_CurrentPos = X.length
      ∧ ((tagAt (run {} X) (tagBegin f) = 0 ∧ tagAt (run {} X) (tagEnd f) = 0)
        ∨ (5 ≤ tagAt (run {} X) (tagBegin f)
          ∧ tagAt (run {} X) (tagBegin f) < tagAt (run {} X) (tagEnd f)
          ∧ tagAt (run {} X) (tagEnd f) < X.length)) := by
  have hpos : (run {} X).m_CurrentPos = X.length := by
    rw [run_pos _ _ fresh_WF, fresh_pos_add]
    exact Nat.mod_eq_of_lt hlen
  refine ⟨hpos, ?_⟩
  rcases List.eq_nil_or_concat X with hnil | ⟨Y, c, hX⟩
  · rw [hnil] at hS
    exact absurd (congrArg List.length hS) (by simp [statuses])
  · rw [List.concat_eq_append] at hX
    subst hX
    have hfm : f ∈ [0, 1, 2, 3, 4, 5, 6, 7] := by
      simp only [List.mem_cons, List.mem_singleton, List.not_mem_nil, or_false]
      omega
    have hl : (Y ++ [c]).length - 1 = Y.length := by simp
    rw [hl, statuses_append] at hS
    obtain ⟨e1, e2⟩ := List.append_inj hS (by rw [statuses_length, List.length_replicate])
    have hz : AllZero (statuses {} Y) := by
      rw [e1]
      intro x hx
      exact List.eq_of_mem_replicate hx
    have hlast : (feed (run {} Y) c).2 = 1 := by
      have : [(feed (run {} Y) c).2] = [SUCCESS] := e2
      exact List.head_eq_of_cons_eq this
    simp only [List.length_append, List.length_singleton] at hlen
    have h0 : fragInv (fragKind f ({} : Parser).m_CurrentState)
        (tagAt {} (tagBegin f)) (tagAt {} (tagEnd f)) ({} : Parser).m_CurrentPos := by
      rw [tagAt_fresh, tagAt_fresh]
      unfold fragInv
      have hk : fragKind f 0 = 0 := by
        have : ∀ g ∈ [0, 1, 2, 3, 4, 5, 6, 7], fragKind g 0 = 0 := by decide
        exact this f hfm
      show (if fragKind f 0 = 2 then _ else if fragKind f 0 = 1 then _ else _)
      rw [hk]
      exact Or.inl ⟨rfl, rfl⟩
    obtain ⟨r1, r2⟩ := frag_run f hf Y {} fresh_WF (by show (0 : Nat) < 85; norm_num)
      (by show 0 + Y.length < 2 ^ 32; omega) hz h0 (by show min 0 5 ≤ 0; norm_num)
    have hs : (run {} Y).m_CurrentState < 85 :=
      (quiet_run Y {} (by show (0 : Nat) < 85; norm_num) hz).1
    have hg := check_lit _ _ (frag_ok f hfm) _ hs rfl c.val c.isLt
    rw [feed_snd] at hlast
    simp only [hlast, Nat.succ_ne_zero, beq_iff_eq, if_false, bne_self_eq_false,
      Bool.false_or, Bool.and_eq_true, bne_iff_ne, ne_eq] at hg
    have hclosed := fragInv_closed hg.1 r1
    have hpY : (run {} Y).m_CurrentPos = Y.length := by
      rw [r2]
      show 0 + Y.length = Y.length
      omega
    rw [hpY] at hclosed
    have htb : tagBegin f ≠ 0 := by unfold tagBegin; omega
    have hte : tagEnd f ≠ 0 := by unfold tagEnd; omega
    rw [run_append]
    show (tagAt (feed (run {} Y) c).1 (tagBegin f) = 0 ∧ tagAt (feed (run {} Y) c).1 (tagEnd f) = 0)
      ∨ (5 ≤ tagAt (feed (run {} Y) c).1 (tagBegin f)
        ∧ tagAt (feed (run {} Y) c).1 (tagBegin f) < tagAt (feed (run {} Y) c).1 (tagEnd f)
        ∧ tagAt (feed (run {} Y) c).1 (tagEnd f) < (Y ++ [c]).length)
    rw [feed_tagAt_ne _ _ _ (by rw [hg.2]; exact htb.symm),
      feed_tagAt_ne _ _ _ (by rw [hg.2]; exact hte.symm), List.length_append,
      List.length_singleton]
    rcases hclosed with h | h
    · exact Or.inl h
    · exact Or.inr ⟨h.1, h.2.1, by omega⟩

/-! ## The shape and the bounds of the table -/

theorem shape_ok : shapeOK = true := by decide!

theorem bounds_ok : boundsOK = true := by decide!

theorem num_conditions : theStateMachine.m_NumConditions = 85 := by decide!

theorem shape_step (s c : Nat) (hs : s < 85) (hc : c < 256) :
    ((lit s c).m_Status = 0 → 1 ≤ (lit s c).m_State)
      ∧ ((lit s c).m_Status ≠ 0 →
        (lit s c).m_State = 0 ∧ (lit s c).m_Tag = DUMMY_TAG ∧ (lit s c).m_Status < STATUS_END) := by
  have h := check_lit _ _ shape_ok s hs rfl c hc
  constructor
  · intro h0
    simpa [h0] using h
  · intro h0
    simp only [beq_iff_eq, h0, if_false, Bool.and_eq_true, decide_eq_true_eq] at h
    exact ⟨h.1.1, h.1.2, h.2⟩

theorem bounds_step (s c : Nat) (hs : s < 85) (hc : c < 256) :
    (lit s c).m_State < 85 ∧ (lit s c).m_Tag < NUM_TAGS
      ∧ ((lit s c).m_Tag ≠ DUMMY_TAG → 5 ≤ s) := by
  have h := check_lit _ _ bounds_ok s hs rfl c hc
  simp only [Bool.and_eq_true, Bool.or_eq_true, decide_eq_true_eq, beq_iff_eq] at h
  exact ⟨h.1.1, h.1.2, fun hne => h.2.resolve_left hne⟩

/-- Outside the 85 states and the 256 byte values the closed form is the
default-constructed transition. -/
theorem lit_default (s c : Nat) (h : 85 ≤ s ∨ 256 ≤ c) : lit s c = {} := by
  unfold lit
  by_cases hc : c < 256
  · rw [if_pos hc]
    have h2 : litRows.getD s (fun _ => {}) = fun _ => {} := by
      apply List.getD_eq_default
      rw [litRows_length]
      omega
    rw [h2]
  · rw [if_neg hc]

theorem row_length (s : Nat) (hs : s < 128) :
    (theStateMachine.at s).m_Transitions.length = NUM_TRANSITIONS :=
  tableAgrees_length _ litRows table_agrees s (by rw [table_length]; exact hs)

/-! ## Feeding whatever the statuses are -/

theorem state_feed (p : Parser) (c : Byte) (hs : p.m_CurrentState < 85) :
    (feed p c).1.m_CurrentState < 85 := by
  rw [feed_state]
  exact (bounds_step _ _ hs c.isLt).1

/-- The state stays among the 85 states of the table, for any bytes. -/
theorem state_run (X : List Byte) :
    ∀ p : Parser, p.m_CurrentState < 85 → (run p X).m_CurrentState < 85 := by
  induction X with
  | nil => intro p h; exact h
  | cons c cs ih =>
    intro p h
    rw [run_cons]
    exact ih _ (state_feed p c h)

/-- Every slot written is one of the 17 slots, for any bytes. -/
theorem writes_bound (X : List Byte) :
    ∀ p : Parser, p.m_CurrentState < 85 → ∀ e ∈ writes p X, e.1 < NUM_TAGS := by
  induction X with
  | nil => intro p _ e he; cases he
  | cons c cs ih =>
    intro p h e he
    have he' : e ∈ ((tbl p.m_CurrentState c.val).m_Tag, p.m_CurrentPos)
        :: writes (feed p c).1 cs := he
    rcases List.mem_cons.mp he' with h1 | h1
    · rw [h1, tbl_eq_lit]
      exact (bounds_step _ _ h c.isLt).2.1
    · exact ih _ (state_feed p c h) e h1

/-- One byte, whatever its status: the position is at least the number of states of
`HTTP/` passed, as long as it does not wrap. -/
theorem any_feed (p : Parser) (c : Byte) (hs : p.m_CurrentState < 85)
    (hJ : min p.m_CurrentState 5 ≤ p.m_CurrentPos) (hpos : p.m_CurrentPos + 1 < 2 ^ 32) :
    min (feed p c).1.m_CurrentState 5 ≤ (feed p c).1.m_CurrentPos
      ∧ (feed p c).1.m_CurrentPos = p.m_CurrentPos + 1 := by
  rw [feed_pos, Nat.mod_eq_of_lt hpos, feed_state]
  refine ⟨?_, rfl⟩
  by_cases h0 : (lit p.m_CurrentState c.val).m_Status = 0
  · obtain ⟨o1, o2⟩ := order_step _ _ hs c.isLt h0
    by_cases h5 : p.m_CurrentState < 5
    · rw [o1 h5]
      have : min p.m_CurrentState 5 = p.m_CurrentState := Nat.min_eq_left (by omega)
      have := Nat.min_le_left (p.m_CurrentState + 1) 5
      omega
    · have : min p.m_CurrentState 5 = 5 := Nat.min_eq_right (by omega)
      have := Nat.min_le_right (lit p.m_CurrentState c.val).m_State 5
      omega
  · rw [((shape_step _ _ hs c.isLt).2 h0).1]
    simp

/-- The values written into the slots other than the dummy are at least 5, and a slot
that is never written keeps its value, as long as the position does not wrap. -/
theorem writes_spec (X : List Byte) :
    ∀ p : Parser, WF p → p.m_CurrentState < 85 → min p.m_CurrentState 5 ≤ p.m_CurrentPos →
      p.m_CurrentPos + X.length < 2 ^ 32 →
      (∀ e ∈ writes p X, e.1 ≠ DUMMY_TAG → 5 ≤ e.2)
        ∧ ∀ i, i ≠ DUMMY_TAG →
          ((∀ e ∈ writes p X, e.1 ≠ i) → tagAt (run p X) i = tagAt p i)
            ∧ ((∃ e ∈ writes p X, e.1 = i) → 5 ≤ tagAt (run p X) i) := by
  induction X with
  | nil =>
    intro p _ _ _ _
    constructor
    · intro e he
      cases he
    · intro i _
      constructor
      · intro _
        rfl
      · rintro ⟨e, he, _⟩
        cases he
  | cons c cs ih =>
    intro p hWF hs hJ hpos
    simp only [List.length_cons] at hpos
    obtain ⟨a1, a2⟩ := any_feed p c hs hJ (by omega)
    obtain ⟨r1, r2⟩ := ih (feed p c).1 (feed_WF p c hWF) (state_feed p c hs) a1
      (by rw [a2]; omega)
    have hw : writes p (c :: cs) = ((tbl p.m_CurrentState c.val).m_Tag, p.m_CurrentPos)
        :: writes (feed p c).1 cs := rfl
    have hv : (tbl p.m_CurrentState c.val).m_Tag ≠ DUMMY_TAG → 5 ≤ p.m_CurrentPos := by
      intro hne
      rw [tbl_eq_lit] at hne
      have h5 := (bounds_step _ _ hs c.isLt).2.2 hne
      have : min p.m_CurrentState 5 = 5 := Nat.min_eq_right h5
      omega
    rw [hw]
    constructor
    · intro e he hne
      rcases List.mem_cons.mp he with h1 | h1
      · rw [h1] at hne ⊢
        exact hv hne
      · exact r1 e h1 hne
    · intro i hi
      rw [run_cons]
      constructor
      · intro hnever
        rw [(r2 i hi).1 (fun e he => hnever e (List.mem_cons_of_mem _ he))]
        apply feed_tagAt_ne
        rw [← tbl_eq_lit]
        exact hnever _ (List.mem_cons_self _ _)
      · rintro ⟨e, he, hei⟩
        by_cases hlater : ∃ e ∈ writes (feed p c).1 cs, e.1 = i
        · exact (r2 i hi).2 hlater
        · have hnone : ∀ e ∈ writes (feed p c).1 cs, e.1 ≠ i :=
            fun e he h => hlater ⟨e, he, h⟩
          rw [(r2 i hi).1 hnone]
          rcases List.mem_cons.mp he with h1 | h1
          · rw [h1] at hei
            simp only at hei
            have hlt : i < NUM_TAGS := by
              rw [← hei, tbl_eq_lit]
              exact (bounds_step _ _ hs c.isLt).2.1
            rw [feed_tagAt, if_pos ⟨by rw [← tbl_eq_lit]; exact hei, by rw [hWF.1]; exact hlt⟩]
            exact hv (by rw [hei]; exact hi)
          · exact absurd hei (hnone e h1)

/-- One byte, whatever its status, keeps this about the tags of a fragment: once the
end tag is not zero, and in the states that tell that the begin tag is written, the
begin tag is at least 5. -/
theorem weak_feed (f : Nat) (hf : f < 8) (p : Parser) (c : Byte) (hWF : WF p)
    (hs : p.m_CurrentState < 85) (hJ : min p.m_CurrentState 5 ≤ p.m_CurrentPos)
    (h1 : fragKind f p.m_CurrentState ≠ 0 → 5 ≤ tagAt p (tagBegin f))
    (h2 : tagAt p (tagEnd f) ≠ 0 → 5 ≤ tagAt p (tagBegin f)) :
    (fragKind f (feed p c).1.m_CurrentState ≠ 0 → 5 ≤ tagAt (feed p c).1 (tagBegin f))
      ∧ (tagAt (feed p c).1 (tagEnd f) ≠ 0 → 5 ≤ tagAt (feed p c).1 (tagBegin f)) := by
  have hfm : f ∈ [0, 1, 2, 3, 4, 5, 6, 7] := by
    simp only [List.mem_cons, List.mem_singleton, List.not_mem_nil, or_false]
    omega
  have hk0 : fragKind f 0 = 0 := by
    have : ∀ g ∈ [0, 1, 2, 3, 4, 5, 6, 7], fragKind g 0 = 0 := by decide
    exact this f hfm
  have htb : tagBegin f < 17 := by unfold tagBegin; omega
  have hne : tagBegin f ≠ tagEnd f := by unfold tagBegin tagEnd; omega
  have htb0 : tagBegin f ≠ 0 := by unfold tagBegin; omega
  have hte0 : tagEnd f ≠ 0 := by unfold tagEnd; omega
  have hlen : p.m_SavedTagOffsets.length = 17 := hWF.1
  have hg := check_lit _ _ (frag_ok f hfm) _ hs rfl c.val c.isLt
  rw [feed_state]
  by_cases h0 : (lit p.m_CurrentState c.val).m_Status = 0
  · simp only [h0, beq_self_eq_true, if_true] at hg
    by_cases hb : (lit p.m_CurrentState c.val).m_Tag = tagBegin f
    · simp only [hb, beq_self_eq_true, if_true, Bool.and_eq_true, beq_iff_eq,
        decide_eq_true_eq] at hg
      have h5 : min p.m_CurrentState 5 = 5 := Nat.min_eq_right hg.2
      have hb' : tagAt (feed p c).1 (tagBegin f) = p.m_CurrentPos := by
        rw [feed_tagAt, if_pos ⟨hb, by rw [hlen]; exact htb⟩]
      rw [hb']
      exact ⟨fun _ => by omega, fun _ => by omega⟩
    · have hb' : tagAt (feed p c).1 (tagBegin f) = tagAt p (tagBegin f) :=
        feed_tagAt_ne _ _ _ hb
      rw [hb']
      by_cases he : (lit p.m_CurrentState c.val).m_Tag = tagEnd f
      · simp only [he, beq_iff_eq, hne.symm, if_false, beq_self_eq_true, if_true,
          Bool.and_eq_true, bne_iff_ne, ne_eq] at hg
        have := h1 (by rw [hg.1]; norm_num)
        exact ⟨fun _ => this, fun _ => this⟩
      · have he' : tagAt (feed p c).1 (tagEnd f) = tagAt p (tagEnd f) :=
          feed_tagAt_ne _ _ _ he
        rw [he']
        simp only [beq_iff_eq, hb, he, if_false, Bool.or_eq_true] at hg
        refine ⟨?_, h2⟩
        intro hx
        rcases hg with hg1 | hg1
        · exact h1 (by rw [hg1]; norm_num)
        · exact h1 (by rw [← hg1]; exact hx)
  · obtain ⟨s1, s2, _⟩ := (shape_step _ _ hs c.isLt).2 h0
    have s2' : (lit p.m_CurrentState c.val).m_Tag = 0 := s2
    have hb' : tagAt (feed p c).1 (tagBegin f) = tagAt p (tagBegin f) :=
      feed_tagAt_ne _ _ _ (by rw [s2']; exact htb0.symm)
    have he' : tagAt (feed p c).1 (tagEnd f) = tagAt p (tagEnd f) :=
      feed_tagAt_ne _ _ _ (by rw [s2']; exact hte0.symm)
    rw [hb', he', s1, hk0]
    exact ⟨fun hx => absurd rfl hx, h2⟩

/-- The same for any bytes, as long as the position does not wrap. -/
theorem weak_run (f : Nat) (hf : f < 8) (X : List Byte) :
    ∀ p : Parser, WF p → p.m_CurrentState < 85 → min p.m_CurrentState 5 ≤ p.m_CurrentPos →
      p.m_CurrentPos + X.length < 2 ^ 32 →
      (fragKind f p.m_CurrentState ≠ 0 → 5 ≤ tagAt p (tagBegin f)) →
      (tagAt p (tagEnd f) ≠ 0 → 5 ≤ tagAt p (tagBegin f)) →
      (fragKind f (run p X).m_CurrentState ≠ 0 → 5 ≤ tagAt (run p X) (tagBegin f))
        ∧ (tagAt (run p X) (tagEnd f) ≠ 0 → 5 ≤ tagAt (run p X) (tagBegin f)) := by
  induction X with
  | nil => intro p _ _ _ _ h1 h2; exact ⟨h1, h2⟩
  | cons c cs ih =>
    intro p hWF hs hJ hpos h1 h2
    simp only [List.length_cons] at hpos
    obtain ⟨a1, a2⟩ := any_feed p c hs hJ (by omega)
    obtain ⟨w1, w2⟩ := weak_feed f hf p c hWF hs hJ h1 h2
    rw [run_cons]
    exact ih (feed p c).1 (feed_WF p c hWF) (state_feed p c hs) a1 (by rw [a2]; omega) w1 w2

/-! ## The end of the message -/

theorem line_end_ok : lineEndOK = true := by decide!

/-- The facts of one transition from a state of the reason phrase or of the headers. -/
theorem line_end_step (s c : Nat) (h13 : 13 ≤ s) (h85 : s < 85) (hc : c < 256) :
    ((lit s c).m_Status = 1 ↔ s = 21 ∧ c = 10)
      ∧ (lit s c).m_Status ≤ 1
      ∧ ((lit s c).m_Status = 0 →
        ((lit s c).m_State = 18 ↔ isCR s = true ∧ c = 10)
          ∧ ((lit s c).m_State = 21 ↔ s = 18 ∧ c = 13)
          ∧ 13 ≤ (lit s c).m_State ∧ (lit s c).m_State < 85
          ∧ (isCR (lit s c).m_State = true ↔ c = 13)) := by
  have h := check_lit _ _ line_end_ok s h85 (by simpa using h13) c hc
  simp only [Bool.and_eq_true, decide_eq_true_eq, Bool.or_eq_true, bne_iff_ne, ne_eq] at h
  obtain ⟨⟨a1, a2⟩, a3⟩ := h
  refine ⟨?_, a2, ?_⟩
  · have := a1
    rw [beq_iff_eq] at this
    constructor
    · intro h1
      have e : ((lit s c).m_Status == 1) = true := by rw [h1]; rfl
      rw [this] at e
      simpa using e
    · rintro ⟨e1, e2⟩
      have e : (s == 21 && c == 10) = true := by rw [e1, e2]; rfl
      rw [← this] at e
      simpa using e
  · intro h0
    rcases a3 with a3 | ⟨⟨b1, b2⟩, b3⟩
    · exact absurd h0 a3
    · obtain ⟨q1, q2, _⟩ := quiet_step s c h85 hc h0
      rw [beq_iff_eq] at b1 b2
      refine ⟨?_, ?_, b3, q1, ?_⟩
      · constructor
        · intro e1
          have e : ((lit s c).m_State == 18) = true := by rw [e1]; rfl
          rw [b1] at e
          simpa using e
        · rintro ⟨e1, e2⟩
          have e : (isCR s && c == 10) = true := by rw [e1, e2]; rfl
          rw [← b1] at e
          simpa using e
      · constructor
        · intro e1
          have e : ((lit s c).m_State == 21) = true := by rw [e1]; rfl
          rw [b2] at e
          simpa using e
        · rintro ⟨e1, e2⟩
          have e : (s == 18 && c == 13) = true := by rw [e1, e2]; rfl
          rw [← b2] at e
          simpa using e
      · rw [q2]
        simp

/-- What the state tells about the last bytes `R` (the latest first) read since the
space after the status code. -/
theorem line_end_feed (p : Parser) (c : Byte) (R : List Byte)
    (h13 : 13 ≤ p.m_CurrentState) (h85 : p.m_CurrentState < 85)
    (i1 : isCR p.m_CurrentState = true ↔ R.take 1 = [13])
    (i2 : p.m_CurrentState = 18 ↔ R.take 2 = [10, 13])
    (i3 : p.m_CurrentState = 21 ↔ R.take 3 = [13, 10, 13]) :
    ((feed p c).2 = SUCCESS ↔ (c :: R).take 4 = [10, 13, 10, 13])
      ∧ ((feed p c).2 = IN_PROGRESS ∨ (feed p c).2 = SUCCESS)
      ∧ ((feed p c).2 = IN_PROGRESS →
        13 ≤ (feed p c).1.m_CurrentState ∧ (feed p c).1.m_CurrentState < 85
          ∧ (isCR (feed p c).1.m_CurrentState = true ↔ (c :: R).take 1 = [13])
          ∧ ((feed p c).1.m_CurrentState = 18 ↔ (c :: R).take 2 = [10, 13])
          ∧ ((feed p c).1.m_CurrentState = 21 ↔ (c :: R).take 3 = [13, 10, 13])) := by
  obtain ⟨a1, a2, a3⟩ := line_end_step p.m_CurrentState c.val h13 h85 c.isLt
  have hc10 : c.val = 10 ↔ c = 10 := by
    constructor
    · intro h; exact Fin.ext h
    · intro h; rw [h]; rfl
  have hc13 : c.val = 13 ↔ c = 13 := by
    constructor
    · intro h; exact Fin.ext h
    · intro h; rw [h]; rfl
  rw [feed_snd, feed_state]
  refine ⟨?_, ?_, ?_⟩
  · show (lit p.m_CurrentState c.val).m_Status = 1 ↔ _
    have e4 : (c :: R).take 4 = c :: R.take 3 := rfl
    rw [a1, i3, hc10, e4, List.cons.injEq]
    exact and_comm
  · show (lit p.m_CurrentState c.val).m_Status = 0 ∨ (lit p.m_CurrentState c.val).m_Status = 1
    omega
  · intro h0
    obtain ⟨b1, b2, b3, b4, b5⟩ := a3 h0
    refine ⟨b3, b4, ?_, ?_, ?_⟩
    · have e1 : (c :: R).take 1 = [c] := rfl
      rw [b5, hc13, e1, List.cons.injEq]
      exact (and_iff_left rfl).symm
    · have e2 : (c :: R).take 2 = c :: R.take 1 := rfl
      rw [b1, i1, hc10, e2, List.cons.injEq]
      exact and_comm
    · have e3 : (c :: R).take 3 = c :: R.take 2 := rfl
      rw [b2, i2, hc13, e3, List.cons.injEq]
      exact and_comm

/-- The statuses after the space of the status code: IN_PROGRESS as long as the bytes
read do not end with CR LF CR LF, SUCCESS at the first byte where they do. -/
theorem line_end_run (rest : List Byte) :
    ∀ (p : Parser) (R : List Byte), 13 ≤ p.m_CurrentState → p.m_CurrentState < 85 →
      (isCR p.m_CurrentState = true ↔ R.take 1 = [13]) →
      (p.m_CurrentState = 18 ↔ R.take 2 = [10, 13]) →
      (p.m_CurrentState = 21 ↔ R.take 3 = [13, 10, 13]) →
      ∀ j, j < rest.length →
        (∀ k, k < j → (((rest.take (k + 1)).reverse ++ R).take 4 == [10, 13, 10, 13]) = false) →
        AllZero ((statuses p rest).take j)
          ∧ (statuses p rest).getD j 0 =
            (if (((rest.take (j + 1)).reverse ++ R).take 4 == [10, 13, 10, 13]) = true
              then SUCCESS else IN_PROGRESS) := by
  induction rest with
  | nil => intro p R _ _ _ _ _ j hj; simp at hj
  | cons c cs ih =>
    intro p R h13 h85 i1 i2 i3 j hj hfirst
    obtain ⟨f1, f2, f3⟩ := line_end_feed p c R h13 h85 i1 i2 i3
    cases j with
    | zero =>
      refine ⟨AllZero_nil, ?_⟩
      show (feed p c).2 = _
      have e : (c :: cs).take (0 + 1) = [c] := rfl
      rw [e]
      simp only [List.reverse_singleton, List.singleton_append, beq_iff_eq]
      by_cases hb : (c :: R).take 4 = [10, 13, 10, 13]
      · rw [if_pos hb]
        exact f1.mpr hb
      · rw [if_neg hb]
        rcases f2 with h | h
        · exact h
        · exact absurd (f1.mp h) hb
    | succ j =>
      have h0 : (feed p c).2 = IN_PROGRESS := by
        have hk := hfirst 0 (by omega)
        have e : (c :: cs).take (0 + 1) = [c] := rfl
        rw [e] at hk
        simp only [List.reverse_singleton, List.singleton_append, beq_eq_false_iff_ne,
          ne_eq] at hk
        rcases f2 with h | h
        · exact h
        · exact absurd (f1.mp h) hk
      obtain ⟨g1, g2, g3, g4, g5⟩ := f3 h0
      have hshift : ∀ k, ((c :: cs).take (k + 1 + 1)).reverse ++ R
          = (cs.take (k + 1)).reverse ++ (c :: R) := by
        intro k
        simp
      obtain ⟨r1, r2⟩ := ih (feed p c).1 (c :: R) g1 g2 g3 g4 g5 j
        (by simpa using hj)
        (by
          intro k hk
          rw [← hshift]
          exact hfirst (k + 1) (by omega))
      constructor
      · show AllZero ((feed p c).2 :: (statuses (feed p c).1 cs).take j)
        rw [AllZero_cons]
        exact ⟨h0, r1⟩
      · show (statuses (feed p c).1 cs).getD j 0 = _
        rw [r2, hshift]

/-! ## The construction of the header names -/

theorem stable_ok : ∀ n ∈ [0, 1, 2, 3, 4], stableOK n = true := by decide!

theorem paths_kept : ∀ n ∈ [1, 2, 3, 4], pathsKept n = true := by decide!

theorem same_trimmer : ∀ h ∈ [4, 5, 6, 7], sameTrimmer h = true := by decide!

theorem value_states :
    [valueState 4, valueState 5, valueState 6, valueState 7] = [34, 45, 67, 80] := by decide

theorem name_paths :
    pathStatesIn theStateMachine 18 (nameCodes CONTENT_TYPE)
        = [22, 23, 24, 25, 26, 27, 28, 29, 30, 31, 32, 33]
      ∧ pathStatesIn theStateMachine 18 (nameCodes CONTENT_LENGTH)
        = [22, 23, 24, 25, 26, 27, 28, 29, 39, 40, 41, 42, 43, 44]
      ∧ (nameCodes CONTENT_TYPE).take 8 = codes "Content-"
      ∧ (nameCodes CONTENT_LENGTH).take 8 = codes "Content-"
      ∧ (nameCodes CONTENT_TYPE).get? 8 ≠ (nameCodes CONTENT_LENGTH).get? 8 := by decide!

theorem rowStable_get (f : Nat → Transition) :
    ∀ (ts : List Transition) (c : Nat), rowStable f c ts = true →
      ∀ i, i < ts.length → ts.getD i {} = f (c + i) ∨ (ts.getD i {}).m_State = 19 := by
  intro ts
  induction ts with
  | nil => intro c _ i hi; simp at hi
  | cons t ts ih =>
    intro c h i hi
    simp only [rowStable, Bool.and_eq_true, Bool.or_eq_true, decide_eq_true_eq,
      beq_iff_eq] at h
    cases i with
    | zero => simpa using h.1
    | succ j =>
      have := ih (c + 1) h.2 j (by simpa using hi)
      simpa [Nat.add_assoc, Nat.add_comm 1 j] using this

theorem tableStable_get :
    ∀ (n : Nat) (fs : List (Nat → Transition)) (rs : List Conditions),
      tableStable n fs rs = true → ∀ i, i < n → ∀ c, c < 256 →
        (rs.getD i {}).at c = fs.getD i (fun _ => {}) c
          ∨ ((rs.getD i {}).at c).m_State = 19 := by
  intro n
  induction n with
  | zero => intro _ _ _ i hi; omega
  | succ n ih =>
    intro fs rs h i hi c hc
    match fs, rs, h with
    | f :: fs, r :: rs, h =>
      simp only [tableStable, Bool.and_eq_true, decide_eq_true_eq] at h
      cases i with
      | zero =>
        have := rowStable_get f r.m_Transitions 0 h.1.2 c (by omega)
        simpa [Conditions.at] using this
      | succ j =>
        have := ih fs rs h.2 j (by omega) c hc
        simpa using this
    | [], _, h => simp [tableStable] at h
    | _ :: _, [], h => simp [tableStable] at h

/-- Adding the later header names changes a transition of the machine with the first
`n` names only if it leads to the state 19 that skips the line. -/
theorem stable_spec (n : Nat) (hn : n ≤ 4) (s : Nat) (hs : s < (machineUpTo n).m_NumConditions)
    (c : Byte) :
    ((machineUpTo n).at s).at c.val = tbl s c.val
      ∨ (((machineUpTo n).at s).at c.val).m_State = 19 := by
  have hmem : n ∈ [0, 1, 2, 3, 4] := by
    simp only [List.mem_cons, List.mem_singleton, List.not_mem_nil, or_false]
    omega
  have h := tableStable_get _ litRows _ (stable_ok n hmem) s hs c.val c.isLt
  rw [tbl_eq_lit]
  unfold lit
  rw [if_pos c.isLt]
  exact h

theorem pathOK_take (M : Nat → Nat → Bool) :
    ∀ (es : List Nat) (s k : Nat), pathOK M s es = true → pathOK M s (es.take k) = true := by
  intro es
  induction es with
  | nil => intro s k _; simp [pathOK]
  | cons e es ih =>
    intro s k h
    cases k with
    | zero => rfl
    | succ k =>
      simp only [pathOK, Bool.and_eq_true, List.take_succ_cons] at h ⊢
      exact ⟨h.1, ih _ k h.2⟩

/-- The five states from the value state of a header on are the states of the reason
phrase, renamed. -/
theorem trimmer_renamed (h : Nat) (hh : h ∈ [4, 5, 6, 7]) (k : Nat) (hk : k < 5) (c : Nat)
    (hc : c < 256) :
    lit (valueState h + k) c = renameTransition h (valueState h) (lit (13 + k) c) := by
  have h1 := allBelow_sound _ 5 (same_trimmer h hh) k hk
  have h2 := allBelow_sound _ 256 h1 c hc
  simpa using h2

/-! ## The arithmetic of `size_t` -/

theorem sizeSub_eq (a b : Nat) (ha : a < 2 ^ 64) (hb : b ≤ a) : sizeSub a b = a - b := by
  unfold sizeSub
  have h64 : (2 : Nat) ^ 64 = 18446744073709551616 := by norm_num
  rw [h64] at ha ⊢
  omega

theorem sizeAdd_eq (a b : Nat) (h : a + b < 2 ^ 64) : sizeAdd a b = a + b := by
  unfold sizeAdd
  exact Nat.mod_eq_of_lt h

theorem memcpy_inside (m : Memory) (dest src n i : Nat) (hi : i < n) :
    memcpy m dest src n (dest + i) = m (src + i) := by
  unfold memcpy
  rw [if_pos ⟨Nat.le_add_right _ _, by omega⟩, Nat.add_sub_cancel_left]

theorem memcpy_outside (m : Memory) (dest src n a : Nat) (ha : a < dest ∨ dest + n ≤ a) :
    memcpy m dest src n a = m a := by
  unfold memcpy
  rw [if_neg]
  omega

/-! ## The grouping of the arguments -/

theorem greedyGroups_nil {α τ : Type} (ctor : List α → Option τ) (n pos : Nat) :
    greedyGroups ctor n pos [] = [] := by
  cases n <;> rfl

theorem groupLength_bounds {α τ : Type} (ctor : List α → Option τ) (rest : List α)
    (h : rest ≠ []) :
    1 ≤ groupLength ctor rest ∧ groupLength ctor rest ≤ 3
      ∧ groupLength ctor rest ≤ rest.length := by
  have hl : 1 ≤ rest.length := List.length_pos.mpr h
  unfold groupLength
  split_ifs with h3 h2
  · exact ⟨by norm_num, le_refl 3, h3.1⟩
  · exact ⟨by norm_num, by norm_num, h2.1⟩
  · exact ⟨le_refl 1, by norm_num, hl⟩

/-- The template gives the groups taken from left to right. -/
theorem IndexGrouper_greedy {α τ : Type} (ctor : List α → Option τ) :
    ∀ (n : Nat) (args : List α), args.length ≤ n → ∀ (pos : Nat) (done : List (List Nat)),
      IndexGrouper ctor args (List.range' pos args.length) done
        = some (done ++ greedyGroups ctor n pos args) := by
  intro n
  induction n using Nat.strong_induction_on with
  | _ n ih =>
    intro args hn pos done
    match args, hn with
    | [], _ =>
      rw [greedyGroups_nil, List.append_nil]
      rfl
    | [a], hn =>
      obtain ⟨k, rfl⟩ : ∃ k, n = k + 1 := ⟨n - 1, by simp at hn; omega⟩
      have hg : groupLength ctor [a] = 1 := by
        unfold groupLength
        rw [if_neg (by simp), if_neg (by simp)]
      show some (done ++ [[pos]]) = _
      simp only [greedyGroups, hg, List.drop_one, List.tail_cons, greedyGroups_nil]
      rfl
    | [a1, a2], hn =>
      obtain ⟨k, rfl⟩ : ∃ k, n = k + 1 := ⟨n - 1, by simp at hn; omega⟩
      have hk : 1 ≤ k := by simp at hn; omega
      by_cases h2 : is_constructible ctor [a1, a2] = true
      · have hg : groupLength ctor [a1, a2] = 2 := by
          unfold groupLength
          rw [if_neg (by simp), if_pos ⟨by simp, h2⟩]
        show (if is_constructible ctor [a1, a2] = true
            then IndexGrouper ctor [] [] (done ++ [[pos, pos + 1]])
            else IndexGrouper ctor [a2] [pos + 1] (done ++ [[pos]])) = _
        rw [if_pos h2]
        simp only [greedyGroups, hg, List.drop_succ_cons, List.drop_zero, greedyGroups_nil]
        rfl
      · have hg : groupLength ctor [a1, a2] = 1 := by
          unfold groupLength
          rw [if_neg (by simp), if_neg (by simp [h2])]
        show (if is_constructible ctor [a1, a2] = true
            then IndexGrouper ctor [] [] (done ++ [[pos, pos + 1]])
            else IndexGrouper ctor [a2] [pos + 1] (done ++ [[pos]])) = _
        rw [if_neg h2]
        have := ih k (Nat.lt_succ_self k) [a2] (by simpa using hk) (pos + 1) (done ++ [[pos]])
        rw [show List.range' (pos + 1) [a2].length = [pos + 1] from rfl] at this
        rw [this]
        simp only [greedyGroups, hg, List.drop_succ_cons, List.drop_zero]
        simp [List.range']
    | a1 :: a2 :: a3 :: an, hn =>
      obtain ⟨k, rfl⟩ : ∃ k, n = k + 1 := ⟨n - 1, by simp at hn; omega⟩
      have hk : an.length + 2 ≤ k := by simp at hn; omega
      have hr : List.range' pos (a1 :: a2 :: a3 :: an).length
          = pos :: (pos + 1) :: (pos + 2) :: List.range' (pos + 3) an.length := by
        simp [List.range']
      rw [hr]
      by_cases h3 : is_constructible ctor [a1, a2, a3] = true
      · have hg : groupLength ctor (a1 :: a2 :: a3 :: an) = 3 := by
          unfold groupLength
          rw [if_pos ⟨by simp, h3⟩]
        show (if is_constructible ctor [a1, a2, a3] = true
            then IndexGrouper ctor an (List.range' (pos + 3) an.length)
              (done ++ [[pos, pos + 1, pos + 2]])
            else _) = _
        rw [if_pos h3, ih k (Nat.lt_succ_self k) an (by omega) (pos + 3)]
        simp only [greedyGroups, hg, List.drop_succ_cons, List.drop_zero]
        simp [List.range']
      · by_cases h2 : is_constructible ctor [a1, a2] = true
        · have hg : groupLength ctor (a1 :: a2 :: a3 :: an) = 2 := by
            unfold groupLength
            rw [if_neg (by simp [h3]), if_pos ⟨by simp, h2⟩]
          show (if is_constructible ctor [a1, a2, a3] = true then _
              else if is_constructible ctor [a1, a2] = true
                then IndexGrouper ctor (a3 :: an) ((pos + 2) :: List.range' (pos + 3) an.length)
                  (done ++ [[pos, pos + 1]])
                else _) = _
          rw [if_neg h3, if_pos h2]
          have := ih k (Nat.lt_succ_self k) (a3 :: an) (by simp; omega) (pos + 2)
            (done ++ [[pos, pos + 1]])
          rw [show List.range' (pos + 2) (a3 :: an).length
            = (pos + 2) :: List.range' (pos + 3) an.length from by simp [List.range']] at this
          rw [this]
          simp only [greedyGroups, hg, List.drop_succ_cons, List.drop_zero]
          simp [List.range']
        · have hg : groupLength ctor (a1 :: a2 :: a3 :: an) = 1 := by
            unfold groupLength
            rw [if_neg (by simp [h3]), if_neg (by simp [h2])]
          show (if is_constructible ctor [a1, a2, a3] = true then _
              else if is_constructible ctor [a1, a2] = true then _
                else IndexGrouper ctor (a2 :: a3 :: an)
                  ((pos + 1) :: (pos + 2) :: List.range' (pos + 3) an.length)
                  (done ++ [[pos]])) = _
          rw [if_neg h3, if_neg h2]
          have := ih k (Nat.lt_succ_self k) (a2 :: a3 :: an) (by simp; omega) (pos + 1)
            (done ++ [[pos]])
          rw [show List.range' (pos + 1) (a2 :: a3 :: an).length
            = (pos + 1) :: (pos + 2) :: List.range' (pos + 3) an.length
            from by simp [List.range']] at this
          rw [this]
          simp only [greedyGroups, hg, List.drop_succ_cons, List.drop_zero]
          simp [List.range']

theorem greedyGroups_flatten {α τ : Type} (ctor : List α → Option τ) :
    ∀ (n : Nat) (args : List α) (pos : Nat), args.length ≤ n →
      (greedyGroups ctor n pos args).flatten = List.range' pos args.length := by
  intro n
  induction n with
  | zero =>
    intro args pos h
    have : args = [] := List.length_eq_zero.mp (Nat.le_zero.mp h)
    subst this
    rfl
  | succ n ih =>
    intro args pos h
    cases args with
    | nil => rfl
    | cons a rest =>
      obtain ⟨g1, g3, g2⟩ := groupLength_bounds ctor (a :: rest) (List.cons_ne_nil _ _)
      have hd : ((a :: rest).drop (groupLength ctor (a :: rest))).length
          = (a :: rest).length - groupLength ctor (a :: rest) := List.length_drop _ _
      show List.range' pos (groupLength ctor (a :: rest))
          ++ (greedyGroups ctor n (pos + groupLength ctor (a :: rest))
            ((a :: rest).drop (groupLength ctor (a :: rest)))).flatten = _
      rw [ih _ _ (by rw [hd]; simp only [List.length_cons] at h ⊢; omega), hd,
        List.range'_append_1]
      congr 1
      omega

theorem greedyGroups_lengths {α τ : Type} (ctor : List α → Option τ) :
    ∀ (n : Nat) (args : List α) (pos : Nat),
      ∀ g ∈ greedyGroups ctor n pos args, 1 ≤ g.length ∧ g.length ≤ 3 := by
  intro n
  induction n with
  | zero => intro args pos g hg; cases hg
  | succ n ih =>
    intro args pos g hg
    cases args with
    | nil => cases hg
    | cons a rest =>
      obtain ⟨g1, g3, _⟩ := groupLength_bounds ctor (a :: rest) (List.cons_ne_nil _ _)
      have hg' : g ∈ List.range' pos (groupLength ctor (a :: rest))
          :: greedyGroups ctor n (pos + groupLength ctor (a :: rest))
            ((a :: rest).drop (groupLength ctor (a :: rest))) := hg
      rcases List.mem_cons.mp hg' with h | h
      · rw [h, List.length_range']
        exact ⟨g1, g3⟩
      · exact ih _ _ g h

/-- The arguments at consecutive indexes. -/
theorem select_range' {α : Type} (l : List α) :
    ∀ (k pos : Nat), pos + k ≤ l.length →
      (List.range' pos k).filterMap (fun i => l.get? i) = (l.drop pos).take k := by
  intro k
  induction k with
  | zero => intro pos _; simp
  | succ k ih =>
    intro pos h
    have hp : pos < l.length := by omega
    rw [List.range'_succ, List.filterMap_cons, List.get?_eq_get hp,
      ih (pos + 1) (by omega), List.drop_eq_getElem_cons hp, List.take_succ_cons]
    rfl

theorem filterMap_groups {α β : Type} (f : α → Option β) (L : List (List α)) :
    (L.map (fun g => g.filterMap f)).flatten = L.flatten.filterMap f := by
  induction L with
  | nil => rfl
  | cons g L ih =>
    simp only [List.map_cons, List.flatten_cons, List.filterMap_append, ih]

theorem mapM_get {α : Type} (l : List α) :
    ∀ g : List Nat, (∀ i ∈ g, i < l.length) →
      g.mapM (fun i => l.get? i) = some (g.filterMap (fun i => l.get? i)) := by
  intro g
  induction g with
  | nil => intro _; rfl
  | cons i g ih =>
    intro h
    have hi : i < l.length := h i (List.mem_cons_self _ _)
    rw [List.mapM_cons, ih (fun j hj => h j (List.mem_cons_of_mem _ hj)),
      List.filterMap_cons, List.get?_eq_get hi]
    rfl

theorem mapM_groups {α β γ : Type} (F : α → Option γ) (G : β → Option γ) (sel : α → β) :
    ∀ L : List α, (∀ g ∈ L, F g = G (sel g)) → L.mapM F = (L.map sel).mapM G := by
  intro L
  induction L with
  | nil => intro _; rfl
  | cons g L ih =>
    intro h
    rw [List.map_cons, List.mapM_cons, List.mapM_cons, h g (List.mem_cons_self _ _),
      ih (fun x hx => h x (List.mem_cons_of_mem _ hx))]

theorem mapM_length {α β : Type} (F : α → Option β) :
    ∀ (L : List α) (r : List β), L.mapM F = some r → r.length = L.length := by
  intro L
  induction L with
  | nil =>
    intro r h
    have : r = [] := by
      have h' : some ([] : List β) = some r := h
      exact (Option.some.inj h').symm
    rw [this]
    rfl
  | cons g L ih =>
    intro r h
    rw [List.mapM_cons] at h
    cases hF : F g with
    | none => rw [hF] at h; cases h
    | some x =>
      cases hL : L.mapM F with
      | none => rw [hF, hL] at h; cases h
      | some xs =>
        rw [hF, hL] at h
        have h' : some (x :: xs) = some r := h
        rw [← Option.some.inj h', List.length_cons, List.length_cons, ih xs hL]

/-! ## The counter and the offsets written -/

theorem writes_nil (p : Parser) : writes p [] = [] := rfl

theorem writes_cons (p : Parser) (c : Byte) (cs : List Byte) :
    writes p (c :: cs)
      = ((lit p.m_CurrentState c.val).m_Tag, p.m_CurrentPos) :: writes (feed p c).1 cs := by
  rw [← tbl_eq_lit]
  rfl

theorem writes_append (A B : List Byte) :
    ∀ p : Parser, writes p (A ++ B) = writes p A ++ writes (run p A) B := by
  induction A with
  | nil => intro p; rfl
  | cons c cs ih =>
    intro p
    rw [List.cons_append, writes_cons, writes_cons, ih, run_cons, List.cons_append]

/-- The offset written by the feed number `i + 1` is the position of the parser plus
`i`, modulo `2^32`. -/
theorem writes_offsets (X : List Byte) :
    ∀ p : Parser, WF p →
      (writes p X).map Prod.snd
        = (List.range X.length).map (fun i => (p.m_CurrentPos + i) % 2 ^ 32) := by
  induction X with
  | nil => intro p _; rfl
  | cons c cs ih =>
    intro p hWF
    rw [writes_cons, List.map_cons, ih _ (feed_WF p c hWF), List.length_cons,
      List.range_succ_eq_map, List.map_cons, List.map_map]
    congr 1
    · show p.m_CurrentPos = (p.m_CurrentPos + 0) % 2 ^ 32
      rw [Nat.add_zero, Nat.mod_eq_of_lt hWF.2]
    · apply List.map_congr_left
      intro i _
      show ((feed p c).1.m_CurrentPos + i) % 2 ^ 32 = (p.m_CurrentPos + (i + 1)) % 2 ^ 32
      rw [feed_pos, Nat.mod_add_mod]
      congr 1
      omega

theorem writes_lt (X : List Byte) (e : Nat × Nat) (he : e ∈ writes {} X) : e.2 < X.length := by
  have h : e.2 ∈ (writes {} X).map Prod.snd := List.mem_map_of_mem _ he
  rw [writes_offsets X {} fresh_WF] at h
  obtain ⟨i, hi, hie⟩ := List.mem_map.mp h
  have hi' := List.mem_range.mp hi
  rw [← hie]
  exact Nat.lt_of_le_of_lt (Nat.mod_le _ _) (by
    show 0 + i < X.length
    omega)

/-- The slot of the transition holds the position at the time of the feed. -/
theorem feed_slot (p : Parser) (c : Byte) (hWF : WF p) (hs : p.m_CurrentState < 85) :
    tagAt (feed p c).1 (lit p.m_CurrentState c.val).m_Tag = p.m_CurrentPos := by
  rw [feed_tagAt, if_pos]
  refine ⟨rfl, ?_⟩
  rw [hWF.1]
  exact (bounds_step _ _ hs c.isLt).2.1

/-! ## Feeding after a final status -/

/-- A transition with a final status leads to state 0, counts the byte and touches
the dummy slot only. -/
theorem final_feed (p : Parser) (c : Byte) (h : (feed p c).2 ≠ 0) :
    (feed p c).1.m_CurrentState = 0
      ∧ (feed p c).1.m_CurrentPos = (p.m_CurrentPos + 1) % 2 ^ 32
      ∧ ∀ i, i ≠ DUMMY_TAG → tagAt (feed p c).1 i = tagAt p i := by
  rw [feed_snd] at h
  have hs : p.m_CurrentState < 85 := by
    by_contra hge
    rw [lit_default _ _ (Or.inl (by omega))] at h
    exact h rfl
  obtain ⟨a, b, _⟩ := (shape_step _ _ hs c.isLt).2 h
  refine ⟨by rw [feed_state]; exact a, feed_pos p c, ?_⟩
  intro i hi
  apply feed_tagAt_ne
  rw [b]
  exact fun h' => hi h'.symm

/-- The statuses depend on the state of the parser and on the bytes only. -/
theorem statuses_state (M : List Byte) :
    ∀ p q : Parser, p.m_CurrentState = q.m_CurrentState →
      statuses p M = statuses q M ∧ (run p M).m_CurrentState = (run q M).m_CurrentState := by
  induction M with
  | nil => intro p q h; exact ⟨rfl, h⟩
  | cons c cs ih =>
    intro p q h
    have hs : (feed p c).1.m_CurrentState = (feed q c).1.m_CurrentState := by
      rw [feed_state, feed_state, h]
    obtain ⟨i1, i2⟩ := ih _ _ hs
    refine ⟨?_, ?_⟩
    · show (feed p c).2 :: statuses (feed p c).1 cs = (feed q c).2 :: statuses (feed q c).1 cs
      rw [i1, feed_snd, feed_snd, h]
    · rw [run_cons, run_cons]
      exact i2

/-- Two parsers in the same state whose positions differ by `k`: the same tags are
written, at offsets that differ by `k` modulo `2^32`. -/
theorem writes_shift (M : List Byte) (k : Nat) :
    ∀ p q : Parser, p.m_CurrentState = q.m_CurrentState →
      p.m_CurrentPos = (q.m_CurrentPos + k) % 2 ^ 32 →
      writes p M = (writes q M).map (fun e => (e.1, (e.2 + k) % 2 ^ 32)) := by
  induction M with
  | nil => intro p q _ _; rfl
  | cons c cs ih =>
    intro p q hs hp
    have hs' : (feed p c).1.m_CurrentState = (feed q c).1.m_CurrentState := by
      rw [feed_state, feed_state, hs]
    have hp' : (feed p c).1.m_CurrentPos = ((feed q c).1.m_CurrentPos + k) % 2 ^ 32 := by
      rw [feed_pos, feed_pos, hp]
      have h32 : (2 : Nat) ^ 32 = 4294967296 := by norm_num
      rw [h32]
      omega
    rw [writes_cons, writes_cons, List.map_cons, ih _ _ hs' hp', hs, hp]

/-- The tags of two parsers in the same state whose positions differ by `k`: a slot
written on the way holds offsets that differ by `k` modulo `2^32`, any other slot
is left as it was. -/
theorem tags_shift (M : List Byte) (k : Nat) :
    ∀ p q : Parser, WF p → WF q → p.m_CurrentState = q.m_CurrentState →
      p.m_CurrentPos = (q.m_CurrentPos + k) % 2 ^ 32 →
      ∀ i, ((∃ e ∈ writes q M, e.1 = i) → i < NUM_TAGS →
            tagAt (run p M) i = (tagAt (run q M) i + k) % 2 ^ 32)
        ∧ ((∀ e ∈ writes q M, e.1 ≠ i) →
            tagAt (run p M) i = tagAt p i ∧ tagAt (run q M) i = tagAt q i) := by
  induction M with
  | nil =>
    intro p q _ _ _ _ i
    refine ⟨?_, fun _ => ⟨rfl, rfl⟩⟩
    rintro ⟨e, he, _⟩
    cases he
  | cons c cs ih =>
    intro p q hp hq hs hpos i
    have hs' : (feed p c).1.m_CurrentState = (feed q c).1.m_CurrentState := by
      rw [feed_state, feed_state, hs]
    have hp' : (feed p c).1.m_CurrentPos = ((feed q c).1.m_CurrentPos + k) % 2 ^ 32 := by
      rw [feed_pos, feed_pos, hpos]
      have h32 : (2 : Nat) ^ 32 = 4294967296 := by norm_num
      rw [h32]
      omega
    obtain ⟨i1, i2⟩ := ih _ _ (feed_WF p c hp) (feed_WF q c hq) hs' hp' i
    rw [run_cons, run_cons, writes_cons]
    by_cases hw : ∃ e ∈ writes (feed q c).1 cs, e.1 = i
    · refine ⟨fun _ hi => i1 hw hi, ?_⟩
      intro hno
      obtain ⟨e, he, hei⟩ := hw
      exact absurd hei (hno e (List.mem_cons_of_mem _ he))
    · have hw' : ∀ e ∈ writes (feed q c).1 cs, e.1 ≠ i := by
        intro e he hei
        exact hw ⟨e, he, hei⟩
      obtain ⟨j1, j2⟩ := i2 hw'
      rw [j1, j2]
      constructor
      · rintro ⟨e, he, hei⟩ hi
        rcases List.mem_cons.mp he with h | h
        · have ht : (lit q.m_CurrentState c.val).m_Tag = i := by
            rw [h] at hei
            exact hei
          rw [feed_tagAt, feed_tagAt, hs, if_pos ⟨ht, by rw [hp.1]; exact hi⟩,
            if_pos ⟨ht, by rw [hq.1]; exact hi⟩, hpos]
        · exact absurd hei (hw' e h)
      · intro hno
        have ht : (lit q.m_CurrentState c.val).m_Tag ≠ i :=
          hno _ (List.mem_cons_self _ _)
        exact ⟨feed_tagAt_ne p c i (by rw [hs]; exact ht), feed_tagAt_ne q c i ht⟩

theorem last_status (p : Parser) (Y : List Byte) (c : Byte) :
    (statuses p (Y ++ [c])).getLast? = some (feed (run p Y) c).2 := by
  rw [statuses_append]
  show (statuses p Y ++ [(feed (run p Y) c).2]).getLast? = _
  rw [List.getLast?_append]
  rfl

/-- A parser in state 0 goes on as a fresh one: the same statuses, the same tags
written, at offsets moved by its position. -/
theorem past_final (p : Parser) (hp : WF p) (hs : p.m_CurrentState = 0) (M : List Byte) :
    statuses p M = statuses {} M
      ∧ writes p M = (writes {} M).map (fun e => (e.1, (e.2 + p.m_CurrentPos) % 2 ^ 32))
      ∧ (p.m_CurrentPos + M.length ≤ 2 ^ 32 →
          writes p M = (writes {} M).map (fun e => (e.1, e.2 + p.m_CurrentPos)))
      ∧ (∀ i, i < NUM_TAGS → (∃ e ∈ writes {} M, e.1 = i) →
          tagAt (run p M) i = (tagAt (run {} M) i + p.m_CurrentPos) % 2 ^ 32)
      ∧ (∀ i, (∀ e ∈ writes {} M, e.1 ≠ i) → tagAt (run p M) i = tagAt p i) := by
  have hpos : p.m_CurrentPos = (({} : Parser).m_CurrentPos + p.m_CurrentPos) % 2 ^ 32 := by
    show p.m_CurrentPos = (0 + p.m_CurrentPos) % 2 ^ 32
    rw [Nat.zero_add, Nat.mod_eq_of_lt hp.2]
  have hw := writes_shift M p.m_CurrentPos p {} hs hpos
  refine ⟨(statuses_state M p {} hs).1, hw, ?_, ?_, ?_⟩
  · intro hlen
    rw [hw]
    apply List.map_congr_left
    intro e he
    have := writes_lt M e he
    rw [Nat.mod_eq_of_lt (by omega)]
  · intro i hi hex
    exact (tags_shift M p.m_CurrentPos p {} hp fresh_WF hs hpos i).1 hex hi
  · intro i hno
    exact ((tags_shift M p.m_CurrentPos p {} hp fresh_WF hs hpos i).2 hno).1

/-- A slot that holds an offset after the bytes `M` fed to a fresh parser was written
on the way. -/
theorem written_of_tag (M : List Byte) (i : Nat) (h : tagAt (run {} M) i ≠ 0) :
    ∃ e ∈ writes {} M, e.1 = i := by
  by_contra hno
  have hno' : ∀ e ∈ writes {} M, e.1 ≠ i := fun e he hei => hno ⟨e, he, hei⟩
  have hpos : ({} : Parser).m_CurrentPos = (({} : Parser).m_CurrentPos + 0) % 2 ^ 32 := rfl
  have := ((tags_shift M 0 {} {} fresh_WF fresh_WF rfl hpos i).2 hno').1
  rw [tagAt_fresh] at this
  exact h this

/-! ## A header line cut inside its value -/

theorem bodies_ok : bodiesOK = true := by decide!

theorem body_check (h : Nat) (hh : h ∈ [4, 5, 6, 7]) :
    (bodyRegion (valueState h)).check = true := by
  have := bodies_ok
  simp only [bodiesOK, List.all_eq_true] at this
  have h2 := this h (by
    simp only [List.mem_cons, List.mem_singleton, List.not_mem_nil, or_false] at hh ⊢
    omega)
  rw [trimState_header h hh] at h2
  exact h2

/-- A line of header `h` cut inside its value: the name, the colon, whitespace `W`,
then the bytes `c :: U` of the value, none of them whitespace. The begin tag of `h`
is the offset of `c` and no other tag is written. -/
theorem value_cut (h : Nat) (hh : h ∈ [4, 5, 6, 7]) {p : Parser} (hWF : WF p)
    (hs : p.m_CurrentState = 18) {N W U : List Byte} {c : Byte}
    (hN : sameName h N = true) (hW : ∀ w ∈ W, isWS w.val = true) (hWN : NoCRLF W)
    (hc : isWS c.val = false) (hU : ∀ u ∈ U, isWS u.val = false) :
    Seg p (N ++ 58 :: W ++ c :: U) (valueState h + 2)
      [(tagBegin h, N.length + 1 + W.length)] := by
  obtain ⟨n1, n2⟩ := names_facts h hh
  obtain ⟨b1, _, _⟩ := tag_bounds h hh
  have hok := trimmers_ok h (by
    simp only [List.mem_cons, List.mem_singleton, List.not_mem_nil, or_false] at hh ⊢
    omega)
  rw [trimState_header h hh] at hok
  have F := trimmerOK_facts hok
  have hb := F.bound
  -- the name and the colon
  have k1 : Seg p N (pathEnd 18 (nameCodes h)) [] := Seg.path n1 hs hN
  have k2 : Seg (run p N) [58] (valueState h) [] :=
    Seg.known0 (run_WF _ _ hWF) (by rw [k1.1]; exact n2)
  have k12 := Seg.append hWF k1 k2
  have hWF2 : WF (run p (N ++ [58])) := run_WF _ _ hWF
  -- the whitespace before the value
  have hmem : (leadRegion (valueState h)).mem (run p (N ++ [58])).m_CurrentState = true := by
    rw [leadRegion_mem, k12.1]
    omega
  have hN3 : noCRLFfrom (isCR (run p (N ++ [58])).m_CurrentState) W = true := by
    rw [k12.1, F.cr0]
    exact hWN
  obtain ⟨r1, _, _, _, _⟩ := (leadRegion (valueState h)).run_spec F.lead W _ hmem hW hN3
  have k3 := Seg.region (leadRegion (valueState h)) F.lead rfl hmem hW hN3
  have k123 := Seg.append hWF k12 k3
  have hWF3 : WF (run p (N ++ [58] ++ W)) := run_WF _ _ hWF
  -- the first byte of the value
  have hA : lit (run p (N ++ [58] ++ W)).m_CurrentState c.val
      = T (valueState h + 2) (tagBegin h) 0 := by
    rw [run_append _ (N ++ [58]) W]
    rw [leadRegion_mem] at r1
    rcases r1.1 with e | e
    · rw [e]; exact stepsTo_sound _ _ _ F.first0 c (by simp [hc])
    · rw [e]; exact stepsTo_sound _ _ _ F.first1 c (by simp [hc])
  have k4 := Seg.known hWF3 b1 hA
  have k1234 := Seg.append hWF k123 k4
  have hWF4 : WF (run p (N ++ [58] ++ W ++ [c])) := run_WF _ _ hWF
  -- the other bytes of the value
  have hmem5 : (bodyRegion (valueState h)).mem (run p (N ++ [58] ++ W ++ [c])).m_CurrentState
      = true := by
    rw [k1234.1]
    simp [Region.mem, bodyRegion, hb]
    omega
  have hU' : ∀ u ∈ U, (bodyRegion (valueState h)).B u.val = true := by
    intro u hu
    show (!isWS u.val) = true
    rw [hU u hu]
    rfl
  have hN5 : noCRLFfrom (isCR (run p (N ++ [58] ++ W ++ [c])).m_CurrentState) U = true :=
    noCRLFfrom_of_no_LF U _ (fun u hu => (isWS_false _ (hU u hu)).2.2.2)
  obtain ⟨s1, _, _, _, _⟩ :=
    (bodyRegion (valueState h)).run_spec (body_check h hh) U _ hmem5 hU' hN5
  have k5 := Seg.region (bodyRegion (valueState h)) (body_check h hh) rfl hmem5 hU' hN5
  have k := Seg.append hWF k1234 k5
  have hst : (run (run p (N ++ [58] ++ W ++ [c])) U).m_CurrentState = valueState h + 2 := by
    simp only [Region.mem, bodyRegion, Bool.and_eq_true, beq_iff_eq, decide_eq_true_eq] at s1
    exact s1.1
  have hX : N ++ 58 :: W ++ c :: U = N ++ [58] ++ W ++ [c] ++ U := by simp
  rw [hX]
  refine ⟨by rw [run_append]; exact hst, k.2.1, ?_⟩
  intro i hi
  rw [k.2.2 i hi]
  simp only [shift, List.map_nil, List.map_cons, List.append_nil, List.nil_append,
    List.length_append, List.length_singleton, Nat.add_zero]

/-! ## The claims -/

/-- C1. For every input `HTTP/` D1 `.` D2 SP C SP R CRLF (L CRLF)* CRLF with D1 and D2
non-empty digit strings, C three digits, R and every L without a CR LF pair and
every L non-empty: fed byte by byte to a fresh parser, `feed` returns IN_PROGRESS
for every byte except the last and SUCCESS for the last one. -/
theorem C1_valid_message_statuses (d1 d2 code r : List Byte) (ls : List (List Byte))
    (h1 : d1 ≠ []) (hd1 : ∀ c ∈ d1, isDigit c.val = true)
    (h2 : d2 ≠ []) (hd2 : ∀ c ∈ d2, isDigit c.val = true)
    (h3 : code.length = 3) (hd3 : ∀ c ∈ code, isDigit c.val = true)
    (hr : NoCRLF r) (hls : ∀ l ∈ ls, l ≠ [] ∧ NoCRLF l) :
    statuses {} (message d1 d2 code r ls) =
      List.replicate ((message d1 d2 code r ls).length - 1) IN_PROGRESS ++ [SUCCESS] :=
  message_statuses d1 d2 code r ls h1 hd1 h2 hd2 h3 hd3 hr hls

set_option maxRecDepth 4000 in
/-- C1 at the message `HTTP/1.0 200 OK` with one header line. -/
theorem C1_valid_message_statuses_witness :
    statuses {} (message (bytes "1") (bytes "0") (bytes "200") (bytes "OK")
        [bytes "Content-Length: 12"]) =
      List.replicate ((message (bytes "1") (bytes "0") (bytes "200") (bytes "OK")
        [bytes "Content-Length: 12"]).length - 1) IN_PROGRESS ++ [SUCCESS] :=
  C1_valid_message_statuses (bytes "1") (bytes "0") (bytes "200") (bytes "OK")
    [bytes "Content-Length: 12"] (by decide) (by decide) (by decide) (by decide) (by decide)
    (by decide) (by decide) (by decide)

set_option maxRecDepth 4000 in
/-- C2 as stated fails when the position wraps: with a major version of `2^32 - 5`
digits (`wrapLength`) the end tag of MAJOR_VERSION is 0, not `5 + |D1|`, and the
fragment is reported as not found. -/
theorem C2_counterexample :
    getFragment (run {} (statusPrefix (List.replicate wrapLength 49) [48] [50, 48, 48]))
        MAJOR_VERSION = (5, 0)
      ∧ (5, 0) ≠ (5, 5 + (List.replicate wrapLength (49 : Byte)).length)
      ∧ isFragmentFound (run {} (statusPrefix (List.replicate wrapLength 49) [48] [50, 48, 48]))
        MAJOR_VERSION = false := by
  have hd : isDigit (49 : Byte).val = true := by decide
  have hd2 : ∀ c ∈ ([48] : List Byte), isDigit c.val = true := by decide
  have hd3 : ∀ c ∈ ([50, 48, 48] : List Byte), isDigit c.val = true := by decide
  have h3 : ([50, 48, 48] : List Byte).length = 3 := rfl
  have hz := (statusPrefix_seg fresh_WF rfl (replicate_ne_nil 49)
    (replicate_digits wrapLength 49 hd) (List.cons_ne_nil 48 []) hd2 h3 hd3).2.1
  have h := status_tags {} fresh_WF rfl (List.replicate wrapLength 49) [48] [50, 48, 48] []
    (replicate_ne_nil 49) (replicate_digits wrapLength 49 hd) (List.cons_ne_nil 48 []) hd2
    h3 hd3 (AllZero_dropLast _ (by rw [List.append_nil]; exact hz))
  rw [List.append_nil] at h
  obtain ⟨t1, t2, _⟩ := h
  have hw : (({} : Parser).m_CurrentPos + (5 + (List.replicate wrapLength (49 : Byte)).length))
      % 2 ^ 32 = 0 := by
    rw [List.length_replicate, wrapLength_eq]
    rfl
  rw [hw] at t2
  refine ⟨?_, ?_, ?_⟩
  · rw [getFragment_eq]
    show (tagAt _ 1, tagAt _ 2) = (5, 0)
    rw [t1, t2]
    rfl
  · rw [List.length_replicate, wrapLength_eq]
    decide
  · rw [isFragmentFound_eq]
    show (tagAt _ 2 != 0) = false
    rw [t2]
    rfl

/-- C2, amended with the bound of the 32-bit position. For an input that starts with
`HTTP/` D1 `.` D2 SP C SP, where `10 + |D1| + |D2| < 2^32`, once those bytes are fed
and as long as no status before the last byte fed is final: the fragments of the
major version, the minor version and the status code are `(5, 5+|D1|)`,
`(6+|D1|, 6+|D1|+|D2|)` and `(7+|D1|+|D2|, 10+|D1|+|D2|)`, their strings are D1, D2
and C, and the three are reported as found. -/
theorem C2_status_line_fragments (d1 d2 code rest : List Byte)
    (h1 : d1 ≠ []) (hd1 : ∀ c ∈ d1, isDigit c.val = true)
    (h2 : d2 ≠ []) (hd2 : ∀ c ∈ d2, isDigit c.val = true)
    (h3 : code.length = 3) (hd3 : ∀ c ∈ code, isDigit c.val = true)
    (hlen : 10 + d1.length + d2.length < 2 ^ 32)
    (hq : AllZero (statuses {} (statusPrefix d1 d2 code ++ rest)).dropLast) :
    getFragment (run {} (statusPrefix d1 d2 code ++ rest)) MAJOR_VERSION
        = (5, 5 + d1.length)
      ∧ getFragment (run {} (statusPrefix d1 d2 code ++ rest)) MINOR_VERSION
        = (6 + d1.length, 6 + d1.length + d2.length)
      ∧ getFragment (run {} (statusPrefix d1 d2 code ++ rest)) STATUS_CODE
        = (7 + d1.length + d2.length, 10 + d1.length + d2.length)
      ∧ getFragmentStr (run {} (statusPrefix d1 d2 code ++ rest))
          (statusPrefix d1 d2 code ++ rest) MAJOR_VERSION = some d1
      ∧ getFragmentStr (run {} (statusPrefix d1 d2 code ++ rest))
          (statusPrefix d1 d2 code ++ rest) MINOR_VERSION = some d2
      ∧ getFragmentStr (run {} (statusPrefix d1 d2 code ++ rest))
          (statusPrefix d1 d2 code ++ rest) STATUS_CODE = some code
      ∧ isFragmentFound (run {} (statusPrefix d1 d2 code ++ rest)) MAJOR_VERSION = true
      ∧ isFragmentFound (run {} (statusPrefix d1 d2 code ++ rest)) MINOR_VERSION = true
      ∧ isFragmentFound (run {} (statusPrefix d1 d2 code ++ rest)) STATUS_CODE = true := by
  obtain ⟨t1, t2, t3, t4, t5, t6⟩ :=
    status_tags {} fresh_WF rfl d1 d2 code rest h1 hd1 h2 hd2 h3 hd3 hq
  have e0 : ({} : Parser).m_CurrentPos = 0 := rfl
  rw [e0, Nat.zero_add, Nat.mod_eq_of_lt (by omega)] at t1 t2 t3 t4 t5 t6
  have hpos : 0 < d1.length := List.length_pos.mpr h1
  have b1 : tagAt (run {} (statusPrefix d1 d2 code ++ rest)) (tagBegin MAJOR_VERSION) = 5 := t1
  have e1 : tagAt (run {} (statusPrefix d1 d2 code ++ rest)) (tagEnd MAJOR_VERSION)
      = 5 + d1.length := t2
  have b2 : tagAt (run {} (statusPrefix d1 d2 code ++ rest)) (tagBegin MINOR_VERSION)
      = 6 + d1.length := t3
  have e2 : tagAt (run {} (statusPrefix d1 d2 code ++ rest)) (tagEnd MINOR_VERSION)
      = 6 + d1.length + d2.length := t4
  have b3 : tagAt (run {} (statusPrefix d1 d2 code ++ rest)) (tagBegin STATUS_CODE)
      = 7 + d1.length + d2.length := t5
  have e3 : tagAt (run {} (statusPrefix d1 d2 code ++ rest)) (tagEnd STATUS_CODE)
      = 10 + d1.length + d2.length := t6
  have hA1 : statusPrefix d1 d2 code ++ rest =
      bytes "HTTP/" ++ d1 ++ ([46] ++ d2 ++ [32] ++ code ++ [32] ++ rest) := by
    simp [statusPrefix]
  have hA2 : statusPrefix d1 d2 code ++ rest =
      (bytes "HTTP/" ++ d1 ++ [46]) ++ d2 ++ ([32] ++ code ++ [32] ++ rest) := by
    simp [statusPrefix]
  have hA3 : statusPrefix d1 d2 code ++ rest =
      (bytes "HTTP/" ++ d1 ++ [46] ++ d2 ++ [32]) ++ code ++ ([32] ++ rest) := by
    simp [statusPrefix]
  refine ⟨?_, ?_, ?_, ?_, ?_, ?_, ?_, ?_, ?_⟩
  · rw [getFragment_eq, b1, e1]
  · rw [getFragment_eq, b2, e2]
  · rw [getFragment_eq, b3, e3]
  · conv_lhs => arg 2; rw [hA1]
    apply getFragmentStr_slice
    · rw [b1, bytes_HTTP_length]
    · rw [e1, bytes_HTTP_length]
    · rw [bytes_HTTP_length]; omega
  · conv_lhs => arg 2; rw [hA2]
    apply getFragmentStr_slice
    · rw [b2]; simp [bytes_HTTP_length]; omega
    · rw [e2]; simp [bytes_HTTP_length]; omega
    · simp [bytes_HTTP_length]; omega
  · conv_lhs => arg 2; rw [hA3]
    apply getFragmentStr_slice
    · rw [b3]; simp [bytes_HTTP_length]; omega
    · rw [e3]; simp [bytes_HTTP_length]; omega
    · simp [bytes_HTTP_length]; omega
  · rw [isFragmentFound_eq, e1]; simp
  · rw [isFragmentFound_eq, e2]; simp
  · rw [isFragmentFound_eq, e3]; simp

set_option maxRecDepth 100000 in
/-- C2 at the input `HTTP/1.0 200 OK` followed by the empty line. -/
theorem C2_status_line_fragments_witness :
    getFragment (run {} (statusPrefix [49] [48] [50, 48, 48] ++ bytes "OK\r\n\r\n"))
        MAJOR_VERSION = (5, 5 + ([49] : List Byte).length)
      ∧ getFragmentStr (run {} (statusPrefix [49] [48] [50, 48, 48] ++ bytes "OK\r\n\r\n"))
          (statusPrefix [49] [48] [50, 48, 48] ++ bytes "OK\r\n\r\n") STATUS_CODE
        = some [50, 48, 48] :=
  have h := C2_status_line_fragments [49] [48] [50, 48, 48] (bytes "OK\r\n\r\n")
    (by decide) (by decide) (by decide) (by decide) (by decide) (by decide) (by decide)
    (by rw [statuses_eq_sim]; decide)
  ⟨h.1, h.2.2.2.2.2.1⟩

/-! ## The claims on the captured values -/

set_option maxRecDepth 4000 in
/-- C3 as stated fails when the position wraps: after a status line of `2^32 + 11`
bytes the line `Location:x` starts at the line start, its value byte is at offset
`2^32 + 20` of the stream, and the fragment of LOCATION is `(20, 21)`. -/
theorem C3_counterexample :
    (run {} wrapStatusLine).m_CurrentState = 18
      ∧ getFragment (run {} (wrapStatusLine ++ (bytes "Location" ++ 58 :: bytes "x" ++ CRLF)))
          LOCATION = (20, 21)
      ∧ wrapStatusLine.length + (bytes "Location").length + 1
          + ((bytes "x").takeWhile (fun c => isWS c.val)).length = 2 ^ 32 + 20 := by
  obtain ⟨s1, sWF, spos, _⟩ := wrapStatusLine_run
  have hN : sameName 7 (bytes "Location") = true := by decide
  have hV : NoCRLF (bytes "x") := by decide
  have ht : trim (bytes "x") ≠ [] := by decide
  obtain ⟨t1, t2⟩ := (header_value_tags 7 (by decide) sWF s1 hN hV).2.2.1 ht
  refine ⟨s1, ?_, ?_⟩
  · rw [getFragment_eq, run_append]
    show (tagAt _ (tagBegin 7), tagAt _ (tagEnd 7)) = (20, 21)
    rw [t1, t2, spos]
    rfl
  · rw [wrapStatusLine_length]
    rfl

/-- C3, amended with the bound of the 32-bit position. The parser is at the start of
a header line after the bytes `pre`, and is fed N `:` V CRLF, where N is the name of
the header `h` up to letter case, V has no CR LF pair and `pre` N `:` V is shorter
than `2^32` bytes. Then every status of the line is IN_PROGRESS, the parser is at the
start of a line again, and when V has a byte other than SP, HTAB, CR, LF the
fragment of `h` begins at the offset of the first such byte and ends after the last
one, its string is V trimmed of these bytes on both sides, and it is found. -/
theorem C3_header_value_capture (h : Nat) (hh : h ∈ [4, 5, 6, 7]) (pre N V : List Byte)
    (hs : (run {} pre).m_CurrentState = 18) (hN : sameName h N = true) (hV : NoCRLF V)
    (hlen : (pre ++ (N ++ 58 :: V)).length < 2 ^ 32) :
    AllZero (statuses (run {} pre) (N ++ 58 :: V ++ CRLF))
      ∧ (run {} (pre ++ (N ++ 58 :: V ++ CRLF))).m_CurrentState = 18
      ∧ ((∃ c ∈ V, isWS c.val = false) →
        getFragment (run {} (pre ++ (N ++ 58 :: V ++ CRLF))) h =
            (pre.length + N.length + 1 + (V.takeWhile (fun c => isWS c.val)).length,
              pre.length + N.length + 1 + (V.takeWhile (fun c => isWS c.val)).length
                + (trim V).length)
          ∧ getFragmentStr (run {} (pre ++ (N ++ 58 :: V ++ CRLF)))
              (pre ++ (N ++ 58 :: V ++ CRLF)) h = some (trim V)
          ∧ isFragmentFound (run {} (pre ++ (N ++ 58 :: V ++ CRLF))) h = true) := by
  have hWF : WF (run {} pre) := run_WF _ _ fresh_WF
  obtain ⟨k1, k2, k3, _⟩ := header_value_tags h hh hWF hs hN hV
  refine ⟨k2, by rw [run_append]; exact k1, ?_⟩
  intro hex
  have hne := trim_ne_nil hex
  obtain ⟨t1, t2⟩ := k3 hne
  obtain ⟨ws2, hsplit⟩ := trim_split V
  have hVlen : V.length = (V.takeWhile (fun c => isWS c.val)).length + (trim V).length
      + ws2.length := by
    conv_lhs => rw [hsplit]
    simp only [List.length_append]
  have hl : pre.length + (N.length + (V.length + 1)) < 2 ^ 32 := by
    simpa only [List.length_append, List.length_cons] using hlen
  have hpos : (run {} pre).m_CurrentPos = pre.length := by
    rw [run_pos _ _ fresh_WF]
    show (0 + pre.length) % 2 ^ 32 = pre.length
    rw [Nat.zero_add]
    exact Nat.mod_eq_of_lt (by omega)
  have hpt : 0 < (trim V).length := List.length_pos.mpr hne
  rw [hpos, Nat.mod_eq_of_lt (by omega)] at t1 t2
  rw [← run_append] at t1 t2
  refine ⟨?_, ?_, ?_⟩
  · rw [getFragment_eq, t1, t2]
    congr 1 <;> omega
  · have hX : pre ++ (N ++ 58 :: V ++ CRLF) =
        (pre ++ N ++ [58] ++ V.takeWhile (fun c => isWS c.val)) ++ trim V ++ (ws2 ++ CRLF) := by
      conv_lhs => rw [hsplit]
      simp
    conv_lhs => arg 2; rw [hX]
    apply getFragmentStr_slice
    · rw [t1]
      simp only [List.length_append, List.length_singleton]
      omega
    · rw [t2]
      simp only [List.length_append, List.length_singleton]
      omega
    · simp only [List.length_append, List.length_singleton]
      omega
  · rw [isFragmentFound_eq, t2]
    exact bne_iff_ne.mpr (by omega)

set_option maxRecDepth 100000 in
/-- C3 at the line `CoNtenT-leNGth: 1 2` followed by a HTAB, after the status line
`HTTP/1.1 200 OK`. -/
theorem C3_header_value_capture_witness :
    getFragmentStr
        (run {} (bytes "HTTP/1.1 200 OK\r\n"
          ++ (bytes "CoNtenT-leNGth" ++ 58 :: bytes " 1 2\t" ++ CRLF)))
        (bytes "HTTP/1.1 200 OK\r\n"
          ++ (bytes "CoNtenT-leNGth" ++ 58 :: bytes " 1 2\t" ++ CRLF)) CONTENT_LENGTH
      = some (trim (bytes " 1 2\t")) ∧ trim (bytes " 1 2\t") = bytes "1 2" :=
  have h := C3_header_value_capture CONTENT_LENGTH (by decide) (bytes "HTTP/1.1 200 OK\r\n")
    (bytes "CoNtenT-leNGth") (bytes " 1 2\t") (by rw [run_eq_sim]; decide) (by decide)
    (by decide) (by decide)
  ⟨(h.2.2 ⟨49, by decide, by decide⟩).2.1, by decide⟩

set_option maxRecDepth 4000 in
/-- C4 as stated fails when the position wraps: with a major version of `2^32 - 5`
digits the status-line prefix is `2^32 + 7` bytes long, and the fragment of the
reason phrase `OK` is `(7, 9)`. -/
theorem C4_counterexample :
    getFragment (run {} (statusPrefix (List.replicate wrapLength 49) [48] [50, 48, 48]
        ++ (bytes "OK" ++ CRLF))) REASON_PHRASE = (7, 9)
      ∧ (statusPrefix (List.replicate wrapLength 49) [48] [50, 48, 48]).length
          + ((bytes "OK").takeWhile (fun c => isWS c.val)).length = 2 ^ 32 + 7 := by
  have hd : isDigit (49 : Byte).val = true := by decide
  have hd2 : ∀ c ∈ ([48] : List Byte), isDigit c.val = true := by decide
  have hd3 : ∀ c ∈ ([50, 48, 48] : List Byte), isDigit c.val = true := by decide
  have h3 : ([50, 48, 48] : List Byte).length = 3 := rfl
  have hr : NoCRLF (bytes "OK") := by decide
  have ht : trim (bytes "OK") ≠ [] := by decide
  have hl : (statusPrefix (List.replicate wrapLength 49) [48] [50, 48, 48]).length
      = 2 ^ 32 + 7 := by
    rw [statusPrefix_length, List.length_replicate, wrapLength_eq]
    rfl
  obtain ⟨t1, t2⟩ := (reason_tags fresh_WF rfl (replicate_ne_nil 49)
    (replicate_digits wrapLength 49 hd) (List.cons_ne_nil 48 []) hd2 h3 hd3 hr).1 ht
  constructor
  · rw [getFragment_eq]
    show (tagAt _ 7, tagAt _ 8) = (7, 9)
    rw [t1, t2, hl]
    rfl
  · rw [hl]
    rfl

/-- C4, amended with the bound of the 32-bit position. A fresh parser is fed the
status-line prefix `HTTP/` D1 `.` D2 SP C SP, of length `m`, then R CRLF, where R has
no CR LF pair. When R has a byte other than SP, HTAB, CR, LF and the prefix with R is
shorter than `2^32` bytes, the fragment of the reason phrase is `(m + i, m + j + 1)`
with `i` and `j` the indexes in R of the first and last such byte, and its string is
R trimmed of these bytes on both sides. When R is empty or all whitespace the
fragment is `(0, 0)` and its string is empty. -/
theorem C4_reason_phrase_capture (d1 d2 code r : List Byte)
    (h1 : d1 ≠ []) (hd1 : ∀ c ∈ d1, isDigit c.val = true)
    (h2 : d2 ≠ []) (hd2 : ∀ c ∈ d2, isDigit c.val = true)
    (h3 : code.length = 3) (hd3 : ∀ c ∈ code, isDigit c.val = true) (hr : NoCRLF r) :
    ((∃ c ∈ r, isWS c.val = false) → (statusPrefix d1 d2 code ++ r).length < 2 ^ 32 →
        getFragment (run {} (statusPrefix d1 d2 code ++ (r ++ CRLF))) REASON_PHRASE =
            ((statusPrefix d1 d2 code).length + (r.takeWhile (fun c => isWS c.val)).length,
              (statusPrefix d1 d2 code).length + (r.takeWhile (fun c => isWS c.val)).length
                + (trim r).length)
          ∧ getFragmentStr (run {} (statusPrefix d1 d2 code ++ (r ++ CRLF)))
              (statusPrefix d1 d2 code ++ (r ++ CRLF)) REASON_PHRASE = some (trim r))
      ∧ ((∀ c ∈ r, isWS c.val = true) →
        getFragment (run {} (statusPrefix d1 d2 code ++ (r ++ CRLF))) REASON_PHRASE = (0, 0)
          ∧ getFragmentStr (run {} (statusPrefix d1 d2 code ++ (r ++ CRLF)))
              (statusPrefix d1 d2 code ++ (r ++ CRLF)) REASON_PHRASE = some []) := by
  obtain ⟨k1, k2⟩ := reason_tags fresh_WF rfl h1 hd1 h2 hd2 h3 hd3 hr
  constructor
  · intro hex hlen
    have hne := trim_ne_nil hex
    obtain ⟨t1, t2⟩ := k1 hne
    obtain ⟨ws2, hsplit⟩ := trim_split r
    have hrlen : r.length = (r.takeWhile (fun c => isWS c.val)).length + (trim r).length
        + ws2.length := by
      conv_lhs => rw [hsplit]
      simp only [List.length_append]
    rw [List.length_append] at hlen
    have e0 : ({} : Parser).m_CurrentPos = 0 := rfl
    rw [e0, Nat.zero_add, Nat.mod_eq_of_lt (by omega)] at t1 t2
    have b : tagAt (run {} (statusPrefix d1 d2 code ++ (r ++ CRLF))) (tagBegin REASON_PHRASE)
        = (statusPrefix d1 d2 code).length + (r.takeWhile (fun c => isWS c.val)).length := t1
    have e : tagAt (run {} (statusPrefix d1 d2 code ++ (r ++ CRLF))) (tagEnd REASON_PHRASE)
        = (statusPrefix d1 d2 code).length
          + ((r.takeWhile (fun c => isWS c.val)).length + (trim r).length) := t2
    constructor
    · rw [getFragment_eq, b, e]
      congr 1
      omega
    · have hX : statusPrefix d1 d2 code ++ (r ++ CRLF) =
          (statusPrefix d1 d2 code ++ r.takeWhile (fun c => isWS c.val)) ++ trim r
            ++ (ws2 ++ CRLF) := by
        conv_lhs => rw [hsplit]
        simp
      conv_lhs => arg 2; rw [hX]
      apply getFragmentStr_slice
      · rw [b, List.length_append]
      · rw [e, List.length_append]
        omega
      · rw [List.length_append]
        omega
  · intro hws
    obtain ⟨t1, t2⟩ := k2 (trim_eq_nil hws)
    rw [tagAt_fresh] at t1 t2
    have b : tagAt (run {} (statusPrefix d1 d2 code ++ (r ++ CRLF))) (tagBegin REASON_PHRASE)
        = 0 := t1
    have e : tagAt (run {} (statusPrefix d1 d2 code ++ (r ++ CRLF))) (tagEnd REASON_PHRASE)
        = 0 := t2
    exact ⟨by rw [getFragment_eq, b, e], getFragmentStr_zero _ _ _ b e⟩

set_option maxRecDepth 100000 in
/-- C4 at the status lines `HTTP/1.0 200` with the reason SP CR `O K` LF, and with a
reason of two spaces. -/
theorem C4_reason_phrase_capture_witness :
    (getFragmentStr (run {} (statusPrefix [49] [48] [50, 48, 48] ++ (bytes " \rO K\n" ++ CRLF)))
        (statusPrefix [49] [48] [50, 48, 48] ++ (bytes " \rO K\n" ++ CRLF)) REASON_PHRASE
      = some (trim (bytes " \rO K\n")) ∧ trim (bytes " \rO K\n") = bytes "O K")
    ∧ getFragmentStr (run {} (statusPrefix [49] [48] [50, 48, 48] ++ (bytes "  " ++ CRLF)))
        (statusPrefix [49] [48] [50, 48, 48] ++ (bytes "  " ++ CRLF)) REASON_PHRASE
      = some [] :=
  have ha := C4_reason_phrase_capture [49] [48] [50, 48, 48] (bytes " \rO K\n")
    (by decide) (by decide) (by decide) (by decide) (by decide) (by decide) (by decide)
  have hb := C4_reason_phrase_capture [49] [48] [50, 48, 48] (bytes "  ")
    (by decide) (by decide) (by decide) (by decide) (by decide) (by decide) (by decide)
  ⟨⟨(ha.1 ⟨79, by decide, by decide⟩ (by decide)).2, by decide⟩, (hb.2 (by decide)).2⟩

set_option maxRecDepth 100000 in
/-- C5 as stated fails when the later value is empty: in the message `HTTP/1.0 200 OK`
with the lines `Content-Length:123` and `Content-Length:`, both recognised, the
parse succeeds and the string of CONTENT_LENGTH is `123`, the value of the earlier
line, while the value of the last line is empty. -/
theorem C5_counterexample :
    (statuses {} (message [49] [48] [50, 48, 48] (bytes "OK")
        [bytes "Content-Length:123", bytes "Content-Length:"])).getLast? = some SUCCESS
      ∧ lineValue CONTENT_LENGTH (bytes "Content-Length:123") = some (bytes "123")
      ∧ lineValue CONTENT_LENGTH (bytes "Content-Length:") = some []
      ∧ getFragmentStr
          (run {} (message [49] [48] [50, 48, 48] (bytes "OK")
            [bytes "Content-Length:123", bytes "Content-Length:"]))
          (message [49] [48] [50, 48, 48] (bytes "OK")
            [bytes "Content-Length:123", bytes "Content-Length:"]) CONTENT_LENGTH
        = some (bytes "123") := by
  refine ⟨?_, by decide, by decide, ?_⟩
  · rw [statuses_eq_sim]
    decide
  · rw [run_eq_sim]
    decide

/-- C5, amended. In a message shorter than `2^32` bytes, let `l` be the last line
recognised for the header `h` whose value `v` has a byte other than SP, HTAB, CR, LF
(the lines after it are not recognised for `h`, or have an empty or all-whitespace
value). Then the string of `h` is the trimmed `v`, whatever the lines before `l` are,
and `h` is found. -/
theorem C5_last_occurrence_wins (d1 d2 code r : List Byte) (ls1 ls2 : List (List Byte))
    (l v : List Byte)
    (h1 : d1 ≠ []) (hd1 : ∀ c ∈ d1, isDigit c.val = true)
    (h2 : d2 ≠ []) (hd2 : ∀ c ∈ d2, isDigit c.val = true)
    (h3 : code.length = 3) (hd3 : ∀ c ∈ code, isDigit c.val = true)
    (hr : NoCRLF r) (hls : ∀ x ∈ ls1 ++ l :: ls2, x ≠ [] ∧ NoCRLF x)
    (h : Nat) (hh : h ∈ [4, 5, 6, 7])
    (hv : lineValue h l = some v) (hne : trim v ≠ [])
    (hlast : ∀ x ∈ ls2, ∀ w, lineValue h x = some w → trim w = [])
    (hlen : (message d1 d2 code r (ls1 ++ l :: ls2)).length < 2 ^ 32) :
    getFragmentStr (run {} (message d1 d2 code r (ls1 ++ l :: ls2)))
        (message d1 d2 code r (ls1 ++ l :: ls2)) h = some (trim v)
      ∧ isFragmentFound (run {} (message d1 d2 code r (ls1 ++ l :: ls2))) h = true := by
  obtain ⟨m1, m2, _⟩ := message_header d1 d2 code r (ls1 ++ l :: ls2) h1 hd1 h2 hd2 h3 hd3
    hr hls h hh hlen
  have hval := refValue_last h ls1 ls2 l v hv hne hlast
  rw [hval] at m1 m2
  exact ⟨m1, by rw [m2]; exact decide_eq_true hne⟩

set_option maxRecDepth 100000 in
/-- C5 at the message of the unit test: `Content-length:123`, `Content-length: 321`
and `Location: 222 ` after `HTTP/1.0 200 OK`. -/
theorem C5_last_occurrence_wins_witness :
    getFragmentStr
        (run {} (message [49] [48] [50, 48, 48] (bytes "OK")
          ([bytes "Content-length:123"] ++ bytes "Content-length: 321"
            :: [bytes "Location: 222 "])))
        (message [49] [48] [50, 48, 48] (bytes "OK")
          ([bytes "Content-length:123"] ++ bytes "Content-length: 321"
            :: [bytes "Location: 222 "])) CONTENT_LENGTH
      = some (trim (bytes " 321")) ∧ trim (bytes " 321") = bytes "321" :=
  have hn : lineValue CONTENT_LENGTH (bytes "Location: 222 ") = none := by decide
  have h := C5_last_occurrence_wins [49] [48] [50, 48, 48] (bytes "OK")
    [bytes "Content-length:123"] [bytes "Location: 222 "] (bytes "Content-length: 321")
    (bytes " 321") (by decide) (by decide) (by decide) (by decide) (by decide) (by decide)
    (by decide) (by decide) CONTENT_LENGTH (by decide) (by decide) (by decide)
    (fun x hx w hw => by
      rw [List.mem_singleton.mp hx, hn] at hw
      cases hw)
    (by decide)
  ⟨h.1, by decide⟩


set_option maxRecDepth 4000 in
/-- C6 as stated fails when the position wraps: in the message with a major version
of `2^32 - 5` digits `1` and the line `Location:x`, the reference value of LOCATION
is `x` and the string of the fragment is `1`, a digit of the version. -/
theorem C6_counterexample :
    refValue LOCATION [bytes "Location:x"] = bytes "x"
      ∧ getFragmentStr
          (run {} (message (List.replicate wrapLength 49) [48] [50, 48, 48] (bytes "OK")
            [bytes "Location:x"]))
          (message (List.replicate wrapLength 49) [48] [50, 48, 48] (bytes "OK")
            [bytes "Location:x"]) LOCATION = some [49]
      ∧ some ([49] : List Byte) ≠ some (bytes "x") := by
  have hd : isDigit (49 : Byte).val = true := by decide
  have hd2 : ∀ c ∈ ([48] : List Byte), isDigit c.val = true := by decide
  have hd3 : ∀ c ∈ ([50, 48, 48] : List Byte), isDigit c.val = true := by decide
  have h3 : ([50, 48, 48] : List Byte).length = 3 := rfl
  have hr : NoCRLF (bytes "OK") := by decide
  have hls : ∀ l ∈ [bytes "Location:x"], l ≠ [] ∧ NoCRLF l := by decide
  have hf : finalSpan LOCATION [bytes "Location:x"] = some (9, 10) := by decide
  obtain ⟨t1, t2⟩ := message_tags (List.replicate wrapLength 49) [48] [50, 48, 48]
    (bytes "OK") [bytes "Location:x"] (replicate_ne_nil 49)
    (replicate_digits wrapLength 49 hd) (List.cons_ne_nil 48 []) hd2 h3 hd3 hr hls
    LOCATION (by decide)
  have hl := wrapStatusLine_length
  unfold wrapStatusLine at hl
  rw [hf, hl] at t1 t2
  refine ⟨by decide, ?_, by decide⟩
  have hX : message (List.replicate wrapLength 49) [48] [50, 48, 48] (bytes "OK")
      [bytes "Location:x"] = bytes "HTTP/" ++ List.replicate wrapLength 49
        ++ ([46, 48, 32, 50, 48, 48, 32] ++ bytes "OK" ++ CRLF
          ++ joinLines [bytes "Location:x"] ++ CRLF) := by
    simp [message, statusPrefix]
  conv_lhs => arg 2; rw [hX]
  exact wrap_slice _ LOCATION 20 _ (by norm_num) (by norm_num) t1 t2

/-- C6, amended with the bound of the 32-bit position. After a whole message shorter
than `2^32` bytes the string of every header `h` is the reference value of the
randomised test, `refValue`: the trimmed value of the last line that starts with
the name of `h` up to letter case and a colon and whose value has a byte other than
SP, HTAB, CR, LF; empty when there is no such line. One more line that is not
recognised for `h`, or whose value is empty or all whitespace, leaves the string as
the lines before it made it. -/
theorem C6_reference_semantics (d1 d2 code r : List Byte) (ls : List (List Byte))
    (h1 : d1 ≠ []) (hd1 : ∀ c ∈ d1, isDigit c.val = true)
    (h2 : d2 ≠ []) (hd2 : ∀ c ∈ d2, isDigit c.val = true)
    (h3 : code.length = 3) (hd3 : ∀ c ∈ code, isDigit c.val = true)
    (hr : NoCRLF r) (hls : ∀ l ∈ ls, l ≠ [] ∧ NoCRLF l)
    (h : Nat) (hh : h ∈ [4, 5, 6, 7])
    (hlen : (message d1 d2 code r ls).length < 2 ^ 32) :
    getFragmentStr (run {} (message d1 d2 code r ls)) (message d1 d2 code r ls) h
        = some (refValue h ls)
      ∧ ∀ l : List Byte, l ≠ [] → NoCRLF l →
          (lineValue h l = none ∨ ∃ v, lineValue h l = some v ∧ trim v = []) →
          (message d1 d2 code r (ls ++ [l])).length < 2 ^ 32 →
          getFragmentStr (run {} (message d1 d2 code r (ls ++ [l])))
            (message d1 d2 code r (ls ++ [l])) h = some (refValue h ls) := by
  refine ⟨(message_header d1 d2 code r ls h1 hd1 h2 hd2 h3 hd3 hr hls h hh hlen).1, ?_⟩
  intro l hl hN hblank hlen2
  have hls2 : ∀ x ∈ ls ++ [l], x ≠ [] ∧ NoCRLF x := by
    intro x hx
    rcases List.mem_append.mp hx with hx | hx
    · exact hls x hx
    · rw [List.mem_singleton.mp hx]
      exact ⟨hl, hN⟩
  have hm := (message_header d1 d2 code r (ls ++ [l]) h1 hd1 h2 hd2 h3 hd3 hr hls2 h hh
    hlen2).1
  have hb : refValue h [l] = [] := by
    apply refValue_blank
    intro x hx w hw
    rw [List.mem_singleton.mp hx] at hw
    rcases hblank with hn | ⟨v, hv, ht⟩
    · rw [hn] at hw
      cases hw
    · rw [hv] at hw
      cases hw
      exact ht
  rw [refValue_append, if_pos hb] at hm
  exact hm

set_option maxRecDepth 100000 in
/-- C6 at the first message of the unit test, for LOCATION. -/
theorem C6_reference_semantics_witness :
    getFragmentStr
        (run {} (message [49] [48] [50, 48, 48] (bytes "OK")
          [bytes "CoNtenT-leNGth:123", bytes "LOCATION: 321", bytes "content-type: 222 "]))
        (message [49] [48] [50, 48, 48] (bytes "OK")
          [bytes "CoNtenT-leNGth:123", bytes "LOCATION: 321", bytes "content-type: 222 "])
        LOCATION
      = some (refValue LOCATION
          [bytes "CoNtenT-leNGth:123", bytes "LOCATION: 321", bytes "content-type: 222 "])
      ∧ refValue LOCATION
          [bytes "CoNtenT-leNGth:123", bytes "LOCATION: 321", bytes "content-type: 222 "]
        = bytes "321" :=
  ⟨(C6_reference_semantics [49] [48] [50, 48, 48] (bytes "OK")
    [bytes "CoNtenT-leNGth:123", bytes "LOCATION: 321", bytes "content-type: 222 "]
    (by decide) (by decide) (by decide) (by decide) (by decide) (by decide) (by decide)
    (by decide) LOCATION (by decide) (by decide)).1, by decide⟩


set_option maxRecDepth 100000 in
/-- C7 as stated fails: in the message `HTTP/1.0 200 OK` with the only line
`Content-Length:` followed by three spaces, which is recognised with an
all-whitespace value, the parse succeeds and CONTENT_LENGTH is reported as not
found. -/
theorem C7_counterexample :
    (statuses {} (message [49] [48] [50, 48, 48] (bytes "OK")
        [bytes "Content-Length:   "])).getLast? = some SUCCESS
      ∧ lineValue CONTENT_LENGTH (bytes "Content-Length:   ") = some (bytes "   ")
      ∧ isFragmentFound
          (run {} (message [49] [48] [50, 48, 48] (bytes "OK") [bytes "Content-Length:   "]))
          CONTENT_LENGTH = false := by
  refine ⟨?_, by decide, ?_⟩
  · rw [statuses_eq_sim]
    decide
  · rw [run_eq_sim]
    decide

/-- C7, amended. After a whole message in which every line recognised for the header
`h` has an empty or all-whitespace value, the fragment of `h` is `(0, 0)`, its
string is empty, and `isFragmentFound` returns false. -/
theorem C7_blank_value_not_found (d1 d2 code r : List Byte) (ls : List (List Byte))
    (h1 : d1 ≠ []) (hd1 : ∀ c ∈ d1, isDigit c.val = true)
    (h2 : d2 ≠ []) (hd2 : ∀ c ∈ d2, isDigit c.val = true)
    (h3 : code.length = 3) (hd3 : ∀ c ∈ code, isDigit c.val = true)
    (hr : NoCRLF r) (hls : ∀ l ∈ ls, l ≠ [] ∧ NoCRLF l)
    (h : Nat) (hh : h ∈ [4, 5, 6, 7])
    (hblank : ∀ l ∈ ls, ∀ v, lineValue h l = some v → trim v = []) :
    getFragment (run {} (message d1 d2 code r ls)) h = (0, 0)
      ∧ getFragmentStr (run {} (message d1 d2 code r ls)) (message d1 d2 code r ls) h
        = some []
      ∧ isFragmentFound (run {} (message d1 d2 code r ls)) h = false := by
  obtain ⟨t1, t2⟩ := message_tags d1 d2 code r ls h1 hd1 h2 hd2 h3 hd3 hr hls h hh
  rw [finalSpan_none h ls (refValue_blank h ls hblank)] at t1 t2
  have b : tagAt (run {} (message d1 d2 code r ls)) (tagBegin h) = 0 := t1
  have e : tagAt (run {} (message d1 d2 code r ls)) (tagEnd h) = 0 := t2
  refine ⟨by rw [getFragment_eq, b, e], getFragmentStr_zero _ _ _ b e, ?_⟩
  rw [isFragmentFound_eq, e]
  rfl

set_option maxRecDepth 100000 in
/-- C7 at the message `HTTP/1.0 200 OK` with the lines `Content-Length:` and
`Location: x`. -/
theorem C7_blank_value_not_found_witness :
    isFragmentFound
        (run {} (message [49] [48] [50, 48, 48] (bytes "OK")
          [bytes "Content-Length:", bytes "Location: x"])) CONTENT_LENGTH = false :=
  have ha : lineValue CONTENT_LENGTH (bytes "Content-Length:") = some [] := by decide
  have hb : lineValue CONTENT_LENGTH (bytes "Location: x") = none := by decide
  (C7_blank_value_not_found [49] [48] [50, 48, 48] (bytes "OK")
    [bytes "Content-Length:", bytes "Location: x"]
    (by decide) (by decide) (by decide) (by decide) (by decide) (by decide) (by decide)
    (by decide) CONTENT_LENGTH (by decide)
    (fun l hl v hv => by
      rcases List.mem_cons.mp hl with e | hl2
      · rw [e, ha] at hv
        cases hv
        rfl
      · rw [List.mem_singleton.mp hl2, hb] at hv
        cases hv)).2.2

/-! ## The claims on header names -/

/-- C8. Two inputs have the same beginning `P`, which takes a fresh parser to the
start of a header line with no final status (the status line, and any lines after
it), and then bytes `A` and `B` of equal length that differ only in the case of
letters. Fed to a fresh parser by the loop of the tests (which stops at the first
final status) they end with the same status and the same parser, so the same
offsets of every fragment; and as long as no status before the last byte is final,
`feed` returns the same status for every byte of the two inputs and leaves the same
parser. -/
theorem C8_case_insensitive (P A B : List Byte)
    (hP : AllZero (statuses {} P)) (hs : (run {} P).m_CurrentState = 18)
    (hAB : sameLetters A B = true) :
    feedLoop {} (P ++ A) = feedLoop {} (P ++ B)
      ∧ (∀ f, getFragment (feedLoop {} (P ++ A)).1 f = getFragment (feedLoop {} (P ++ B)).1 f)
      ∧ (AllZero (statuses {} (P ++ A)).dropLast →
        statuses {} (P ++ A) = statuses {} (P ++ B)
          ∧ run {} (P ++ A) = run {} (P ++ B)
          ∧ ∀ f, getFragment (run {} (P ++ A)) f = getFragment (run {} (P ++ B)) f) := by
  have hF := sameLetters_forall A B hAB
  obtain ⟨c1, c2⟩ := case_run A B hF _ (by rw [hs]) (by rw [hs]; norm_num)
  have hloop : feedLoop {} (P ++ A) = feedLoop {} (P ++ B) := by
    rw [feedLoop_append _ _ _ hP, feedLoop_append _ _ _ hP]
    exact c1
  refine ⟨hloop, fun f => by rw [hloop], ?_⟩
  intro hz
  obtain ⟨e1, e2⟩ := c2 (AllZero_dropLast_append _ _ _ hz)
  have hrun : run {} (P ++ A) = run {} (P ++ B) := by
    rw [run_append _ P A, run_append _ P B, e2]
  refine ⟨?_, hrun, ?_⟩
  · rw [statuses_append P A, statuses_append P B, e1]
  · intro f
    rw [hrun]

set_option maxRecDepth 100000 in
/-- C8 at the header sections `CoNtenT-leNGth:123` and `Content-Length:123` after
`HTTP/1.0 200 OK`. -/
theorem C8_case_insensitive_witness :
    feedLoop {} (bytes "HTTP/1.0 200 OK\r\n" ++ bytes "CoNtenT-leNGth:123\r\n\r\n")
      = feedLoop {} (bytes "HTTP/1.0 200 OK\r\n" ++ bytes "Content-Length:123\r\n\r\n")
    ∧ statuses {} (bytes "HTTP/1.0 200 OK\r\n" ++ bytes "CoNtenT-leNGth:123\r\n\r\n")
      = statuses {} (bytes "HTTP/1.0 200 OK\r\n" ++ bytes "Content-Length:123\r\n\r\n")
    ∧ getFragment (run {} (bytes "HTTP/1.0 200 OK\r\n" ++ bytes "CoNtenT-leNGth:123\r\n\r\n"))
        CONTENT_LENGTH
      = getFragment (run {} (bytes "HTTP/1.0 200 OK\r\n" ++ bytes "Content-Length:123\r\n\r\n"))
        CONTENT_LENGTH :=
  have h := C8_case_insensitive (bytes "HTTP/1.0 200 OK\r\n")
    (bytes "CoNtenT-leNGth:123\r\n\r\n") (bytes "Content-Length:123\r\n\r\n")
    (by rw [statuses_eq_sim]; decide) (by rw [run_eq_sim]; decide) (by decide)
  have h2 := h.2.2 (by rw [statuses_eq_sim]; decide)
  ⟨h.1, h2.1, h2.2.2 CONTENT_LENGTH⟩

/-- C9. A header line `L` (not empty, no CR LF pair) read from the line start up to
its CR LF never produces a final status and leaves the parser at the line start.
It leaves the fragments of the status line as they were, and leaves the fragment of
a header `h` as it was unless `L` starts, at its first byte, with the name of `h`
up to letter case immediately followed by a colon. -/
theorem C9_strict_name_matching (p : Parser) (L : List Byte)
    (hs : p.m_CurrentState = 18) (hne : L ≠ []) (hN : NoCRLF L) :
    AllZero (statuses p (L ++ CRLF))
      ∧ (run p (L ++ CRLF)).m_CurrentState = 18
      ∧ (∀ f, f < 4 → getFragment (run p (L ++ CRLF)) f = getFragment p f)
      ∧ (∀ h ∈ [4, 5, 6, 7], lineValue h L = none →
          getFragment (run p (L ++ CRLF)) h = getFragment p h) := by
  obtain ⟨r1, r2, r3⟩ := line_run hs hne hN
  refine ⟨r2, r1, ?_, ?_⟩
  · intro f hf
    rw [getFragment_eq, getFragment_eq,
      r3 (tagBegin f) (by unfold tagBegin; omega) (by unfold tagBegin; omega),
      r3 (tagEnd f) (by unfold tagEnd; omega) (by unfold tagEnd; omega)]
  · intro h hh hn
    obtain ⟨t1, t2⟩ := line_frame h hh hs hN hn
    rw [getFragment_eq, getFragment_eq, t1, t2]

set_option maxRecDepth 100000 in
/-- C9 at the line `Content-Length :1`, with a space before the colon, after
`HTTP/1.0 200 OK` and the line `Content-Length:7`. -/
theorem C9_strict_name_matching_witness :
    AllZero (statuses (run {} (bytes "HTTP/1.0 200 OK\r\nContent-Length:7\r\n"))
        (bytes "Content-Length :1" ++ CRLF))
      ∧ getFragment (run (run {} (bytes "HTTP/1.0 200 OK\r\nContent-Length:7\r\n"))
          (bytes "Content-Length :1" ++ CRLF)) CONTENT_LENGTH
        = getFragment (run {} (bytes "HTTP/1.0 200 OK\r\nContent-Length:7\r\n"))
          CONTENT_LENGTH :=
  have h := C9_strict_name_matching (run {} (bytes "HTTP/1.0 200 OK\r\nContent-Length:7\r\n"))
    (bytes "Content-Length :1") (by rw [run_eq_sim]; decide) (by decide) (by decide)
  ⟨h.1, h.2.2.2 CONTENT_LENGTH (by decide) (by decide)⟩

/-- C10. Prefix recognition: when the input agrees with `HTTP/` on its first `i`
bytes (`i < 5`) and its next byte `c` is not the byte of `HTTP/` at `i`, a fresh
parser returns IN_PROGRESS for the first `i` bytes and ERROR_NOT_HTTP for `c`
(the match is exact, so a letter of the other case or the byte 255 is refused);
when the input begins with `HTTP/`, the five bytes return IN_PROGRESS. -/
theorem C10_prefix_recognition (input : List Byte) :
    (∀ i, i < 5 → ∀ (c : Byte) (rest : List Byte),
        input = (bytes "HTTP/").take i ++ c :: rest → (bytes "HTTP/").get? i ≠ some c →
        (statuses {} input).take (i + 1) = List.replicate i IN_PROGRESS ++ [ERROR_NOT_HTTP])
      ∧ (∀ rest, input = bytes "HTTP/" ++ rest →
        (statuses {} input).take 5 = List.replicate 5 IN_PROGRESS) := by
  constructor
  · intro i hi c rest hin hne
    obtain ⟨a1, a2, a3, a4, a5, a6⟩ := prefix_facts i hi
    obtain ⟨j1, j2, _⟩ := path_run exactly _ 0 a1 _ ({} : Parser) rfl a3
    rw [a2] at j1
    have hc : c.val ≠ (codes "HTTP/").getD i 0 := by
      intro h
      apply hne
      rw [a5]
      congr 1
      apply Fin.ext
      rw [← h]
      show c.val % 256 = c.val
      exact Nat.mod_eq_of_lt c.isLt
    have hstep := stepsTo_sound _ _ _ a4 c (by simpa using hc)
    have hlen : (statuses {} ((bytes "HTTP/").take i)).length = i := by
      rw [statuses_length, List.length_take, bytes_HTTP_length]
      omega
    rw [hin, statuses_append]
    show (statuses {} ((bytes "HTTP/").take i) ++
      (feed (run {} ((bytes "HTTP/").take i)) c).2 :: statuses _ rest).take (i + 1) = _
    rw [feed_snd, j1, hstep]
    have := take_succ_of_append (statuses {} ((bytes "HTTP/").take i)) (T 0 0 2).m_Status
      (statuses (feed (run {} ((bytes "HTTP/").take i)) c).1 rest)
    rw [hlen] at this
    rw [this, AllZero_eq_replicate _ j2, hlen]
    rfl
  · intro rest hin
    have k0 : Seg ({} : Parser) (bytes "HTTP/") 5 [] :=
      Seg.path (M := exactly) prefix_path rfl (by decide)
    have hlen : (statuses {} (bytes "HTTP/")).length = 5 := by
      rw [statuses_length, bytes_HTTP_length]
    rw [hin, statuses_append]
    have := List.take_left (statuses {} (bytes "HTTP/")) (statuses (run {} (bytes "HTTP/")) rest)
    rw [hlen] at this
    rw [this, AllZero_eq_replicate _ k0.2.1, hlen]
    rfl

set_option maxRecDepth 4000 in
/-- C10 at the input `http/1.1 200 OK`: the first byte is refused. -/
theorem C10_prefix_recognition_witness :
    (statuses {} (bytes "http/1.1 200 OK\r\n\r\n")).take (0 + 1) =
      List.replicate 0 IN_PROGRESS ++ [ERROR_NOT_HTTP] :=
  (C10_prefix_recognition (bytes "http/1.1 200 OK\r\n\r\n")).1 0 (by decide) 104
    (bytes "ttp/1.1 200 OK\r\n\r\n") (by decide) (by decide)

/-! ## The claims on the errors of the status line -/

/-- C11. After `HTTP/` and the digits `ds` of the major version, a byte `c` that is
not a digit gets ERROR_NOT_A_DIGIT_MAJOR_VERSION, unless it is the `.` after at
least one digit: all bytes before it get IN_PROGRESS. Likewise after `HTTP/` D1 `.`
and the digits `ds` of the minor version a byte that is not a digit gets
ERROR_NOT_A_DIGIT_MINOR_VERSION, unless it is the space after at least one digit.
An empty field (`ds` empty) is rejected whatever `c` is, and a field of one or more
digits with its terminator is accepted. -/
theorem C11_version_errors (ds d1 : List Byte) (c : Byte)
    (hd : ∀ x ∈ ds, isDigit x.val = true) (hc : isDigit c.val = false)
    (h1 : d1 ≠ []) (hd1 : ∀ x ∈ d1, isDigit x.val = true) :
    ((ds = [] ∨ c.val ≠ 46) →
        statuses {} (bytes "HTTP/" ++ ds ++ [c]) =
          List.replicate (bytes "HTTP/" ++ ds).length IN_PROGRESS
            ++ [ERROR_NOT_A_DIGIT_MAJOR_VERSION])
      ∧ ((ds = [] ∨ c.val ≠ 32) →
        statuses {} (bytes "HTTP/" ++ d1 ++ [46] ++ ds ++ [c]) =
          List.replicate (bytes "HTTP/" ++ d1 ++ [46] ++ ds).length IN_PROGRESS
            ++ [ERROR_NOT_A_DIGIT_MINOR_VERSION])
      ∧ AllZero (statuses {} (bytes "HTTP/" ++ d1 ++ [46]))
      ∧ (ds ≠ [] → AllZero (statuses {} (bytes "HTTP/" ++ d1 ++ [46] ++ ds ++ [32]))) := by
  obtain ⟨f5, f6, f7, f8, _, _⟩ := field_facts
  obtain ⟨m1, m2⟩ := major_run fresh_WF rfl h1 hd1
  refine ⟨?_, ?_, m2, ?_⟩
  · intro hx
    obtain ⟨p1, p2⟩ := http_run (p := {}) rfl
    obtain ⟨v1, v2⟩ := version_error major_first major_more (by norm_num) (by norm_num)
      f5 f6 (run_WF _ _ fresh_WF) p1 ds hd c hc hx
    apply statuses_snoc
    · rw [statuses_append, AllZero_append]
      exact ⟨p2, v1⟩
    · rw [run_append]
      exact v2
  · intro hx
    obtain ⟨v1, v2⟩ := version_error minor_first minor_more (by norm_num) (by norm_num)
      f7 f8 (run_WF _ _ fresh_WF) m1 ds hd c hc hx
    apply statuses_snoc
    · rw [statuses_append (bytes "HTTP/" ++ d1 ++ [46]) ds, AllZero_append]
      exact ⟨m2, v1⟩
    · rw [run_append _ (bytes "HTTP/" ++ d1 ++ [46]) ds]
      exact v2
  · intro hne
    exact (versionPrefix_run fresh_WF rfl h1 hd1 hne hd).2

set_option maxRecDepth 100000 in
/-- C11 at the starts `HTTP/1a` and `HTTP/1.b` of two inputs of the unit test. -/
theorem C11_version_errors_witness :
    statuses {} (bytes "HTTP/" ++ [49] ++ [97]) =
        List.replicate (bytes "HTTP/" ++ [49]).length IN_PROGRESS
          ++ [ERROR_NOT_A_DIGIT_MAJOR_VERSION]
      ∧ statuses {} (bytes "HTTP/" ++ [49] ++ [46] ++ [] ++ [98]) =
        List.replicate (bytes "HTTP/" ++ [49] ++ [46] ++ []).length IN_PROGRESS
          ++ [ERROR_NOT_A_DIGIT_MINOR_VERSION] :=
  ⟨(C11_version_errors [49] [49] 97 (by decide) (by decide) (by decide) (by decide)).1
      (Or.inr (by decide)),
    (C11_version_errors [] [49] 98 (by decide) (by decide) (by decide) (by decide)).2.1
      (Or.inl rfl)⟩


/-- C12. After an accepted start `HTTP/` D1 `.` D2 SP and fewer than three digits `ds`
of the status code, a byte `c` that is not a digit gets
ERROR_WRONG_LENGTH_OF_STATUS_CODE when it is a space and
ERROR_NOT_A_DIGIT_STATUS_CODE otherwise; after three digits any byte `x` other than a
space gets ERROR_WRONG_LENGTH_OF_STATUS_CODE. All bytes before it get
IN_PROGRESS. -/
theorem C12_status_code_errors (d1 d2 ds : List Byte) (c : Byte)
    (h1 : d1 ≠ []) (hd1 : ∀ x ∈ d1, isDigit x.val = true)
    (h2 : d2 ≠ []) (hd2 : ∀ x ∈ d2, isDigit x.val = true)
    (hd : ∀ x ∈ ds, isDigit x.val = true) (hc : isDigit c.val = false) :
    (ds.length < 3 →
        statuses {} (versionPrefix d1 d2 ++ ds ++ [c]) =
          List.replicate (versionPrefix d1 d2 ++ ds).length IN_PROGRESS
            ++ [if c.val = 32 then ERROR_WRONG_LENGTH_OF_STATUS_CODE
                else ERROR_NOT_A_DIGIT_STATUS_CODE])
      ∧ (ds.length = 3 → ∀ x : Byte, x.val ≠ 32 →
        statuses {} (versionPrefix d1 d2 ++ ds ++ [x]) =
          List.replicate (versionPrefix d1 d2 ++ ds).length IN_PROGRESS
            ++ [ERROR_WRONG_LENGTH_OF_STATUS_CODE]) := by
  obtain ⟨_, _, _, _, f9, f12⟩ := field_facts
  obtain ⟨v1, v2⟩ := versionPrefix_run fresh_WF rfl h1 hd1 h2 hd2
  constructor
  · intro hl
    obtain ⟨c1, c2⟩ := code_run v1 ds hd (by omega)
    apply statuses_snoc
    · rw [statuses_append, AllZero_append]
      exact ⟨v2, c2⟩
    · rw [run_append, c1]
      have hmem : 9 + ds.length ∈ [9, 10, 11] := by
        simp only [List.mem_cons, List.mem_singleton, List.not_mem_nil, or_false]
        omega
      obtain ⟨g1, g2⟩ := f9 _ hmem
      by_cases h32 : c.val = 32
      · rw [if_pos h32]
        exact errsTo_sound _ _ _ g1 c (by simp [h32])
      · rw [if_neg h32]
        exact errsTo_sound _ _ _ g2 c (by simp [hc, h32])
  · intro hl x hx
    obtain ⟨c1, c2⟩ := code_run v1 ds hd (by omega)
    apply statuses_snoc
    · rw [statuses_append, AllZero_append]
      exact ⟨v2, c2⟩
    · rw [run_append, c1, hl]
      exact errsTo_sound _ _ _ f12 x (by simp [hx])

set_option maxRecDepth 100000 in
/-- C12 at the starts `HTTP/1.1 2 ` and `HTTP/1.1 2000` of two inputs of the unit
test. -/
theorem C12_status_code_errors_witness :
    statuses {} (versionPrefix [49] [49] ++ [50] ++ [32]) =
        List.replicate (versionPrefix [49] [49] ++ [50]).length IN_PROGRESS
          ++ [if (32 : Byte).val = 32 then ERROR_WRONG_LENGTH_OF_STATUS_CODE
              else ERROR_NOT_A_DIGIT_STATUS_CODE]
      ∧ statuses {} (versionPrefix [49] [49] ++ [50, 48, 48] ++ [48]) =
        List.replicate (versionPrefix [49] [49] ++ [50, 48, 48]).length IN_PROGRESS
          ++ [ERROR_WRONG_LENGTH_OF_STATUS_CODE] :=
  ⟨(C12_status_code_errors [49] [49] [50] 32 (by decide) (by decide) (by decide) (by decide)
      (by decide) (by decide)).1 (by decide),
    (C12_status_code_errors [49] [49] [50, 48, 48] 32 (by decide) (by decide) (by decide)
      (by decide) (by decide) (by decide)).2 rfl 48 (by decide)⟩

/-- C13. Once the space after the three digits of the status code has been accepted,
whatever bytes `rest` follow, the loop of the tests never ends with an error, and
every status up to and including the first one that is not IN_PROGRESS is
IN_PROGRESS or SUCCESS. For any input at all, the first status that is not
IN_PROGRESS can be ERROR_NOT_HTTP only at one of the first five bytes, in a state of
`HTTP/` (0 to 4); a version error only in the states of that version field (5, 6 and
7, 8); an error of the status code only in its states (9 to 12). -/
theorem C13_lenient_after_status_line (d1 d2 code rest : List Byte)
    (h1 : d1 ≠ []) (hd1 : ∀ c ∈ d1, isDigit c.val = true)
    (h2 : d2 ≠ []) (hd2 : ∀ c ∈ d2, isDigit c.val = true)
    (h3 : code.length = 3) (hd3 : ∀ c ∈ code, isDigit c.val = true) :
    ((feedLoop {} (statusPrefix d1 d2 code ++ rest)).2 = IN_PROGRESS
        ∨ (feedLoop {} (statusPrefix d1 d2 code ++ rest)).2 = SUCCESS)
      ∧ (∀ k, AllZero ((statuses {} (statusPrefix d1 d2 code ++ rest)).take k) →
          (statuses {} (statusPrefix d1 d2 code ++ rest)).getD k 0 = IN_PROGRESS
            ∨ (statuses {} (statusPrefix d1 d2 code ++ rest)).getD k 0 = SUCCESS)
      ∧ (∀ (X : List Byte) (k : Nat), k < X.length → AllZero ((statuses {} X).take k) →
          ((statuses {} X).getD k 0 = ERROR_NOT_HTTP →
              k < 5 ∧ (run {} (X.take k)).m_CurrentState < 5)
            ∧ ((statuses {} X).getD k 0 = ERROR_NOT_A_DIGIT_MAJOR_VERSION →
              (run {} (X.take k)).m_CurrentState = 5 ∨ (run {} (X.take k)).m_CurrentState = 6)
            ∧ ((statuses {} X).getD k 0 = ERROR_NOT_A_DIGIT_MINOR_VERSION →
              (run {} (X.take k)).m_CurrentState = 7 ∨ (run {} (X.take k)).m_CurrentState = 8)
            ∧ ((statuses {} X).getD k 0 = ERROR_NOT_A_DIGIT_STATUS_CODE
                ∨ (statuses {} X).getD k 0 = ERROR_WRONG_LENGTH_OF_STATUS_CODE →
              9 ≤ (run {} (X.take k)).m_CurrentState
                ∧ (run {} (X.take k)).m_CurrentState ≤ 12)) := by
  have k1 := statusPrefix_seg fresh_WF rfl h1 hd1 h2 hd2 h3 hd3
  obtain ⟨l1, l2⟩ := lenient_run rest (run {} (statusPrefix d1 d2 code)) (by rw [k1.1])
    (by rw [k1.1]; norm_num)
  refine ⟨?_, ?_, ?_⟩
  · rw [feedLoop_append _ _ _ k1.2.1]
    exact l1
  · intro k hk
    rw [statuses_append] at hk ⊢
    by_cases hlt : k < (statuses {} (statusPrefix d1 d2 code)).length
    · rw [List.getD_append _ _ _ _ hlt]
      exact Or.inl (AllZero_getD _ k1.2.1 k)
    · rw [List.getD_append_right _ _ _ _ (by omega)]
      apply l2
      rw [List.take_append_eq_append_take, AllZero_append] at hk
      exact hk.2
  · intro X k hk hz
    have hget : X.get? k = some (X.get ⟨k, hk⟩) := List.get?_eq_get hk
    rw [statuses_take] at hz
    have hs := (quiet_run _ {} (by show (0 : Nat) < 85; norm_num) hz).1
    rw [statuses_get X {} k _ hget, feed_snd]
    obtain ⟨e1, e2, e3, e4, _⟩ :=
      error_states (run {} (X.take k)).m_CurrentState (X.get ⟨k, hk⟩).val hs (X.get ⟨k, hk⟩).isLt
    refine ⟨?_, e2, e3, e4⟩
    intro he
    refine ⟨?_, e1 he⟩
    by_contra h5
    have := order_run _ {} (by show (0 : Nat) < 85; norm_num) hz (by
      rw [List.length_take, Nat.min_eq_left (by omega)]
      show 5 ≤ 0 + k
      omega)
    have := e1 he
    omega

set_option maxRecDepth 100000 in
/-- C13 at `HTTP/1.0 200 ` followed by `OK`, a line that starts with the byte 255 and
has no colon, and the empty line. -/
theorem C13_lenient_after_status_line_witness :
    (feedLoop {} (statusPrefix [49] [48] [50, 48, 48]
        ++ (bytes "OK\r\n" ++ [255] ++ bytes "Content\r\n\r\n"))).2 = IN_PROGRESS
      ∨ (feedLoop {} (statusPrefix [49] [48] [50, 48, 48]
        ++ (bytes "OK\r\n" ++ [255] ++ bytes "Content\r\n\r\n"))).2 = SUCCESS :=
  (C13_lenient_after_status_line [49] [48] [50, 48, 48]
    (bytes "OK\r\n" ++ [255] ++ bytes "Content\r\n\r\n")
    (by decide) (by decide) (by decide) (by decide) (by decide) (by decide)).1

/-! ## The claims on the engine -/

/-- C14. `reset` applied to a parser in any state gives the freshly constructed
parser: state 0, count 0, 17 tag slots all 0. So any input parsed again after a
`reset` gets the same statuses, the same parser and the same fragments as the first
time, with unguarded feeding and with the loop of the tests, and `reset` is
idempotent. -/
theorem C14_reset (p : Parser) (X : List Byte) :
    reset p = {}
      ∧ (reset p).m_CurrentState = 0 ∧ count (reset p) = 0
      ∧ (reset p).m_SavedTagOffsets = List.replicate 17 0
      ∧ statuses (reset (run (reset p) X)) X = statuses (reset p) X
      ∧ run (reset (run (reset p) X)) X = run (reset p) X
      ∧ feedLoop (reset (feedLoop (reset p) X).1) X = feedLoop (reset p) X
      ∧ (∀ f, getFragment (run (reset (run (reset p) X)) X) f
          = getFragment (run (reset p) X) f)
      ∧ statuses (reset p) X = statuses {} X
      ∧ reset (reset p) = reset p :=
  ⟨rfl, rfl, rfl, rfl, rfl, rfl, rfl, fun _ => rfl, rfl, rfl⟩


/-- C15 as stated fails when the counter wraps: after `2^32` calls of `feed`,
`count()` is 0. -/
theorem C15_counterexample :
    count (run {} (List.replicate (wrapLength + 5) 0)) = 0
      ∧ (List.replicate (wrapLength + 5) (0 : Byte)).length = 2 ^ 32 := by
  constructor
  · rw [count_eq, run_pos _ _ fresh_WF, List.length_replicate, fresh_pos_add, wrapLength_eq]
    norm_num
  · rw [List.length_replicate, wrapLength_eq]
    norm_num

/-- C15, amended with the bound of the 32-bit counter. After fewer than `2^32` calls
of `feed` on a fresh or reset parser, whatever their statuses, `count()` is the
number of bytes fed; for a whole message it is the length of the message. -/
theorem C15_count (p : Parser) (X : List Byte) (hlen : X.length < 2 ^ 32) :
    count (run {} X) = X.length ∧ count (run (reset p) X) = X.length := by
  have h : count (run {} X) = X.length := by
    rw [count_eq, run_pos _ _ fresh_WF, fresh_pos_add]
    exact Nat.mod_eq_of_lt hlen
  exact ⟨h, h⟩

set_option maxRecDepth 100000 in
/-- C15 at the message `HTTP/1.0 200 OK` with the line `Content-Length: 12`. -/
theorem C15_count_witness :
    count (run {} (message [49] [48] [50, 48, 48] (bytes "OK") [bytes "Content-Length: 12"]))
      = (message [49] [48] [50, 48, 48] (bytes "OK") [bytes "Content-Length: 12"]).length :=
  (C15_count {} (message [49] [48] [50, 48, 48] (bytes "OK") [bytes "Content-Length: 12"])
    (by decide)).1


/-! ## The claim on reading at the counter -/

set_option maxRecDepth 4000 in
/-- C16 as stated fails when the counter wraps. For the message with a major version
of `2^32 - 5` digits the loop that feeds the bytes in order ends with SUCCESS, and
the loop that feeds `input[count()]` ends with ERROR_NOT_A_DIGIT_MAJOR_VERSION: after
`2^32` bytes `count()` is 0 and the first byte of the input is fed again. -/
theorem C16_counterexample :
    (feedTrace {} (message (List.replicate wrapLength 49) [48] [50, 48, 48] (bytes "OK")
        [])).2.getLast? = some SUCCESS
      ∧ (resumeTrace (message (List.replicate wrapLength 49) [48] [50, 48, 48] (bytes "OK") [])
          (message (List.replicate wrapLength 49) [48] [50, 48, 48] (bytes "OK") []).length
          {}).map (fun r => r.2.getLast?) = some (some ERROR_NOT_A_DIGIT_MAJOR_VERSION) := by
  have hd : isDigit (49 : Byte).val = true := by decide
  have hd2 : ∀ c ∈ ([48] : List Byte), isDigit c.val = true := by decide
  have hd3 : ∀ c ∈ ([50, 48, 48] : List Byte), isDigit c.val = true := by decide
  have h3 : ([50, 48, 48] : List Byte).length = 3 := rfl
  have hr : NoCRLF (bytes "OK") := by decide
  have hS := message_statuses (List.replicate wrapLength 49) [48] [50, 48, 48] (bytes "OK") []
    (replicate_ne_nil 49) (replicate_digits wrapLength 49 hd) (List.cons_ne_nil 48 []) hd2
    h3 hd3 hr (by intro l hl; cases hl)
  constructor
  · rw [feedTrace_quiet]
    · show (statuses {} _).getLast? = some SUCCESS
      rw [hS]
      simp
    · rw [hS, List.dropLast_concat]
      intro x hx
      exact List.eq_of_mem_replicate hx
  · have hM : message (List.replicate wrapLength 49) [48] [50, 48, 48] (bytes "OK") [] =
        bytes "HTTP/" ++ List.replicate wrapLength 49
          ++ ([46] ++ [48] ++ [32] ++ [50, 48, 48] ++ [32] ++ bytes "OK" ++ CRLF ++ CRLF) := by
      simp [message, statusPrefix, joinLines]
    have hY : ([46] ++ [48] ++ [32] ++ [50, 48, 48] ++ [32] ++ bytes "OK" ++ CRLF ++ CRLF
        : List Byte).length = 12 + 1 := by decide
    rw [hM, List.length_append _ ([46] ++ [48] ++ [32] ++ [50, 48, 48] ++ [32] ++ bytes "OK"
      ++ CRLF ++ CRLF), hY, resume_wrap]
    simp

/-- C16, amended with the bound of the 32-bit counter. For every input of at most
`2^32` bytes, the loop that feeds `input[count()]` at every iteration reads inside
the input and gets the same statuses, in the same order, and ends in the same
parser, hence with the same fragments, as the loop that feeds the bytes in order,
both stopping at the first status that is not IN_PROGRESS or at the end of the
input. -/
theorem C16_resumable (input : List Byte) (hlen : input.length ≤ 2 ^ 32) :
    resumeTrace input input.length {} = some (feedTrace {} input)
      ∧ (feedTrace {} input).1 = (feedLoop {} input).1 :=
  ⟨resume_eq input input [] {} fresh_WF rfl rfl hlen, feedTrace_fst input {}⟩

set_option maxRecDepth 100000 in
/-- C16 at the second message of the unit test. -/
theorem C16_resumable_witness :
    resumeTrace
        (bytes "HTTP/1.0 200 OK\r\nContent-length:123\r\nContent-length: 321\r\nLocation: 222 \r\n\r\n")
        (bytes "HTTP/1.0 200 OK\r\nContent-length:123\r\nContent-length: 321\r\nLocation: 222 \r\n\r\n").length
        {}
      = some (feedTrace {}
        (bytes "HTTP/1.0 200 OK\r\nContent-length:123\r\nContent-length: 321\r\nLocation: 222 \r\n\r\n")) :=
  (C16_resumable
    (bytes "HTTP/1.0 200 OK\r\nContent-length:123\r\nContent-length: 321\r\nLocation: 222 \r\n\r\n")
    (by decide)).1

/-- C17 as stated fails when the counter wraps: the message with a major version of
`2^32 - 5` digits, split after these digits at `k = 2^32`, leaves `count()` at 0. -/
theorem C17_counterexample :
    message (List.replicate wrapLength 49) [48] [50, 48, 48] (bytes "OK") [] =
        (bytes "HTTP/" ++ List.replicate wrapLength 49)
          ++ ([46] ++ [48] ++ [32] ++ [50, 48, 48] ++ [32] ++ bytes "OK" ++ CRLF ++ CRLF)
      ∧ (bytes "HTTP/" ++ List.replicate wrapLength (49 : Byte)).length = 2 ^ 32
      ∧ count (run {} (bytes "HTTP/" ++ List.replicate wrapLength 49)) = 0 := by
  have hl : (bytes "HTTP/" ++ List.replicate wrapLength (49 : Byte)).length = 2 ^ 32 := by
    rw [List.length_append, bytes_HTTP_length, List.length_replicate, wrapLength_eq]
    norm_num
  refine ⟨by simp [message, statusPrefix, joinLines], hl, ?_⟩
  rw [count_eq, run_pos _ _ fresh_WF, hl, fresh_pos_add]
  exact Nat.mod_self _

/-- C17, amended with the bound of the 32-bit counter. A valid message is split into
`a`, of fewer than `2^32` bytes, and `b`, not empty. Feeding `a` to a fresh parser
returns IN_PROGRESS for each byte and leaves `count()` at the length of `a`; feeding
`b` afterwards returns IN_PROGRESS up to the last byte and SUCCESS for it, and ends
in the same parser, with the same fragments, as feeding the message at once. -/
theorem C17_incremental_feeding (d1 d2 code r : List Byte) (ls : List (List Byte))
    (a b : List Byte)
    (h1 : d1 ≠ []) (hd1 : ∀ c ∈ d1, isDigit c.val = true)
    (h2 : d2 ≠ []) (hd2 : ∀ c ∈ d2, isDigit c.val = true)
    (h3 : code.length = 3) (hd3 : ∀ c ∈ code, isDigit c.val = true)
    (hr : NoCRLF r) (hls : ∀ l ∈ ls, l ≠ [] ∧ NoCRLF l)
    (hsplit : message d1 d2 code r ls = a ++ b) (hb : b ≠ []) (hk : a.length < 2 ^ 32) :
    statuses {} a = List.replicate a.length IN_PROGRESS
      ∧ count (run {} a) = a.length
      ∧ statuses (run {} a) b = List.replicate (b.length - 1) IN_PROGRESS ++ [SUCCESS]
      ∧ run (run {} a) b = run {} (message d1 d2 code r ls)
      ∧ ∀ f, getFragment (run (run {} a) b) f
          = getFragment (run {} (message d1 d2 code r ls)) f := by
  have hS := message_statuses d1 d2 code r ls h1 hd1 h2 hd2 h3 hd3 hr hls
  rw [hsplit, statuses_append] at hS
  have hbl : 0 < b.length := List.length_pos.mpr hb
  have hrep : List.replicate ((a ++ b).length - 1) IN_PROGRESS ++ [SUCCESS] =
      List.replicate a.length IN_PROGRESS
        ++ (List.replicate (b.length - 1) IN_PROGRESS ++ [SUCCESS]) := by
    have e : (a ++ b).length - 1 = a.length + (b.length - 1) := by
      rw [List.length_append]
      omega
    rw [e, List.replicate_add, List.append_assoc]
  rw [hrep] at hS
  obtain ⟨e1, e2⟩ := List.append_inj hS (by rw [statuses_length, List.length_replicate])
  have hrun : run (run {} a) b = run {} (message d1 d2 code r ls) := by
    rw [hsplit, run_append]
  refine ⟨e1, ?_, e2, hrun, fun f => by rw [hrun]⟩
  rw [count_eq, run_pos _ _ fresh_WF, fresh_pos_add]
  exact Nat.mod_eq_of_lt hk

set_option maxRecDepth 100000 in
/-- C17 at the message `HTTP/1.0 200 OK` with the line `Content-Length: 12`, split
after its first ten bytes. -/
theorem C17_incremental_feeding_witness :
    statuses {} (bytes "HTTP/1.0 2") = List.replicate (bytes "HTTP/1.0 2").length IN_PROGRESS
      ∧ count (run {} (bytes "HTTP/1.0 2")) = (bytes "HTTP/1.0 2").length
      ∧ statuses (run {} (bytes "HTTP/1.0 2")) (bytes "00 OK\r\nContent-Length: 12\r\n\r\n")
        = List.replicate ((bytes "00 OK\r\nContent-Length: 12\r\n\r\n").length - 1) IN_PROGRESS
          ++ [SUCCESS] :=
  have h := C17_incremental_feeding [49] [48] [50, 48, 48] (bytes "OK")
    [bytes "Content-Length: 12"] (bytes "HTTP/1.0 2")
    (bytes "00 OK\r\nContent-Length: 12\r\n\r\n")
    (by decide) (by decide) (by decide) (by decide) (by decide) (by decide) (by decide)
    (by decide) (by decide) (by decide) (by decide)
  ⟨h.1, h.2.1, h.2.2.1⟩


/-! ## The claim on the fragments after SUCCESS -/

set_option maxRecDepth 4000 in
/-- C18 as stated fails when the counter wraps: after the message with a major
version of `2^32 - 5` digits, parsed with SUCCESS, the major version is reported as
not found and its fragment is `(5, 0)`, not `(0, 0)`. -/
theorem C18_counterexample :
    (statuses {} (message (List.replicate wrapLength 49) [48] [50, 48, 48] (bytes "OK")
        [])).getLast? = some SUCCESS
      ∧ isFragmentFound (run {} (message (List.replicate wrapLength 49) [48] [50, 48, 48]
          (bytes "OK") [])) MAJOR_VERSION = false
      ∧ getFragment (run {} (message (List.replicate wrapLength 49) [48] [50, 48, 48]
          (bytes "OK") [])) MAJOR_VERSION = (5, 0) := by
  have hd : isDigit (49 : Byte).val = true := by decide
  have hd2 : ∀ c ∈ ([48] : List Byte), isDigit c.val = true := by decide
  have hd3 : ∀ c ∈ ([50, 48, 48] : List Byte), isDigit c.val = true := by decide
  have h3 : ([50, 48, 48] : List Byte).length = 3 := rfl
  have hr : NoCRLF (bytes "OK") := by decide
  have hS := message_statuses (List.replicate wrapLength 49) [48] [50, 48, 48] (bytes "OK") []
    (replicate_ne_nil 49) (replicate_digits wrapLength 49 hd) (List.cons_ne_nil 48 []) hd2
    h3 hd3 hr (by intro l hl; cases hl)
  have hM : message (List.replicate wrapLength 49) [48] [50, 48, 48] (bytes "OK") [] =
      statusPrefix (List.replicate wrapLength 49) [48] [50, 48, 48]
        ++ (bytes "OK" ++ (CRLF ++ (joinLines [] ++ CRLF))) := by
    simp [message]
  have hq : AllZero (statuses {} (statusPrefix (List.replicate wrapLength 49) [48] [50, 48, 48]
      ++ (bytes "OK" ++ (CRLF ++ (joinLines [] ++ CRLF))))).dropLast := by
    rw [← hM, hS, List.dropLast_concat]
    intro x hx
    exact List.eq_of_mem_replicate hx
  obtain ⟨t1, t2, _⟩ := status_tags {} fresh_WF rfl (List.replicate wrapLength 49) [48]
    [50, 48, 48] _ (replicate_ne_nil 49) (replicate_digits wrapLength 49 hd)
    (List.cons_ne_nil 48 []) hd2 h3 hd3 hq
  rw [← hM] at t1 t2
  rw [fresh_pos_add] at t1 t2
  have hw : (5 + (List.replicate wrapLength (49 : Byte)).length) % 2 ^ 32 = 0 := by
    rw [List.length_replicate, wrapLength_eq]
    norm_num
  rw [hw] at t2
  refine ⟨?_, ?_, ?_⟩
  · rw [hS]
    simp
  · rw [isFragmentFound_eq]
    show (tagAt _ 2 != 0) = false
    rw [t2]
    rfl
  · rw [getFragment_eq]
    show (tagAt _ 1, tagAt _ 2) = (5, 0)
    rw [t1, t2]
    rfl

/-- C18, amended with the bound of the 32-bit counter. After a parse of an input of
fewer than `2^32` bytes that ended in SUCCESS, for every fragment `f`: when
`isFragmentFound` is false the fragment is `(0, 0)` and its string is empty; when it
is true the fragment is `(b, e)` with `5 ≤ b < e < count()` and its string is the
slice of the input from `b` to `e`, of length `e - b`. -/
theorem C18_fragment_ranges (X : List Byte) (f : Nat) (hf : f < 8)
    (hlen : X.length < 2 ^ 32)
    (hS : statuses {} X = List.replicate (X.length - 1) IN_PROGRESS ++ [SUCCESS]) :
    (isFragmentFound (run {} X) f = false →
        getFragment (run {} X) f = (0, 0) ∧ getFragmentStr (run {} X) X f = some [])
      ∧ (isFragmentFound (run {} X) f = true →
        5 ≤ (getFragment (run {} X) f).1
          ∧ (getFragment (run {} X) f).1 < (getFragment (run {} X) f).2
          ∧ (getFragment (run {} X) f).2 < count (run {} X)
          ∧ getFragmentStr (run {} X) X f =
              some ((X.drop (getFragment (run {} X) f).1).take
                ((getFragment (run {} X) f).2 - (getFragment (run {} X) f).1))
          ∧ ((X.drop (getFragment (run {} X) f).1).take
                ((getFragment (run {} X) f).2 - (getFragment (run {} X) f).1)).length
              = (getFragment (run {} X) f).2 - (getFragment (run {} X) f).1) := by
  obtain ⟨hpos, hfin⟩ := frag_final f hf X hlen hS
  rw [getFragment_eq, isFragmentFound_eq, count_eq, hpos]
  simp only
  constructor
  · intro hnf
    have he : tagAt (run {} X) (tagEnd f) = 0 := by simpa using hnf
    rcases hfin with h | h
    · exact ⟨by rw [h.1, h.2], getFragmentStr_zero _ _ _ h.1 h.2⟩
    · omega
  · intro hfound
    have he : tagAt (run {} X) (tagEnd f) ≠ 0 := by simpa using hfound
    rcases hfin with h | h
    · exact absurd h.2 he
    · refine ⟨h.1, h.2.1, h.2.2, ?_, ?_⟩
      · have hb' : (run {} X).m_SavedTagOffsets.getD (tagBegin f) 0
            = tagAt (run {} X) (tagBegin f) := rfl
        have he' : (run {} X).m_SavedTagOffsets.getD (tagEnd f) 0
            = tagAt (run {} X) (tagEnd f) := rfl
        unfold getFragmentStr
        simp only [hb', he']
        rw [if_neg (by omega)]
        have e1 : tagAt (run {} X) (tagEnd f) + 2 ^ 64 - tagAt (run {} X) (tagBegin f)
            = (tagAt (run {} X) (tagEnd f) - tagAt (run {} X) (tagBegin f)) + 2 ^ 64 := by
          omega
        rw [e1, Nat.add_mod_right, Nat.mod_eq_of_lt (by omega)]
      · rw [List.length_take, List.length_drop]
        omega

set_option maxRecDepth 100000 in
/-- C18 at the message `HTTP/1.0 200 OK` with the line `Content-Length: 12`, for the
fragment of CONTENT_LENGTH, which is found, and of LOCATION, which is not. -/
theorem C18_fragment_ranges_witness :
    (5 ≤ (getFragment (run {} (bytes "HTTP/1.0 200 OK\r\nContent-Length: 12\r\n\r\n"))
        CONTENT_LENGTH).1
      ∧ (getFragment (run {} (bytes "HTTP/1.0 200 OK\r\nContent-Length: 12\r\n\r\n"))
        CONTENT_LENGTH).1
        < (getFragment (run {} (bytes "HTTP/1.0 200 OK\r\nContent-Length: 12\r\n\r\n"))
          CONTENT_LENGTH).2)
    ∧ getFragment (run {} (bytes "HTTP/1.0 200 OK\r\nContent-Length: 12\r\n\r\n")) LOCATION
      = (0, 0) :=
  have ha := C18_fragment_ranges (bytes "HTTP/1.0 200 OK\r\nContent-Length: 12\r\n\r\n")
    CONTENT_LENGTH (by decide) (by decide) (by rw [statuses_eq_sim]; decide)
  have hb := C18_fragment_ranges (bytes "HTTP/1.0 200 OK\r\nContent-Length: 12\r\n\r\n")
    LOCATION (by decide) (by decide) (by rw [statuses_eq_sim]; decide)
  have h1 := ha.2 (by rw [run_eq_sim]; decide)
  ⟨⟨h1.1, h1.2.1⟩, (hb.1 (by rw [run_eq_sim]; decide)).1⟩

/-! ## The claims on the end of the reason phrase and on the descriptions -/

set_option maxRecDepth 100000 in
/-- C19 as stated fails: after `HTTP/1.0 200 OK` and a bare LF the parser is in state
16 of the reason phrase, not at the line start 18; the line `Location:x` that
follows is read as part of the reason phrase, and LOCATION is not found. -/
theorem C19_counterexample :
    (run {} (bytes "HTTP/1.0 200 OK\n")).m_CurrentState = 16
      ∧ (statuses {} (bytes "HTTP/1.0 200 OK\nLocation:x\r\n\r\n")).getLast? = some SUCCESS
      ∧ getFragmentStr (run {} (bytes "HTTP/1.0 200 OK\nLocation:x\r\n\r\n"))
          (bytes "HTTP/1.0 200 OK\nLocation:x\r\n\r\n") REASON_PHRASE
        = some (bytes "OK\nLocation:x")
      ∧ isFragmentFound (run {} (bytes "HTTP/1.0 200 OK\nLocation:x\r\n\r\n")) LOCATION
        = false := by
  refine ⟨?_, ?_, ?_, ?_⟩
  · rw [run_eq_sim]
    decide
  · rw [statuses_eq_sim]
    decide
  · rw [run_eq_sim]
    decide
  · rw [run_eq_sim]
    decide

/-- C19, amended. The reason phrase is ended by CR LF only. After the accepted start
of the status line and any bytes `r` without a CR LF pair, bare LF included, every
status is IN_PROGRESS and the parser is still in one of the five states of the
reason phrase (13 to 17), not at the line start; after the CR LF that follows it is
at the line start 18. -/
theorem C19_reason_phrase_end (d1 d2 code r : List Byte)
    (h1 : d1 ≠ []) (hd1 : ∀ c ∈ d1, isDigit c.val = true)
    (h2 : d2 ≠ []) (hd2 : ∀ c ∈ d2, isDigit c.val = true)
    (h3 : code.length = 3) (hd3 : ∀ c ∈ code, isDigit c.val = true) (hr : NoCRLF r) :
    AllZero (statuses {} (statusPrefix d1 d2 code ++ r))
      ∧ 13 ≤ (run {} (statusPrefix d1 d2 code ++ r)).m_CurrentState
      ∧ (run {} (statusPrefix d1 d2 code ++ r)).m_CurrentState ≤ 17
      ∧ AllZero (statuses {} (statusPrefix d1 d2 code ++ (r ++ CRLF)))
      ∧ (run {} (statusPrefix d1 d2 code ++ (r ++ CRLF))).m_CurrentState = 18 := by
  have k1 := statusPrefix_seg fresh_WF rfl h1 hd1 h2 hd2 h3 hd3
  obtain ⟨s1, s2, _⟩ := status_line_seg fresh_WF rfl h1 hd1 h2 hd2 h3 hd3 hr
  have hmem : reasonRegion.mem (run {} (statusPrefix d1 d2 code)).m_CurrentState = true := by
    rw [k1.1]
    decide
  have hN : noCRLFfrom (isCR (run {} (statusPrefix d1 d2 code)).m_CurrentState) r = true := by
    rw [k1.1]
    exact hr
  obtain ⟨r1, r2, _⟩ := reasonRegion.run_spec reason_region r _ hmem (fun _ _ => rfl) hN
  simp only [Region.mem, reasonRegion, Bool.and_eq_true, decide_eq_true_eq] at r1
  refine ⟨?_, ?_, ?_, s2, s1⟩
  · rw [statuses_append, AllZero_append]
    exact ⟨k1.2.1, r2⟩
  · rw [run_append]
    exact r1.1.1
  · rw [run_append]
    exact r1.1.2

set_option maxRecDepth 100000 in
/-- C19 at `HTTP/1.0 200 ` with the reason `OK` and a bare LF. -/
theorem C19_reason_phrase_end_witness :
    13 ≤ (run {} (statusPrefix [49] [48] [50, 48, 48] ++ bytes "OK\n")).m_CurrentState
      ∧ (run {} (statusPrefix [49] [48] [50, 48, 48] ++ bytes "OK\n")).m_CurrentState ≤ 17
      ∧ (run {} (statusPrefix [49] [48] [50, 48, 48] ++ (bytes "OK\n" ++ CRLF))).m_CurrentState
        = 18 :=
  have h := C19_reason_phrase_end [49] [48] [50, 48, 48] (bytes "OK\n")
    (by decide) (by decide) (by decide) (by decide) (by decide) (by decide) (by decide)
  ⟨h.2.1, h.2.2.1, h.2.2.2.2⟩


/-- C20. The descriptions of SUCCESS and of the five errors. -/
theorem C20_error_strings :
    getErrorStr SUCCESS = "Success"
      ∧ getErrorStr ERROR_NOT_HTTP = "Wrong character, not an HTTP"
      ∧ getErrorStr ERROR_NOT_A_DIGIT_MAJOR_VERSION = "Not a digit in major version"
      ∧ getErrorStr ERROR_NOT_A_DIGIT_MINOR_VERSION = "Not a digit in minor version"
      ∧ getErrorStr ERROR_NOT_A_DIGIT_STATUS_CODE = "Not a digit in status code"
      ∧ getErrorStr ERROR_WRONG_LENGTH_OF_STATUS_CODE = "Wrong length of status code" :=
  ⟨rfl, rfl, rfl, rfl, rfl, rfl⟩

/-! ## The claims on the descriptions, the tags and the table -/

/-- C21. `getErrorStr` has a description for each of the seven status values, from
IN_PROGRESS to ERROR_WRONG_LENGTH_OF_STATUS_CODE, and two different status values
have different descriptions. -/
theorem C21_error_strings_distinct (s t : Nat) (hs : s < STATUS_END) (ht : t < STATUS_END) :
    m_StatusErrors.length = STATUS_END
      ∧ m_StatusErrors.get? s = some (getErrorStr s)
      ∧ (getErrorStr s = getErrorStr t → s = t) := by
  have h : ∀ a ∈ List.range 7, ∀ b ∈ List.range 7,
      m_StatusErrors.get? a = some (getErrorStr a) ∧ (getErrorStr a = getErrorStr b → a = b) := by
    decide
  have hs' : s ∈ List.range 7 := List.mem_range.mpr hs
  have ht' : t ∈ List.range 7 := List.mem_range.mpr ht
  exact ⟨rfl, (h s hs' t ht').1, (h s hs' t ht').2⟩

/-- C21 at IN_PROGRESS and SUCCESS. -/
theorem C21_error_strings_distinct_witness :
    m_StatusErrors.get? IN_PROGRESS = some (getErrorStr IN_PROGRESS)
      ∧ (getErrorStr IN_PROGRESS = getErrorStr SUCCESS → IN_PROGRESS = SUCCESS) :=
  (C21_error_strings_distinct IN_PROGRESS SUCCESS (by decide) (by decide)).2


/-- C22. For fewer than `2^32` calls of `feed` on a fresh parser, whatever the bytes
and the statuses: every value written into a slot other than the dummy is at least
5, and a slot other than the dummy holds 0 exactly when it has not been written. -/
theorem C22_offset_zero_unused (X : List Byte) (hlen : X.length < 2 ^ 32) :
    (∀ e ∈ writes {} X, e.1 ≠ DUMMY_TAG → 5 ≤ e.2)
      ∧ (∀ i, i ≠ DUMMY_TAG → (tagAt (run {} X) i = 0 ↔ ∀ e ∈ writes {} X, e.1 ≠ i))
      ∧ (∀ f, isFragmentFound (run {} X) f = false ↔ ∀ e ∈ writes {} X, e.1 ≠ tagEnd f)
      ∧ writes (reset (run {} X)) X = writes {} X := by
  obtain ⟨w1, w2⟩ := writes_spec X {} fresh_WF (by show (0 : Nat) < 85; norm_num)
    (by show min 0 5 ≤ 0; norm_num) (by show 0 + X.length < 2 ^ 32; omega)
  have hiff : ∀ i, i ≠ DUMMY_TAG →
      (tagAt (run {} X) i = 0 ↔ ∀ e ∈ writes {} X, e.1 ≠ i) := by
    intro i hi
    constructor
    · intro h0 e he hei
      have := (w2 i hi).2 ⟨e, he, hei⟩
      omega
    · intro hnever
      rw [(w2 i hi).1 hnever, tagAt_fresh]
  refine ⟨w1, hiff, ?_, rfl⟩
  intro f
  rw [isFragmentFound_eq, ← hiff (tagEnd f) (by unfold tagEnd DUMMY_TAG; omega)]
  simp

set_option maxRecDepth 100000 in
/-- C22 at `HTTP/1.0 200 OK` and the empty line: the end tag of `Location` holds 0
exactly when none of the 19 writes went to it, and the writes after a reset are the
same. -/
theorem C22_offset_zero_unused_witness :
    (bytes "HTTP/1.0 200 OK\r\n\r\n").length < 2 ^ 32
      ∧ (tagAt (run {} (bytes "HTTP/1.0 200 OK\r\n\r\n")) (tagEnd LOCATION) = 0 ↔
          ∀ e ∈ writes {} (bytes "HTTP/1.0 200 OK\r\n\r\n"), e.1 ≠ tagEnd LOCATION)
      ∧ writes (reset (run {} (bytes "HTTP/1.0 200 OK\r\n\r\n")))
          (bytes "HTTP/1.0 200 OK\r\n\r\n")
        = writes {} (bytes "HTTP/1.0 200 OK\r\n\r\n") :=
  ⟨by decide,
    (C22_offset_zero_unused (bytes "HTTP/1.0 200 OK\r\n\r\n") (by decide)).2.1
      (tagEnd LOCATION) (by decide),
    (C22_offset_zero_unused (bytes "HTTP/1.0 200 OK\r\n\r\n") (by decide)).2.2.2⟩

/-- C23. In the built table every transition of a state below `m_NumConditions`, which
is at most the capacity 128, leads to a state below `m_NumConditions` and has a tag
below NUM_TAGS, and every row has 256 entries. So for any bytes fed to a fresh
parser, past a final status too, the state of every lookup is below
`m_NumConditions` and every slot written is one of the 17 slots kept. -/
theorem C23_lookup_safety (X : List Byte) :
    theStateMachine.m_NumConditions ≤ MAX_NUM_CONDITIONS
      ∧ theStateMachine.m_Conditions.length = MAX_NUM_CONDITIONS
      ∧ (∀ s, s < theStateMachine.m_NumConditions → ∀ c : Byte,
          (tbl s c.val).m_State < theStateMachine.m_NumConditions
            ∧ (tbl s c.val).m_Tag < NUM_TAGS
            ∧ c.val < (theStateMachine.at s).m_Transitions.length)
      ∧ (run {} X).m_CurrentState < theStateMachine.m_NumConditions
      ∧ (run {} X).m_SavedTagOffsets.length = NUM_TAGS
      ∧ ∀ e ∈ writes {} X, e.1 < NUM_TAGS := by
  have h0 : ({} : Parser).m_CurrentState < 85 := by show (0 : Nat) < 85; norm_num
  rw [num_conditions]
  refine ⟨by decide, table_length, ?_, state_run X {} h0, (run_WF X {} fresh_WF).1,
    writes_bound X {} h0⟩
  intro s hs c
  rw [tbl_eq_lit, row_length s (by omega)]
  exact ⟨(bounds_step s c.val hs c.isLt).1, (bounds_step s c.val hs c.isLt).2.1, c.isLt⟩


/-- C24. The builder produces 85 states: at most MAX_NUM_CONDITIONS = 128 and more
than MAX_NUM_CONDITIONS / 2 = 64, as the two assertions of the build require. -/
theorem C24_num_conditions :
    theStateMachine.m_NumConditions = 85
      ∧ theStateMachine.m_NumConditions ≤ MAX_NUM_CONDITIONS
      ∧ theStateMachine.m_NumConditions > MAX_NUM_CONDITIONS / 2
      ∧ MAX_NUM_CONDITIONS = 128 ∧ MAX_NUM_CONDITIONS / 2 = 64 := by
  rw [num_conditions]
  decide


/-- C25. After an accepted start `HTTP/` D1 `.` D2 SP C SP of the status line, of length
`m`, and for any bytes `rest` after it: let `j` be an index in `rest` such that no
shorter part of `rest` ends with CR LF CR LF. Then `feed` returns IN_PROGRESS for
every byte before index `m + j`, and for the byte at index `m + j` it returns
SUCCESS if the bytes of `rest` up to it end with CR LF CR LF, and IN_PROGRESS
otherwise. -/
theorem C25_exact_success_point (d1 d2 code rest : List Byte) (j : Nat)
    (h1 : d1 ≠ []) (hd1 : ∀ c ∈ d1, isDigit c.val = true)
    (h2 : d2 ≠ []) (hd2 : ∀ c ∈ d2, isDigit c.val = true)
    (h3 : code.length = 3) (hd3 : ∀ c ∈ code, isDigit c.val = true)
    (hj : j < rest.length)
    (hfirst : ∀ k, k < j → endsBlankLine (rest.take (k + 1)) = false) :
    AllZero ((statuses {} (statusPrefix d1 d2 code ++ rest)).take
        ((statusPrefix d1 d2 code).length + j))
      ∧ (statuses {} (statusPrefix d1 d2 code ++ rest)).getD
          ((statusPrefix d1 d2 code).length + j) 0
        = (if endsBlankLine (rest.take (j + 1)) = true then SUCCESS else IN_PROGRESS) := by
  have k1 := statusPrefix_seg fresh_WF rfl h1 hd1 h2 hd2 h3 hd3
  have hst := k1.1
  obtain ⟨r1, r2⟩ := line_end_run rest (run {} (statusPrefix d1 d2 code)) []
    (by rw [hst]) (by rw [hst]; norm_num) (by rw [hst]; decide) (by rw [hst]; decide)
    (by rw [hst]; decide) j hj
    (by
      intro k hk
      rw [List.append_nil]
      exact hfirst k hk)
  rw [List.append_nil] at r2
  have hl : (statuses {} (statusPrefix d1 d2 code)).length = (statusPrefix d1 d2 code).length :=
    statuses_length _ _
  rw [statuses_append]
  constructor
  · rw [← hl, List.take_append, AllZero_append]
    exact ⟨k1.2.1, r1⟩
  · rw [List.getD_append_right _ _ _ _ (by omega), hl, Nat.add_sub_cancel_left]
    exact r2

set_option maxRecDepth 100000 in
/-- C25 at `HTTP/1.0 200 ` followed by `OK`, a line with two bare LF, and the empty
line: SUCCESS at the last byte. -/
theorem C25_exact_success_point_witness :
    (statuses {} (statusPrefix [49] [48] [50, 48, 48] ++ bytes "OK\r\nA: b\n\n\r\n\r\n")).getD
        ((statusPrefix [49] [48] [50, 48, 48]).length + 13) 0
      = (if endsBlankLine ((bytes "OK\r\nA: b\n\n\r\n\r\n").take (13 + 1)) = true
          then SUCCESS else IN_PROGRESS)
    ∧ endsBlankLine ((bytes "OK\r\nA: b\n\n\r\n\r\n").take (13 + 1)) = true :=
  ⟨(C25_exact_success_point [49] [48] [50, 48, 48] (bytes "OK\r\nA: b\n\n\r\n\r\n") 13
    (by decide) (by decide) (by decide) (by decide) (by decide) (by decide) (by decide)
    (by decide)).2, by decide⟩


/-- C26. For fewer than `2^32` bytes fed to a fresh parser, whatever the bytes and the
statuses, and for every fragment: if the end tag is not zero then the begin tag is
not zero either. -/
theorem C26_end_implies_begin (X : List Byte) (f : Nat) (hlen : X.length < 2 ^ 32)
    (hf : f < HEADER_MAX) :
    (tagAt (run {} X) (tagEnd f) ≠ 0 → tagAt (run {} X) (tagBegin f) ≠ 0)
      ∧ (isFragmentFound (run {} X) f = true → (getFragment (run {} X) f).1 ≠ 0) := by
  have hk0 : fragKind f 0 = 0 := by
    have : ∀ g ∈ List.range 8, fragKind g 0 = 0 := by decide
    exact this f (List.mem_range.mpr hf)
  have h := (weak_run f hf X {} fresh_WF (by show (0 : Nat) < 85; norm_num)
    (by show min 0 5 ≤ 0; norm_num) (by show 0 + X.length < 2 ^ 32; omega)
    (fun hx => absurd hk0 hx) (fun hx => absurd (tagAt_fresh _) hx)).2
  have h1 : tagAt (run {} X) (tagEnd f) ≠ 0 → tagAt (run {} X) (tagBegin f) ≠ 0 := by
    intro he
    have := h he
    omega
  refine ⟨h1, ?_⟩
  intro hfound
  rw [isFragmentFound_eq] at hfound
  rw [getFragment_eq]
  exact h1 (by simpa using hfound)

set_option maxRecDepth 100000 in
/-- C26 at an input cut inside the value of a repeated header. -/
theorem C26_end_implies_begin_witness :
    (bytes "HTTP/1.0 200 OK\r\nLocation:a\r\nLocation:b").length < 2 ^ 32
      ∧ LOCATION < HEADER_MAX
      ∧ (isFragmentFound (run {} (bytes "HTTP/1.0 200 OK\r\nLocation:a\r\nLocation:b"))
            LOCATION = true →
          (getFragment (run {} (bytes "HTTP/1.0 200 OK\r\nLocation:a\r\nLocation:b"))
            LOCATION).1 ≠ 0) :=
  ⟨by decide, by decide,
    (C26_end_implies_begin (bytes "HTTP/1.0 200 OK\r\nLocation:a\r\nLocation:b") LOCATION
      (by decide) (by decide)).2⟩

/-- C27. For a fragment `f` below HEADER_MAX and any fragment `g`: `tagBegin f = 2f+1`
and `tagEnd f = 2f+2` are not the dummy tag and are below NUM_TAGS; a begin tag is
never an end tag; different fragments have different begin tags and different end
tags; and every slot below NUM_TAGS is the dummy tag or the begin or end tag of a
fragment below HEADER_MAX. -/
theorem C27_tag_mapping (f g : Nat) (hf : f < HEADER_MAX) :
    tagBegin f = 2 * f + 1 ∧ tagEnd f = 2 * f + 2
      ∧ tagBegin f ≠ DUMMY_TAG ∧ tagEnd f ≠ DUMMY_TAG
      ∧ tagBegin f < NUM_TAGS ∧ tagEnd f < NUM_TAGS
      ∧ tagBegin f ≠ tagEnd g
      ∧ (tagBegin f = tagBegin g → f = g) ∧ (tagEnd f = tagEnd g → f = g)
      ∧ (∀ i, i < NUM_TAGS →
          i = DUMMY_TAG ∨ ∃ h, h < HEADER_MAX ∧ (i = tagBegin h ∨ i = tagEnd h))
      ∧ NUM_TAGS = 2 * HEADER_MAX + 1 := by
  unfold tagBegin tagEnd DUMMY_TAG NUM_TAGS HEADER_MAX at *
  refine ⟨by omega, by omega, by omega, by omega, by omega, by omega, by omega, by omega,
    by omega, ?_, by omega⟩
  intro i hi
  by_cases h0 : i = 0
  · exact Or.inl h0
  · right
    refine ⟨(i - 1) / 2, by omega, ?_⟩
    omega

/-- C27 at CONTENT_TYPE and LOCATION. -/
theorem C27_tag_mapping_witness :
    tagBegin CONTENT_TYPE = 2 * CONTENT_TYPE + 1 ∧ tagEnd CONTENT_TYPE = 2 * CONTENT_TYPE + 2
      ∧ tagBegin CONTENT_TYPE ≠ tagEnd LOCATION :=
  have h := C27_tag_mapping CONTENT_TYPE LOCATION (by decide)
  ⟨h.1, h.2.1, h.2.2.2.2.2.2.1⟩


/-- C28. In the built table every transition with a status other than IN_PROGRESS
leads to state 0, has the dummy tag and a status below STATUS_END; every transition
with the status IN_PROGRESS out of a state below `m_NumConditions` leads to a state
from 1 on, so it is not the default-constructed transition; and every row of such a
state has 256 entries. -/
theorem C28_transition_shape (s : Nat) (c : Byte) :
    ((tbl s c.val).m_Status ≠ 0 →
        (tbl s c.val).m_State = 0 ∧ (tbl s c.val).m_Tag = DUMMY_TAG
          ∧ (tbl s c.val).m_Status < STATUS_END ∧ 1 ≤ (tbl s c.val).m_Status)
      ∧ (s < theStateMachine.m_NumConditions →
        ((tbl s c.val).m_Status = 0 → 1 ≤ (tbl s c.val).m_State)
          ∧ tbl s c.val ≠ {}
          ∧ (theStateMachine.at s).m_Transitions.length = NUM_TRANSITIONS) := by
  rw [tbl_eq_lit, num_conditions]
  constructor
  · intro hne
    by_cases hs : s < 85
    · obtain ⟨a, b, d⟩ := (shape_step s c.val hs c.isLt).2 hne
      exact ⟨a, b, d, by omega⟩
    · rw [lit_default s c.val (Or.inl (by omega))] at hne
      exact absurd rfl hne
  · intro hs
    have h1 := (shape_step s c.val hs c.isLt).1
    refine ⟨h1, ?_, row_length s (by omega)⟩
    intro hd
    by_cases h0 : (lit s c.val).m_Status = 0
    · have := h1 h0
      rw [hd] at this
      exact absurd this (by decide)
    · rw [hd] at h0
      exact h0 rfl

/-- C28 at the state 21 that waits for the last LF: the LF returns SUCCESS and leads
to state 0, the CR goes on. -/
theorem C28_transition_shape_witness :
    ((tbl 21 (10 : Byte).val).m_Status ≠ 0 →
        (tbl 21 (10 : Byte).val).m_State = 0 ∧ (tbl 21 (10 : Byte).val).m_Tag = DUMMY_TAG
          ∧ (tbl 21 (10 : Byte).val).m_Status < STATUS_END
          ∧ 1 ≤ (tbl 21 (10 : Byte).val).m_Status)
      ∧ tbl 21 (13 : Byte).val ≠ {} :=
  ⟨(C28_transition_shape 21 10).1,
    ((C28_transition_shape 21 13).2 (by rw [num_conditions]; decide)).2.1⟩

/-- C29. In the whole machine, the bytes `X` that are a prefix of the name of header
`h` up to letter case lead from the line start 18 to a state that the prefix alone
decides, and the whole name followed by a colon leads to the value state of `h`; the
four value states are 34, 45, 67 and 80. `Content-Type` and `Content-Length` visit
the same eight states 22 to 29 on `Content-` and differ from the ninth byte on. In
the machine built with the first `n` names only, the paths of these names, in lower
and in upper case, are the ones of the whole machine, and every transition is the
one of the whole machine unless it leads to the state 19 that skips the line. The
machine has 85 states. -/
theorem C29_shared_name_paths (h : Nat) (hh : h ∈ [4, 5, 6, 7]) (k : Nat) (X : List Byte)
    (p : Parser) (hX : matchesBy upToCase ((nameCodes h).take k) X = true)
    (hp : p.m_CurrentState = 18) :
    (run p X).m_CurrentState = pathEnd 18 ((nameCodes h).take k)
      ∧ ((nameCodes h).length ≤ k → (run p (X ++ [58])).m_CurrentState = valueState h)
      ∧ [valueState 4, valueState 5, valueState 6, valueState 7] = [34, 45, 67, 80]
      ∧ pathStatesIn theStateMachine 18 (nameCodes CONTENT_TYPE)
        = [22, 23, 24, 25, 26, 27, 28, 29, 30, 31, 32, 33]
      ∧ pathStatesIn theStateMachine 18 (nameCodes CONTENT_LENGTH)
        = [22, 23, 24, 25, 26, 27, 28, 29, 39, 40, 41, 42, 43, 44]
      ∧ (nameCodes CONTENT_TYPE).take 8 = codes "Content-"
      ∧ (nameCodes CONTENT_LENGTH).take 8 = codes "Content-"
      ∧ (nameCodes CONTENT_TYPE).get? 8 ≠ (nameCodes CONTENT_LENGTH).get? 8
      ∧ (∀ n ∈ [1, 2, 3, 4], ∀ j, j < n →
          pathStatesIn (machineUpTo n) 18
              ((nameCodes (SPECIAL_MAX + j)).map simple_tolower ++ [58])
            = pathStatesIn theStateMachine 18
              ((nameCodes (SPECIAL_MAX + j)).map simple_tolower ++ [58])
          ∧ pathStatesIn (machineUpTo n) 18
              ((nameCodes (SPECIAL_MAX + j)).map simple_toupper ++ [58])
            = pathStatesIn theStateMachine 18
              ((nameCodes (SPECIAL_MAX + j)).map simple_toupper ++ [58]))
      ∧ (∀ n, n ≤ 4 → ∀ s, s < (machineUpTo n).m_NumConditions → ∀ c : Byte,
          ((machineUpTo n).at s).at c.val = tbl s c.val
            ∨ (((machineUpTo n).at s).at c.val).m_State = 19)
      ∧ machineUpTo 4 = buildStateMachine
      ∧ theStateMachine.m_NumConditions = 85 := by
  obtain ⟨n1, n2⟩ := names_facts h hh
  obtain ⟨q1, q2, q3, q4, q5⟩ := name_paths
  have hrun := path_run upToCase _ 18 (pathOK_take upToCase _ 18 k n1) X p hp hX
  refine ⟨hrun.1, ?_, value_states, q1, q2, q3, q4, q5, ?_, stable_spec, rfl, num_conditions⟩
  · intro hk
    rw [run_append]
    show (feed (run p X) 58).1.m_CurrentState = valueState h
    rw [feed_state, hrun.1, List.take_of_length_le hk]
    rfl
  · intro n hn j hj
    have := allBelow_sound _ n (paths_kept n hn) j hj
    simp only [Bool.and_eq_true, decide_eq_true_eq] at this
    exact this

set_option maxRecDepth 100000 in
/-- C29 at the prefix `conTENT-` of `Content-Length`. -/
theorem C29_shared_name_paths_witness :
    (run (run {} (bytes "HTTP/1.0 200 OK\r\n")) (bytes "conTENT-")).m_CurrentState
      = pathEnd 18 ((nameCodes CONTENT_LENGTH).take 8)
    ∧ pathEnd 18 ((nameCodes CONTENT_LENGTH).take 8) = 29 :=
  ⟨(C29_shared_name_paths CONTENT_LENGTH (by decide) 8 (bytes "conTENT-")
    (run {} (bytes "HTTP/1.0 200 OK\r\n")) (by decide) (by rw [run_eq_sim]; decide)).1,
    by decide⟩


/-- C30. For a header `h` whose value is read from the state `v` entered by the colon
after its name, every `k` from 0 to 4 and every byte `c`: the transition of state
`v + k` in the built table is the transition of state `13 + k` of the reason phrase
with the states `13 + j` renamed to `v + j`, the line start 18 kept, and the begin
and end tags of the reason phrase renamed to those of `h`. -/
theorem C30_value_trimmer (h : Nat) (hh : h ∈ [4, 5, 6, 7]) (k : Nat) (hk : k < 5)
    (c : Byte) :
    tbl (valueState h + k) c.val
        = renameTransition h (valueState h) (tbl (13 + k) c.val)
      ∧ (∀ j, j < 5 → renameState (valueState h) (13 + j) = valueState h + j)
      ∧ renameState (valueState h) 18 = 18
      ∧ renameTag h (tagBegin REASON_PHRASE) = tagBegin h
      ∧ renameTag h (tagEnd REASON_PHRASE) = tagEnd h
      ∧ renameTag h DUMMY_TAG = DUMMY_TAG
      ∧ (∀ (p : Parser) (N : List Byte), p.m_CurrentState = 18 → sameName h N = true →
          (run p (N ++ [58])).m_CurrentState = valueState h) := by
  obtain ⟨n1, n2⟩ := names_facts h hh
  refine ⟨?_, ?_, ?_, ?_, ?_, ?_, ?_⟩
  · rw [tbl_eq_lit, tbl_eq_lit]
    exact trimmer_renamed h hh k hk c.val c.isLt
  · intro j hj
    unfold renameState
    rw [if_pos (by omega)]
    omega
  · unfold renameState
    rw [if_neg (by omega)]
  · unfold renameTag
    rw [if_pos rfl]
  · unfold renameTag
    rw [if_neg (by decide), if_pos rfl]
  · unfold renameTag
    rw [if_neg (by decide), if_neg (by decide)]
  · intro p N hp hN
    have hrun := path_run upToCase _ 18 n1 N p hp hN
    rw [run_append]
    show (feed (run p N) 58).1.m_CurrentState = valueState h
    rw [feed_state, hrun.1]
    rfl

/-- C30 at the state after the first byte of a value of CONTENT_LENGTH, for a space:
the end tag of CONTENT_LENGTH is written. -/
theorem C30_value_trimmer_witness :
    tbl (valueState CONTENT_LENGTH + 2) (32 : Byte).val
        = renameTransition CONTENT_LENGTH (valueState CONTENT_LENGTH)
          (tbl (13 + 2) (32 : Byte).val)
      ∧ renameTransition CONTENT_LENGTH (valueState CONTENT_LENGTH)
          (T 16 (tagEnd REASON_PHRASE) 0) = T 48 (tagEnd CONTENT_LENGTH) 0 :=
  ⟨(C30_value_trimmer CONTENT_LENGTH (by decide) 2 (by decide) 32).1, by decide⟩

/-! ## The claim on a fragment found before its range is whole -/

/-- C31. A message with two lines of the same header `h`, cut inside the value of the
second one: the status line, the line with a value `V1` that is not blank, then the
name again, the colon, whitespace `W` and the bytes `c :: U` of the second value.
For fewer than `2^32` bytes every status is IN_PROGRESS, `isFragmentFound(h)` is true
and `getFragment(h)` returns a begin offset greater than the end offset: the begin
tag is the offset of `c` in the second line, the end tag is still the end of the
first value. -/
theorem C31_found_before_range (h : Nat) (hh : h ∈ [4, 5, 6, 7])
    (d1 d2 code r N1 V1 N2 W U : List Byte) (c : Byte)
    (h1 : d1 ≠ []) (hd1 : ∀ x ∈ d1, isDigit x.val = true)
    (h2 : d2 ≠ []) (hd2 : ∀ x ∈ d2, isDigit x.val = true)
    (h3 : code.length = 3) (hd3 : ∀ x ∈ code, isDigit x.val = true) (hr : NoCRLF r)
    (hN1 : sameName h N1 = true) (hV1 : NoCRLF V1) (hv : trim V1 ≠ [])
    (hN2 : sameName h N2 = true) (hW : ∀ w ∈ W, isWS w.val = true) (hWN : NoCRLF W)
    (hc : isWS c.val = false) (hU : ∀ u ∈ U, isWS u.val = false)
    (hlen : (statusPrefix d1 d2 code ++ (r ++ CRLF) ++ (N1 ++ 58 :: V1 ++ CRLF)
      ++ (N2 ++ 58 :: W ++ c :: U)).length < 2 ^ 32) :
    AllZero (statuses {} (statusPrefix d1 d2 code ++ (r ++ CRLF) ++ (N1 ++ 58 :: V1 ++ CRLF)
        ++ (N2 ++ 58 :: W ++ c :: U)))
      ∧ isFragmentFound (run {} (statusPrefix d1 d2 code ++ (r ++ CRLF)
          ++ (N1 ++ 58 :: V1 ++ CRLF) ++ (N2 ++ 58 :: W ++ c :: U))) h = true
      ∧ getFragment (run {} (statusPrefix d1 d2 code ++ (r ++ CRLF)
          ++ (N1 ++ 58 :: V1 ++ CRLF) ++ (N2 ++ 58 :: W ++ c :: U))) h
        = ((statusPrefix d1 d2 code ++ (r ++ CRLF) ++ (N1 ++ 58 :: V1 ++ CRLF)).length
            + (N2.length + 1 + W.length),
           (statusPrefix d1 d2 code ++ (r ++ CRLF)).length
            + (N1.length + 1 + ((V1.takeWhile (fun x => isWS x.val)).length + (trim V1).length)))
      ∧ (getFragment (run {} (statusPrefix d1 d2 code ++ (r ++ CRLF)
          ++ (N1 ++ 58 :: V1 ++ CRLF) ++ (N2 ++ 58 :: W ++ c :: U))) h).2
        < (getFragment (run {} (statusPrefix d1 d2 code ++ (r ++ CRLF)
          ++ (N1 ++ 58 :: V1 ++ CRLF) ++ (N2 ++ 58 :: W ++ c :: U))) h).1 := by
  obtain ⟨_, b2, b3, b4, b5⟩ := tag_bounds h hh
  obtain ⟨s1, s2, _⟩ := status_line_seg fresh_WF rfl h1 hd1 h2 hd2 h3 hd3 hr
  have hWF1 : WF (run {} (statusPrefix d1 d2 code ++ (r ++ CRLF))) := run_WF _ _ fresh_WF
  obtain ⟨l1, l2, l3, _⟩ := header_value_tags h hh hWF1 s1 hN1 hV1
  obtain ⟨_, l4⟩ := l3 hv
  have hWF2 : WF (run (run {} (statusPrefix d1 d2 code ++ (r ++ CRLF)))
      (N1 ++ 58 :: V1 ++ CRLF)) := run_WF _ _ hWF1
  obtain ⟨t1, t2, t3⟩ := value_cut h hh hWF2 l1 hN2 hW hWN hc hU
  have hb := t3 (tagBegin h) b3
  have he := t3 (tagEnd h) b4
  simp only [wlook, if_true, Option.elim] at hb
  rw [wlook, if_neg (by exact b5)] at he
  simp only [wlook, Option.elim] at he
  -- the positions
  obtain ⟨ws2, hV⟩ := trim_split V1
  have hVlen : (V1.takeWhile (fun x => isWS x.val)).length + (trim V1).length ≤ V1.length := by
    have := congrArg List.length hV
    simp only [List.length_append] at this
    omega
  have hp1 : (run {} (statusPrefix d1 d2 code ++ (r ++ CRLF))).m_CurrentPos
      = (statusPrefix d1 d2 code ++ (r ++ CRLF)).length % 2 ^ 32 := by
    rw [run_pos _ _ fresh_WF, fresh_pos_add]
  have hp2 : (run (run {} (statusPrefix d1 d2 code ++ (r ++ CRLF)))
      (N1 ++ 58 :: V1 ++ CRLF)).m_CurrentPos
      = (statusPrefix d1 d2 code ++ (r ++ CRLF) ++ (N1 ++ 58 :: V1 ++ CRLF)).length
        % 2 ^ 32 := by
    rw [← run_append, run_pos _ _ fresh_WF, fresh_pos_add]
  have hL1 : (N1 ++ 58 :: V1 ++ CRLF).length = N1.length + 1 + V1.length + 2 := by
    simp [CRLF]
    omega
  have hT : (N2 ++ 58 :: W ++ c :: U).length = N2.length + 1 + W.length + 1 + U.length := by
    simp
    omega
  rw [List.length_append, List.length_append, hL1, hT] at hlen
  rw [hp2, List.length_append, hL1, Nat.mod_eq_of_lt (by omega), Nat.mod_eq_of_lt (by omega)]
    at hb
  rw [l4, hp1, Nat.mod_eq_of_lt (by omega), Nat.mod_eq_of_lt (by omega)] at he
  have hrun : run {} (statusPrefix d1 d2 code ++ (r ++ CRLF) ++ (N1 ++ 58 :: V1 ++ CRLF)
      ++ (N2 ++ 58 :: W ++ c :: U))
      = run (run (run {} (statusPrefix d1 d2 code ++ (r ++ CRLF))) (N1 ++ 58 :: V1 ++ CRLF))
        (N2 ++ 58 :: W ++ c :: U) := by
    rw [run_append _ (statusPrefix d1 d2 code ++ (r ++ CRLF) ++ (N1 ++ 58 :: V1 ++ CRLF))
      (N2 ++ 58 :: W ++ c :: U),
      run_append _ (statusPrefix d1 d2 code ++ (r ++ CRLF)) (N1 ++ 58 :: V1 ++ CRLF)]
  have hfrag : getFragment (run {} (statusPrefix d1 d2 code ++ (r ++ CRLF)
      ++ (N1 ++ 58 :: V1 ++ CRLF) ++ (N2 ++ 58 :: W ++ c :: U))) h
      = ((statusPrefix d1 d2 code ++ (r ++ CRLF) ++ (N1 ++ 58 :: V1 ++ CRLF)).length
          + (N2.length + 1 + W.length),
         (statusPrefix d1 d2 code ++ (r ++ CRLF)).length
          + (N1.length + 1 + ((V1.takeWhile (fun x => isWS x.val)).length + (trim V1).length))) := by
    rw [getFragment_eq, hrun, hb, he]
    simp only [List.length_append, hL1, Prod.mk.injEq]
  refine ⟨?_, ?_, hfrag, ?_⟩
  · rw [statuses_append (statusPrefix d1 d2 code ++ (r ++ CRLF) ++ (N1 ++ 58 :: V1 ++ CRLF))
        (N2 ++ 58 :: W ++ c :: U),
      statuses_append (statusPrefix d1 d2 code ++ (r ++ CRLF)) (N1 ++ 58 :: V1 ++ CRLF),
      AllZero_append, AllZero_append,
      run_append _ (statusPrefix d1 d2 code ++ (r ++ CRLF)) (N1 ++ 58 :: V1 ++ CRLF)]
    exact ⟨⟨s2, l2⟩, t2⟩
  · rw [isFragmentFound_eq, hrun, he]
    simp
  · rw [hfrag]
    show (statusPrefix d1 d2 code ++ (r ++ CRLF)).length
        + (N1.length + 1 + ((V1.takeWhile (fun x => isWS x.val)).length + (trim V1).length))
      < (statusPrefix d1 d2 code ++ (r ++ CRLF) ++ (N1 ++ 58 :: V1 ++ CRLF)).length
        + (N2.length + 1 + W.length)
    rw [List.length_append _ (N1 ++ 58 :: V1 ++ CRLF), hL1]
    omega

set_option maxRecDepth 100000 in
/-- C31 at the message with two `Location` lines cut inside the value of the second
one: the fragment is found, its begin offset is 40 and its end offset 28. -/
theorem C31_found_before_range_witness :
    AllZero (statuses {} (statusPrefix [49] [48] [50, 48, 48] ++ (bytes "OK" ++ CRLF)
        ++ (bytes "Location" ++ 58 :: bytes " a" ++ CRLF)
        ++ (bytes "Location" ++ 58 :: bytes " " ++ 98 :: bytes "c")))
      ∧ isFragmentFound (run {} (statusPrefix [49] [48] [50, 48, 48] ++ (bytes "OK" ++ CRLF)
          ++ (bytes "Location" ++ 58 :: bytes " a" ++ CRLF)
          ++ (bytes "Location" ++ 58 :: bytes " " ++ 98 :: bytes "c"))) LOCATION = true
      ∧ getFragment (run {} (statusPrefix [49] [48] [50, 48, 48] ++ (bytes "OK" ++ CRLF)
          ++ (bytes "Location" ++ 58 :: bytes " a" ++ CRLF)
          ++ (bytes "Location" ++ 58 :: bytes " " ++ 98 :: bytes "c"))) LOCATION = (40, 28) :=
  have h := C31_found_before_range LOCATION (by decide) [49] [48] [50, 48, 48] (bytes "OK")
    (bytes "Location") (bytes " a") (bytes "Location") (bytes " ") (bytes "c") 98
    (by decide) (by decide) (by decide) (by decide) (by decide) (by decide) (by decide)
    (by decide) (by decide) (by decide) (by decide) (by decide) (by decide) (by decide)
    (by decide) (by decide)
  ⟨h.1, h.2.1, h.2.2.1⟩

/-! ## The claims on feeding after a final status and on the counter -/

set_option maxRecDepth 4000 in
/-- C32 as stated fails when the counter wraps. The message with a major version of
`2^32 - 19` digits has `2^32 - 1` bytes and ends with SUCCESS, so `k = 2^32 - 1`. For
the message `HTTP/1.0 200 OK` fed next without a reset, a fresh parser records the
major version at the offsets 5 and 6; the parser that goes on records 4 and 5, which
is not the offset of the fresh parser plus `k`. -/
theorem C32_counterexample :
    (statuses {}
        (message (List.replicate (wrapLength - 14) 49) [48] [50, 48, 48] (bytes "OK") [])).getLast?
        = some SUCCESS
      ∧ count (run {}
          (message (List.replicate (wrapLength - 14) 49) [48] [50, 48, 48] (bytes "OK") []))
        = 2 ^ 32 - 1
      ∧ getFragment (run {} (bytes "HTTP/1.0 200 OK\r\n\r\n")) MAJOR_VERSION = (5, 6)
      ∧ getFragment
          (run (run {}
            (message (List.replicate (wrapLength - 14) 49) [48] [50, 48, 48] (bytes "OK") []))
            (bytes "HTTP/1.0 200 OK\r\n\r\n")) MAJOR_VERSION = (4, 5) := by
  have hw := wrapLength_eq
  have hd : isDigit (49 : Byte).val = true := by decide
  have hd2 : ∀ c ∈ ([48] : List Byte), isDigit c.val = true := by decide
  have hd3 : ∀ c ∈ ([50, 48, 48] : List Byte), isDigit c.val = true := by decide
  have h3 : ([50, 48, 48] : List Byte).length = 3 := rfl
  have hr : NoCRLF (bytes "OK") := by decide
  have hne : List.replicate (wrapLength - 14) (49 : Byte) ≠ [] := by
    intro h
    have := congrArg List.length h
    rw [List.length_replicate, hw] at this
    simp at this
  have hS := message_statuses (List.replicate (wrapLength - 14) 49) [48] [50, 48, 48]
    (bytes "OK") [] hne (replicate_digits _ 49 hd) (List.cons_ne_nil 48 []) hd2 h3 hd3 hr
    (by intro l hl; cases hl)
  have hM : message (List.replicate (wrapLength - 14) 49) [48] [50, 48, 48] (bytes "OK") []
      = (bytes "HTTP/" ++ List.replicate (wrapLength - 14) 49
          ++ ([46] ++ [48] ++ [32] ++ [50, 48, 48] ++ [32] ++ bytes "OK" ++ CRLF ++ [13]))
        ++ [10] := by
    simp [message, statusPrefix, joinLines, CRLF]
  have hlen : (message (List.replicate (wrapLength - 14) 49) [48] [50, 48, 48] (bytes "OK")
      []).length = 2 ^ 32 - 1 := by
    rw [hM]
    simp only [List.length_append, List.length_replicate, bytes_HTTP_length]
    rw [hw]
    rfl
  have hlast : (statuses {}
      (message (List.replicate (wrapLength - 14) 49) [48] [50, 48, 48] (bytes "OK") [])).getLast?
      = some SUCCESS := by
    rw [hS]
    simp
  have hpos : (run {}
      (message (List.replicate (wrapLength - 14) 49) [48] [50, 48, 48] (bytes "OK") [])).m_CurrentPos
      = 2 ^ 32 - 1 := by
    rw [run_pos _ _ fresh_WF, fresh_pos_add, hlen]
    norm_num
  have hst : (run {}
      (message (List.replicate (wrapLength - 14) 49) [48] [50, 48, 48] (bytes "OK") [])).m_CurrentState
      = 0 := by
    have hl := hlast
    rw [hM, last_status] at hl
    have hfin : (feed (run {} (bytes "HTTP/" ++ List.replicate (wrapLength - 14) 49
        ++ ([46] ++ [48] ++ [32] ++ [50, 48, 48] ++ [32] ++ bytes "OK" ++ CRLF ++ [13]))) 10).2
        ≠ 0 := by
      rw [Option.some.inj hl]
      decide
    rw [hM, run_append, run_cons, run_nil]
    exact (final_feed _ 10 hfin).1
  have hfresh : tagAt (run {} (bytes "HTTP/1.0 200 OK\r\n\r\n")) (tagBegin MAJOR_VERSION) = 5
      ∧ tagAt (run {} (bytes "HTTP/1.0 200 OK\r\n\r\n")) (tagEnd MAJOR_VERSION) = 6 := by
    rw [run_eq_sim]
    decide
  have hwr : (∃ e ∈ writes {} (bytes "HTTP/1.0 200 OK\r\n\r\n"), e.1 = tagBegin MAJOR_VERSION)
      ∧ ∃ e ∈ writes {} (bytes "HTTP/1.0 200 OK\r\n\r\n"), e.1 = tagEnd MAJOR_VERSION :=
    ⟨written_of_tag _ _ (by rw [hfresh.1]; decide), written_of_tag _ _ (by rw [hfresh.2]; decide)⟩
  obtain ⟨_, _, _, t1, _⟩ := past_final _ (run_WF _ _ fresh_WF) hst
    (bytes "HTTP/1.0 200 OK\r\n\r\n")
  refine ⟨hlast, ?_, ?_, ?_⟩
  · rw [count_eq]
    exact hpos
  · rw [getFragment_eq, hfresh.1, hfresh.2]
  · rw [getFragment_eq, t1 _ (by decide) hwr.1, t1 _ (by decide) hwr.2, hfresh.1, hfresh.2,
      hpos]
    norm_num

/-- C32, amended with the modulus of the 32-bit counter. A feed that returns a final
status leaves the parser in state 0, counts the byte and clears no tag. The bytes `M`
fed next without a reset get the statuses that a fresh parser returns for `M`, and
the same tags are written, each at the offset of the fresh parser plus `k` modulo
`2^32`, where `k` is `count()` after the final status; the offset is the fresh one
plus `k` when `k` plus the length of `M` is at most `2^32`. A slot that `M` does not
write keeps what it held. -/
theorem C32_feeding_past_final (Y : List Byte) (c : Byte) (M : List Byte)
    (hfin : (feed (run {} Y) c).2 ≠ IN_PROGRESS) :
    (run {} (Y ++ [c])).m_CurrentState = 0
      ∧ count (run {} (Y ++ [c])) = (count (run {} Y) + 1) % 2 ^ 32
      ∧ (∀ i, i ≠ DUMMY_TAG → tagAt (run {} (Y ++ [c])) i = tagAt (run {} Y) i)
      ∧ statuses (run {} (Y ++ [c])) M = statuses {} M
      ∧ writes (run {} (Y ++ [c])) M
        = (writes {} M).map (fun e => (e.1, (e.2 + count (run {} (Y ++ [c]))) % 2 ^ 32))
      ∧ (count (run {} (Y ++ [c])) + M.length ≤ 2 ^ 32 →
          writes (run {} (Y ++ [c])) M
            = (writes {} M).map (fun e => (e.1, e.2 + count (run {} (Y ++ [c])))))
      ∧ (∀ i, i < NUM_TAGS → (∃ e ∈ writes {} M, e.1 = i) →
          tagAt (run {} (Y ++ [c] ++ M)) i
            = (tagAt (run {} M) i + count (run {} (Y ++ [c]))) % 2 ^ 32)
      ∧ (∀ i, (∀ e ∈ writes {} M, e.1 ≠ i) →
          tagAt (run {} (Y ++ [c] ++ M)) i = tagAt (run {} (Y ++ [c])) i) := by
  have e : run {} (Y ++ [c]) = (feed (run {} Y) c).1 := by
    rw [run_append]
    rfl
  obtain ⟨f1, f2, f3⟩ := final_feed (run {} Y) c hfin
  have hWF : WF (run {} (Y ++ [c])) := run_WF _ _ fresh_WF
  have hs : (run {} (Y ++ [c])).m_CurrentState = 0 := by rw [e]; exact f1
  obtain ⟨p1, p2, p3, p4, p5⟩ := past_final _ hWF hs M
  refine ⟨hs, ?_, ?_, p1, p2, p3, ?_, ?_⟩
  · rw [e]
    exact f2
  · rw [e]
    exact f3
  · intro i hi hex
    rw [run_append _ (Y ++ [c]) M]
    exact p4 i hi hex
  · intro i hno
    rw [run_append _ (Y ++ [c]) M]
    exact p5 i hno

set_option maxRecDepth 100000 in
/-- C32 at a first message that ends with SUCCESS after 19 bytes, followed by a second
message: the statuses are those of a fresh parser and the status code is recorded 19
bytes later. -/
theorem C32_feeding_past_final_witness :
    (feed (run {} (bytes "HTTP/1.0 200 OK\r\n\r")) 10).2 ≠ IN_PROGRESS
      ∧ count (run {} (bytes "HTTP/1.0 200 OK\r\n\r" ++ [10])) = 19
      ∧ statuses (run {} (bytes "HTTP/1.0 200 OK\r\n\r" ++ [10]))
          (bytes "HTTP/1.1 404 Not Found\r\n\r\n")
        = statuses {} (bytes "HTTP/1.1 404 Not Found\r\n\r\n")
      ∧ tagAt (run {} (bytes "HTTP/1.0 200 OK\r\n\r" ++ [10]
          ++ bytes "HTTP/1.1 404 Not Found\r\n\r\n")) (tagBegin STATUS_CODE)
        = (tagAt (run {} (bytes "HTTP/1.1 404 Not Found\r\n\r\n")) (tagBegin STATUS_CODE)
            + count (run {} (bytes "HTTP/1.0 200 OK\r\n\r" ++ [10]))) % 2 ^ 32 :=
  have hfin : (feed (run {} (bytes "HTTP/1.0 200 OK\r\n\r")) 10).2 ≠ IN_PROGRESS := by
    rw [feed_snd, run_eq_sim]
    decide
  have h := C32_feeding_past_final (bytes "HTTP/1.0 200 OK\r\n\r") 10
    (bytes "HTTP/1.1 404 Not Found\r\n\r\n") hfin
  ⟨hfin, by rw [count_eq, run_eq_sim]; decide, h.2.2.2.1,
    h.2.2.2.2.2.2.1 (tagBegin STATUS_CODE) (by decide)
      (written_of_tag _ _ (by rw [run_eq_sim]; decide))⟩

/-- C33. The byte counter is a 32-bit unsigned integer: after the `n` bytes `X` fed to
a fresh or reset parser, whatever the statuses, `count()` is `n` modulo `2^32`; the
offsets written by the feeds are `0, 1, 2, ...` modulo `2^32`, and the feed number
`n + 1` stores `n` modulo `2^32` in the tag slot of its transition. -/
theorem C33_counter_modulo (p : Parser) (X : List Byte) (c : Byte) :
    count (run {} X) = X.length % 2 ^ 32
      ∧ count (run (reset p) X) = X.length % 2 ^ 32
      ∧ (writes {} X).map Prod.snd = (List.range X.length).map (fun n => n % 2 ^ 32)
      ∧ (writes {} (X ++ [c])).getLast?
          = some ((tbl (run {} X).m_CurrentState c.val).m_Tag, X.length % 2 ^ 32)
      ∧ tagAt (feed (run {} X) c).1 (tbl (run {} X).m_CurrentState c.val).m_Tag
          = X.length % 2 ^ 32 := by
  have h : count (run {} X) = X.length % 2 ^ 32 := by
    rw [count_eq, run_pos _ _ fresh_WF, fresh_pos_add]
  have hpos : (run {} X).m_CurrentPos = X.length % 2 ^ 32 := h
  refine ⟨h, h, ?_, ?_, ?_⟩
  · rw [writes_offsets X {} fresh_WF]
    apply List.map_congr_left
    intro i _
    exact fresh_pos_add i
  · rw [writes_append, writes_cons, writes_nil, List.getLast?_append, tbl_eq_lit, hpos]
    rfl
  · rw [tbl_eq_lit, feed_slot _ c (run_WF _ _ fresh_WF) (state_run X {} (by
      show (0 : Nat) < 85
      norm_num)), hpos]

/-! ## The claims on the vectors and on the grouping of arguments -/

/-- C34. For a vector of length `len` and a size `aSize`, both `size_t` values,
`skip(aSize)` consumes `m = min(len, aSize)` bytes: the length becomes `len - m`, the
base pointer advances by `m` and `aSize` becomes `aSize - m`. It returns true exactly
when `len <= aSize`, and then the new length is 0; otherwise the new `aSize` is 0. So
afterwards the length or `aSize` is 0, and the bytes removed plus the remaining
`aSize` make the original `aSize`. -/
theorem C34_skip (v : IOVec) (aSize : Nat) (hlen : v.iov_len < 2 ^ 64)
    (hsize : aSize < 2 ^ 64) :
    (v.skip aSize).2.1.iov_len = v.iov_len - min v.iov_len aSize
      ∧ (v.skip aSize).2.1.iov_base = v.iov_base + min v.iov_len aSize
      ∧ (v.skip aSize).2.2 = aSize - min v.iov_len aSize
      ∧ ((v.skip aSize).1 = true ↔ v.iov_len ≤ aSize)
      ∧ ((v.skip aSize).1 = true → (v.skip aSize).2.1.iov_len = 0)
      ∧ ((v.skip aSize).1 = false → (v.skip aSize).2.2 = 0)
      ∧ ((v.skip aSize).2.1.iov_len = 0 ∨ (v.skip aSize).2.2 = 0)
      ∧ (v.iov_len - (v.skip aSize).2.1.iov_len) + (v.skip aSize).2.2 = aSize := by
  by_cases h : v.iov_len ≤ aSize
  · have e : v.skip aSize
        = (true, { iov_base := v.iov_base + v.iov_len, iov_len := 0 }, aSize - v.iov_len) := by
      unfold IOVec.skip
      rw [if_pos h, sizeSub_eq aSize v.iov_len hsize h]
    rw [e, Nat.min_eq_left h]
    refine ⟨by simp, rfl, rfl, by simpa using h, fun _ => rfl, fun hf => by simp at hf,
      Or.inl rfl, ?_⟩
    show v.iov_len - 0 + (aSize - v.iov_len) = aSize
    omega
  · have h' : aSize ≤ v.iov_len := by omega
    have e : v.skip aSize
        = (false, { iov_base := v.iov_base + aSize, iov_len := v.iov_len - aSize }, 0) := by
      unfold IOVec.skip
      rw [if_neg h, sizeSub_eq v.iov_len aSize hlen h']
    rw [e, Nat.min_eq_right h']
    refine ⟨rfl, rfl, by simp, by simpa using h, fun hf => by simp at hf, fun _ => rfl,
      Or.inr rfl, ?_⟩
    show v.iov_len - (v.iov_len - aSize) + 0 = aSize
    omega

/-- C34 at a vector of 10 bytes at address 1000 with 4 bytes to skip: 6 bytes are
left at address 1004 and nothing remains to skip. -/
theorem C34_skip_witness :
    (10 : Nat) < 2 ^ 64 ∧ (4 : Nat) < 2 ^ 64
      ∧ ((IOVec.mk 1000 10).skip 4).2.1.iov_len = 10 - min 10 4
      ∧ ((IOVec.mk 1000 10).skip 4).2.1.iov_base = 1000 + min 10 4
      ∧ ((IOVec.mk 1000 10).skip 4).2.2 = 4 - min 10 4 :=
  have h := C34_skip (IOVec.mk 1000 10) 4 (by norm_num) (by norm_num)
  ⟨by norm_num, by norm_num, h.1, h.2.1, h.2.2.1⟩


/-- C35. For `aFrom <= aTo` and a vector of length `len`, all `size_t` values,
`take(aData, aFrom, aTo)` returns `t = min(aTo - aFrom, len)`, reduces the length to
`len - t`, advances the base pointer by `t` and `aFrom` by `t`; afterwards
`aFrom <= aTo` still holds, and `aFrom = aTo` or the vector is empty. The `t` bytes
from `aData + aFrom` on are copied to the old base address and no other byte
changes. -/
theorem C35_take (v : IOVec) (m : Memory) (aData aFrom aTo : Nat) (hle : aFrom ≤ aTo)
    (hto : aTo < 2 ^ 64) (hlen : v.iov_len < 2 ^ 64) :
    (v.take m aData aFrom aTo).1 = min (aTo - aFrom) v.iov_len
      ∧ (v.take m aData aFrom aTo).2.1.iov_len = v.iov_len - min (aTo - aFrom) v.iov_len
      ∧ (v.take m aData aFrom aTo).2.1.iov_base = v.iov_base + min (aTo - aFrom) v.iov_len
      ∧ (v.take m aData aFrom aTo).2.2.1 = aFrom + min (aTo - aFrom) v.iov_len
      ∧ (v.take m aData aFrom aTo).2.2.1 ≤ aTo
      ∧ ((v.take m aData aFrom aTo).2.2.1 = aTo
          ∨ (v.take m aData aFrom aTo).2.1.empty = true)
      ∧ (∀ i, i < min (aTo - aFrom) v.iov_len →
          (v.take m aData aFrom aTo).2.2.2 (v.iov_base + i) = m (aData + aFrom + i))
      ∧ (∀ a, a < v.iov_base ∨ v.iov_base + min (aTo - aFrom) v.iov_len ≤ a →
          (v.take m aData aFrom aTo).2.2.2 a = m a) := by
  have e : v.take m aData aFrom aTo
      = (min (aTo - aFrom) v.iov_len,
         { iov_base := v.iov_base + min (aTo - aFrom) v.iov_len
           iov_len := v.iov_len - min (aTo - aFrom) v.iov_len },
         aFrom + min (aTo - aFrom) v.iov_len,
         memcpy m v.iov_base (aData + aFrom) (min (aTo - aFrom) v.iov_len)) := by
    unfold IOVec.take
    simp only []
    rw [sizeSub_eq aTo aFrom hto hle, sizeSub_eq v.iov_len _ hlen (Nat.min_le_right _ _),
      sizeAdd_eq aFrom _ (by
        have := Nat.min_le_left (aTo - aFrom) v.iov_len
        omega)]
  rw [e]
  refine ⟨rfl, rfl, rfl, rfl, ?_, ?_, ?_, ?_⟩
  · show aFrom + min (aTo - aFrom) v.iov_len ≤ aTo
    have := Nat.min_le_left (aTo - aFrom) v.iov_len
    omega
  · show aFrom + min (aTo - aFrom) v.iov_len = aTo
      ∨ (0 == v.iov_len - min (aTo - aFrom) v.iov_len) = true
    by_cases h : aTo - aFrom ≤ v.iov_len
    · left
      rw [Nat.min_eq_left h]
      omega
    · right
      rw [Nat.min_eq_right (by omega), Nat.sub_self]
      rfl
  · intro i hi
    exact memcpy_inside m v.iov_base (aData + aFrom) _ i hi
  · intro a ha
    exact memcpy_outside m v.iov_base (aData + aFrom) _ a ha

/-- C35 at a vector of 10 bytes at address 1000 that takes from a cache of which the
bytes 3 to 7 are left: 4 bytes are taken, 6 bytes are left at address 1004, and the
cache is used up. -/
theorem C35_take_witness :
    (3 : Nat) ≤ 7 ∧ (7 : Nat) < 2 ^ 64 ∧ (10 : Nat) < 2 ^ 64
      ∧ ((IOVec.mk 1000 10).take (fun _ => 0) 2000 3 7).1 = min (7 - 3) 10
      ∧ ((IOVec.mk 1000 10).take (fun _ => 0) 2000 3 7).2.1.iov_len = 10 - min (7 - 3) 10
      ∧ ((IOVec.mk 1000 10).take (fun _ => 0) 2000 3 7).2.2.1 ≤ 7 :=
  have h := C35_take (IOVec.mk 1000 10) (fun _ => 0) 2000 3 7 (by norm_num) (by norm_num)
    (by norm_num)
  ⟨by norm_num, by norm_num, by norm_num, h.1, h.2.1, h.2.2.2.2.1⟩

/-- C36. The call `makeArray<T>(a1, ..., an)` groups its arguments from left to right:
at each position it takes the next three arguments if at least three remain and `T`
is constructible from them, otherwise the next two if at least two remain and `T` is
constructible from them, otherwise one. The groups are consecutive, they have one to
three arguments, and joined in order they are the argument list; the result has one
element for each group, constructed from the arguments of that group. In the unit
test, `makeArray<D>(A1, A2, B2, A3, B3, C3, A4)` gives
`D(A1), D(A2, B2), D(A3, B3, C3), D(A4)`. -/
theorem C36_makeArray_groups {α τ : Type} (ctor : List α → Option τ) (aArgs : List α) :
    IndexGrouper ctor aArgs (List.range aArgs.length) []
        = some (greedyGroups ctor aArgs.length 0 aArgs)
      ∧ (greedyGroups ctor aArgs.length 0 aArgs).flatten = List.range aArgs.length
      ∧ (∀ g ∈ greedyGroups ctor aArgs.length 0 aArgs, 1 ≤ g.length ∧ g.length ≤ 3)
      ∧ ((greedyGroups ctor aArgs.length 0 aArgs).map
          (fun g => g.filterMap (fun i => aArgs.get? i))).flatten = aArgs
      ∧ makeArray ctor aArgs
        = ((greedyGroups ctor aArgs.length 0 aArgs).map
            (fun g => g.filterMap (fun i => aArgs.get? i))).mapM ctor
      ∧ (∀ r, makeArray ctor aArgs = some r →
          r.length = (greedyGroups ctor aArgs.length 0 aArgs).length)
      ∧ makeArray D.ctor
          [⟨.A, 1, true⟩, ⟨.A, 2, true⟩, ⟨.B, 2, true⟩, ⟨.A, 3, true⟩, ⟨.B, 3, true⟩,
            ⟨.C, 3, true⟩, ⟨.A, 4, true⟩]
        = some [{ a := 1 }, { a := 2, b := 2 }, { a := 3, b := 3, c := 3 }, { a := 4 }] := by
  have h1 : IndexGrouper ctor aArgs (List.range aArgs.length) []
      = some (greedyGroups ctor aArgs.length 0 aArgs) := by
    rw [List.range_eq_range']
    exact IndexGrouper_greedy ctor aArgs.length aArgs (le_refl _) 0 []
  have h2 : (greedyGroups ctor aArgs.length 0 aArgs).flatten = List.range aArgs.length := by
    rw [List.range_eq_range']
    exact greedyGroups_flatten ctor aArgs.length aArgs 0 (le_refl _)
  have hin : ∀ g ∈ greedyGroups ctor aArgs.length 0 aArgs, ∀ i ∈ g, i < aArgs.length := by
    intro g hg i hi
    have : i ∈ (greedyGroups ctor aArgs.length 0 aArgs).flatten :=
      List.mem_flatten.mpr ⟨g, hg, hi⟩
    rw [h2] at this
    exact List.mem_range.mp this
  have h5 : makeArray ctor aArgs
      = ((greedyGroups ctor aArgs.length 0 aArgs).map
          (fun g => g.filterMap (fun i => aArgs.get? i))).mapM ctor := by
    unfold makeArray
    rw [h1]
    show (greedyGroups ctor aArgs.length 0 aArgs).mapM
      (fun g => constructByIndexes ctor g aArgs) = _
    apply mapM_groups
    intro g hg
    unfold constructByIndexes
    rw [mapM_get aArgs g (hin g hg)]
    rfl
  refine ⟨h1, h2, greedyGroups_lengths ctor _ _ _, ?_, h5, ?_, by decide⟩
  · rw [filterMap_groups, h2, List.range_eq_range', select_range' aArgs _ 0 (by omega),
      List.drop_zero, List.take_length]
  · intro r hr
    rw [h5] at hr
    rw [mapM_length ctor _ r hr, List.length_map]

end HttpResponseParser
